import Mathlib

/-!
# lessgo dynamic route tree (`dynarouter.go`)

A shallow embedding of the route-tree manager.

* Go pointers `*DynaRouter` are addresses into an explicit heap; a pointer that
  may be nil is an `Option`.  The package-level variables `DefDynaRouter`,
  `dynaRouterMap` and `handlerFuncMap` are an address and two fields of the
  state.
* Slices are embedded twice.  In the namespace `Mem` a slice is a header
  (array, offset, length, capacity) over a numbered backing array: `append`
  writes in place when the capacity allows and allocates otherwise, and
  `Children[i] = node` and `sort.Strings` write the cells, so two slices can
  show the same cells.  Outside `Mem` a slice is the list of its elements;
  these are the states that a state with memory shows (`Mem.State.view`), and
  the operations on lists are the operations on memory as long as no two
  nodes have their `Children` in one backing array (`Mem.SetRouter_view`,
  `Mem.RootRouter_view`, `Mem.SubRouter_view`).
* Every recursive method carries a fuel argument that bounds the call depth;
  the Go code recurses over `Parent` and `Children` pointers and does not
  return on a cyclic structure, and the embedding then runs out of fuel.
* A nil dereference ends a call with `Outcome.panic` and the state reached.
* `utils.MakeMd5` and `utils.SnakeString` live in another package and are
  parameters (`Utils`); `path.Clean`, `path.Join` and `sort.Strings` of the Go
  standard library are written out on lists of characters.
* The HTTP verb constants and the error logger are declared in other files of
  the package; they are modelled from the specification and marked as such.
-/

namespace Lessgo

/-! ## Go standard library: `path.Clean`, `path.Join`, `sort.Strings` -/

/-- Go `strings.Split(s, sep)` for a one-byte separator. -/
def splitChar (sep : Char) : List Char → List (List Char)
  | [] => [[]]
  | c :: cs =>
    if c = sep then [] :: splitChar sep cs
    else match splitChar sep cs with
      | [] => [[c]]
      | w :: ws => (c :: w) :: ws

/-- The elements of a path: `strings.Split(s, "/")`. -/
def splitSlash (p : List Char) : List (List Char) := splitChar '/' p

/-- One element of the path processed by `path.Clean`; `st` is the output so
far, last element first.  Empty elements and `.` are dropped, `..` removes the
last ordinary element, is dropped at the root of a rooted path and is kept at
the front of a relative one. -/
def cleanStep (rooted : Bool) (st : List (List Char)) (e : List Char) : List (List Char) :=
  if e = [] then st
  else if e = ['.'] then st
  else if e = ['.', '.'] then
    match st with
    | [] => if rooted then st else e :: st
    | t :: rest => if t = ['.', '.'] then (if rooted then st else e :: st) else rest
  else e :: st

/-- Elements of the cleaned path, first element first. -/
def cleanElems (rooted : Bool) (p : List Char) : List (List Char) :=
  ((splitSlash p).foldl (cleanStep rooted) []).reverse

/-- Join elements with single slashes. -/
def slashJoin : List (List Char) → List Char
  | [] => []
  | [e] => e
  | e :: es => e ++ '/' :: slashJoin es

/-- Go `path.Clean`: the shortest path name equivalent to `p`. -/
def pathClean (p : String) : String :=
  match p.data with
  | [] => "."
  | c :: cs =>
    if c = '/' then ⟨'/' :: slashJoin (cleanElems true cs)⟩
    else match cleanElems false (c :: cs) with
      | [] => "."
      | es => ⟨slashJoin es⟩

/-- Go `strings.Join(elems, "/")`. -/
def joinSlash : List String → List Char
  | [] => []
  | [e] => e.data
  | e :: es => e.data ++ '/' :: joinSlash es

/-- Go `path.Join`: empty leading elements are ignored, the rest is joined with
slashes and cleaned; the result is empty when every element is empty. -/
def pathJoin : List String → String
  | [] => ""
  | e :: es => if e.data = [] then pathJoin es else pathClean ⟨joinSlash (e :: es)⟩

/-- Byte-wise lexicographic order of Go strings, `a <= b`. -/
def strLe : List Char → List Char → Bool
  | [], _ => true
  | _ :: _, [] => false
  | a :: as, b :: bs =>
    if a.toNat < b.toNat then true
    else if b.toNat < a.toNat then false
    else strLe as bs

/-- Insert into an ascending list of strings. -/
def insertStr (a : String) : List String → List String
  | [] => [a]
  | b :: bs => if strLe a.data b.data then a :: b :: bs else b :: insertStr a bs

/-- Go `sort.Strings`: ascending lexicographic order. -/
def sortStrings : List String → List String
  | [] => []
  | a :: as => insertStr a (sortStrings as)

/-- Go `strings.Join(elems, "")`. -/
def concatStrings : List String → String
  | [] => ""
  | e :: es => e ++ concatStrings es

/-- Go `strings.TrimSuffix`. -/
def trimSuffix (s suffix : List Char) : List Char :=
  if suffix.isSuffixOf s then s.take (s.length - suffix.length) else s

/-- The last element of `strings.Split(s, ".")`. -/
def lastDotPart (s : List Char) : List Char :=
  match (splitChar '.' s).getLast? with
  | some e => e
  | none => []

/-! ## Data model -/

/-- Address of a `DynaRouter` on the heap; a Go `*DynaRouter` that may be nil is
an `Option Ptr`. -/
abbrev Ptr := Nat

/-- A handler value, represented by the qualified name that
`handleWareUri` obtains from it by reflection. -/
structure HandlerFunc where
  name : String
deriving DecidableEq, Repr, Inhabited

/-- The reflection helper `handleWareUri`: the qualified name of the handler. -/
def handleWareUri (hw : HandlerFunc) : String := hw.name

/-- Modelled from the spec: the HTTP verb constants are declared in another
file of the package; the spec names the verbs and concatenates `"GET"` in its
example, so each constant is the verb itself. -/
def CONNECT : String := "CONNECT"
/-- Modelled from the spec: HTTP verb constant. -/
def DELETE : String := "DELETE"
/-- Modelled from the spec: HTTP verb constant. -/
def GET : String := "GET"
/-- Modelled from the spec: HTTP verb constant. -/
def HEAD : String := "HEAD"
/-- Modelled from the spec: HTTP verb constant. -/
def OPTIONS : String := "OPTIONS"
/-- Modelled from the spec: HTTP verb constant. -/
def PATCH : String := "PATCH"
/-- Modelled from the spec: HTTP verb constant. -/
def POST : String := "POST"
/-- Modelled from the spec: HTTP verb constant. -/
def PUT : String := "PUT"
/-- Modelled from the spec: HTTP verb constant. -/
def TRACE : String := "TRACE"

/-- Node kind `ROOT` (`iota` = 0). -/
def ROOT : Nat := 0
/-- Node kind `GROUP`. -/
def GROUP : Nat := 1
/-- Node kind `HANDLER`. -/
def HANDLER : Nat := 2

/-- Go `struct DynaRouter`; the field `Type` is called `Kind` here. -/
structure DynaRouter where
  Id : String := ""
  Url : String := ""
  Kind : Nat := 0
  Prefix : String := ""
  Name : String := ""
  Description : String := ""
  Methods : List String := []
  Param : String := ""
  Handler : String := ""
  Middlewares : List String := []
  ParentUrl : String := ""
  Parent : Option Ptr := none
  Children : List Ptr := []
  Enable : Bool := false
deriving DecidableEq, Repr, Inhabited

/-- The two functions of package `utils` that the file calls. -/
structure Utils where
  MakeMd5 : String → String
  SnakeString : String → String

/-- Package-level state: the heap of nodes, the next free address, the two
global maps and the lines written to the error logger. -/
structure State where
  heap : Ptr → DynaRouter
  next : Ptr
  dynaRouterMap : String → Option Ptr
  handlerFuncMap : String → Option HandlerFunc
  errorLog : List String

/-- Result of a call that can dereference a nil pointer: it returns, or it
halts with a nil dereference in the state reached, or the recursion does not
come back within the fuel. -/
inductive Outcome where
  | ok (s : State)
  | panic (s : State)
  | diverge

/-- Address of the global `DefDynaRouter`. -/
def DefDynaRouter : Ptr := 0

/-- The package state at start-up: `DefDynaRouter` and two empty maps. -/
def initState : State where
  heap := fun p =>
    if p = DefDynaRouter then
      { Prefix := "/", Kind := ROOT, Middlewares := [], Children := [], Enable := true }
    else default
  next := 1
  dynaRouterMap := fun _ => none
  handlerFuncMap := fun _ => none
  errorLog := []

/-- Store `d` at address `p`. -/
def State.set (s : State) (p : Ptr) (d : DynaRouter) : State :=
  { s with heap := Function.update s.heap p d }

/-- Assignment `dynaRouterMap[id] = d`. -/
def State.register (s : State) (id : String) (d : Ptr) : State :=
  { s with dynaRouterMap := Function.update s.dynaRouterMap id (some d) }

/-! ## Operations -/

/-- Go `func DynaRouter.Tree`. -/
def Tree : Nat → State → Ptr → Option (List Ptr)
  | 0, _, _ => none
  | fuel + 1, s, d =>
    (s.heap d).Children.foldlM (fun rs node => (Tree fuel s node).map (rs ++ ·)) [d]

/-- Go `func DynaRouterTree`. -/
def DynaRouterTree (fuel : Nat) (s : State) : Option (List Ptr) :=
  Tree fuel s DefDynaRouter

/-- Go `func GetDynaRouter`: the node and the `ok` flag of the map lookup. -/
def GetDynaRouter (id : String) (s : State) : Option Ptr × Bool :=
  match s.dynaRouterMap id with
  | some d => (some d, true)
  | none => (none, false)

/-- Go `func DynaRouter.setUrl`. -/
def setUrl : Nat → Ptr → State → Option State
  | 0, _, _ => none
  | fuel + 1, d, s =>
    let u := pathJoin [(s.heap d).Prefix, (s.heap d).Param]
    let s := s.set d { s.heap d with ParentUrl := "" }
    match (s.heap d).Parent with
    | none => some (s.set d { s.heap d with Url := pathClean u })
    | some p =>
      match setUrl fuel p s with
      | none => none
      | some s =>
        let s := s.set d { s.heap d with ParentUrl := (s.heap p).Url }
        let u := pathJoin [(s.heap p).Url, u]
        some (s.set d { s.heap d with Url := pathClean u })

/-- Go `func DynaRouter.setId`. -/
def setId (u : Utils) (d : Ptr) (s : State) : State :=
  s.set d { s.heap d with Id := u.MakeMd5 ((s.heap d).Url ++ concatStrings (s.heap d).Methods) }

/-- Go `func DynaRouter.init`. -/
def init (u : Utils) : Nat → Ptr → State → Option State
  | 0, _, _ => none
  | fuel + 1, d, s =>
    match setUrl fuel d s with
    | none => none
    | some s =>
      let s := setId u d s
      match (s.heap d).Children.foldlM (fun s node => init u fuel node s) s with
      | none => none
      | some s => some (s.register (s.heap d).Id d)

/-- The loop of `SetRouter`: overwrite the first child whose `Id` is `id`;
`none` when the loop ends without a match. -/
def replaceChild (s : State) (id : String) (node : Ptr) : List Ptr → Option (List Ptr)
  | [] => none
  | child :: rest =>
    if (s.heap child).Id = id then some (node :: rest)
    else (replaceChild s id node rest).map (child :: ·)

/-- Go `func SetRouter` on lists: the children of the parent are the list that
its slice shows.  `Mem.SetRouter` is the function over backing arrays. -/
def SetRouter (u : Utils) (fuel : Nat) (parentId : String) (node : Ptr) (s : State) : Outcome :=
  let s := s.set node { s.heap node with Parent := s.dynaRouterMap parentId }
  match init u fuel node s with
  | none => .diverge
  | some s =>
    let s := s.register (s.heap node).Id node
    match (s.heap node).Parent with
    | none => .panic s
    | some p =>
      match replaceChild s (s.heap node).Id node (s.heap p).Children with
      | some cs => .ok (s.set p { s.heap p with Children := cs })
      | none => .ok (s.set p { s.heap p with Children := (s.heap p).Children ++ [node] })

/-- The loop of `DelRouter`: drop the first child whose `Id` is `nodeId`. -/
def removeChild (s : State) (nodeId : String) : List Ptr → List Ptr
  | [] => []
  | child :: rest =>
    if (s.heap child).Id = nodeId then rest else child :: removeChild s nodeId rest

/-- Go `func DelRouter` on lists; `Mem.DelRouter` is the function over backing
arrays, where the removal moves cells. -/
def DelRouter (nodeId : String) (s : State) : Outcome :=
  match s.dynaRouterMap nodeId with
  | none => .panic s
  | some d =>
    match (s.heap d).Parent with
    | none => .panic s
    | some parent =>
      let s := s.set parent
        { s.heap parent with Children := removeChild s nodeId (s.heap parent).Children }
      .ok { s with dynaRouterMap := Function.update s.dynaRouterMap nodeId none }

/-- The loop `for _, r := range node { r.Parent = p }`. -/
def setParents (p : Ptr) : List Ptr → State → State
  | [], s => s
  | r :: rs, s => setParents p rs (s.set r { s.heap r with Parent := some p })

/-- Go `func RootRouter` on lists; `Mem.RootRouter` is the function over backing
arrays. -/
def RootRouter (u : Utils) (fuel : Nat) (node : List Ptr) (s : State) : Option State :=
  let s := s.set DefDynaRouter
    { s.heap DefDynaRouter with Children := (s.heap DefDynaRouter).Children ++ node }
  let s := setParents DefDynaRouter node s
  init u fuel DefDynaRouter s

/-- Allocation `&DynaRouter{...}`: the new address and the new state. -/
def State.alloc (s : State) (d : DynaRouter) : Ptr × State :=
  (s.next, { s with heap := Function.update s.heap s.next d, next := s.next + 1 })

/-- Go `func SubRouter` on lists: the new node gets the elements of `node`.
`Mem.SubRouter` is the function over backing arrays, where it stores the
slice of the caller. -/
def SubRouter (pfx name description : String) (node : List Ptr) (s : State) : Ptr × State :=
  let (p, s) := s.alloc
    { Prefix := pathClean ("/" ++ pfx), Kind := GROUP, Name := name, Description := description,
      Middlewares := [], Children := node, Enable := true }
  (p, setParents p node s)

/-- Go `func DynaRouter.Use`. -/
def Use (d : Ptr) (middleware : List String) (s : State) : Ptr × State :=
  (d, s.set d { s.heap d with Middlewares := (s.heap d).Middlewares ++ middleware })

/-- Go `func DynaRouter.SetMiddlewares`. -/
def SetMiddlewares (d : Ptr) (middlewares : List String) (s : State) : State :=
  s.set d { s.heap d with Middlewares := middlewares }

/-- Go `func DynaRouter.SetEnable`. -/
def SetEnable : Nat → Ptr → Bool → State → Option (Ptr × State)
  | 0, _, _, _ => none
  | fuel + 1, d, enable, s =>
    let s := s.set d { s.heap d with Enable := enable }
    match (s.heap d).Children.foldlM (fun s child => (SetEnable fuel child enable s).map (·.2)) s with
    | none => none
    | some s => some (d, s)


/-- Go `func route` on lists: the new node gets the sorted methods.
`Mem.route` is the function over backing arrays, where `sort.Strings` sorts
the cells of the caller. -/
def route (u : Utils) (methods : List String) (name description : String)
    (handler : HandlerFunc) (param : List String) (s : State) : Ptr × State :=
  let methods := sortStrings methods
  let hUri := handleWareUri handler
  let s := { s with handlerFuncMap := Function.update s.handlerFuncMap hUri (some handler) }
  let param := if param.length = 0 then param ++ [""] else param
  let n := trimSuffix (lastDotPart hUri.data) "Handle".data
  let pfx := "/" ++ u.SnakeString ⟨n⟩
  s.alloc
    { Prefix := pfx, Kind := HANDLER, Name := name, Description := description,
      Methods := methods, Param := param.headD "", Handler := hUri, Middlewares := [],
      Enable := true }

/-- Go `func Get`. -/
def Get (u : Utils) (name description : String) (handler : HandlerFunc) (param : List String)
    (s : State) : Ptr × State :=
  route u [GET] name description handler param s

/-- Go `func Post`. -/
def Post (u : Utils) (name description : String) (handler : HandlerFunc) (param : List String)
    (s : State) : Ptr × State :=
  route u [POST] name description handler param s

/-- Go `func Any`. -/
def Any (u : Utils) (name description : String) (handler : HandlerFunc) (param : List String)
    (s : State) : Ptr × State :=
  route u [CONNECT, DELETE, GET, HEAD, OPTIONS, PATCH, POST, PUT, TRACE] name description
    handler param s

/-- Modelled from the spec: the logger behind `DefLessgo.logger.Error` is
declared in another file of the package.  The spec calls an empty method set
"reported" and "logged"; the call is taken to write its formatted line to the
log and to return, as the method name `Error` suggests. -/
def logError (line : String) (s : State) : State :=
  { s with errorLog := s.errorLog ++ [line] }

/-- Go `func Match`. -/
def Match (u : Utils) (methods : List String) (name description : String)
    (handler : HandlerFunc) (param : List String) (s : State) : Ptr × State :=
  let s :=
    if methods.length = 0 then logError ("The method can not be empty: " ++ name) s
    else s
  route u methods name description handler param s

/-! ## Specification vocabulary -/

/-- Heaps that list the same children at every address. -/
def SameChildren (s s' : State) : Prop := ∀ x, (s'.heap x).Children = (s.heap x).Children

/-- Concatenation of the traversals `t c` of the nodes `c` of a list, in order. -/
def forest (t : Ptr → Option (List Ptr)) : List Ptr → Option (List Ptr)
  | [] => some []
  | c :: cs =>
    match t c, forest t cs with
    | some a, some b => some (a ++ b)
    | _, _ => none

/-- The state in which `Enable` has been overwritten with `v` at every address
of `l` and nothing else has changed. -/
def enableAll (l : List Ptr) (v : Bool) (s : State) : State :=
  { s with heap := fun x => if x ∈ l then { s.heap x with Enable := v } else s.heap x }

/-- Relation `Reach s d x`: `x` is `d` or is reached from `d` through `Children`. -/
inductive Reach (s : State) : Ptr → Ptr → Prop
  | refl (d : Ptr) : Reach s d d
  | step {d c x : Ptr} : c ∈ (s.heap d).Children → Reach s c x → Reach s d x

/-- The fields of a node that `setUrl` and `setId` never write. -/
def DynaRouter.shape (d : DynaRouter) : DynaRouter :=
  { d with Id := "", Url := "", ParentUrl := "" }

/-- The node `n` with `ParentUrl` and `Url` overwritten. -/
def DynaRouter.resolved (n : DynaRouter) (parentUrl url : String) : DynaRouter :=
  { n with ParentUrl := parentUrl, Url := url }

/-- The node `n` with `Id` overwritten. -/
def DynaRouter.identified (n : DynaRouter) (id : String) : DynaRouter :=
  { n with Id := id }

/-- Relation `Frame s s'`: the two states differ at most in the fields `Url`, `ParentUrl`
and `Id` of their nodes and in `dynaRouterMap`. -/
def Frame (s s' : State) : Prop :=
  s'.next = s.next ∧ s'.handlerFuncMap = s.handlerFuncMap ∧ s'.errorLog = s.errorLog ∧
    ∀ x, (s'.heap x).shape = (s.heap x).shape

/-- The value that `setUrl` computes for `d`: the cleaned join of the resolved
`Url` of the parent, if there is one, with the join of `Prefix` and `Param`. -/
def resolve : Nat → State → Ptr → Option String
  | 0, _, _ => none
  | fuel + 1, s, d =>
    let u := pathJoin [(s.heap d).Prefix, (s.heap d).Param]
    match (s.heap d).Parent with
    | none => some (pathClean u)
    | some p => (resolve fuel s p).map (fun pu => pathClean (pathJoin [pu, u]))

/-- Relation `Settled u s x`: the `Url` of `x` is the value resolved along its parent
chain and its `Id` is the digest of that `Url` followed by its methods. -/
def Settled (u : Utils) (s : State) (x : Ptr) : Prop :=
  (∃ g, resolve g s x = some (s.heap x).Url) ∧
    (s.heap x).Id = u.MakeMd5 ((s.heap x).Url ++ concatStrings (s.heap x).Methods)

/-- Relation `Listed u s m`: looking up the `Id` of `m` finds a settled node with that `Id`. -/
def Listed (u : Utils) (s : State) (m : Ptr) : Prop :=
  ∃ r, s.dynaRouterMap (s.heap m).Id = some r ∧ (s.heap r).Id = (s.heap m).Id ∧ Settled u s r

/-- What a run of `init` over the nodes `l` guarantees between the state `s`
before and the state `s'` after: `touched` bounds the nodes whose `Id` may
change and that may be newly registered, `done` are the nodes that end
settled and listed. -/
structure InitPost (u : Utils) (touched done : List Ptr) (s s' : State) : Prop where
  frame : Frame s s'
  stable : ∀ x, Settled u s x →
    (s'.heap x).Url = (s.heap x).Url ∧ (s'.heap x).Id = (s.heap x).Id
  urlStable : ∀ x g, resolve g s x = some (s.heap x).Url → (s'.heap x).Url = (s.heap x).Url
  listed : ∀ m, Settled u s m → Listed u s m → Listed u s' m
  done : ∀ m ∈ done, Settled u s' m ∧ Listed u s' m
  idframe : ∀ x, x ∉ touched → (s'.heap x).Id = (s.heap x).Id
  mapframe : ∀ k r, s'.dynaRouterMap k = some r →
    s.dynaRouterMap k = some r ∨ (r ∈ touched ∧ (s'.heap r).Id = k ∧ Settled u s' r)
  mapmono : ∀ k, s.dynaRouterMap k ≠ none → s'.dynaRouterMap k ≠ none

/-- The first statement of `SetRouter`: `node.Parent = parent`. -/
def linked (s : State) (node : Ptr) (parent : Option Ptr) : State :=
  s.set node { s.heap node with Parent := parent }

/-- The statements of `RootRouter` before the call of `init`. -/
def rootLinked (node : List Ptr) (s : State) : State :=
  setParents DefDynaRouter node
    (s.set DefDynaRouter
      { s.heap DefDynaRouter with Children := (s.heap DefDynaRouter).Children ++ node })

/-- The children of the parent after the loop and the `append` of `SetRouter`. -/
def attachChild (s : State) (id : String) (node : Ptr) (cs : List Ptr) : List Ptr :=
  match replaceChild s id node cs with
  | some cs' => cs'
  | none => cs ++ [node]

/-- The state in which an outcome ends; the start-up state when the call does
not come back. -/
def Outcome.state : Outcome → State
  | .ok s => s
  | .panic s => s
  | .diverge => initState

/-- Whether the call returned. -/
def Outcome.isOk : Outcome → Bool
  | .ok _ => true
  | _ => false

/-- Relation `SameRes s s'`: the two states have the same map and their nodes agree on
every field that resolution reads or writes. -/
def SameRes (s s' : State) : Prop :=
  s'.dynaRouterMap = s.dynaRouterMap ∧
  ∀ x, (s'.heap x).Prefix = (s.heap x).Prefix ∧ (s'.heap x).Param = (s.heap x).Param ∧
    (s'.heap x).Parent = (s.heap x).Parent ∧ (s'.heap x).Methods = (s.heap x).Methods ∧
    (s'.heap x).Url = (s.heap x).Url ∧ (s'.heap x).Id = (s.heap x).Id

/-- The state in which `SetRouter` ends, from the state `s₁` in which its call
of `init` ends: the node is registered and put among the children of `p`. -/
def attached (s₁ : State) (n p : Ptr) : State :=
  (s₁.register (s₁.heap n).Id n).set p
    { s₁.heap p with Children := attachChild s₁ (s₁.heap n).Id n (s₁.heap p).Children }

/-- The node `n` with `Children` overwritten. -/
def DynaRouter.withChildren (n : DynaRouter) (cs : List Ptr) : DynaRouter :=
  { n with Children := cs }

/-- The state in which `DelRouter(id)` ends when the registered node has the
parent `p`. -/
def detached (s : State) (id : String) (p : Ptr) : State :=
  { s.set p ((s.heap p).withChildren (removeChild s id (s.heap p).Children)) with
    dynaRouterMap := Function.update s.dynaRouterMap id none }

/-- Relation `NoDotDot x`: no element of the path `x` is `..`. -/
def NoDotDot (x : String) : Prop := ['.', '.'] ∉ splitSlash x.data

instance (x : String) : Decidable (NoDotDot x) :=
  inferInstanceAs (Decidable (['.', '.'] ∉ splitSlash x.data))

/-- Whether an element survives cleaning when there is no `..`: it is neither
empty nor `.`. -/
def keepElem (e : List Char) : Bool := !(e == []) && !(e == ['.'])

/-- The elements of the path `x` that are neither empty nor `.`. -/
def pathElems (x : String) : List (List Char) := (splitSlash x.data).filter keepElem

/-- Whether the path begins with a slash. -/
def rooted (x : String) : Bool :=
  match x.data with
  | c :: _ => c == '/'
  | [] => false

/-- The cleaned path with the given elements. -/
def cleanForm (r : Bool) (es : List (List Char)) : String :=
  if r then ⟨'/' :: slashJoin es⟩
  else match es with
    | [] => "."
    | _ => ⟨slashJoin es⟩

/-- Elements as `path.Clean` leaves them when there is no `..`: not empty, not
`.`, not `..`, without a slash. -/
def GoodElems (es : List (List Char)) : Prop :=
  ∀ e ∈ es, keepElem e = true ∧ e ≠ ['.', '.'] ∧ '/' ∉ e

/-- Whether the first non-empty string of the list begins with a slash. -/
def firstRooted : List String → Bool
  | [] => false
  | x :: xs => if x.data = [] then firstRooted xs else rooted x

/-- The join of `Prefix` and `Param` that `setUrl` computes first. -/
def localUrl (s : State) (d : Ptr) : String :=
  pathJoin [(s.heap d).Prefix, (s.heap d).Param]

/-- The `Url` resolved down a path given from its first node to its last: the
cleaned local join of the first node, then for each further node the cleaned
join of the `Url` so far with the local join of the node. -/
def nestedUrl (s : State) : List Ptr → String
  | [] => ""
  | r :: rest =>
    rest.foldl (fun pu d => pathClean (pathJoin [pu, localUrl s d])) (pathClean (localUrl s r))

/-- The `Prefix` and `Param` of every node of a path, in order. -/
def pathSegs (s : State) (path : List Ptr) : List String :=
  path.flatMap (fun d => [(s.heap d).Prefix, (s.heap d).Param])

/-- The path-cleaned join of the `Prefix` and `Param` of every node of a path. -/
def flatUrl (s : State) (path : List Ptr) : String :=
  pathClean (pathJoin (pathSegs s path))

/-- Relation `TreePath s path n`: `path` leads from the root to `n` through `Children`,
and each node after the root has its predecessor on the path as `Parent`. -/
inductive TreePath (s : State) : List Ptr → Ptr → Prop
  | root : TreePath s [DefDynaRouter] DefDynaRouter
  | child {path : List Ptr} {m c : Ptr} : TreePath s path m → c ∈ (s.heap m).Children →
      (s.heap c).Parent = some m → TreePath s (path ++ [c]) c

/-- Relation `RootPath s path n`: `path` leads from the root to `n` through `Children`. -/
inductive RootPath (s : State) : List Ptr → Ptr → Prop
  | root : RootPath s [DefDynaRouter] DefDynaRouter
  | child {path : List Ptr} {m c : Ptr} : RootPath s path m → c ∈ (s.heap m).Children →
      RootPath s (path ++ [c]) c

/-- What every built state satisfies: the root keeps its literal fields, every
listed child is an allocated node whose `Parent` is the node that lists it,
and once something is registered every node at the end of a tree path has the
`Url` resolved down that path. -/
structure BuiltInv (s : State) : Prop where
  rootPrefix : (s.heap DefDynaRouter).Prefix = "/"
  rootParam : (s.heap DefDynaRouter).Param = ""
  rootParent : (s.heap DefDynaRouter).Parent = none
  nextPos : DefDynaRouter < s.next
  closed : ∀ x c, c ∈ (s.heap x).Children → c < s.next
  parentLinked : ∀ m c, m < s.next → c ∈ (s.heap m).Children → (s.heap c).Parent = some m
  resolved : (∃ k, s.dynaRouterMap k ≠ none) →
    ∀ path n, TreePath s path n → (s.heap n).Url = nestedUrl s path

/-- The state `a` with the children of every node replaced by `ch`. -/
def reChild (a : State) (ch : Ptr → List Ptr) : State :=
  { a with heap := fun x => { a.heap x with Children := ch x } }
/-! ## Example states -/

/-- A stand-in for package `utils` in the examples: both functions return
their argument, so the digest is injective. -/
def exUtils : Utils := ⟨fun s => s, fun s => s⟩

/-- One handler node: `Get("user", "", UserHandle, "/:id")` at address 1. -/
def exHandler : State :=
  (Get exUtils "user" "" ⟨"app.UserHandle"⟩ ["/:id"] initState).2

/-- The handler grouped: `SubRouter("/api", "api", "", h)` at address 2. -/
def exGroup : State := (SubRouter "/api" "api" "" [1] exHandler).2

/-- The same handler passed twice: `SubRouter("/api", "api", "", h, h)`. -/
def exTwice : State := (SubRouter "/api" "api" "" [1, 1] exHandler).2

/-- Two nodes built as struct literals with the same `Url` and the same two
methods, stored in different orders, at addresses 1 and 2. -/
def exOrder : State :=
  ((initState.alloc { Kind := HANDLER, Url := "/x", Methods := ["GET", "POST"] }).2.alloc
    { Kind := HANDLER, Url := "/x", Methods := ["POST", "GET"] }).2

/-- The example tree attached: `RootRouter(g)`, also the start-up state of the
later examples. -/
def exRooted : State := (RootRouter exUtils 6 [2] exGroup).getD initState

/-- A second handler, `Post("new", "", ItemHandle)`, at address 3, not attached. -/
def exSecond : State :=
  (Post exUtils "new" "" ⟨"app.ItemHandle"⟩ [] exRooted).2

/-- A third handler with the same handler function and method as the second,
at address 4, not attached. -/
def exThird : State :=
  (Post exUtils "new" "" ⟨"app.ItemHandle"⟩ [] exSecond).2

/-- The second handler attached under the group: `SetRouter(g.Id, second)`. -/
def exAttached₁ : State := (SetRouter exUtils 4 "/api" 3 exThird).state

/-- The third handler attached under the group after the second. -/
def exAttached₂ : State := (SetRouter exUtils 4 "/api" 4 exAttached₁).state

/-- A group built from two handlers with the same handler function, method and
parameter (addresses 1 and 2, group 3), attached to the root, and two more
such handlers (addresses 4 and 5) not yet attached. -/
def exPair : State :=
  let s := (Get exUtils "user" "" ⟨"app.UserHandle"⟩ [] initState).2
  let s := (Get exUtils "user" "" ⟨"app.UserHandle"⟩ [] s).2
  let s := (SubRouter "/api" "api" "" [1, 2] s).2
  let s := (RootRouter exUtils 6 [3] s).getD initState
  let s := (Get exUtils "user" "" ⟨"app.UserHandle"⟩ [] s).2
  (Get exUtils "user" "" ⟨"app.UserHandle"⟩ [] s).2

/-- The fourth node attached under the group of `exPair`. -/
def exPair₁ : State := (SetRouter exUtils 4 "/api" 4 exPair).state

/-- The fifth node attached under the group of `exPair` after the fourth. -/
def exPair₂ : State := (SetRouter exUtils 4 "/api" 5 exPair₁).state

/-- Two handler nodes with the same `Url` and different methods attached to
the root (`Get` at address 1, `Post` at address 2, both for `UserHandle`), and
a third handler at address 3 not yet attached. -/
def exParents : State :=
  let s := (Get exUtils "user" "" ⟨"app.UserHandle"⟩ [] initState).2
  let s := (Post exUtils "user" "" ⟨"app.UserHandle"⟩ [] s).2
  let s := (Get exUtils "item" "" ⟨"app.ItemHandle"⟩ [] s).2
  (RootRouter exUtils 6 [1, 2] s).getD initState

/-- A node at address 1 with the methods GET and POST, not yet attached, in a
state whose root is registered. -/
def exMethods : State :=
  let s := (Match exUtils ["GET", "POST"] "user" "" ⟨"app.UserHandle"⟩ [] initState).2
  (RootRouter exUtils 6 [] s).getD initState

/-- The assignment `n.Methods = methods`. -/
def setMethods (n : Ptr) (methods : List String) (s : State) : State :=
  s.set n { s.heap n with Methods := methods }

/-- The group of two handlers with the same id, attached to the root, before
any further node is built. -/
def exPairRooted : State :=
  let s := (Get exUtils "user" "" ⟨"app.UserHandle"⟩ [] initState).2
  let s := (Get exUtils "user" "" ⟨"app.UserHandle"⟩ [] s).2
  let s := (SubRouter "/api" "api" "" [1, 2] s).2
  (RootRouter exUtils 6 [3] s).getD initState

/-- A handler whose parameter climbs two levels, `Get("user", "", UserHandle,
"../..")`, grouped under `/api` and attached to the root. -/
def exDots : State :=
  let s := (Get exUtils "user" "" ⟨"app.UserHandle"⟩ ["../.."] initState).2
  let s := (SubRouter "/api" "api" "" [1] s).2
  (RootRouter exUtils 6 [2] s).getD initState

/-- Two handlers for one handler function built by `Match` with the methods
GET, POST and POST, GET (addresses 1 and 2), attached to the root. -/
def exSorted : State :=
  let s := (Match exUtils ["GET", "POST"] "user" "" ⟨"app.UserHandle"⟩ [] initState).2
  let s := (Match exUtils ["POST", "GET"] "user" "" ⟨"app.UserHandle"⟩ [] s).2
  (RootRouter exUtils 6 [1, 2] s).getD initState

/-! ## Vocabulary of the later claims -/

/-- The example scenario of the specification, from the start-up state:
`RootRouter(SubRouter("/api", gname, gdescription, Get(name, description,
handler, "/:id")))`.  The handler is allocated at address 1 and the group at
address 2. -/
def scenario (u : Utils) (fuel : Nat) (name description gname gdescription : String)
    (handler : HandlerFunc) : Option State :=
  let (h, s) := Get u name description handler ["/:id"] initState
  let (g, s) := SubRouter "/api" gname gdescription [h] s
  RootRouter u fuel [g] s

/-- The state of the example scenario in which `RootRouter` calls `init`. -/
def scenarioLinked (u : Utils) (name description gname gdescription : String)
    (handler : HandlerFunc) : State :=
  rootLinked [2] (SubRouter "/api" gname gdescription [1]
    (Get u name description handler ["/:id"] initState).2).2

/-- The node that `setUrl` stores at `x`: `ParentUrl` is the resolved `Url` of
the parent, empty without one, and `Url` the cleaned join of it with the
local join of `Prefix` and `Param`. -/
def canonNode (g : Nat) (s : State) (x : Ptr) : Option DynaRouter :=
  match (s.heap x).Parent with
  | none => some ((s.heap x).resolved "" (pathClean (localUrl s x)))
  | some p => (resolve g s p).map
      (fun pu => (s.heap x).resolved pu (pathClean (pathJoin [pu, localUrl s x])))

/-- Relation `ResolvedAt u g s x`: the node `x` is resolved.  Its `Url` is the value
resolved along its parent chain, which has at most `g` nodes; its `ParentUrl`
is the `Url` of its parent, empty without one; its `Id` is the digest of its
`Url` followed by its methods. -/
def ResolvedAt (u : Utils) (g : Nat) (s : State) (x : Ptr) : Prop :=
  resolve g s x = some (s.heap x).Url ∧
  (s.heap x).ParentUrl
    = (match (s.heap x).Parent with
      | none => ""
      | some p => (s.heap p).Url) ∧
  (s.heap x).Id = u.MakeMd5 ((s.heap x).Url ++ concatStrings (s.heap x).Methods)

instance (u : Utils) (g : Nat) (s : State) (x : Ptr) : Decidable (ResolvedAt u g s x) := by
  unfold ResolvedAt
  infer_instance


/-- The node at which the parent chain of `d` ends, when the chain has at most
`g` nodes. -/
def chainEnd : Nat → State → Ptr → Option Ptr
  | 0, _, _ => none
  | g + 1, s, d =>
    match (s.heap d).Parent with
    | none => some d
    | some p => chainEnd g s p

/-- Relation `Normal v`: the path `v` is a slash followed by elements joined with single
slashes, none of them empty, `.` or `..`. -/
def Normal (v : String) : Prop := ∃ es, GoodElems es ∧ v = cleanForm true es


/-- A handler attached directly to the root: `RootRouter(Get("user", "",
UserHandle))`, the handler at address 1. -/
def exFlat : State :=
  (RootRouter exUtils 4 [1] (Get exUtils "user" "" ⟨"app.UserHandle"⟩ [] initState).2).getD
    initState


/-- Two groups with the same prefix `/api` attached to the root, each with one
handler: `Get(UserHandle)` at address 1 in the group at 2, `Post(ItemHandle)`
at address 3 in the group at 4. -/
def exTwin : State :=
  let s := (Get exUtils "user" "" ⟨"app.UserHandle"⟩ [] initState).2
  let s := (SubRouter "/api" "api" "" [1] s).2
  let s := (Post exUtils "new" "" ⟨"app.ItemHandle"⟩ [] s).2
  let s := (SubRouter "/api" "api" "" [3] s).2
  (RootRouter exUtils 6 [2, 4] s).getD initState

/-- The group of two handlers with the same id after `DelRouter` of that id:
the first handler is gone from the group, the second is still a child, and
their common id is no longer a key. -/
def exPairDeleted : State := (DelRouter "/api/UserGET" exPairRooted).state


/-- What every grown state satisfies: once something is registered, every node
reachable from the root has the `Id` of its `Url` and methods and that `Id` is
a key; and every key maps to a node with that `Id` that is reachable from the
root. -/
structure Synced (u : Utils) (s : State) : Prop where
  settled : (∃ k, s.dynaRouterMap k ≠ none) → ∀ x, Reach s DefDynaRouter x →
    (s.heap x).Id = u.MakeMd5 ((s.heap x).Url ++ concatStrings (s.heap x).Methods) ∧
    s.dynaRouterMap (s.heap x).Id ≠ none
  keyed : ∀ k r, s.dynaRouterMap k = some r →
    (s.heap r).Id = k ∧ Reach s DefDynaRouter r

/-! ## Slices over backing arrays

The second embedding of the operations that store, hand over or write a
slice.  A slice is a header over a numbered backing array, so two slices can
show the same cells, as in Go. -/

namespace Mem

/-- A Go slice header: the backing array and the offset of the first element
in it (the pointer of the header), the length and the capacity. -/
structure Slice where
  arr : Nat := 0
  off : Nat := 0
  len : Nat := 0
  cap : Nat := 0
deriving DecidableEq, Repr, Inhabited

/-- The backing arrays of one element type, by number, and the next free
number.  Number 0 is the zero-size array of nil and empty slices. -/
structure Arrays (α : Type) where
  cells : Nat → List α
  next : Nat

/-- The elements that a slice shows. -/
def Slice.elems {α : Type} (sl : Slice) (m : Arrays α) : List α :=
  ((m.cells sl.arr).drop sl.off).take sl.len

/-- Relation `sl.Within m`: the slice lies within its backing array. -/
def Slice.Within {α : Type} (sl : Slice) (m : Arrays α) : Prop :=
  sl.len ≤ sl.cap ∧ sl.off + sl.cap ≤ (m.cells sl.arr).length

instance {α : Type} (sl : Slice) (m : Arrays α) : Decidable (sl.Within m) :=
  inferInstanceAs (Decidable (_ ∧ _))

/-- Relation `a.Apart b`: the two slices show no common cell. -/
def Slice.Apart (a b : Slice) : Prop :=
  a.arr ≠ b.arr ∨ a.len = 0 ∨ b.len = 0 ∨ a.off + a.len ≤ b.off ∨ b.off + b.len ≤ a.off

instance (a b : Slice) : Decidable (a.Apart b) :=
  inferInstanceAs (Decidable (_ ∨ _))

/-- Relation `a.Disjoint b`: the two slices have no common backing array; a
slice of capacity 0 has none. -/
def Slice.Disjoint (a b : Slice) : Prop :=
  a.arr ≠ b.arr ∨ a.cap = 0 ∨ b.cap = 0

instance (a b : Slice) : Decidable (a.Disjoint b) :=
  inferInstanceAs (Decidable (_ ∨ _))

/-- Assignment of the consecutive cells `arr[i], arr[i+1], ..` from `vs`. -/
def Arrays.write {α : Type} (m : Arrays α) (arr i : Nat) (vs : List α) : Arrays α :=
  let a := m.cells arr
  { m with cells := Function.update m.cells arr (a.take i ++ vs ++ a.drop (i + vs.length)) }

/-- Allocation of a new backing array with the given cells. -/
def Arrays.alloc {α : Type} (m : Arrays α) (content : List α) : Nat × Arrays α :=
  (m.next, { cells := Function.update m.cells m.next content, next := m.next + 1 })

/-- The part of the Go runtime that the language leaves open: the capacity
that `append` chooses when it has to allocate, from the old capacity and the
length needed. -/
structure Runtime where
  growCap : Nat → Nat → Nat

/-- Go `append(sl, vs...)`: when the capacity suffices the elements are written
behind the slice into its backing array; otherwise a new array is allocated
that holds the old elements, the new ones and zero values up to the new
capacity, which is at least the length needed. -/
def Arrays.append {α : Type} (rt : Runtime) (zero : α) (m : Arrays α) (sl : Slice)
    (vs : List α) : Slice × Arrays α :=
  if sl.len + vs.length ≤ sl.cap then
    ({ sl with len := sl.len + vs.length }, m.write sl.arr (sl.off + sl.len) vs)
  else
    let cap := max (sl.len + vs.length) (rt.growCap sl.cap (sl.len + vs.length))
    let (a, m) := m.alloc (sl.elems m ++ vs ++ List.replicate (cap - (sl.len + vs.length)) zero)
    ({ arr := a, off := 0, len := sl.len + vs.length, cap := cap }, m)

/-- The zero value of a cell of pointers.  Go's nil has no address here; the
cells between the length and the capacity of a grown array hold the address 0
until `append` fills them. -/
def nilPtr : Ptr := 0

/-- Go `struct DynaRouter` with its three slices as slice headers; the field
`Type` is called `Kind` here. -/
structure DynaRouter where
  Id : String := ""
  Url : String := ""
  Kind : Nat := 0
  Prefix : String := ""
  Name : String := ""
  Description : String := ""
  Methods : Slice := {}
  Param : String := ""
  Handler : String := ""
  Middlewares : Slice := {}
  ParentUrl : String := ""
  Parent : Option Ptr := none
  Children : Slice := {}
  Enable : Bool := false
deriving DecidableEq, Repr, Inhabited

/-- Package-level state with memory: the heap of nodes, the backing arrays of
the `[]*DynaRouter` and of the `[]string` slices, the two global maps and the
lines written to the error logger. -/
structure State where
  heap : Ptr → DynaRouter
  next : Ptr
  ptrs : Arrays Ptr
  strs : Arrays String
  dynaRouterMap : String → Option Ptr
  handlerFuncMap : String → Option HandlerFunc
  errorLog : List String

/-- Result of a call that can dereference a nil pointer. -/
inductive Outcome where
  | ok (c : State)
  | panic (c : State)
  | diverge

/-- The package state at start-up: `DefDynaRouter` with two empty slices, two
empty maps, and no backing array but the zero-size one. -/
def initState : State where
  heap := fun p =>
    if p = DefDynaRouter then
      { Prefix := "/", Kind := ROOT, Middlewares := {}, Children := {}, Enable := true }
    else default
  next := 1
  ptrs := { cells := fun _ => [], next := 1 }
  strs := { cells := fun _ => [], next := 1 }
  dynaRouterMap := fun _ => none
  handlerFuncMap := fun _ => none
  errorLog := []

/-- Store `d` at address `p`. -/
def State.set (c : State) (p : Ptr) (d : DynaRouter) : State :=
  { c with heap := Function.update c.heap p d }

/-- Assignment `dynaRouterMap[id] = d`. -/
def State.register (c : State) (id : String) (d : Ptr) : State :=
  { c with dynaRouterMap := Function.update c.dynaRouterMap id (some d) }

/-- Allocation `&DynaRouter{...}`: the new address and the new state. -/
def State.alloc (c : State) (d : DynaRouter) : Ptr × State :=
  (c.next, { c with heap := Function.update c.heap c.next d, next := c.next + 1 })

/-- The elements of `d.Children`. -/
def State.children (c : State) (d : Ptr) : List Ptr := (c.heap d).Children.elems c.ptrs

/-- The elements of `d.Methods`. -/
def State.methods (c : State) (d : Ptr) : List String := (c.heap d).Methods.elems c.strs

/-- A slice literal `[]*DynaRouter{...}`, also the slice that a call with the
nodes listed as arguments passes for `node ...*DynaRouter`: a new backing
array that holds exactly the elements. -/
def State.ptrLit (c : State) (vs : List Ptr) : Slice × State :=
  let (a, m) := c.ptrs.alloc vs
  ({ arr := a, off := 0, len := vs.length, cap := vs.length }, { c with ptrs := m })

/-- A slice literal `[]string{...}`, also the slice that a call with the
strings listed as arguments passes for `param ...string`. -/
def State.strLit (c : State) (vs : List String) : Slice × State :=
  let (a, m) := c.strs.alloc vs
  ({ arr := a, off := 0, len := vs.length, cap := vs.length }, { c with strs := m })

/-- Go `func DynaRouter.Tree`. -/
def Tree : Nat → State → Ptr → Option (List Ptr)
  | 0, _, _ => none
  | fuel + 1, c, d =>
    (c.children d).foldlM (fun rs node => (Tree fuel c node).map (rs ++ ·)) [d]

/-- Go `func DynaRouterTree`. -/
def DynaRouterTree (fuel : Nat) (c : State) : Option (List Ptr) :=
  Tree fuel c DefDynaRouter

/-- Go `func GetDynaRouter`. -/
def GetDynaRouter (id : String) (c : State) : Option Ptr × Bool :=
  match c.dynaRouterMap id with
  | some d => (some d, true)
  | none => (none, false)

/-- Go `func DynaRouter.setUrl`. -/
def setUrl : Nat → Ptr → State → Option State
  | 0, _, _ => none
  | fuel + 1, d, c =>
    let u := pathJoin [(c.heap d).Prefix, (c.heap d).Param]
    let c := c.set d { c.heap d with ParentUrl := "" }
    match (c.heap d).Parent with
    | none => some (c.set d { c.heap d with Url := pathClean u })
    | some p =>
      match setUrl fuel p c with
      | none => none
      | some c =>
        let c := c.set d { c.heap d with ParentUrl := (c.heap p).Url }
        let u := pathJoin [(c.heap p).Url, u]
        some (c.set d { c.heap d with Url := pathClean u })

/-- Go `func DynaRouter.setId`. -/
def setId (u : Utils) (d : Ptr) (c : State) : State :=
  c.set d { c.heap d with Id := u.MakeMd5 ((c.heap d).Url ++ concatStrings (c.methods d)) }

/-- Go `func DynaRouter.init`. -/
def init (u : Utils) : Nat → Ptr → State → Option State
  | 0, _, _ => none
  | fuel + 1, d, c =>
    match setUrl fuel d c with
    | none => none
    | some c =>
      let c := setId u d c
      match (c.children d).foldlM (fun c node => init u fuel node c) c with
      | none => none
      | some c => some (c.register (c.heap d).Id d)

/-- The loops of `SetRouter` and `DelRouter`: the index of the first child
whose `Id` is `id`; `none` when the loop ends without a match. -/
def findChild (c : State) (id : String) : List Ptr → Option Nat
  | [] => none
  | child :: rest =>
    if (c.heap child).Id = id then some 0 else (findChild c id rest).map (· + 1)

/-- The loop and the `append` of `SetRouter` for the parent `p`: a match is
overwritten in the backing array of `p.Children`; without a match the node is
appended to that slice. -/
def attach (rt : Runtime) (c : State) (node p : Ptr) : State :=
  match findChild c (c.heap node).Id (c.children p) with
  | some i =>
    let sl := (c.heap p).Children
    { c with ptrs := c.ptrs.write sl.arr (sl.off + i) [node] }
  | none =>
    let (sl, m) := c.ptrs.append rt nilPtr (c.heap p).Children [node]
    { c with ptrs := m }.set p { c.heap p with Children := sl }

/-- Go `func SetRouter`. -/
def SetRouter (rt : Runtime) (u : Utils) (fuel : Nat) (parentId : String) (node : Ptr)
    (c : State) : Outcome :=
  let c := c.set node { c.heap node with Parent := c.dynaRouterMap parentId }
  match init u fuel node c with
  | none => .diverge
  | some c =>
    let c := c.register (c.heap node).Id node
    match (c.heap node).Parent with
    | none => .panic c
    | some p => .ok (attach rt c node p)

/-- The loop of `DelRouter` for the parent `p`.  The statement at the match
appends the children behind it to the slice of the children before it,
`parent.Children[:i]`, which keeps the capacity, so the cells behind the match
move one place down in the backing array. -/
def detach (rt : Runtime) (c : State) (nodeId : String) (p : Ptr) : State :=
  match findChild c nodeId (c.children p) with
  | some i =>
    let (sl, m) := c.ptrs.append rt nilPtr { (c.heap p).Children with len := i }
      ((c.children p).drop (i + 1))
    { c with ptrs := m }.set p { c.heap p with Children := sl }
  | none => c

/-- Go `func DelRouter`. -/
def DelRouter (rt : Runtime) (nodeId : String) (c : State) : Outcome :=
  match c.dynaRouterMap nodeId with
  | none => .panic c
  | some d =>
    match (c.heap d).Parent with
    | none => .panic c
    | some parent =>
      let c := detach rt c nodeId parent
      .ok { c with dynaRouterMap := Function.update c.dynaRouterMap nodeId none }

/-- The loop `for _, r := range node { r.Parent = p }`. -/
def setParents (p : Ptr) : List Ptr → State → State
  | [], c => c
  | r :: rs, c => setParents p rs (c.set r { c.heap r with Parent := some p })

/-- The statements of `RootRouter` before the call of `init`: the append, and
the loop over `node` as the slice shows it after the append. -/
def rootLinked (rt : Runtime) (node : Slice) (c : State) : State :=
  let (sl, m) := c.ptrs.append rt nilPtr (c.heap DefDynaRouter).Children (node.elems c.ptrs)
  let c := { c with ptrs := m }.set DefDynaRouter { c.heap DefDynaRouter with Children := sl }
  setParents DefDynaRouter (node.elems c.ptrs) c

/-- Go `func RootRouter`; `node` is the slice of the variadic parameter. -/
def RootRouter (rt : Runtime) (u : Utils) (fuel : Nat) (node : Slice) (c : State) :
    Option State :=
  init u fuel DefDynaRouter (rootLinked rt node c)

/-- Go `func SubRouter`; `node` is the slice of the variadic parameter, which
the new node stores as it is. -/
def SubRouter (pfx name description : String) (node : Slice) (c : State) : Ptr × State :=
  let (p, c) := c.alloc
    { Prefix := pathClean ("/" ++ pfx), Kind := GROUP, Name := name, Description := description,
      Middlewares := {}, Children := node, Enable := true }
  (p, setParents p (node.elems c.ptrs) c)

/-- Go `func route`.  `sort.Strings` sorts the cells of `methods` in place and
the new node stores the slice as it is; `param` is the slice of the variadic
parameter, to which the empty string is appended when it is empty. -/
def route (rt : Runtime) (u : Utils) (methods : Slice) (name description : String)
    (handler : HandlerFunc) (param : Slice) (c : State) : Ptr × State :=
  let c :=
    { c with strs := c.strs.write methods.arr methods.off (sortStrings (methods.elems c.strs)) }
  let hUri := handleWareUri handler
  let c := { c with handlerFuncMap := Function.update c.handlerFuncMap hUri (some handler) }
  let (param, m) := if param.len = 0 then c.strs.append rt "" param [""] else (param, c.strs)
  let c := { c with strs := m }
  let n := trimSuffix (lastDotPart hUri.data) "Handle".data
  let pfx := "/" ++ u.SnakeString ⟨n⟩
  c.alloc
    { Prefix := pfx, Kind := HANDLER, Name := name, Description := description,
      Methods := methods, Param := (param.elems c.strs).headD "", Handler := hUri,
      Middlewares := {}, Enable := true }

/-- Go `func Get`. -/
def Get (rt : Runtime) (u : Utils) (name description : String) (handler : HandlerFunc)
    (param : Slice) (c : State) : Ptr × State :=
  let (methods, c) := c.strLit [GET]
  route rt u methods name description handler param c

/-- Go `func Post`. -/
def Post (rt : Runtime) (u : Utils) (name description : String) (handler : HandlerFunc)
    (param : Slice) (c : State) : Ptr × State :=
  let (methods, c) := c.strLit [POST]
  route rt u methods name description handler param c

/-- Go `func Any`. -/
def Any (rt : Runtime) (u : Utils) (name description : String) (handler : HandlerFunc)
    (param : Slice) (c : State) : Ptr × State :=
  let (methods, c) := c.strLit [CONNECT, DELETE, GET, HEAD, OPTIONS, PATCH, POST, PUT, TRACE]
  route rt u methods name description handler param c

/-- Modelled from the spec: the logger behind `DefLessgo.logger.Error`, as in
the embedding on lists. -/
def logError (line : String) (c : State) : State :=
  { c with errorLog := c.errorLog ++ [line] }

/-- Go `func Match`. -/
def Match (rt : Runtime) (u : Utils) (methods : Slice) (name description : String)
    (handler : HandlerFunc) (param : Slice) (c : State) : Ptr × State :=
  let c :=
    if methods.len = 0 then logError ("The method can not be empty: " ++ name) c
    else c
  route rt u methods name description handler param c

/-- The node with each slice replaced by the list of its elements. -/
def DynaRouter.view (n : DynaRouter) (c : State) : Lessgo.DynaRouter :=
  { Id := n.Id, Url := n.Url, Kind := n.Kind, Prefix := n.Prefix, Name := n.Name,
    Description := n.Description, Methods := n.Methods.elems c.strs, Param := n.Param,
    Handler := n.Handler, Middlewares := n.Middlewares.elems c.strs, ParentUrl := n.ParentUrl,
    Parent := n.Parent, Children := n.Children.elems c.ptrs, Enable := n.Enable }

/-- The state on lists that a state with memory shows: every slice is replaced
by the list of its elements. -/
def State.view (c : State) : Lessgo.State where
  heap := fun x => (c.heap x).view c
  next := c.next
  dynaRouterMap := c.dynaRouterMap
  handlerFuncMap := c.handlerFuncMap
  errorLog := c.errorLog

/-- The node `n` with every field that is not a slice taken from `m`. -/
def DynaRouter.withFields (n : DynaRouter) (m : Lessgo.DynaRouter) : DynaRouter :=
  { n with Id := m.Id, Url := m.Url, Kind := m.Kind, Prefix := m.Prefix, Name := m.Name,
           Description := m.Description, Param := m.Param, Handler := m.Handler,
           ParentUrl := m.ParentUrl, Parent := m.Parent, Enable := m.Enable }

/-- The state with the memory and the slice headers of `c` and everything else
from the state `a` on lists. -/
def State.lift (c : State) (a : Lessgo.State) : State :=
  { c with heap := fun x => (c.heap x).withFields (a.heap x), next := a.next,
           dynaRouterMap := a.dynaRouterMap, handlerFuncMap := a.handlerFuncMap,
           errorLog := a.errorLog }

/-- Relation `Mirrors c a`: the lists of `a` are the elements of the slices of `c`. -/
def Mirrors (c : State) (a : Lessgo.State) : Prop :=
  ∀ x, (a.heap x).Children = c.children x ∧ (a.heap x).Methods = c.methods x ∧
    (a.heap x).Middlewares = (c.heap x).Middlewares.elems c.strs

/-- The first statement of `SetRouter`: `node.Parent = parent`. -/
def linked (c : State) (node : Ptr) (parent : Option Ptr) : State :=
  c.set node { c.heap node with Parent := parent }

/-- Relation `SameBut c c'`: the two states differ at most in the backing
arrays of the node slices and in the `Children` headers of their nodes. -/
def SameBut (c c' : State) : Prop :=
  c'.next = c.next ∧ c'.strs = c.strs ∧ c'.dynaRouterMap = c.dynaRouterMap ∧
  c'.handlerFuncMap = c.handlerFuncMap ∧ c'.errorLog = c.errorLog ∧
  ∀ x, ∃ sl, c'.heap x = { c.heap x with Children := sl }

/-- Relation `Owned c`: every `Children` slice lies within an allocated backing
array, no two nodes have their `Children` in the same backing array, and the
nodes that are not allocated have none. -/
structure Owned (c : State) : Prop where
  within : ∀ x, (c.heap x).Children.Within c.ptrs
  bound : ∀ x, (c.heap x).Children.arr < c.ptrs.next
  own : ∀ x y, x ≠ y → (c.heap x).Children.Disjoint (c.heap y).Children
  unalloc : ∀ x, c.next ≤ x → (c.heap x).Children = {}

/-- The state after `p.Children = append(p.Children, vs...)`. -/
def appended (rt : Runtime) (c : State) (p : Ptr) (vs : List Ptr) : State :=
  { c with ptrs := (c.ptrs.append rt nilPtr (c.heap p).Children vs).2 }.set p
    { c.heap p with Children := (c.ptrs.append rt nilPtr (c.heap p).Children vs).1 }

/-- The trees that arise from the start-up state by the handler builders,
`SubRouter`, `RootRouter` and `SetRouter` with a registered parent, between
which the caller may allocate backing arrays for the slices it hands over.
The handler builders for one verb are `Match` on a slice literal.  A slice
handed to `SubRouter` or `RootRouter` lies within an allocated backing array;
the one handed to `SubRouter` has no backing array in common with the
`Children` of a node, the one handed to `RootRouter` none in common with the
`Children` of the root.  A node handed to an operation is an existing node
other than the root that no node lists as a child, except the node it is
attached to; an attach counts when it returns. -/
inductive Built (rt : Runtime) (u : Utils) : State → Prop
  | start : Built rt u initState
  | ptrArray {c : State} (content : List Ptr) :
      Built rt u c → Built rt u { c with ptrs := (c.ptrs.alloc content).2 }
  | strArray {c : State} (content : List String) :
      Built rt u c → Built rt u { c with strs := (c.strs.alloc content).2 }
  | handler {c : State} (methods : Slice) (name description : String)
      (handler : HandlerFunc) (param : Slice) :
      Built rt u c → Built rt u (Match rt u methods name description handler param c).2
  | sub {c : State} (pfx name description : String) (node : Slice) :
      Built rt u c → node.Within c.ptrs → node.arr < c.ptrs.next →
      (∀ x, x < c.next → (c.heap x).Children.Disjoint node) →
      (∀ n ∈ node.elems c.ptrs, n < c.next) → DefDynaRouter ∉ node.elems c.ptrs →
      (∀ n ∈ node.elems c.ptrs, ∀ x, x < c.next → n ∉ c.children x) →
      Built rt u (SubRouter pfx name description node c).2
  | root {c c' : State} (fuel : Nat) (node : Slice) :
      Built rt u c → node.Within c.ptrs → node.arr < c.ptrs.next →
      (c.heap DefDynaRouter).Children.Disjoint node →
      (∀ n ∈ node.elems c.ptrs, n < c.next) → DefDynaRouter ∉ node.elems c.ptrs →
      (∀ n ∈ node.elems c.ptrs, ∀ x, x < c.next → n ∈ c.children x → x = DefDynaRouter) →
      RootRouter rt u fuel node c = some c' → Built rt u c'
  | set {c c' : State} (fuel : Nat) (pid : String) (n p : Ptr) :
      Built rt u c → n < c.next → n ≠ DefDynaRouter →
      (∀ x, x < c.next → n ∈ c.children x → x = p) →
      c.dynaRouterMap pid = some p →
      SetRouter rt u fuel pid n c = .ok c' → Built rt u c'

/-- The built trees in which registry and tree stay in step.  The steps are
those of `Built` with two more conditions.  The slice of methods handed to
`Match` lies within an allocated backing array, and neither it nor the slice
of parameters has a backing array in common with the `Methods` of a node.  A
call of `SetRouter` appends its node, puts it in its own place, or puts it in
the place of a child without children: every child of the parent that the
parent lists no longer afterwards has no children. -/
inductive Grown (rt : Runtime) (u : Utils) : State → Prop
  | start : Grown rt u initState
  | ptrArray {c : State} (content : List Ptr) :
      Grown rt u c → Grown rt u { c with ptrs := (c.ptrs.alloc content).2 }
  | strArray {c : State} (content : List String) :
      Grown rt u c → Grown rt u { c with strs := (c.strs.alloc content).2 }
  | handler {c : State} (methods : Slice) (name description : String)
      (handler : HandlerFunc) (param : Slice) :
      Grown rt u c → methods.Within c.strs → methods.arr < c.strs.next →
      (∀ x, x < c.next →
        (c.heap x).Methods.Disjoint methods ∧ (c.heap x).Methods.Disjoint param) →
      Grown rt u (Match rt u methods name description handler param c).2
  | sub {c : State} (pfx name description : String) (node : Slice) :
      Grown rt u c → node.Within c.ptrs → node.arr < c.ptrs.next →
      (∀ x, x < c.next → (c.heap x).Children.Disjoint node) →
      (∀ n ∈ node.elems c.ptrs, n < c.next) → DefDynaRouter ∉ node.elems c.ptrs →
      (∀ n ∈ node.elems c.ptrs, ∀ x, x < c.next → n ∉ c.children x) →
      Grown rt u (SubRouter pfx name description node c).2
  | root {c c' : State} (fuel : Nat) (node : Slice) :
      Grown rt u c → node.Within c.ptrs → node.arr < c.ptrs.next →
      (c.heap DefDynaRouter).Children.Disjoint node →
      (∀ n ∈ node.elems c.ptrs, n < c.next) → DefDynaRouter ∉ node.elems c.ptrs →
      (∀ n ∈ node.elems c.ptrs, ∀ x, x < c.next → n ∈ c.children x → x = DefDynaRouter) →
      RootRouter rt u fuel node c = some c' → Grown rt u c'
  | set {c c' : State} (fuel : Nat) (pid : String) (n p : Ptr) :
      Grown rt u c → n < c.next → n ≠ DefDynaRouter →
      (∀ x, x < c.next → n ∈ c.children x → x = p) →
      c.dynaRouterMap pid = some p →
      SetRouter rt u fuel pid n c = .ok c' →
      (∀ x ∈ c.children p, x ∉ c'.children p → c.children x = []) → Grown rt u c'

/-- Relation `StrOwned c`: the `Methods` of every node have a length within
their capacity and lie in an allocated backing array. -/
structure StrOwned (c : State) : Prop where
  fits : ∀ x, (c.heap x).Methods.len ≤ (c.heap x).Methods.cap
  bound : ∀ x, (c.heap x).Methods.arr < c.strs.next

/-- What every built state satisfies besides `BuiltInv` of the lists it shows:
no two nodes share a backing array, and every registered node is allocated. -/
structure BuiltMem (c : State) : Prop where
  owned : Owned c
  inv : BuiltInv c.view
  regAlloc : ∀ k r, c.dynaRouterMap k = some r → r < c.next

/-- Relation `SameStrs c c'`: the step from `c` to `c'` writes neither the arrays of
strings nor the `Methods` header of a node. -/
def SameStrs (c c' : State) : Prop :=
  c'.strs = c.strs ∧ ∀ x, (c'.heap x).Methods = (c.heap x).Methods

/-- The state in which an outcome ends; the start-up state when the call does
not come back. -/
def Outcome.state : Outcome → State
  | .ok c => c
  | .panic c => c
  | .diverge => initState

/-- Whether the call returned. -/
def Outcome.isOk : Outcome → Bool
  | .ok _ => true
  | _ => false

/-- The outcome on lists that an outcome with memory shows. -/
def Outcome.view : Outcome → Lessgo.Outcome
  | .ok c => .ok c.view
  | .panic c => .panic c.view
  | .diverge => .diverge

/-- A runtime for the examples: `append` doubles the capacity. -/
def exRuntime : Runtime := ⟨fun cap _ => 2 * cap⟩

end Mem
/-! ## Example states with memory -/

namespace Mem

/-- One handler node, `Get("user", "", UserHandle, "/:id")` at address 1,
grouped: `SubRouter("/api", "api", "", h)` at address 2.  Each variadic
argument list is a new backing array. -/
def exGroup : State :=
  let (ps, c) := initState.strLit ["/:id"]
  let (h, c) := Get exRuntime exUtils "user" "" ⟨"app.UserHandle"⟩ ps c
  let (sl, c) := c.ptrLit [h]
  (SubRouter "/api" "api" "" sl c).2

/-- The slice of the call `RootRouter(g)` in the example: a new backing array
that holds the group, allocated in `exGroup`. -/
def exGroupArg : Slice × State := exGroup.ptrLit [2]

/-- The example tree attached: `RootRouter(g)`. -/
def exRooted : State :=
  (RootRouter exRuntime exUtils 6 exGroupArg.1 exGroupArg.2).getD initState

/-- A second handler, `Post("new", "", ItemHandle)`, at address 3, not attached. -/
def exSecond : State := (Post exRuntime exUtils "new" "" ⟨"app.ItemHandle"⟩ {} exRooted).2

/-- The second handler attached under the group: `SetRouter(g.Id, second)`. -/
def exAttached : State := (SetRouter exRuntime exUtils 4 "/api" 3 exSecond).state

/-- The assignment `cs[i] = v` that a caller makes to a cell of a backing
array it holds. -/
def State.store (c : State) (arr i : Nat) (v : Ptr) : State :=
  { c with ptrs := c.ptrs.write arr i [v] }

/-- A group built from two handlers with the same handler function, method and
parameter (addresses 1 and 2, group 3), attached to the root. -/
def exPairRooted : State :=
  let (h₁, c) := Get exRuntime exUtils "user" "" ⟨"app.UserHandle"⟩ {} initState
  let (h₂, c) := Get exRuntime exUtils "user" "" ⟨"app.UserHandle"⟩ {} c
  let (sl, c) := c.ptrLit [h₁, h₂]
  let (g, c) := SubRouter "/api" "api" "" sl c
  let (sl, c) := c.ptrLit [g]
  (RootRouter exRuntime exUtils 6 sl c).getD initState

/-- Two groups over one backing array.  The caller builds two handlers (1 and
2) and the array `cs = {h1, h2, h1}`, the group `z = SubRouter("/z", ..,
cs[1:2]...)` at address 3, stores it with `cs[2] = z`, builds the group
`p = SubRouter("/p", .., cs...)` at address 4 and attaches it to the root.  The
children of `z` are the second cell of the children of `p`. -/
def exOverlap : State :=
  let (h₁, c) := Get exRuntime exUtils "user" "" ⟨"app.UserHandle"⟩ {} initState
  let (h₂, c) := Get exRuntime exUtils "item" "" ⟨"app.ItemHandle"⟩ {} c
  let (cs, c) := c.ptrLit [h₁, h₂, h₁]
  let (z, c) := SubRouter "/z" "z" "" { cs with off := 1, len := 1, cap := 2 } c
  let c := c.store cs.arr 2 z
  let (p, c) := SubRouter "/p" "p" "" cs c
  let (sl, c) := c.ptrLit [p]
  (RootRouter exRuntime exUtils 8 sl c).getD initState

/-- Two handler nodes with the same `Url` and different methods attached to
the root (`Get` at address 1, `Post` at address 2, both for `UserHandle`), and
a third handler at address 3 not yet attached. -/
def exParents : State :=
  let (h₁, c) := Get exRuntime exUtils "user" "" ⟨"app.UserHandle"⟩ {} initState
  let (h₂, c) := Post exRuntime exUtils "user" "" ⟨"app.UserHandle"⟩ {} c
  let (_, c) := Get exRuntime exUtils "item" "" ⟨"app.ItemHandle"⟩ {} c
  let (sl, c) := c.ptrLit [h₁, h₂]
  (RootRouter exRuntime exUtils 6 sl c).getD initState

/-- The third handler of `exParents` attached under the first. -/
def exParents₁ : State := (SetRouter exRuntime exUtils 4 "/UserGET" 3 exParents).state

/-- The third handler of `exParents` attached under the second after that. -/
def exParents₂ : State := (SetRouter exRuntime exUtils 4 "/UserPOST" 3 exParents₁).state

/-- A node at address 1 with the methods GET and POST, built by `Match` from a
slice literal and not yet attached, in a state whose root is registered. -/
def exMethods : State :=
  let (ms, c) := initState.strLit ["GET", "POST"]
  let (_, c) := Match exRuntime exUtils ms "user" "" ⟨"app.UserHandle"⟩ {} c
  (RootRouter exRuntime exUtils 6 {} c).getD initState

/-- The assignment `n.Methods = []string{...}`. -/
def setMethods (n : Ptr) (methods : List String) (c : State) : State :=
  let (sl, c) := c.strLit methods
  c.set n { c.heap n with Methods := sl }

/-- The node of `exMethods` attached under the root. -/
def exMethods₁ : State := (SetRouter exRuntime exUtils 4 "/" 1 exMethods).state

/-- The node of `exMethods₁` with the single method GETPOST, attached again. -/
def exMethods₂ : State :=
  (SetRouter exRuntime exUtils 4 "/" 1 (setMethods 1 ["GETPOST"] exMethods₁)).state

/-- A handler whose parameter climbs two levels, `Get("user", "", UserHandle,
"../..")`, grouped under `/api` and attached to the root. -/
def exDots : State :=
  let (ps, c) := initState.strLit ["../.."]
  let (h, c) := Get exRuntime exUtils "user" "" ⟨"app.UserHandle"⟩ ps c
  let (sl, c) := c.ptrLit [h]
  let (g, c) := SubRouter "/api" "api" "" sl c
  let (sl, c) := c.ptrLit [g]
  (RootRouter exRuntime exUtils 6 sl c).getD initState

/-- One handler (address 1) handed to two groups, `SubRouter("/a", .., h)` at
address 2 and `SubRouter("/b", .., h)` at address 3, both attached to the
root.  The handler has the second group as its parent. -/
def exShared : State :=
  let (h, c) := Get exRuntime exUtils "user" "" ⟨"app.UserHandle"⟩ {} initState
  let (sl, c) := c.ptrLit [h]
  let (g₁, c) := SubRouter "/a" "a" "" sl c
  let (sl, c) := c.ptrLit [h]
  let (g₂, c) := SubRouter "/b" "b" "" sl c
  let (sl, c) := c.ptrLit [g₁, g₂]
  (RootRouter exRuntime exUtils 6 sl c).getD initState

/-- Two groups over one backing array.  The caller builds the handlers 1 and 2
and the slice `cs = {h1, h2}`, the groups `SubRouter("/a", .., cs[:1]...)` at
address 3 and `SubRouter("/b", .., cs[1:]...)` at address 4, and attaches both
to the root; a third handler is built at address 5.  The children of the first
group have the length 1 and the capacity 2, and the cell behind them is the
only child of the second group. -/
def exAliased : State :=
  let (h₁, c) := Get exRuntime exUtils "user" "" ⟨"app.UserHandle"⟩ {} initState
  let (h₂, c) := Post exRuntime exUtils "item" "" ⟨"app.ItemHandle"⟩ {} c
  let (cs, c) := c.ptrLit [h₁, h₂]
  let (g₃, c) := SubRouter "/a" "a" "" { cs with len := 1 } c
  let (g₄, c) := SubRouter "/b" "b" "" { cs with off := 1, len := 1, cap := 1 } c
  let (sl, c) := c.ptrLit [g₃, g₄]
  let c := (RootRouter exRuntime exUtils 6 sl c).getD initState
  (Get exRuntime exUtils "plain" "" ⟨"app.PlainHandle"⟩ {} c).2

/-- The third handler of `exAliased` attached under the first group:
`SetRouter(g3.Id, n)` appends in place and overwrites the child of the second
group. -/
def exAliased₁ : State := (SetRouter exRuntime exUtils 4 "/a" 5 exAliased).state

/-- A second group with the prefix `/api` and no children, at address 3, next
to the attached example tree: `SubRouter("/api", "v2", "")`. -/
def exEmptyGroup : State := (SubRouter "/api" "v2" "" {} exRooted).2

/-- The empty group attached under the root, `SetRouter(ROOT.Id, g)`: it has
the `Id` of the first group and takes its place. -/
def exReplaced : State := (SetRouter exRuntime exUtils 4 "/" 3 exEmptyGroup).state

/-- The handler attached under the group in `exAttached`, attached again under
the root: `SetRouter(ROOT.Id, second)`. -/
def exMoved : State := (SetRouter exRuntime exUtils 4 "/" 3 exAttached).state

/-- Two handlers over one backing array of methods.  The caller builds
`ms = {"POST", "PUT", "GET"}` and the handler `Match(ms[:2], .., UserHandle)`
at address 1 and attaches it to the root. -/
def exSorted₀ : State :=
  let (ms, c) := initState.strLit ["POST", "PUT", "GET"]
  let (h₁, c) := Match exRuntime exUtils { ms with len := 2 } "user" "" ⟨"app.UserHandle"⟩ {} c
  let (sl, c) := c.ptrLit [h₁]
  (RootRouter exRuntime exUtils 6 sl c).getD initState

/-- The second handler over the backing array of `exSorted₀`,
`Match(ms[1:], .., ItemHandle)` at address 2: sorting its methods rewrites the
second method of the first handler. -/
def exSorted₁ : State :=
  (Match exRuntime exUtils ⟨1, 1, 2, 2⟩ "item" "" ⟨"app.ItemHandle"⟩ {} exSorted₀).2

/-- The first handler of `exSorted₁` attached to the root again:
`SetRouter(ROOT.Id, h1)`. -/
def exSorted₂ : State := (SetRouter exRuntime exUtils 4 "/" 1 exSorted₁).state

/-- The root handed to a group, `SubRouter("/a", "a", "", ROOT)` at address 1,
followed by `RootRouter()`. -/
def exRootGrouped : State :=
  let (sl, c) := initState.ptrLit [DefDynaRouter]
  let (_, c) := SubRouter "/a" "a" "" sl c
  (RootRouter exRuntime exUtils 6 {} c).getD initState

/-- The root handed to a second group after that, `SubRouter("/b", "b", "",
ROOT)` at address 2, followed by `RootRouter()`. -/
def exRootGrouped₁ : State :=
  let (sl, c) := exRootGrouped.ptrLit [DefDynaRouter]
  let (_, c) := SubRouter "/b" "b" "" sl c
  (RootRouter exRuntime exUtils 6 {} c).getD initState

/-- The tree of `exOverlap` after `DelRouter` of the id of its first handler:
the cells of the children of `p` have moved down, and the group `z` at
address 3 shows itself as its child. -/
def exLooped : State := (DelRouter exRuntime "/p/UserGET" exOverlap).state

/-- The second handler of `exAttached` attached again under the group,
`SetRouter(g.Id, second)`: it is put in its own place. -/
def exReattached : State := (SetRouter exRuntime exUtils 4 "/api" 3 exAttached).state

/-- A third handler with the `Id` of the second, `Post("newer", "",
ItemHandle)` at address 4, not attached. -/
def exThird : State := (Post exRuntime exUtils "newer" "" ⟨"app.ItemHandle"⟩ {} exReattached).2

/-- The third handler attached under the group, `SetRouter(g.Id, third)`: it
is put in the place of the second, which has no children. -/
def exSwapped : State := (SetRouter exRuntime exUtils 4 "/api" 4 exThird).state

end Mem
/-! ## Traversal -/

theorem Tree_congr {s s' : State} (h : SameChildren s s') :
    ∀ (fuel : Nat) (d : Ptr), Tree fuel s' d = Tree fuel s d := by
  intro fuel
  induction fuel with
  | zero => intro d; rfl
  | succ f ih =>
    intro d
    simp only [Tree, h d]
    congr 1
    funext rs node
    rw [ih]

theorem Tree_loop (t : Ptr → Option (List Ptr)) :
    ∀ (cs : List Ptr) (rs : List Ptr),
      cs.foldlM (fun rs node => (t node).map (rs ++ ·)) rs
        = (forest t cs).map (rs ++ ·) := by
  intro cs
  induction cs with
  | nil => intro rs; simp [forest]
  | cons c cs ih =>
    intro rs
    simp only [List.foldlM_cons, forest]
    cases hc : t c with
    | none => simp
    | some lc =>
      simp only [Option.map_some', Option.some_bind, ih]
      cases forest t cs <;> simp

theorem Tree_succ (fuel : Nat) (s : State) (d : Ptr) :
    Tree (fuel + 1) s d = (forest (Tree fuel s) (s.heap d).Children).map (d :: ·) := by
  rw [Tree, Tree_loop]; rfl

theorem forest_cons_eq_some {t : Ptr → Option (List Ptr)} {c : Ptr} {cs l : List Ptr} :
    forest t (c :: cs) = some l ↔
      ∃ a b, t c = some a ∧ forest t cs = some b ∧ l = a ++ b := by
  simp only [forest]
  cases t c with
  | none => simp
  | some a =>
    cases forest t cs with
    | none => simp
    | some b => simp [eq_comm]

theorem Tree_succ_eq_some {fuel : Nat} {s : State} {d : Ptr} {l : List Ptr} :
    Tree (fuel + 1) s d = some l ↔
      ∃ lf, forest (Tree fuel s) (s.heap d).Children = some lf ∧ l = d :: lf := by
  rw [Tree_succ]
  cases forest (Tree fuel s) (s.heap d).Children <;> simp [eq_comm]

theorem forest_mono {t t' : Ptr → Option (List Ptr)}
    (h : ∀ c l, t c = some l → t' c = some l) :
    ∀ (cs : List Ptr) (l : List Ptr), forest t cs = some l → forest t' cs = some l := by
  intro cs
  induction cs with
  | nil => intro l hl; simpa [forest] using hl
  | cons c cs ih =>
    intro l hl
    obtain ⟨a, b, ha, hb, rfl⟩ := forest_cons_eq_some.mp hl
    exact forest_cons_eq_some.mpr ⟨a, b, h c a ha, ih b hb, rfl⟩

theorem Tree_mono : ∀ (fuel : Nat) (s : State) (d : Ptr) (l : List Ptr),
    Tree fuel s d = some l → Tree (fuel + 1) s d = some l := by
  intro fuel
  induction fuel with
  | zero => intro s d l h; simp [Tree] at h
  | succ f ih =>
    intro s d l h
    obtain ⟨lf, hlf, rfl⟩ := Tree_succ_eq_some.mp h
    exact Tree_succ_eq_some.mpr ⟨lf, forest_mono (fun c l hl => ih s c l hl) _ _ hlf, rfl⟩

theorem Tree_mono_le {fuel fuel' : Nat} (hle : fuel ≤ fuel') {s : State} {d : Ptr}
    {l : List Ptr} (h : Tree fuel s d = some l) : Tree fuel' s d = some l := by
  induction hle with
  | refl => exact h
  | step _ ih => exact Tree_mono _ _ _ _ ih

theorem mem_forest {t : Ptr → Option (List Ptr)} {x : Ptr} :
    ∀ {cs l : List Ptr}, forest t cs = some l →
      (x ∈ l ↔ ∃ c ∈ cs, ∃ lc, t c = some lc ∧ x ∈ lc) := by
  intro cs
  induction cs with
  | nil => intro l hl; simp [forest] at hl; subst hl; simp
  | cons c cs ih =>
    intro l hl
    obtain ⟨a, b, ha, hb, rfl⟩ := forest_cons_eq_some.mp hl
    simp only [List.mem_append, ih hb, List.mem_cons, exists_eq_or_imp, ha, Option.some.injEq,
      exists_eq_left']

theorem forest_defined {t : Ptr → Option (List Ptr)} :
    ∀ {cs l : List Ptr}, forest t cs = some l → ∀ c ∈ cs, ∃ lc, t c = some lc := by
  intro cs
  induction cs with
  | nil => intro l _ c hc; simp at hc
  | cons c cs ih =>
    intro l hl c' hc'
    obtain ⟨a, b, ha, hb, rfl⟩ := forest_cons_eq_some.mp hl
    rcases List.mem_cons.mp hc' with rfl | h
    · exact ⟨a, ha⟩
    · exact ih hb c' h

/-- A forest is defined when the traversal of each of its nodes is. -/
theorem forest_total {t : Ptr → Option (List Ptr)} :
    ∀ {cs : List Ptr}, (∀ c ∈ cs, ∃ lc, t c = some lc) → ∃ lf, forest t cs = some lf := by
  intro cs
  induction cs with
  | nil => exact fun _ => ⟨[], rfl⟩
  | cons c cs ih =>
    intro h
    obtain ⟨a, ha⟩ := h c (List.mem_cons_self _ _)
    obtain ⟨b, hb⟩ := ih (fun c' hc' => h c' (List.mem_cons_of_mem _ hc'))
    exact ⟨a ++ b, forest_cons_eq_some.mpr ⟨a, b, ha, hb, rfl⟩⟩

/-! ## Cascading enable -/

theorem enableAll_append (a b : List Ptr) (v : Bool) (s : State) :
    enableAll b v (enableAll a v s) = enableAll (a ++ b) v s := by
  simp only [enableAll, List.mem_append]
  congr 1
  funext x
  by_cases ha : x ∈ a <;> by_cases hb : x ∈ b <;> simp [ha, hb]

theorem sameChildren_enableAll (l : List Ptr) (v : Bool) (s : State) :
    SameChildren s (enableAll l v s) := by
  intro x
  simp only [enableAll]
  split <;> rfl

theorem set_enable_eq (d : Ptr) (v : Bool) (s : State) :
    s.set d { s.heap d with Enable := v } = enableAll [d] v s := by
  simp only [State.set, enableAll, List.mem_singleton]
  congr 1
  funext x
  by_cases h : x = d
  · subst h; simp
  · simp [h]

theorem SetEnable_eq (v : Bool) : ∀ (fuel : Nat) (s : State) (d : Ptr) (l : List Ptr),
    Tree fuel s d = some l → SetEnable fuel d v s = some (d, enableAll l v s) := by
  intro fuel
  induction fuel with
  | zero => intro s d l h; simp [Tree] at h
  | succ f ih =>
    intro s d l h
    obtain ⟨lf, hlf, rfl⟩ := Tree_succ_eq_some.mp h
    have loop : ∀ (cs rs lf : List Ptr), forest (Tree f s) cs = some lf →
        cs.foldlM (fun st child => (SetEnable f child v st).map (·.2)) (enableAll rs v s)
          = some (enableAll (rs ++ lf) v s) := by
      intro cs
      induction cs with
      | nil => intro rs lf h; simp [forest] at h; subst h; simp
      | cons c cs ihc =>
        intro rs lf h
        obtain ⟨a, b, ha, hb, rfl⟩ := forest_cons_eq_some.mp h
        have hc : Tree f (enableAll rs v s) c = some a := by
          rw [Tree_congr (sameChildren_enableAll rs v s)]; exact ha
        simp only [List.foldlM_cons, ih _ _ _ hc, Option.map_some', Option.bind_eq_bind,
          Option.some_bind, enableAll_append]
        rw [ihc _ _ hb, List.append_assoc]
    have hch : ((s.set d { s.heap d with Enable := v }).heap d).Children = (s.heap d).Children := by
      simp [State.set]
    simp only [SetEnable, hch]
    rw [set_enable_eq, loop _ _ _ hlf]
    rfl

/-! ## Traversal of a tree-shaped subtree -/

theorem mem_Tree_self {fuel : Nat} {s : State} {d : Ptr} {l : List Ptr}
    (h : Tree fuel s d = some l) : d ∈ l := by
  cases fuel with
  | zero => simp [Tree] at h
  | succ f =>
    obtain ⟨lf, _, rfl⟩ := Tree_succ_eq_some.mp h
    exact List.mem_cons_self _ _

theorem forest_part {t : Ptr → Option (List Ptr)} :
    ∀ {cs lf : List Ptr}, forest t cs = some lf → ∀ c ∈ cs, ∀ lc, t c = some lc →
      lc.length ≤ lf.length ∧ lc ⊆ lf := by
  intro cs
  induction cs with
  | nil => intro lf _ c hc; simp at hc
  | cons c cs ih =>
    intro lf hlf c' hc' lc hlc
    obtain ⟨a, b, ha, hb, rfl⟩ := forest_cons_eq_some.mp hlf
    rcases List.mem_cons.mp hc' with rfl | h
    · rw [ha] at hlc
      cases hlc
      exact ⟨by simp, List.subset_append_left _ _⟩
    · obtain ⟨h1, h2⟩ := ih hb c' h lc hlc
      exact ⟨by simp only [List.length_append]; omega,
        fun x hx => List.mem_append_right _ (h2 hx)⟩

theorem Tree_sub (s : State) : ∀ (fuel : Nat) (d : Ptr) (l : List Ptr),
    Tree fuel s d = some l → ∀ x ∈ l,
      ∃ lx, Tree fuel s x = some lx ∧ lx.length ≤ l.length ∧ lx ⊆ l := by
  intro fuel
  induction fuel with
  | zero => intro d l h; simp [Tree] at h
  | succ f ih =>
    intro d l h x hx
    obtain ⟨lf, hlf, rfl⟩ := Tree_succ_eq_some.mp h
    rcases List.mem_cons.mp hx with rfl | hx
    · exact ⟨_, h, le_refl _, fun _ hy => hy⟩
    · obtain ⟨c, hc, lc, hlc, hxc⟩ := (mem_forest hlf).mp hx
      obtain ⟨lx, hlx, hlen, hsub⟩ := ih c lc hlc x hxc
      obtain ⟨h1, h2⟩ := forest_part hlf c hc lc hlc
      refine ⟨lx, Tree_mono _ _ _ _ hlx, ?_, ?_⟩
      · simp only [List.length_cons]; omega
      · exact fun y hy => List.mem_cons_of_mem _ (h2 (hsub hy))

theorem Tree_acyclic {fuel : Nat} {s : State} {d c : Ptr} {l lc : List Ptr}
    (h : Tree (fuel + 1) s d = some l) (hc : c ∈ (s.heap d).Children)
    (hlc : Tree fuel s c = some lc) : d ∉ lc := by
  intro hd
  obtain ⟨lf, hlf, rfl⟩ := Tree_succ_eq_some.mp h
  obtain ⟨ld, hld, hlen, _⟩ := Tree_sub s fuel c lc hlc d hd
  have h' := Tree_mono _ _ _ _ hld
  rw [h] at h'
  cases h'
  have := (forest_part hlf c hc lc hlc).1
  simp only [List.length_cons] at hlen
  omega

theorem Tree_lister (s : State) {fuel : Nat} {d : Ptr} {l : List Ptr}
    (h : Tree fuel s d = some l) {x : Ptr} (hx : x ∈ l) :
    x = d ∨ ∃ m ∈ l, x ∈ (s.heap m).Children := by
  induction fuel generalizing d l with
  | zero => simp [Tree] at h
  | succ f ih =>
    obtain ⟨lf, hlf, rfl⟩ := Tree_succ_eq_some.mp h
    rcases List.mem_cons.mp hx with rfl | hx
    · exact Or.inl rfl
    · right
      obtain ⟨c, hc, lc, hlc, hxc⟩ := (mem_forest hlf).mp hx
      have hsub := (forest_part hlf c hc lc hlc).2
      rcases ih hlc hxc with rfl | ⟨m, hm, hxm⟩
      · exact ⟨d, List.mem_cons_self _ _, hc⟩
      · exact ⟨m, List.mem_cons_of_mem _ (hsub hm), hxm⟩

theorem Tree_nested (s : State) (L : List Ptr)
    (huniq : ∀ m₁ ∈ L, ∀ m₂ ∈ L, ∀ c, c ∈ (s.heap m₁).Children →
      c ∈ (s.heap m₂).Children → m₁ = m₂) :
    ∀ (fuel : Nat) (a : Ptr) (la : List Ptr), Tree fuel s a = some la → la ⊆ L →
      ∀ (g : Nat) (b : Ptr) (lb : List Ptr), Tree g s b = some lb → lb ⊆ L →
        ∀ x, x ∈ la → x ∈ lb → a ∈ lb ∨ b ∈ la := by
  intro fuel
  induction fuel with
  | zero => intro a la h; simp [Tree] at h
  | succ f ih =>
    intro a la h hla g b lb hb hlb x hxa hxb
    obtain ⟨lf, hlf, rfl⟩ := Tree_succ_eq_some.mp h
    rcases List.mem_cons.mp hxa with rfl | hxa
    · exact Or.inl hxb
    · obtain ⟨c, hc, lc, hlc, hxc⟩ := (mem_forest hlf).mp hxa
      have hsub := (forest_part hlf c hc lc hlc).2
      have hcl : lc ⊆ L := fun y hy => hla (List.mem_cons_of_mem _ (hsub hy))
      rcases ih c lc hlc hcl g b lb hb hlb x hxc hxb with hcb | hbc
      · rcases Tree_lister s hb hcb with rfl | ⟨m, hm, hcm⟩
        · exact Or.inr (List.mem_cons_of_mem _ (hsub (mem_Tree_self hlc)))
        · have : a = m := huniq a (hla (List.mem_cons_self _ _)) m (hlb hm) c hc hcm
          subst this
          exact Or.inl hm
      · exact Or.inr (List.mem_cons_of_mem _ (hsub hbc))

theorem forest_nodup {t : Ptr → Option (List Ptr)} :
    ∀ {cs lf : List Ptr}, forest t cs = some lf → cs.Nodup →
      (∀ c ∈ cs, ∀ lc, t c = some lc → lc.Nodup) →
      (∀ c ∈ cs, ∀ c' ∈ cs, c ≠ c' → ∀ lc lc', t c = some lc → t c' = some lc' →
        List.Disjoint lc lc') →
      lf.Nodup := by
  intro cs
  induction cs with
  | nil => intro lf h _ _ _; simp [forest] at h; subst h; exact List.nodup_nil
  | cons c cs ih =>
    intro lf h hnd hall hdisj
    obtain ⟨a, b, ha, hb, rfl⟩ := forest_cons_eq_some.mp h
    obtain ⟨hc, hcs⟩ := List.nodup_cons.mp hnd
    refine List.nodup_append.mpr ⟨hall c (List.mem_cons_self _ _) a ha, ?_, ?_⟩
    · exact ih hb hcs (fun c' hc' => hall c' (List.mem_cons_of_mem _ hc'))
        (fun c₁ h₁ c₂ h₂ => hdisj c₁ (List.mem_cons_of_mem _ h₁) c₂ (List.mem_cons_of_mem _ h₂))
    · intro x hxa hxb
      obtain ⟨c', hc', lc', hlc', hx'⟩ := (mem_forest hb).mp hxb
      have hne : c ≠ c' := fun e => hc (e ▸ hc')
      exact hdisj c (List.mem_cons_self _ _) c' (List.mem_cons_of_mem _ hc') hne a lc' ha hlc'
        hxa hx'

theorem Tree_nodup (s : State) (L : List Ptr)
    (hnd : ∀ m ∈ L, (s.heap m).Children.Nodup)
    (huniq : ∀ m₁ ∈ L, ∀ m₂ ∈ L, ∀ c, c ∈ (s.heap m₁).Children →
      c ∈ (s.heap m₂).Children → m₁ = m₂) :
    ∀ (fuel : Nat) (d : Ptr) (l : List Ptr), Tree fuel s d = some l → l ⊆ L → l.Nodup := by
  intro fuel
  induction fuel with
  | zero => intro d l h; simp [Tree] at h
  | succ f ih =>
    intro d l h hl
    obtain ⟨lf, hlf, rfl⟩ := Tree_succ_eq_some.mp h
    have hdL : d ∈ L := hl (List.mem_cons_self _ _)
    have hsubL : ∀ c ∈ (s.heap d).Children, ∀ lc, Tree f s c = some lc → lc ⊆ L :=
      fun c hc lc hlc y hy => hl (List.mem_cons_of_mem _ ((forest_part hlf c hc lc hlc).2 hy))
    -- a child never lies in the traversal of a different child
    have hkey : ∀ c ∈ (s.heap d).Children, ∀ c' ∈ (s.heap d).Children, c ≠ c' →
        ∀ lc', Tree f s c' = some lc' → c ∉ lc' := by
      intro c hc c' hc' hne lc' hlc' hmem
      rcases Tree_lister s hlc' hmem with e | ⟨m, hm, hcm⟩
      · exact hne e
      · have : d = m := huniq d hdL m (hsubL c' hc' lc' hlc' hm) c hc hcm
        subst this
        exact Tree_acyclic h hc' hlc' hm
    refine List.nodup_cons.mpr ⟨?_, ?_⟩
    · intro hd
      obtain ⟨c, hc, lc, hlc, hdc⟩ := (mem_forest hlf).mp hd
      exact Tree_acyclic h hc hlc hdc
    · refine forest_nodup hlf (hnd d hdL) (fun c hc lc hlc => ih c lc hlc (hsubL c hc lc hlc)) ?_
      intro c hc c' hc' hne lc lc' hlc hlc' x hx hx'
      rcases Tree_nested s L huniq f c lc hlc (hsubL c hc lc hlc) f c' lc' hlc'
          (hsubL c' hc' lc' hlc') x hx hx' with h1 | h1
      · exact hkey c hc c' hc' hne lc' hlc' h1
      · exact hkey c' hc' c hc (Ne.symm hne) lc hlc h1

theorem reach_of_mem_Tree (s : State) : ∀ (fuel : Nat) (d : Ptr) (l : List Ptr),
    Tree fuel s d = some l → ∀ x ∈ l, Reach s d x := by
  intro fuel
  induction fuel with
  | zero => intro d l h; simp [Tree] at h
  | succ f ih =>
    intro d l h x hx
    obtain ⟨lf, hlf, rfl⟩ := Tree_succ_eq_some.mp h
    rcases List.mem_cons.mp hx with rfl | hx
    · exact Reach.refl _
    · obtain ⟨c, hc, lc, hlc, hxc⟩ := (mem_forest hlf).mp hx
      exact Reach.step hc (ih c lc hlc x hxc)

theorem mem_Tree_of_reach (s : State) {d x : Ptr} (hr : Reach s d x) :
    ∀ (fuel : Nat) (l : List Ptr), Tree fuel s d = some l → x ∈ l := by
  induction hr with
  | refl d => intro fuel l h; exact mem_Tree_self h
  | @step d c x hc _ ih =>
    intro fuel l h
    cases fuel with
    | zero => simp [Tree] at h
    | succ f =>
      obtain ⟨lf, hlf, rfl⟩ := Tree_succ_eq_some.mp h
      obtain ⟨lc, hlc⟩ := forest_defined hlf c hc
      exact List.mem_cons_of_mem _ ((forest_part hlf c hc lc hlc).2 (ih f lc hlc))

/-- A node whose descendants all have smaller rank has a traversal, with any
fuel above its rank. -/
theorem Tree_ranked (s : State) (L : List Ptr) (rank : Ptr → Nat)
    (hdown : ∀ x ∈ L, ∀ c ∈ (s.heap x).Children, c ∈ L ∧ rank c < rank x) :
    ∀ (n : Nat) (d : Ptr), d ∈ L → rank d ≤ n → ∃ l, Tree (n + 1) s d = some l := by
  intro n
  induction n with
  | zero =>
    intro d hd hr
    have hnil : (s.heap d).Children = [] := by
      cases hc : (s.heap d).Children with
      | nil => rfl
      | cons c cs =>
        have := (hdown d hd c (by rw [hc]; exact List.mem_cons_self _ _)).2
        omega
    exact ⟨[d], Tree_succ_eq_some.mpr ⟨[], by rw [hnil]; rfl, rfl⟩⟩
  | succ n ih =>
    intro d hd hr
    have hall : ∀ c ∈ (s.heap d).Children, ∃ lc, Tree (n + 1) s c = some lc := by
      intro c hc
      obtain ⟨hcL, hlt⟩ := hdown d hd c hc
      exact ih c hcL (by omega)
    obtain ⟨lf, hlf⟩ := forest_total hall
    exact ⟨d :: lf, Tree_succ_eq_some.mpr ⟨lf, hlf, rfl⟩⟩

/-- A node that lists itself has no traversal. -/
theorem Tree_self_loop {s : State} {x : Ptr} (h : x ∈ (s.heap x).Children) :
    ∀ fuel, Tree fuel s x = none := by
  intro fuel
  induction fuel with
  | zero => rfl
  | succ f ih =>
    cases ht : Tree (f + 1) s x with
    | none => rfl
    | some l =>
      obtain ⟨lf, hlf, _⟩ := Tree_succ_eq_some.mp ht
      obtain ⟨lc, hlc⟩ := forest_defined hlf x h
      rw [ih] at hlc
      cases hlc

/-- A node from which a node that lists itself is reachable has no traversal. -/
theorem Tree_reach_loop {s : State} {d x : Ptr} (hr : Reach s d x)
    (h : x ∈ (s.heap x).Children) : ∀ fuel, Tree fuel s d = none := by
  intro fuel
  cases ht : Tree fuel s d with
  | none => rfl
  | some l =>
    obtain ⟨lx, hlx, _⟩ := Tree_sub s fuel d l ht x (mem_Tree_of_reach s hr fuel l ht)
    rw [Tree_self_loop h] at hlx
    cases hlx
/-! ## Builders -/

theorem setParents_heap (p : Ptr) : ∀ (cs : List Ptr) (s : State) (x : Ptr),
    (setParents p cs s).heap x
      = if x ∈ cs then { s.heap x with Parent := some p } else s.heap x := by
  intro cs
  induction cs with
  | nil => intro s x; simp [setParents]
  | cons c cs ih =>
    intro s x
    simp only [setParents, ih, State.set, List.mem_cons]
    by_cases hxc : x = c
    · subst hxc
      by_cases hx : x ∈ cs <;> simp [hx]
    · by_cases hx : x ∈ cs <;> simp [hx, hxc]

theorem setParents_rest (p : Ptr) : ∀ (cs : List Ptr) (s : State),
    (setParents p cs s).next = s.next ∧
    (setParents p cs s).dynaRouterMap = s.dynaRouterMap ∧
    (setParents p cs s).handlerFuncMap = s.handlerFuncMap ∧
    (setParents p cs s).errorLog = s.errorLog := by
  intro cs
  induction cs with
  | nil => intro s; simp [setParents]
  | cons c cs ih =>
    intro s
    simp only [setParents]
    obtain ⟨h1, h2, h3, h4⟩ := ih (s.set c { s.heap c with Parent := some p })
    exact ⟨h1, h2, h3, h4⟩

theorem strLe_refl : ∀ a : List Char, strLe a a = true := by
  intro a
  induction a with
  | nil => rfl
  | cons c cs ih => simp [strLe, ih]

theorem strLe_total : ∀ a b : List Char, strLe a b = true ∨ strLe b a = true := by
  intro a
  induction a with
  | nil => intro b; exact Or.inl rfl
  | cons c cs ih =>
    intro b
    cases b with
    | nil => exact Or.inr rfl
    | cons d ds =>
      simp only [strLe]
      by_cases h1 : c.toNat < d.toNat
      · simp [h1]
      · by_cases h2 : d.toNat < c.toNat
        · simp [h2]
        · simp only [h1, h2, if_false]
          exact ih ds

theorem strLe_trans : ∀ a b c : List Char,
    strLe a b = true → strLe b c = true → strLe a c = true := by
  intro a
  induction a with
  | nil => intro b c _ _; rfl
  | cons x xs ih =>
    intro b c hab hbc
    cases b with
    | nil => simp [strLe] at hab
    | cons y ys =>
      cases c with
      | nil => simp [strLe] at hbc
      | cons z zs =>
        simp only [strLe] at hab hbc ⊢
        by_cases hxy : x.toNat < y.toNat
        · by_cases hyz : y.toNat < z.toNat
          · have : x.toNat < z.toNat := by omega
            simp [this]
          · by_cases hzy : z.toNat < y.toNat
            · simp [hyz, hzy] at hbc
            · have : x.toNat < z.toNat := by omega
              simp [this]
        · by_cases hyx : y.toNat < x.toNat
          · simp [hxy, hyx] at hab
          · simp only [hxy, hyx, if_false] at hab
            by_cases hyz : y.toNat < z.toNat
            · have : x.toNat < z.toNat := by omega
              simp [this]
            · by_cases hzy : z.toNat < y.toNat
              · simp [hyz, hzy] at hbc
              · simp only [hyz, hzy, if_false] at hbc
                have h1 : ¬ x.toNat < z.toNat := by omega
                have h2 : ¬ z.toNat < x.toNat := by omega
                simp only [h1, h2, if_false]
                exact ih ys zs hab hbc

theorem strLe_antisymm : ∀ a b : List Char,
    strLe a b = true → strLe b a = true → a = b := by
  intro a
  induction a with
  | nil =>
    intro b _ hba
    cases b with
    | nil => rfl
    | cons d ds => simp [strLe] at hba
  | cons c cs ih =>
    intro b hab hba
    cases b with
    | nil => simp [strLe] at hab
    | cons d ds =>
      simp only [strLe] at hab hba
      by_cases h1 : c.toNat < d.toNat
      · have h2 : ¬ d.toNat < c.toNat := by omega
        simp [h1, h2] at hba
      · by_cases h2 : d.toNat < c.toNat
        · simp [h1, h2] at hab
        · simp only [h1, h2, if_false] at hab hba
          have hcd : c = d := by
            apply Char.ext
            apply UInt32.ext
            have : c.toNat = d.toNat := by omega
            exact this
          rw [hcd, ih ds hab hba]

/-- The order `a <= b` on Go strings as a relation. -/
theorem sortStrings_eq_insertionSort (ms : List String) :
    sortStrings ms = List.insertionSort (fun a b => strLe a.data b.data = true) ms := by
  induction ms with
  | nil => rfl
  | cons a as ih =>
    simp only [sortStrings, List.insertionSort, ih]
    generalize List.insertionSort (fun a b => strLe a.data b.data = true) as = l
    induction l with
    | nil => rfl
    | cons b bs ihb =>
      simp only [insertStr, List.orderedInsert, ihb]

theorem sortStrings_perm (ms : List String) : (sortStrings ms).Perm ms := by
  rw [sortStrings_eq_insertionSort]
  exact List.perm_insertionSort _ _

theorem sortStrings_sorted (ms : List String) :
    (sortStrings ms).Pairwise (fun a b => strLe a.data b.data = true) := by
  rw [sortStrings_eq_insertionSort]
  haveI : IsTotal String (fun a b => strLe a.data b.data = true) :=
    ⟨fun a b => strLe_total a.data b.data⟩
  haveI : IsTrans String (fun a b => strLe a.data b.data = true) :=
    ⟨fun a b c => strLe_trans a.data b.data c.data⟩
  exact List.sorted_insertionSort _ _

theorem sortStrings_eq_of_perm {ms ms' : List String} (h : ms.Perm ms') :
    sortStrings ms = sortStrings ms' := by
  haveI : IsAntisymm String (fun a b => strLe a.data b.data = true) :=
    ⟨fun a b hab hba => String.ext (strLe_antisymm a.data b.data hab hba)⟩
  exact List.eq_of_perm_of_sorted
    ((sortStrings_perm ms).trans (h.trans (sortStrings_perm ms').symm))
    (sortStrings_sorted ms) (sortStrings_sorted ms')

/-! ## Resolution of `Url` and `Id` -/

theorem Frame.frame_refl (s : State) : Frame s s := ⟨rfl, rfl, rfl, fun _ => rfl⟩

theorem Frame.trans {s₁ s₂ s₃ : State} (h₁ : Frame s₁ s₂) (h₂ : Frame s₂ s₃) : Frame s₁ s₃ :=
  ⟨h₂.1.trans h₁.1, h₂.2.1.trans h₁.2.1, h₂.2.2.1.trans h₁.2.2.1,
    fun x => (h₂.2.2.2 x).trans (h₁.2.2.2 x)⟩

theorem Frame.children {s s' : State} (h : Frame s s') (x : Ptr) :
    (s'.heap x).Children = (s.heap x).Children := by
  have e := congrArg DynaRouter.Children (h.2.2.2 x)
  exact e

theorem Frame.parent {s s' : State} (h : Frame s s') (x : Ptr) :
    (s'.heap x).Parent = (s.heap x).Parent := by
  have e := congrArg DynaRouter.Parent (h.2.2.2 x)
  exact e

theorem Frame.pfx {s s' : State} (h : Frame s s') (x : Ptr) :
    (s'.heap x).Prefix = (s.heap x).Prefix := by
  have e := congrArg DynaRouter.Prefix (h.2.2.2 x)
  exact e

theorem Frame.param {s s' : State} (h : Frame s s') (x : Ptr) :
    (s'.heap x).Param = (s.heap x).Param := by
  have e := congrArg DynaRouter.Param (h.2.2.2 x)
  exact e

theorem Frame.methods {s s' : State} (h : Frame s s') (x : Ptr) :
    (s'.heap x).Methods = (s.heap x).Methods := by
  have e := congrArg DynaRouter.Methods (h.2.2.2 x)
  exact e

theorem Frame.sameChildren {s s' : State} (h : Frame s s') : SameChildren s s' :=
  fun x => h.children x

theorem Frame.tree {s s' : State} (h : Frame s s') (fuel : Nat) (d : Ptr) :
    Tree fuel s' d = Tree fuel s d :=
  Tree_congr h.sameChildren fuel d

theorem resolve_congr {s s' : State}
    (h : ∀ x, (s'.heap x).Prefix = (s.heap x).Prefix ∧ (s'.heap x).Param = (s.heap x).Param ∧
      (s'.heap x).Parent = (s.heap x).Parent) :
    ∀ (fuel : Nat) (d : Ptr), resolve fuel s' d = resolve fuel s d := by
  intro fuel
  induction fuel with
  | zero => intro d; rfl
  | succ f ih =>
    intro d
    simp only [resolve, (h d).1, (h d).2.1, (h d).2.2, ih]

theorem Frame.resolve_eq {s s' : State} (h : Frame s s') (fuel : Nat) (d : Ptr) :
    resolve fuel s' d = resolve fuel s d :=
  resolve_congr (fun x => ⟨h.pfx x, h.param x, h.parent x⟩) fuel d

theorem resolve_mono (s : State) : ∀ (fuel : Nat) (d : Ptr) (v : String),
    resolve fuel s d = some v → resolve (fuel + 1) s d = some v := by
  intro fuel
  induction fuel with
  | zero => intro d v h; simp [resolve] at h
  | succ f ih =>
    intro d v h
    rw [resolve] at h ⊢
    cases hp : (s.heap d).Parent with
    | none => simpa [hp] using h
    | some p =>
      simp only [hp] at h ⊢
      cases hr : resolve f s p with
      | none => simp [hr] at h
      | some pu =>
        rw [ih p pu hr]
        simpa [hr] using h

theorem resolve_mono_le {s : State} {fuel fuel' : Nat} (hle : fuel ≤ fuel') {d : Ptr}
    {v : String} (h : resolve fuel s d = some v) : resolve fuel' s d = some v := by
  induction hle with
  | refl => exact h
  | step _ ih => exact resolve_mono _ _ _ _ ih

theorem resolve_det {s : State} {f g : Nat} {d : Ptr} {v w : String}
    (hv : resolve f s d = some v) (hw : resolve g s d = some w) : v = w := by
  have h1 := resolve_mono_le (Nat.le_max_left f g) hv
  have h2 := resolve_mono_le (Nat.le_max_right f g) hw
  rw [h1] at h2
  exact Option.some.inj h2

@[simp] theorem resolved_url (n : DynaRouter) (a b : String) : (n.resolved a b).Url = b := rfl
@[simp] theorem resolved_parentUrl (n : DynaRouter) (a b : String) :
    (n.resolved a b).ParentUrl = a := rfl
@[simp] theorem resolved_id (n : DynaRouter) (a b : String) : (n.resolved a b).Id = n.Id := rfl
@[simp] theorem resolved_shape (n : DynaRouter) (a b : String) :
    (n.resolved a b).shape = n.shape := rfl
@[simp] theorem identified_url (n : DynaRouter) (a : String) : (n.identified a).Url = n.Url := rfl
@[simp] theorem identified_id (n : DynaRouter) (a : String) : (n.identified a).Id = a := rfl
@[simp] theorem identified_shape (n : DynaRouter) (a : String) :
    (n.identified a).shape = n.shape := rfl
@[simp] theorem shape_methods (n : DynaRouter) : n.shape.Methods = n.Methods := rfl

theorem set_heap (s : State) (d : Ptr) (n : DynaRouter) (x : Ptr) :
    (s.set d n).heap x = if x = d then n else s.heap x := by
  by_cases h : x = d
  · subst h; simp [State.set]
  · simp [State.set, h]

@[simp] theorem set_heap_same (s : State) (d : Ptr) (n : DynaRouter) :
    (s.set d n).heap d = n := by simp [set_heap]

theorem set_heap_ne (s : State) {d x : Ptr} (n : DynaRouter) (h : x ≠ d) :
    (s.set d n).heap x = s.heap x := by simp [set_heap, h]

@[simp] theorem set_map (s : State) (d : Ptr) (n : DynaRouter) :
    (s.set d n).dynaRouterMap = s.dynaRouterMap := rfl

@[simp] theorem register_heap (s : State) (k : String) (d : Ptr) :
    (s.register k d).heap = s.heap := rfl

theorem setUrl_succ_none {fuel : Nat} {d : Ptr} {s : State} (hp : (s.heap d).Parent = none) :
    setUrl (fuel + 1) d s = some (s.set d ((s.heap d).resolved ""
      (pathClean (pathJoin [(s.heap d).Prefix, (s.heap d).Param])))) := by
  have hpar : ((s.set d { s.heap d with ParentUrl := "" }).heap d).Parent = none := by
    simpa [State.set] using hp
  rw [setUrl]
  simp only [hpar]
  simp [State.set, DynaRouter.resolved, hp]

theorem setUrl_succ_some {fuel : Nat} {d p : Ptr} {s : State}
    (hp : (s.heap d).Parent = some p) :
    setUrl (fuel + 1) d s
      = (setUrl fuel p (s.set d ((s.heap d).resolved "" (s.heap d).Url))).map
          (fun s₂ => s₂.set d ((s₂.heap d).resolved (s₂.heap p).Url
            (pathClean (pathJoin [(s₂.heap p).Url,
              pathJoin [(s.heap d).Prefix, (s.heap d).Param]])))) := by
  have hpar : ((s.set d { s.heap d with ParentUrl := "" }).heap d).Parent = some p := by
    simpa [State.set] using hp
  have e : s.set d ((s.heap d).resolved "" (s.heap d).Url)
      = s.set d { s.heap d with ParentUrl := "" } := rfl
  rw [setUrl, e]
  simp only [hpar]
  cases setUrl fuel p (s.set d { s.heap d with ParentUrl := "" }) with
  | none => rfl
  | some s₂ =>
    simp only [Option.map_some', Option.some.injEq]
    by_cases hpd : p = d
    · subst hpd; simp [State.set, DynaRouter.resolved]
    · simp [State.set, DynaRouter.resolved, hpd]

theorem setId_eq (u : Utils) (d : Ptr) (s : State) :
    setId u d s = s.set d ((s.heap d).identified
      (u.MakeMd5 ((s.heap d).Url ++ concatStrings (s.heap d).Methods))) := rfl

theorem resolve_succ_none {fuel : Nat} {d : Ptr} {s : State} (hp : (s.heap d).Parent = none) :
    resolve (fuel + 1) s d
      = some (pathClean (pathJoin [(s.heap d).Prefix, (s.heap d).Param])) := by
  simp [resolve, hp]

theorem resolve_succ_some {fuel : Nat} {d p : Ptr} {s : State}
    (hp : (s.heap d).Parent = some p) :
    resolve (fuel + 1) s d
      = (resolve fuel s p).map (fun pu => pathClean (pathJoin [pu,
          pathJoin [(s.heap d).Prefix, (s.heap d).Param]])) := by
  simp [resolve, hp]

/-- A store that leaves the shape of the node alone. -/
theorem Frame.set' {s : State} (d : Ptr) (n : DynaRouter) (h : n.shape = (s.heap d).shape) :
    Frame s (s.set d n) := by
  refine ⟨rfl, rfl, rfl, fun x => ?_⟩
  rw [set_heap]
  split
  · next hx => rw [hx]; exact h
  · rfl

/-- What one call of `setUrl` does. -/
theorem setUrl_spec : ∀ (fuel : Nat) (d : Ptr) (s s' : State), setUrl fuel d s = some s' →
    Frame s s' ∧ s'.dynaRouterMap = s.dynaRouterMap ∧ (∀ x, (s'.heap x).Id = (s.heap x).Id) ∧
    resolve fuel s d = some (s'.heap d).Url ∧
    ∀ x g v, resolve g s x = some v → (s.heap x).Url = v → (s'.heap x).Url = v := by
  intro fuel
  induction fuel with
  | zero => intro d s s' h; simp [setUrl] at h
  | succ f ih =>
    intro d s s' h
    cases hp : (s.heap d).Parent with
    | none =>
      rw [setUrl_succ_none hp] at h
      cases h
      refine ⟨Frame.set' d _ (by simp), rfl, ?_, ?_, ?_⟩
      · intro x
        rw [set_heap]; split
        · next hx => rw [hx]; simp
        · rfl
      · rw [resolve_succ_none hp]; simp
      · intro x g v hr hu
        rw [set_heap]; split
        · next hx =>
          subst hx
          have := resolve_det (@resolve_succ_none 0 _ _ hp) hr
          simpa using this
        · exact hu
    | some p =>
      rw [setUrl_succ_some hp] at h
      cases hrec : setUrl f p (s.set d ((s.heap d).resolved "" (s.heap d).Url)) with
      | none => simp [hrec] at h
      | some s₂ =>
        simp only [hrec, Option.map_some', Option.some.injEq] at h
        subst h
        have hF1 : Frame s (s.set d ((s.heap d).resolved "" (s.heap d).Url)) :=
          Frame.set' d _ (by simp)
        obtain ⟨hF2, hmap, hid, hres, hstab⟩ := ih p _ s₂ hrec
        have hres' : resolve f s p = some (s₂.heap p).Url := by
          rw [← hF1.resolve_eq]; exact hres
        have hval : resolve (f + 1) s d
            = some (pathClean (pathJoin [(s₂.heap p).Url,
                pathJoin [(s.heap d).Prefix, (s.heap d).Param]])) := by
          rw [resolve_succ_some hp, hres']; rfl
        refine ⟨(hF1.trans hF2).trans (Frame.set' d _ (by simp)), hmap, ?_, ?_, ?_⟩
        · intro x
          rw [set_heap]; split
          · next hx =>
            subst hx
            rw [resolved_id, hid x]; simp
          · next hx => rw [hid x, set_heap_ne _ _ hx]
        · rw [hval]; simp
        · intro x g v hr hu
          rw [set_heap]; split
          · next hx =>
            subst hx
            have := resolve_det hval hr
            simpa using this
          · next hx =>
            apply hstab x g v
            · rw [hF1.resolve_eq]; exact hr
            · rw [set_heap_ne _ _ hx]; exact hu

/-! ## `init` -/

theorem Settled.transfer {u : Utils} {s s' : State} {x : Ptr} (hF : Frame s s')
    (hu : (s'.heap x).Url = (s.heap x).Url) (hi : (s'.heap x).Id = (s.heap x).Id)
    (h : Settled u s x) : Settled u s' x := by
  obtain ⟨⟨g, hg⟩, hid⟩ := h
  refine ⟨⟨g, ?_⟩, ?_⟩
  · rw [hF.resolve_eq, hu]; exact hg
  · rw [hi, hu, hF.methods]; exact hid

theorem InitPost.settled_post {u : Utils} {t dn : List Ptr} {s s' : State}
    (h : InitPost u t dn s s') {x : Ptr} (hx : Settled u s x) : Settled u s' x :=
  hx.transfer h.frame (h.stable x hx).1 (h.stable x hx).2

theorem InitPost.post_refl (u : Utils) (s : State) : InitPost u [] [] s s where
  frame := Frame.frame_refl s
  stable := fun _ _ => ⟨rfl, rfl⟩
  urlStable := fun _ _ _ => rfl
  listed := fun _ _ h => h
  done := fun _ h => absurd h (List.not_mem_nil _)
  idframe := fun _ _ => rfl
  mapframe := fun _ _ h => Or.inl h
  mapmono := fun _ h => h

theorem InitPost.comp {u : Utils} {t₁ t₂ d₁ d₂ : List Ptr} {s s₁ s₂ : State}
    (h₁ : InitPost u t₁ d₁ s s₁) (h₂ : InitPost u t₂ d₂ s₁ s₂) :
    InitPost u (t₁ ++ t₂) (d₁ ++ d₂) s s₂ where
  frame := h₁.frame.trans h₂.frame
  stable := fun x hx =>
    ⟨((h₂.stable x (h₁.settled_post hx)).1).trans (h₁.stable x hx).1,
      ((h₂.stable x (h₁.settled_post hx)).2).trans (h₁.stable x hx).2⟩
  urlStable := fun x g hx => by
    have h := h₁.urlStable x g hx
    rw [h₂.urlStable x g (by rw [h₁.frame.resolve_eq, h]; exact hx), h]
  listed := fun m hm hl => h₂.listed m (h₁.settled_post hm) (h₁.listed m hm hl)
  done := fun m hm => by
    rcases List.mem_append.mp hm with h | h
    · obtain ⟨a, b⟩ := h₁.done m h
      exact ⟨h₂.settled_post a, h₂.listed m a b⟩
    · exact h₂.done m h
  idframe := fun x hx => by
    have hx₁ : x ∉ t₁ := fun h => hx (List.mem_append_left _ h)
    have hx₂ : x ∉ t₂ := fun h => hx (List.mem_append_right _ h)
    rw [h₂.idframe x hx₂, h₁.idframe x hx₁]
  mapframe := fun k r hr => by
    rcases h₂.mapframe k r hr with h | ⟨h, hid, hs⟩
    · rcases h₁.mapframe k r h with h' | ⟨h', hid', hs'⟩
      · exact Or.inl h'
      · exact Or.inr ⟨List.mem_append_left _ h', ((h₂.stable r hs').2).trans hid',
          h₂.settled_post hs'⟩
    · exact Or.inr ⟨List.mem_append_right _ h, hid, hs⟩
  mapmono := fun k hk => h₂.mapmono k (h₁.mapmono k hk)

theorem InitPost.weaken {u : Utils} {t t' dn dn' : List Ptr} {s s' : State}
    (h : InitPost u t dn s s') (ht : ∀ x ∈ t, x ∈ t') (hd : ∀ x ∈ dn', x ∈ dn) :
    InitPost u t' dn' s s' where
  frame := h.frame
  stable := h.stable
  urlStable := h.urlStable
  listed := h.listed
  done := fun m hm => h.done m (hd m hm)
  idframe := fun x hx => h.idframe x (fun hx' => hx (ht x hx'))
  mapframe := fun k r hr => (h.mapframe k r hr).imp id (fun ⟨a, b⟩ => ⟨ht r a, b⟩)
  mapmono := h.mapmono

/-- A step that writes neither the map nor any field of a settled node. -/
theorem InitPost.of_heap {u : Utils} {t : List Ptr} {s s' : State} (hF : Frame s s')
    (hmap : s'.dynaRouterMap = s.dynaRouterMap)
    (hst : ∀ x, Settled u s x →
      (s'.heap x).Url = (s.heap x).Url ∧ (s'.heap x).Id = (s.heap x).Id)
    (hid : ∀ x, x ∉ t → (s'.heap x).Id = (s.heap x).Id)
    (hurl : ∀ x g, resolve g s x = some (s.heap x).Url → (s'.heap x).Url = (s.heap x).Url) :
    InitPost u t [] s s' where
  frame := hF
  stable := hst
  urlStable := hurl
  listed := fun m hm ⟨r, hr, hrid, hrs⟩ =>
    ⟨r, by rw [hmap, (hst m hm).2]; exact hr, by rw [(hst m hm).2, (hst r hrs).2]; exact hrid,
      hrs.transfer hF (hst r hrs).1 (hst r hrs).2⟩
  done := fun _ h => absurd h (List.not_mem_nil _)
  idframe := hid
  mapframe := fun k r hr => Or.inl (by rw [← hmap]; exact hr)
  mapmono := fun k hk => by rw [hmap]; exact hk

theorem initPost_setUrl (u : Utils) {fuel : Nat} {d : Ptr} {s s' : State}
    (h : setUrl fuel d s = some s') : InitPost u [] [] s s' := by
  obtain ⟨hF, hmap, hid, _, hstab⟩ := setUrl_spec fuel d s s' h
  exact InitPost.of_heap hF hmap
    (fun x ⟨⟨g, hg⟩, _⟩ => ⟨hstab x g _ hg rfl, hid x⟩) (fun x _ => hid x)
    (fun x g hg => hstab x g _ hg rfl)

theorem initPost_setId (u : Utils) {d : Ptr} {s : State}
    (hres : ∃ g, resolve g s d = some (s.heap d).Url) :
    InitPost u [d] [] s (setId u d s) ∧ Settled u (setId u d s) d := by
  have hF : Frame s (setId u d s) := by
    rw [setId_eq]; exact Frame.set' d _ (by simp)
  have hurl : ∀ x, ((setId u d s).heap x).Url = (s.heap x).Url := by
    intro x
    rw [setId_eq, set_heap]; split
    · next hx => rw [hx]; simp
    · rfl
  refine ⟨InitPost.of_heap hF rfl ?_ ?_ (fun x _ _ => hurl x), ?_⟩
  · intro x hx
    refine ⟨hurl x, ?_⟩
    rw [setId_eq, set_heap]; split
    · next hxd => subst hxd; simpa using hx.2.symm
    · rfl
  · intro x hx
    have hne : x ≠ d := fun e => hx (e ▸ List.mem_singleton_self _)
    rw [setId_eq, set_heap_ne _ _ hne]
  · obtain ⟨g, hg⟩ := hres
    refine ⟨⟨g, ?_⟩, ?_⟩
    · rw [hF.resolve_eq, hurl]; exact hg
    · rw [hurl, hF.methods]; simp [setId_eq]

theorem Settled.register {u : Utils} {s : State} {x : Ptr} (k : String) (d : Ptr)
    (h : Settled u s x) : Settled u (s.register k d) x :=
  @Settled.transfer u s (s.register k d) x ⟨rfl, rfl, rfl, fun _ => rfl⟩ rfl rfl h

theorem initPost_register (u : Utils) {d : Ptr} {s : State} (hd : Settled u s d) :
    InitPost u [d] [d] s (s.register (s.heap d).Id d) where
  frame := ⟨rfl, rfl, rfl, fun _ => rfl⟩
  stable := fun _ _ => ⟨rfl, rfl⟩
  urlStable := fun _ _ _ => rfl
  listed := fun m _ ⟨r, hr, hrid, hrs⟩ => by
    by_cases hk : (s.heap m).Id = (s.heap d).Id
    · exact ⟨d, by simp [State.register, hk], hk.symm, hd.register _ _⟩
    · exact ⟨r, by simpa [State.register, hk] using hr, hrid, hrs.register _ _⟩
  done := fun m hm => by
    rw [List.mem_singleton.mp hm]
    exact ⟨hd.register _ _, d, by simp [State.register], rfl, hd.register _ _⟩
  idframe := fun _ _ => rfl
  mapframe := fun k r hr => by
    by_cases hk : k = (s.heap d).Id
    · subst hk
      have : r = d := by simpa [State.register] using hr.symm
      subst this
      exact Or.inr ⟨List.mem_singleton_self _, rfl, hd.register _ _⟩
    · exact Or.inl (by simpa [State.register, hk] using hr)
  mapmono := fun k hk => by
    by_cases hkd : k = (s.heap d).Id
    · simp [State.register, hkd]
    · simpa [State.register, hkd] using hk

theorem init_succ (u : Utils) (fuel : Nat) (d : Ptr) (s : State) :
    init u (fuel + 1) d s
      = (setUrl fuel d s).bind (fun s₁ =>
          (((setId u d s₁).heap d).Children.foldlM (fun s node => init u fuel node s)
            (setId u d s₁)).map (fun s₃ => s₃.register (s₃.heap d).Id d)) := by
  rw [init]
  cases setUrl fuel d s with
  | none => rfl
  | some s₁ =>
    simp only [Option.some_bind]
    cases List.foldlM (fun s node => init u fuel node s) (setId u d s₁)
      ((setId u d s₁).heap d).Children <;> rfl

theorem forest_congr {t t' : Ptr → Option (List Ptr)} (h : ∀ c, t c = t' c) (cs : List Ptr) :
    forest t cs = forest t' cs := by
  have : t = t' := funext h
  rw [this]

/-- What a run of `init` does: it walks the traversal `d.Tree()` and leaves
every node of it settled and listed. -/
theorem init_spec (u : Utils) : ∀ (fuel : Nat) (d : Ptr) (s s' : State),
    init u fuel d s = some s' → ∃ l, Tree fuel s d = some l ∧ InitPost u l l s s' := by
  intro fuel
  induction fuel with
  | zero => intro d s s' h; simp [init] at h
  | succ f ih =>
    have loop : ∀ (cs : List Ptr) (s s' : State),
        cs.foldlM (fun s node => init u f node s) s = some s' →
        ∃ lf, forest (Tree f s) cs = some lf ∧ InitPost u lf lf s s' := by
      intro cs
      induction cs with
      | nil =>
        intro s s' h
        simp only [List.foldlM_nil, Option.pure_def, Option.some.injEq] at h
        subst h
        exact ⟨[], rfl, InitPost.post_refl u s⟩
      | cons c cs ihc =>
        intro s s' h
        simp only [List.foldlM_cons, Option.bind_eq_bind] at h
        cases hc : init u f c s with
        | none => simp [hc] at h
        | some s₁ =>
          simp only [hc, Option.some_bind] at h
          obtain ⟨a, ha, hPa⟩ := ih c s s₁ hc
          obtain ⟨b, hb, hPb⟩ := ihc s₁ s' h
          rw [forest_congr (fun c => hPa.frame.tree f c)] at hb
          exact ⟨a ++ b, forest_cons_eq_some.mpr ⟨a, b, ha, hb, rfl⟩, hPa.comp hPb⟩
    intro d s s' h
    rw [init_succ] at h
    cases h1 : setUrl f d s with
    | none => simp [h1] at h
    | some s₁ =>
      simp only [h1, Option.some_bind] at h
      cases h3 : List.foldlM (fun s node => init u f node s) (setId u d s₁)
          ((setId u d s₁).heap d).Children with
      | none => simp [h3] at h
      | some s₃ =>
        simp only [h3, Option.map_some', Option.some.injEq] at h
        subst h
        have P1 := initPost_setUrl u h1
        have hres : ∃ g, resolve g s₁ d = some (s₁.heap d).Url :=
          ⟨f, by rw [P1.frame.resolve_eq]; exact (setUrl_spec f d s s₁ h1).2.2.2.1⟩
        obtain ⟨P2, hset⟩ := initPost_setId u hres
        obtain ⟨lf, hlf, P3⟩ := loop _ _ _ h3
        have P12 := P1.comp P2
        rw [forest_congr (fun c => P12.frame.tree f c), P12.frame.children] at hlf
        have P4 := initPost_register u (P3.settled_post hset)
        refine ⟨d :: lf, Tree_succ_eq_some.mpr ⟨lf, hlf, rfl⟩, ?_⟩
        refine ((P12.comp P3).comp P4).weaken ?_ ?_
        · intro x hx
          simp only [List.nil_append, List.mem_append, List.mem_singleton, List.mem_cons] at hx ⊢
          tauto
        · intro x hx
          simp only [List.nil_append, List.mem_append, List.mem_singleton, List.mem_cons] at hx ⊢
          tauto

/-! ## Termination of `setUrl` and `init` -/

theorem setUrl_total : ∀ (fuel : Nat) (d : Ptr) (s : State) (v : String),
    resolve fuel s d = some v → ∃ s', setUrl fuel d s = some s' := by
  intro fuel
  induction fuel with
  | zero => intro d s v h; simp [resolve] at h
  | succ f ih =>
    intro d s v h
    cases hp : (s.heap d).Parent with
    | none => exact ⟨_, setUrl_succ_none hp⟩
    | some p =>
      rw [resolve_succ_some hp] at h
      cases hr : resolve f s p with
      | none => simp [hr] at h
      | some pu =>
        have hF : Frame s (s.set d ((s.heap d).resolved "" (s.heap d).Url)) :=
          Frame.set' d _ (by simp)
        obtain ⟨s₂, h₂⟩ := ih p _ pu (by rw [hF.resolve_eq]; exact hr)
        exact ⟨_, by rw [setUrl_succ_some hp, h₂]; rfl⟩

theorem init_total (u : Utils) (g : Nat) : ∀ (f : Nat) (fuel : Nat) (d : Ptr) (s : State)
    (l : List Ptr), f + g ≤ fuel → Tree f s d = some l →
    (∀ m ∈ l, (resolve g s m).isSome) → ∃ s', init u fuel d s = some s' := by
  intro f
  induction f with
  | zero => intro fuel d s l _ h; simp [Tree] at h
  | succ k ih =>
    intro fuel d s l hfuel hl hres
    obtain ⟨fuel', rfl⟩ : ∃ fuel', fuel = fuel' + 1 := ⟨fuel - 1, by omega⟩
    have hk : k + g ≤ fuel' := by omega
    obtain ⟨lf, hlf, rfl⟩ := Tree_succ_eq_some.mp hl
    obtain ⟨v, hv⟩ := Option.isSome_iff_exists.mp (hres d (List.mem_cons_self _ _))
    obtain ⟨s₁, h₁⟩ := setUrl_total fuel' d s v (resolve_mono_le (by omega) hv)
    have P1 := initPost_setUrl u h₁
    have hres₁ : ∃ g, resolve g s₁ d = some (s₁.heap d).Url :=
      ⟨fuel', by rw [P1.frame.resolve_eq]; exact (setUrl_spec fuel' d s s₁ h₁).2.2.2.1⟩
    obtain ⟨P2, _⟩ := initPost_setId u hres₁
    have P12 := P1.comp P2
    have loop : ∀ (cs : List Ptr) (t : State), Frame s t → (∀ c ∈ cs, c ∈ (s.heap d).Children) →
        ∃ t', cs.foldlM (fun s node => init u fuel' node s) t = some t' := by
      intro cs
      induction cs with
      | nil => intro t _ _; exact ⟨t, rfl⟩
      | cons c cs ihc =>
        intro t hF hsub
        have hc : c ∈ (s.heap d).Children := hsub c (List.mem_cons_self _ _)
        obtain ⟨lc, hlc⟩ := forest_defined hlf c hc
        have hsubl := (forest_part hlf c hc lc hlc).2
        obtain ⟨t₁, ht₁⟩ := ih fuel' c t lc hk (by rw [hF.tree]; exact hlc)
          (fun m hm => by rw [hF.resolve_eq]; exact hres m (List.mem_cons_of_mem _ (hsubl hm)))
        obtain ⟨_, _, hP⟩ := init_spec u fuel' c t t₁ ht₁
        obtain ⟨t', ht'⟩ := ihc t₁ (hF.trans hP.frame)
          (fun c' hc' => hsub c' (List.mem_cons_of_mem _ hc'))
        exact ⟨t', by simp only [List.foldlM_cons, Option.bind_eq_bind, ht₁, Option.some_bind, ht']⟩
    obtain ⟨s₃, h₃⟩ := loop ((setId u d s₁).heap d).Children (setId u d s₁) P12.frame
      (fun c hc => by rw [P12.frame.children] at hc; exact hc)
    exact ⟨_, by rw [init_succ, h₁, Option.some_bind, h₃]; rfl⟩

/-! ## `SetRouter` and `RootRouter` -/

theorem SameRes.resolve_same {s s' : State} (h : SameRes s s') (fuel : Nat) (d : Ptr) :
    resolve fuel s' d = resolve fuel s d :=
  resolve_congr (fun x => ⟨(h.2 x).1, (h.2 x).2.1, (h.2 x).2.2.1⟩) fuel d

theorem SameRes.settled_same {u : Utils} {s s' : State} (h : SameRes s s') {x : Ptr}
    (hx : Settled u s x) : Settled u s' x := by
  obtain ⟨⟨g, hg⟩, hid⟩ := hx
  obtain ⟨_, _, _, hm, hu, hi⟩ := h.2 x
  exact ⟨⟨g, by rw [h.resolve_same, hu]; exact hg⟩, by rw [hi, hu, hm]; exact hid⟩

theorem SameRes.listed {u : Utils} {s s' : State} (h : SameRes s s') {m : Ptr}
    (hm : Listed u s m) : Listed u s' m := by
  obtain ⟨r, hr, hrid, hrs⟩ := hm
  have him := (h.2 m).2.2.2.2.2
  have hir := (h.2 r).2.2.2.2.2
  exact ⟨r, by rw [h.1, him]; exact hr, by rw [him, hir]; exact hrid, h.settled_same hrs⟩

theorem replaceChild_congr {s s' : State} (h : ∀ x, (s'.heap x).Id = (s.heap x).Id)
    (id : String) (node : Ptr) : ∀ cs : List Ptr,
    replaceChild s' id node cs = replaceChild s id node cs := by
  intro cs
  induction cs with
  | nil => rfl
  | cons c cs ih => simp only [replaceChild, h c, ih]

theorem attachChild_congr {s s' : State} (h : ∀ x, (s'.heap x).Id = (s.heap x).Id)
    (id : String) (node : Ptr) (cs : List Ptr) :
    attachChild s' id node cs = attachChild s id node cs := by
  simp only [attachChild, replaceChild_congr h]

theorem linked_heap_ne (s : State) {n x : Ptr} (q : Option Ptr) (h : x ≠ n) :
    (linked s n q).heap x = s.heap x := set_heap_ne _ _ h

theorem linked_children (s : State) (n : Ptr) (q : Option Ptr) :
    SameChildren s (linked s n q) := by
  intro x
  simp only [linked]
  rw [set_heap]; split
  · next h => rw [h]
  · rfl

theorem linked_id (s : State) (n : Ptr) (q : Option Ptr) (x : Ptr) :
    ((linked s n q).heap x).Id = (s.heap x).Id := by
  simp only [linked]
  rw [set_heap]; split
  · next h => rw [h]
  · rfl

theorem linked_parent (s : State) (n : Ptr) (q : Option Ptr) :
    ((linked s n q).heap n).Parent = q := by
  simp [linked]

/-- The state that `SetRouter` returns, given the state `s₁` in which its call
of `init` ends. -/
theorem SetRouter_of_init {u : Utils} {fuel : Nat} {pid : String} {n p : Ptr} {s s₁ : State}
    (hreg : s.dynaRouterMap pid = some p)
    (hinit : init u fuel n (linked s n (some p)) = some s₁) :
    SetRouter u fuel pid n s = .ok (attached s₁ n p) := by
  obtain ⟨l, _, hP⟩ := init_spec u fuel n _ s₁ hinit
  have hpar : (s₁.heap n).Parent = some p := by
    rw [hP.frame.parent, linked_parent]
  have hlink : s.set n { s.heap n with Parent := s.dynaRouterMap pid } = linked s n (some p) := by
    rw [hreg]; rfl
  have hrc : ∀ cs, replaceChild (s₁.register (s₁.heap n).Id n) (s₁.heap n).Id n cs
      = replaceChild s₁ (s₁.heap n).Id n cs :=
    @replaceChild_congr s₁ (s₁.register (s₁.heap n).Id n) (fun _ => rfl) _ _
  cases hr : replaceChild s₁ (s₁.heap n).Id n (s₁.heap p).Children with
  | none => simp only [SetRouter, hlink, hinit, register_heap, hpar, hrc, hr, attached, attachChild]
  | some cs =>
    simp only [SetRouter, hlink, hinit, register_heap, hpar, hrc, hr, attached, attachChild]

theorem attached_heap_ne (s₁ : State) (n : Ptr) {p x : Ptr} (h : x ≠ p) :
    (attached s₁ n p).heap x = s₁.heap x := by
  simp [attached, set_heap, h]

theorem attached_children (s₁ : State) (n p : Ptr) :
    ((attached s₁ n p).heap p).Children
      = attachChild s₁ (s₁.heap n).Id n (s₁.heap p).Children := by
  simp [attached]

theorem attached_sameRes (s₁ : State) (n p : Ptr) :
    SameRes (s₁.register (s₁.heap n).Id n) (attached s₁ n p) := by
  refine ⟨rfl, fun x => ?_⟩
  simp only [attached]
  rw [set_heap]; split
  · next hx => subst hx; simp
  · simp

/-- Go `SetRouter` under a registered parent: it returns once the traversal of
the node and the parent chains of its members are finite, and then every
member of the traversal is settled and listed. -/
theorem SetRouter_post {u : Utils} {f g fuel : Nat} {pid : String} {n p : Ptr} {s : State}
    {l : List Ptr} (hfuel : f + g ≤ fuel) (hreg : s.dynaRouterMap pid = some p)
    (hl : Tree f s n = some l)
    (hres : ∀ m ∈ l, (resolve g (linked s n (some p)) m).isSome) :
    ∃ s₁, init u fuel n (linked s n (some p)) = some s₁ ∧
      SetRouter u fuel pid n s = .ok (attached s₁ n p) ∧
      InitPost u (l ++ [n]) (l ++ [n]) (linked s n (some p)) (s₁.register (s₁.heap n).Id n) ∧
      ((attached s₁ n p).heap p).Children
        = attachChild (attached s₁ n p) ((attached s₁ n p).heap n).Id n (s.heap p).Children := by
  have hl' : Tree f (linked s n (some p)) n = some l := by
    rw [Tree_congr (linked_children s n _)]; exact hl
  obtain ⟨s₁, h₁⟩ := init_total u g f fuel n _ l hfuel hl' hres
  obtain ⟨l', hl'', hP⟩ := init_spec u fuel n _ s₁ h₁
  have : l' = l := by
    have := Tree_mono_le (Nat.le_trans (Nat.le_add_right f g) hfuel) hl'
    rw [this] at hl''
    exact (Option.some.inj hl'').symm
  subst this
  have hn : Settled u s₁ n := (hP.done n (mem_Tree_self hl')).1
  have P := hP.comp (initPost_register u hn)
  refine ⟨s₁, h₁, SetRouter_of_init hreg h₁, P, ?_⟩
  rw [attached_children]
  have hid : ∀ x, ((attached s₁ n p).heap x).Id = (s₁.heap x).Id :=
    fun x => ((attached_sameRes s₁ n p).2 x).2.2.2.2.2
  rw [attachChild_congr hid, hid n, hP.frame.children, linked_children]

theorem forest_congr_on {t t' : Ptr → Option (List Ptr)} :
    ∀ {cs lf : List Ptr}, forest t cs = some lf →
      (∀ c ∈ cs, ∀ lc, t c = some lc → t' c = some lc) → forest t' cs = some lf := by
  intro cs
  induction cs with
  | nil => intro lf h _; simpa [forest] using h
  | cons c cs ih =>
    intro lf h hc
    obtain ⟨a, b, ha, hb, rfl⟩ := forest_cons_eq_some.mp h
    exact forest_cons_eq_some.mpr ⟨a, b, hc c (List.mem_cons_self _ _) a ha,
      ih hb (fun c' hc' => hc c' (List.mem_cons_of_mem _ hc')), rfl⟩

/-- The traversal reads only the `Children` of its own members. -/
theorem Tree_congr_on {s s' : State} : ∀ (fuel : Nat) (d : Ptr) (l : List Ptr),
    Tree fuel s d = some l → (∀ x ∈ l, (s'.heap x).Children = (s.heap x).Children) →
    Tree fuel s' d = some l := by
  intro fuel
  induction fuel with
  | zero => intro d l h; simp [Tree] at h
  | succ f ih =>
    intro d l h hch
    obtain ⟨lf, hlf, rfl⟩ := Tree_succ_eq_some.mp h
    refine Tree_succ_eq_some.mpr ⟨lf, ?_, rfl⟩
    rw [hch d (List.mem_cons_self _ _)]
    refine forest_congr_on hlf (fun c hc lc hlc => ih c lc hlc (fun x hx => ?_))
    exact hch x (List.mem_cons_of_mem _ ((forest_part hlf c hc lc hlc).2 hx))

theorem Tree_unique {s : State} {f g : Nat} {d : Ptr} {l l' : List Ptr}
    (h : Tree f s d = some l) (h' : Tree g s d = some l') : l = l' := by
  have h1 := Tree_mono_le (Nat.le_max_left f g) h
  have h2 := Tree_mono_le (Nat.le_max_right f g) h'
  rw [h1] at h2
  exact Option.some.inj h2

theorem rootLinked_children (node : List Ptr) (s : State) :
    ((rootLinked node s).heap DefDynaRouter).Children
      = (s.heap DefDynaRouter).Children ++ node := by
  simp only [rootLinked, setParents_heap]
  split <;> simp

theorem RootRouter_eq (u : Utils) (fuel : Nat) (node : List Ptr) (s : State) :
    RootRouter u fuel node s = init u fuel DefDynaRouter (rootLinked node s) := rfl

theorem listed_lookup {u : Utils} {s : State} {m : Ptr} (h : Listed u s m) :
    ∃ r, GetDynaRouter (s.heap m).Id s = (some r, true) ∧ (s.heap r).Id = (s.heap m).Id := by
  obtain ⟨r, hr, hrid, _⟩ := h
  exact ⟨r, by simp [GetDynaRouter, hr], hrid⟩

/-- A call of `SetRouter` that returned ran `init` to the end. -/
theorem SetRouter_inv {u : Utils} {fuel : Nat} {pid : String} {n p : Ptr} {s s' : State}
    (hreg : s.dynaRouterMap pid = some p) (h : SetRouter u fuel pid n s = .ok s') :
    ∃ s₁, init u fuel n (linked s n (some p)) = some s₁ ∧ s' = attached s₁ n p := by
  cases hi : init u fuel n (linked s n (some p)) with
  | none =>
    have hlink : s.set n { s.heap n with Parent := s.dynaRouterMap pid }
        = linked s n (some p) := by rw [hreg]; rfl
    simp [SetRouter, hlink, hi] at h
  | some s₁ =>
    rw [SetRouter_of_init hreg hi] at h
    exact ⟨s₁, rfl, (Outcome.ok.inj h).symm⟩

/-- Everything the later proofs use about a call of `SetRouter` that returned. -/
theorem SetRouter_facts {u : Utils} {fuel : Nat} {pid : String} {n p : Ptr} {s s' : State}
    (hreg : s.dynaRouterMap pid = some p) (h : SetRouter u fuel pid n s = .ok s') :
    ∃ l, Tree fuel s n = some l ∧
      (∀ m ∈ l, Settled u s' m ∧ Listed u s' m) ∧
      (∀ x, Settled u (linked s n (some p)) x →
        (s'.heap x).Url = (s.heap x).Url ∧ (s'.heap x).Id = (s.heap x).Id) ∧
      (∀ x, x ∉ l → (s'.heap x).Id = (s.heap x).Id) ∧
      (∀ x, x ≠ p → (s'.heap x).Children = (s.heap x).Children) ∧
      (s'.heap p).Children = attachChild s' (s'.heap n).Id n (s.heap p).Children ∧
      (∀ x, (s'.heap x).Prefix = (s.heap x).Prefix ∧ (s'.heap x).Param = (s.heap x).Param ∧
        (s'.heap x).Methods = (s.heap x).Methods) ∧
      (s'.heap n).Parent = some p ∧ (∀ x, x ≠ n → (s'.heap x).Parent = (s.heap x).Parent) := by
  obtain ⟨s₁, h₁, rfl⟩ := SetRouter_inv hreg h
  obtain ⟨l, hl, hP⟩ := init_spec u fuel n _ s₁ h₁
  have hn : Settled u s₁ n := (hP.done n (mem_Tree_self hl)).1
  have P := hP.comp (initPost_register u hn)
  have hS := attached_sameRes s₁ n p
  have hid : ∀ x, ((attached s₁ n p).heap x).Id = (s₁.heap x).Id :=
    fun x => (hS.2 x).2.2.2.2.2
  have hlk : ∀ x, (linked s n (some p)).heap x
      = if x = n then { s.heap n with Parent := some p } else s.heap x := by
    intro x; simp only [linked]; rw [set_heap]
  refine ⟨l, by rw [← Tree_congr (linked_children s n _)]; exact hl, ?_, ?_, ?_, ?_, ?_, ?_, ?_, ?_⟩
  · intro m hm
    obtain ⟨a, b⟩ := P.done m (List.mem_append_left _ hm)
    exact ⟨hS.settled_same a, hS.listed b⟩
  · intro x hx
    obtain ⟨a, b⟩ := P.stable x hx
    rw [register_heap] at a b
    rw [(hS.2 x).2.2.2.2.1, hid x, register_heap, a, b, hlk]
    split
    · next e => subst e; exact ⟨rfl, rfl⟩
    · exact ⟨rfl, rfl⟩
  · intro x hx
    have hx' : x ∉ l ++ [n] := by
      intro h'
      rcases List.mem_append.mp h' with h' | h'
      · exact hx h'
      · rw [List.mem_singleton.mp h'] at hx
        exact hx (mem_Tree_self hl)
    have := P.idframe x hx'
    rw [register_heap] at this
    rw [hid, this, linked_id]
  · intro x hx
    rw [attached_heap_ne _ _ hx, hP.frame.children, linked_children]
  · rw [attached_children, attachChild_congr hid, hid n, hP.frame.children, linked_children]
  · intro x
    obtain ⟨a, b, _, c, _, _⟩ := hS.2 x
    rw [register_heap] at a b c
    rw [a, b, c, hP.frame.pfx, hP.frame.param, hP.frame.methods, hlk]
    split
    · next e => subst e; exact ⟨rfl, rfl, rfl⟩
    · exact ⟨rfl, rfl, rfl⟩
  · have := (hS.2 n).2.2.1
    rw [register_heap] at this
    rw [this, hP.frame.parent, linked_parent]
  · intro x hx
    have := (hS.2 x).2.2.1
    rw [register_heap] at this
    rw [this, hP.frame.parent, linked_heap_ne _ _ hx]

theorem replaceChild_none {s : State} {id : String} {n : Ptr} :
    ∀ {cs : List Ptr}, (∀ c ∈ cs, (s.heap c).Id ≠ id) → replaceChild s id n cs = none := by
  intro cs
  induction cs with
  | nil => intro _; rfl
  | cons c cs ih =>
    intro h
    simp only [replaceChild, h c (List.mem_cons_self _ _), if_false,
      ih (fun c' hc' => h c' (List.mem_cons_of_mem _ hc')), Option.map_none']

theorem replaceChild_first {s : State} {id : String} {n c : Ptr} {b : List Ptr} :
    ∀ {a : List Ptr}, (∀ x ∈ a, (s.heap x).Id ≠ id) → (s.heap c).Id = id →
      replaceChild s id n (a ++ c :: b) = some (a ++ n :: b) := by
  intro a
  induction a with
  | nil => intro _ hc; simp [replaceChild, hc]
  | cons x a ih =>
    intro h hc
    have e := ih (fun y hy => h y (List.mem_cons_of_mem _ hy)) hc
    show replaceChild s id n (x :: (a ++ c :: b)) = some (x :: (a ++ n :: b))
    simp only [replaceChild, h x (List.mem_cons_self _ _), if_false, e, Option.map_some']

/-- The number of children with the id of the attached node after the loop of
`SetRouter`: at least one, and no more than before. -/
theorem attachChild_count {s : State} {id : String} {n : Ptr} (hn : (s.heap n).Id = id) :
    ∀ cs : List Ptr,
      (attachChild s id n cs).countP (fun c => decide ((s.heap c).Id = id))
        = max 1 (cs.countP (fun c => decide ((s.heap c).Id = id))) ∧
      (attachChild s id n cs).length
        = if cs.countP (fun c => decide ((s.heap c).Id = id)) = 0 then cs.length + 1
          else cs.length := by
  intro cs
  induction cs with
  | nil => simp [attachChild, replaceChild, hn]
  | cons c cs ih =>
    by_cases hc : (s.heap c).Id = id
    · simp [attachChild, replaceChild, hc, hn, List.countP_cons]
    · obtain ⟨ih1, ih2⟩ := ih
      simp only [attachChild, replaceChild, hc, if_false] at ih1 ih2 ⊢
      cases hr : replaceChild s id n cs with
      | none =>
        simp only [hr, Option.map_none'] at ih1 ih2 ⊢
        simp only [List.cons_append, List.countP_cons, hc, decide_False, Bool.false_eq_true,
          if_false, Nat.add_zero, List.length_cons] at ih1 ih2 ⊢
        refine ⟨ih1, ?_⟩
        rw [ih2]; split <;> rfl
      | some cs' =>
        simp only [hr, Option.map_some'] at ih1 ih2 ⊢
        simp only [List.countP_cons, hc, decide_False, Bool.false_eq_true,
          if_false, Nat.add_zero, List.length_cons] at ih1 ih2 ⊢
        refine ⟨ih1, ?_⟩
        rw [ih2]; split <;> rfl

theorem attachChild_mem {s : State} {id : String} {n : Ptr} :
    ∀ {cs : List Ptr} {x : Ptr}, x ∈ attachChild s id n cs → x = n ∨ x ∈ cs := by
  intro cs
  induction cs with
  | nil => intro x hx; simpa [attachChild, replaceChild] using hx
  | cons c cs ih =>
    intro x hx
    by_cases hc : (s.heap c).Id = id
    · simp only [attachChild, replaceChild, hc, if_true, List.mem_cons] at hx
      rcases hx with h | h
      · exact Or.inl h
      · exact Or.inr (List.mem_cons_of_mem _ h)
    · simp only [attachChild, replaceChild, hc, if_false] at hx ih
      cases hr : replaceChild s id n cs with
      | none =>
        simp only [hr, Option.map_none', List.cons_append, List.mem_cons, List.mem_append,
          List.mem_singleton] at hx
        rcases hx with h | h | h
        · exact Or.inr (h ▸ List.mem_cons_self _ _)
        · exact Or.inr (List.mem_cons_of_mem _ h)
        · exact Or.inl (by simpa using h)
      | some cs' =>
        simp only [hr, Option.map_some', List.mem_cons] at hx
        rcases hx with h | h
        · exact Or.inr (h ▸ List.mem_cons_self _ _)
        · have := @ih x (by simpa [hr] using h)
          exact this.imp (fun e => e) (List.mem_cons_of_mem _)

theorem countP_congr_mem {α : Type} {p q : α → Bool} :
    ∀ {l : List α}, (∀ x ∈ l, p x = q x) → l.countP p = l.countP q := by
  intro l
  induction l with
  | nil => intro _; rfl
  | cons a l ih =>
    intro h
    simp only [List.countP_cons, h a (List.mem_cons_self _ _),
      ih (fun x hx => h x (List.mem_cons_of_mem _ hx))]

theorem Tree_leaf {s : State} {fuel : Nat} {n : Ptr} {l : List Ptr}
    (h : Tree fuel s n = some l) (hleaf : (s.heap n).Children = []) : l = [n] := by
  cases fuel with
  | zero => simp [Tree] at h
  | succ f =>
    obtain ⟨lf, hlf, rfl⟩ := Tree_succ_eq_some.mp h
    rw [hleaf] at hlf
    simp only [forest, Option.some.injEq] at hlf
    rw [← hlf]

theorem Outcome.eq_ok_of_isOk {o : Outcome} (h : o.isOk = true) : o = .ok o.state := by
  cases o with
  | ok s => rfl
  | panic s => simp [Outcome.isOk] at h
  | diverge => simp [Outcome.isOk] at h

theorem String.append_right_cancel' {a b c : String} (h : a ++ c = b ++ c) : a = b := by
  have := congrArg String.data h
  simp only [String.data_append] at this
  exact String.ext (List.append_cancel_right this)

theorem String.append_left_cancel' {a b c : String} (h : a ++ b = a ++ c) : b = c := by
  have := congrArg String.data h
  simp only [String.data_append] at this
  exact String.ext (List.append_cancel_left this)

theorem linked_sameRes {s : State} {n p : Ptr} (h : (s.heap n).Parent = some p) :
    SameRes s (linked s n (some p)) := by
  refine ⟨rfl, fun x => ?_⟩
  simp only [linked]
  rw [set_heap]; split
  · next e => subst e; simp [h]
  · simp

/-! ## `DelRouter` -/

theorem removeChild_sublist (s : State) (id : String) :
    ∀ cs : List Ptr, (removeChild s id cs).Sublist cs := by
  intro cs
  induction cs with
  | nil => exact List.Sublist.slnil
  | cons c cs ih =>
    simp only [removeChild]
    split
    · exact List.sublist_cons_self _ _
    · exact ih.cons₂ _

theorem removeChild_none {s : State} {id : String} :
    ∀ {cs : List Ptr}, (∀ c ∈ cs, (s.heap c).Id ≠ id) → removeChild s id cs = cs := by
  intro cs
  induction cs with
  | nil => intro _; rfl
  | cons c cs ih =>
    intro h
    simp only [removeChild, h c (List.mem_cons_self _ _), if_false,
      ih (fun c' hc' => h c' (List.mem_cons_of_mem _ hc'))]

theorem removeChild_first {s : State} {id : String} {c : Ptr} {b : List Ptr} :
    ∀ {a : List Ptr}, (∀ x ∈ a, (s.heap x).Id ≠ id) → (s.heap c).Id = id →
      removeChild s id (a ++ c :: b) = a ++ b := by
  intro a
  induction a with
  | nil => intro _ hc; simp [removeChild, hc]
  | cons x a ih =>
    intro h hc
    have e := ih (fun y hy => h y (List.mem_cons_of_mem _ hy)) hc
    show removeChild s id (x :: (a ++ c :: b)) = x :: (a ++ b)
    simp only [removeChild, h x (List.mem_cons_self _ _), if_false, e]

theorem removeChild_count (s : State) (id : String) :
    ∀ cs : List Ptr,
      (removeChild s id cs).countP (fun c => decide ((s.heap c).Id = id))
        = cs.countP (fun c => decide ((s.heap c).Id = id)) - 1 := by
  intro cs
  induction cs with
  | nil => rfl
  | cons c cs ih =>
    by_cases hc : (s.heap c).Id = id
    · simp [removeChild, hc, List.countP_cons]
    · simp only [removeChild, hc, if_false, List.countP_cons, decide_False, Bool.false_eq_true,
        Nat.add_zero, ih]

/-- When `d` is the only child with the id, the loop removes one occurrence of `d`. -/
theorem removeChild_count_eq {s : State} {id : String} {d : Ptr} (hid : (s.heap d).Id = id) :
    ∀ cs : List Ptr, (∀ c ∈ cs, (s.heap c).Id = id → c = d) →
      (removeChild s id cs).count d = cs.count d - 1 := by
  intro cs
  induction cs with
  | nil => intro _; rfl
  | cons c cs ih =>
    intro hd
    by_cases hc : (s.heap c).Id = id
    · have := hd c (List.mem_cons_self _ _) hc
      subst this
      simp [removeChild, hc]
    · have hne : c ≠ d := fun e => hc (e ▸ hid)
      simp only [removeChild, hc, if_false, List.count_cons,
        ih (fun c' hc' => hd c' (List.mem_cons_of_mem _ hc'))]
      simp [hne]

theorem forest_sublist {t t' : Ptr → Option (List Ptr)}
    (h : ∀ c l, t c = some l → ∃ l', t' c = some l' ∧ l'.Sublist l) :
    ∀ {cs' cs : List Ptr}, cs'.Sublist cs → ∀ lf, forest t cs = some lf →
      ∃ lf', forest t' cs' = some lf' ∧ lf'.Sublist lf := by
  intro cs' cs hsub
  induction hsub with
  | slnil => intro lf hlf; exact ⟨[], rfl, by simp⟩
  | @cons l₁ l₂ a _ ih =>
    intro lf hlf
    obtain ⟨ta, b, _, hb, rfl⟩ := forest_cons_eq_some.mp hlf
    obtain ⟨lf', h1, h2⟩ := ih b hb
    exact ⟨lf', h1, h2.trans (List.sublist_append_right _ _)⟩
  | @cons₂ l₁ l₂ a _ ih =>
    intro lf hlf
    obtain ⟨ta, b, ha, hb, rfl⟩ := forest_cons_eq_some.mp hlf
    obtain ⟨lf', h1, h2⟩ := ih b hb
    obtain ⟨ta', h3, h4⟩ := h a ta ha
    exact ⟨ta' ++ lf', forest_cons_eq_some.mpr ⟨ta', lf', h3, h1, rfl⟩, h4.append h2⟩

/-- Removing children shrinks the traversal to a sublist. -/
theorem Tree_sublist {s s' : State}
    (h : ∀ x, (s'.heap x).Children.Sublist (s.heap x).Children) :
    ∀ (fuel : Nat) (d : Ptr) (l : List Ptr), Tree fuel s d = some l →
      ∃ l', Tree fuel s' d = some l' ∧ l'.Sublist l := by
  intro fuel
  induction fuel with
  | zero => intro d l hl; simp [Tree] at hl
  | succ f ih =>
    intro d l hl
    obtain ⟨lf, hlf, rfl⟩ := Tree_succ_eq_some.mp hl
    obtain ⟨lf', h1, h2⟩ := forest_sublist (fun c l hc => ih c l hc) (h d) lf hlf
    exact ⟨d :: lf', Tree_succ_eq_some.mpr ⟨lf', h1, rfl⟩, h2.cons₂ _⟩

theorem Tree_closed {s : State} {fuel : Nat} {d : Ptr} {l : List Ptr}
    (hl : Tree fuel s d = some l) {m c : Ptr} (hm : m ∈ l) (hc : c ∈ (s.heap m).Children) :
    c ∈ l := by
  obtain ⟨lm, hlm, _, hsub⟩ := Tree_sub s fuel d l hl m hm
  exact hsub (mem_Tree_of_reach s (Reach.step hc (Reach.refl c)) fuel lm hlm)

theorem DelRouter_eq {s : State} {id : String} {d p : Ptr}
    (hreg : s.dynaRouterMap id = some d) (hpar : (s.heap d).Parent = some p) :
    DelRouter id s = .ok (detached s id p) := by
  simp only [DelRouter, hreg, hpar]
  rfl

/-! ## `path.Clean` and `path.Join` on paths without `..` -/

theorem splitChar_ne_nil (sep : Char) : ∀ l : List Char, splitChar sep l ≠ [] := by
  intro l
  cases l with
  | nil => simp [splitChar]
  | cons c cs =>
    simp only [splitChar]
    split
    · simp
    · split <;> simp

theorem splitChar_cons_ne {sep c : Char} (h : c ≠ sep) (cs : List Char) :
    ∃ w ws, splitChar sep cs = w :: ws ∧ splitChar sep (c :: cs) = (c :: w) :: ws := by
  cases hs : splitChar sep cs with
  | nil => exact absurd hs (splitChar_ne_nil sep cs)
  | cons w ws => exact ⟨w, ws, rfl, by simp [splitChar, h, hs]⟩

theorem splitChar_append (sep : Char) : ∀ a b : List Char,
    splitChar sep (a ++ sep :: b) = splitChar sep a ++ splitChar sep b := by
  intro a
  induction a with
  | nil => intro b; simp [splitChar]
  | cons c cs ih =>
    intro b
    by_cases h : c = sep
    · subst h
      simp [splitChar, ih]
    · obtain ⟨w, ws, h1, h2⟩ := splitChar_cons_ne h cs
      obtain ⟨w', ws', h1', h2'⟩ := splitChar_cons_ne h (cs ++ sep :: b)
      rw [List.cons_append, h2', h2]
      rw [ih, h1] at h1'
      simp only [List.cons_append, List.cons.injEq] at h1'
      rw [← h1'.1, ← h1'.2]
      rfl

theorem splitChar_of_not_mem {sep : Char} : ∀ {e : List Char}, sep ∉ e →
    splitChar sep e = [e] := by
  intro e
  induction e with
  | nil => intro _; rfl
  | cons c cs ih =>
    intro h
    have hc : c ≠ sep := fun e => h (e ▸ List.mem_cons_self _ _)
    have hcs : sep ∉ cs := fun e => h (List.mem_cons_of_mem _ e)
    simp [splitChar, hc, ih hcs]

theorem splitChar_not_mem (sep : Char) : ∀ (l : List Char), ∀ e ∈ splitChar sep l, sep ∉ e := by
  intro l
  induction l with
  | nil => intro e he; simp [splitChar] at he; simp [he]
  | cons c cs ih =>
    intro e he
    by_cases h : c = sep
    · subst h
      simp only [splitChar, if_true, List.mem_cons] at he
      rcases he with rfl | he
      · simp
      · exact ih e he
    · obtain ⟨w, ws, h1, h2⟩ := splitChar_cons_ne h cs
      rw [h2, List.mem_cons] at he
      rcases he with rfl | he
      · have := ih w (by rw [h1]; exact List.mem_cons_self _ _)
        intro hm
        rcases List.mem_cons.mp hm with e | e
        · exact h e.symm
        · exact this e
      · exact ih e (by rw [h1]; exact List.mem_cons_of_mem _ he)

theorem splitSlash_slashJoin : ∀ {es : List (List Char)}, es ≠ [] → (∀ e ∈ es, '/' ∉ e) →
    splitSlash (slashJoin es) = es := by
  intro es
  induction es with
  | nil => intro h; exact absurd rfl h
  | cons e es ih =>
    intro _ hall
    cases es with
    | nil => exact splitChar_of_not_mem (hall e (List.mem_cons_self _ _))
    | cons e' es' =>
      have h1 := splitChar_of_not_mem (hall e (List.mem_cons_self _ _))
      have h2 := ih (List.cons_ne_nil _ _) (fun x hx => hall x (List.mem_cons_of_mem _ hx))
      simp only [splitSlash] at h2 ⊢
      simp only [slashJoin]
      rw [splitChar_append, h1, h2]
      rfl

theorem splitSlash_joinSlash : ∀ {xs : List String}, xs ≠ [] →
    splitSlash (joinSlash xs) = (xs.map (fun x => splitSlash x.data)).flatten := by
  intro xs
  induction xs with
  | nil => intro h; exact absurd rfl h
  | cons x xs ih =>
    intro _
    cases xs with
    | nil => simp [joinSlash]
    | cons y ys =>
      have h2 := ih (List.cons_ne_nil _ _)
      simp only [splitSlash] at h2 ⊢
      simp only [joinSlash]
      rw [splitChar_append, h2]
      simp

/-- Cleaning a sequence of elements without `..` keeps the elements that are
neither empty nor `.`. -/
theorem foldl_cleanStep (r : Bool) : ∀ (l st : List (List Char)), ['.', '.'] ∉ l →
    l.foldl (cleanStep r) st = (l.filter keepElem).reverse ++ st := by
  intro l
  induction l with
  | nil => intro st _; rfl
  | cons e l ih =>
    intro st h
    have he : e ≠ ['.', '.'] := fun e' => h (e' ▸ List.mem_cons_self _ _)
    have hl : ['.', '.'] ∉ l := fun e' => h (List.mem_cons_of_mem _ e')
    rw [List.foldl_cons, ih _ hl]
    by_cases h1 : e = []
    · subst h1; simp [cleanStep, keepElem]
    · by_cases h2 : e = ['.']
      · subst h2; simp [cleanStep, keepElem]
      · have hk : keepElem e = true := by simp [keepElem, h1, h2]
        simp [cleanStep, h1, h2, he, List.filter_cons, hk]

theorem cleanElems_eq {r : Bool} {p : List Char} (h : ['.', '.'] ∉ splitSlash p) :
    cleanElems r p = (splitSlash p).filter keepElem := by
  simp [cleanElems, foldl_cleanStep r _ _ h]

theorem splitSlash_cons_slash (cs : List Char) :
    splitSlash ('/' :: cs) = [] :: splitSlash cs := by
  simp [splitSlash, splitChar]

/-- The normal form of `path.Clean` on a path without `..`. -/
theorem pathClean_eq {x : String} (h : NoDotDot x) :
    pathClean x = cleanForm (rooted x) (pathElems x) := by
  unfold pathClean cleanForm rooted pathElems NoDotDot at *
  cases hx : x.data with
  | nil => simp [splitSlash, splitChar, keepElem]
  | cons c cs =>
    rw [hx] at h
    by_cases hc : c = '/'
    · subst hc
      rw [splitSlash_cons_slash] at h ⊢
      have h' : ['.', '.'] ∉ splitSlash cs := fun e => h (List.mem_cons_of_mem _ e)
      simp [cleanElems_eq h', keepElem]
    · simp only [hc, if_false, beq_iff_eq, Bool.false_eq_true]
      rw [cleanElems_eq h]
      cases List.filter keepElem (splitSlash (c :: cs)) <;> rfl

theorem goodElems_pathElems {x : String} (h : NoDotDot x) : GoodElems (pathElems x) := by
  intro e he
  simp only [pathElems, List.mem_filter] at he
  exact ⟨he.2, fun e' => h (e' ▸ he.1), splitChar_not_mem '/' _ e he.1⟩

theorem GoodElems.append {a b : List (List Char)} (ha : GoodElems a) (hb : GoodElems b) :
    GoodElems (a ++ b) := by
  intro e he
  rcases List.mem_append.mp he with h | h
  · exact ha e h
  · exact hb e h

theorem filter_keep_good {es : List (List Char)} (h : GoodElems es) :
    es.filter keepElem = es :=
  List.filter_eq_self.mpr (fun e he => (h e he).1)

/-- The cleaned form is a path without `..` that has the given elements and
begins with a slash exactly when asked to. -/
theorem cleanForm_spec {r : Bool} {es : List (List Char)} (h : GoodElems es) :
    NoDotDot (cleanForm r es) ∧ pathElems (cleanForm r es) = es ∧
      rooted (cleanForm r es) = r ∧ (cleanForm r es).data ≠ [] := by
  have hsl : ∀ e ∈ es, '/' ∉ e := fun e he => (h e he).2.2
  have hdd : ['.', '.'] ∉ es := fun he => (h _ he).2.1 rfl
  cases r with
  | true =>
    simp only [cleanForm, if_true, NoDotDot, pathElems, rooted, splitSlash_cons_slash]
    cases es with
    | nil => simp [slashJoin, splitSlash, splitChar, keepElem]
    | cons e es' =>
      rw [splitSlash_slashJoin (List.cons_ne_nil _ _) hsl]
      refine ⟨?_, ?_, by simp, by simp⟩
      · intro hm
        rcases List.mem_cons.mp hm with e' | e'
        · simp at e'
        · exact hdd e'
      · have hnil : keepElem [] = false := rfl
        rw [List.filter_cons, hnil]
        exact filter_keep_good h
  | false =>
    cases es with
    | nil => simp [cleanForm, NoDotDot, pathElems, rooted, splitSlash, splitChar, keepElem]
    | cons e es' =>
      simp only [cleanForm, Bool.false_eq_true, if_false, NoDotDot, pathElems, rooted]
      rw [splitSlash_slashJoin (List.cons_ne_nil _ _) hsl]
      refine ⟨hdd, filter_keep_good h, ?_, ?_⟩
      · have he := h e (List.mem_cons_self _ _)
        cases e with
        | nil => simp [keepElem] at he
        | cons c cs =>
          have hc : c ≠ '/' := fun e' => he.2.2 (e' ▸ List.mem_cons_self _ _)
          cases es' <;> simp [slashJoin, hc]
      · have he := h e (List.mem_cons_self _ _)
        cases e with
        | nil => simp [keepElem] at he
        | cons c cs => cases es' <;> simp [slashJoin]

theorem pathElems_of_empty {x : String} (h : x.data = []) : pathElems x = [] := by
  simp [pathElems, h, splitSlash, splitChar, keepElem]

theorem noDotDot_of_empty {x : String} (h : x.data = []) : NoDotDot x := by
  simp [NoDotDot, h, splitSlash, splitChar]

theorem rooted_of_empty {x : String} (h : x.data = []) : rooted x = false := by
  simp [rooted, h]

theorem filter_flatten' {α : Type} (p : α → Bool) : ∀ L : List (List α),
    L.flatten.filter p = (L.map (List.filter p)).flatten := by
  intro L
  induction L with
  | nil => rfl
  | cons l L ih => simp [List.filter_append, ih]

theorem joinSlash_facts {x : String} {xs : List String} (hx : x.data ≠ [])
    (h : ∀ y ∈ x :: xs, NoDotDot y) :
    NoDotDot ⟨joinSlash (x :: xs)⟩ ∧
      pathElems ⟨joinSlash (x :: xs)⟩ = ((x :: xs).map pathElems).flatten ∧
      rooted ⟨joinSlash (x :: xs)⟩ = rooted x := by
  have hsplit := @splitSlash_joinSlash (x :: xs) (List.cons_ne_nil _ _)
  refine ⟨?_, ?_, ?_⟩
  · simp only [NoDotDot]
    rw [hsplit]
    intro hm
    obtain ⟨l, hl, hml⟩ := List.mem_flatten.mp hm
    obtain ⟨y, hy, rfl⟩ := List.mem_map.mp hl
    exact h y hy hml
  · simp only [pathElems]
    rw [hsplit, filter_flatten', List.map_map]
    rfl
  · cases hd : x.data with
    | nil => exact absurd hd hx
    | cons c cs =>
      cases xs with
      | nil => simp [rooted, joinSlash, hd]
      | cons y ys => simp [rooted, joinSlash, hd]

/-- Go `path.Join` on strings without `..`. -/
theorem pathJoin_facts : ∀ (xs : List String), (∀ y ∈ xs, NoDotDot y) →
    NoDotDot (pathJoin xs) ∧ pathElems (pathJoin xs) = (xs.map pathElems).flatten ∧
      rooted (pathJoin xs) = firstRooted xs ∧
      pathClean (pathJoin xs) = cleanForm (firstRooted xs) (xs.map pathElems).flatten := by
  intro xs
  induction xs with
  | nil =>
    intro _
    exact ⟨noDotDot_of_empty rfl, pathElems_of_empty rfl, rfl, rfl⟩
  | cons x xs ih =>
    intro h
    by_cases hx : x.data = []
    · obtain ⟨h1, h2, h3, h4⟩ := ih (fun y hy => h y (List.mem_cons_of_mem _ hy))
      simp only [pathJoin, hx, if_true, firstRooted, List.map_cons, List.flatten_cons,
        pathElems_of_empty hx, List.nil_append]
      exact ⟨h1, h2, h3, h4⟩
    · obtain ⟨j1, j2, j3⟩ := joinSlash_facts hx h
      have hg : GoodElems ((x :: xs).map pathElems).flatten := by
        rw [← j2]; exact goodElems_pathElems j1
      obtain ⟨c1, c2, c3, _⟩ := @cleanForm_spec (rooted x) _ hg
      have hclean : pathClean ⟨joinSlash (x :: xs)⟩
          = cleanForm (rooted x) ((x :: xs).map pathElems).flatten := by
        rw [pathClean_eq j1, j2, j3]
      simp only [pathJoin, hx, if_false, firstRooted]
      rw [hclean]
      refine ⟨c1, c2, c3, ?_⟩
      rw [pathClean_eq c1, c2, c3]

theorem firstRooted_cons {x : String} (hx : x.data ≠ []) (xs : List String) :
    firstRooted (x :: xs) = rooted x := by
  simp [firstRooted, hx]

theorem pathSegs_cons (s : State) (d : Ptr) (path : List Ptr) :
    pathSegs s (d :: path) = (s.heap d).Prefix :: (s.heap d).Param :: pathSegs s path := by
  simp [pathSegs]

theorem noDotDot_pathSegs {s : State} : ∀ {path : List Ptr},
    (∀ d ∈ path, NoDotDot (s.heap d).Prefix ∧ NoDotDot (s.heap d).Param) →
    ∀ y ∈ pathSegs s path, NoDotDot y := by
  intro path
  induction path with
  | nil => intro _ y hy; simp [pathSegs] at hy
  | cons d path ih =>
    intro h y hy
    rw [pathSegs_cons] at hy
    rcases List.mem_cons.mp hy with rfl | hy
    · exact (h d (List.mem_cons_self _ _)).1
    · rcases List.mem_cons.mp hy with rfl | hy
      · exact (h d (List.mem_cons_self _ _)).2
      · exact ih (fun d' hd' => h d' (List.mem_cons_of_mem _ hd')) y hy

/-- Without `..` the nested resolution down a path is the cleaned join of all
segments of the path. -/
theorem nestedUrl_eq_flatUrl {s : State} {r : Ptr} {rest : List Ptr}
    (hr : (s.heap r).Prefix.data ≠ [])
    (h : ∀ d ∈ r :: rest, NoDotDot (s.heap d).Prefix ∧ NoDotDot (s.heap d).Param) :
    nestedUrl s (r :: rest) = flatUrl s (r :: rest) := by
  have hflat : ∀ path : List Ptr,
      (∀ d ∈ r :: path, NoDotDot (s.heap d).Prefix ∧ NoDotDot (s.heap d).Param) →
      flatUrl s (r :: path)
        = cleanForm (rooted (s.heap r).Prefix) ((pathSegs s (r :: path)).map pathElems).flatten := by
    intro path hp
    rw [flatUrl, (pathJoin_facts _ (noDotDot_pathSegs hp)).2.2.2, pathSegs_cons,
      firstRooted_cons hr]
  have loop : ∀ (rest : List Ptr) (acc : String) (es : List (List Char)),
      (∀ d ∈ rest, NoDotDot (s.heap d).Prefix ∧ NoDotDot (s.heap d).Param) →
      GoodElems es → acc = cleanForm (rooted (s.heap r).Prefix) es →
      rest.foldl (fun pu d => pathClean (pathJoin [pu, localUrl s d])) acc
        = cleanForm (rooted (s.heap r).Prefix)
            (es ++ ((pathSegs s rest).map pathElems).flatten) := by
    intro rest
    induction rest with
    | nil => intro acc es _ _ hacc; simp [pathSegs, hacc]
    | cons d rest ih =>
      intro acc es hp hes hacc
      have hd := hp d (List.mem_cons_self _ _)
      obtain ⟨a1, a2, a3, a4⟩ := @cleanForm_spec (rooted (s.heap r).Prefix) es hes
      rw [← hacc] at a1 a2 a3 a4
      have hl := pathJoin_facts [(s.heap d).Prefix, (s.heap d).Param]
        (fun y hy => by
          rcases List.mem_cons.mp hy with rfl | hy
          · exact hd.1
          · rw [List.mem_singleton.mp hy]; exact hd.2)
      have hj := pathJoin_facts [acc, localUrl s d]
        (fun y hy => by
          rcases List.mem_cons.mp hy with rfl | hy
          · exact a1
          · rw [List.mem_singleton.mp hy]; exact hl.1)
      have hes' : GoodElems (es ++ (pathElems (s.heap d).Prefix ++ pathElems (s.heap d).Param)) :=
        hes.append ((goodElems_pathElems hd.1).append (goodElems_pathElems hd.2))
      rw [List.foldl_cons]
      rw [ih _ (es ++ (pathElems (s.heap d).Prefix ++ pathElems (s.heap d).Param))
        (fun d' hd' => hp d' (List.mem_cons_of_mem _ hd')) hes']
      · rw [pathSegs_cons]
        simp [List.append_assoc]
      · rw [hj.2.2.2, firstRooted_cons a4, a3]
        simp only [List.map_cons, List.map_nil, List.flatten_cons, List.flatten_nil,
          List.append_nil, a2, localUrl, hl.2.1]
  have hr0 := pathJoin_facts [(s.heap r).Prefix, (s.heap r).Param]
    (fun y hy => by
      have hd := h r (List.mem_cons_self _ _)
      rcases List.mem_cons.mp hy with rfl | hy
      · exact hd.1
      · rw [List.mem_singleton.mp hy]; exact hd.2)
  have hd := h r (List.mem_cons_self _ _)
  rw [hflat rest h, nestedUrl,
    loop rest _ (pathElems (s.heap r).Prefix ++ pathElems (s.heap r).Param)
      (fun d' hd' => h d' (List.mem_cons_of_mem _ hd'))
      ((goodElems_pathElems hd.1).append (goodElems_pathElems hd.2))
      (by rw [localUrl, hr0.2.2.2, firstRooted_cons hr]; simp)]
  rw [pathSegs_cons]
  simp [List.append_assoc]

/-! ## Trees built by the builders and the attach operations -/

theorem TreePath.head {s : State} {path : List Ptr} {n : Ptr} (h : TreePath s path n) :
    ∃ rest, path = DefDynaRouter :: rest := by
  induction h with
  | root => exact ⟨[], rfl⟩
  | @child path m c _ _ _ ih =>
    obtain ⟨rest, rfl⟩ := ih
    exact ⟨rest ++ [c], by simp⟩

theorem TreePath.last_mem {s : State} {path : List Ptr} {n : Ptr} (h : TreePath s path n) :
    n ∈ path := by
  cases h with
  | root => exact List.mem_singleton_self _
  | child _ _ _ => exact List.mem_append_right _ (List.mem_singleton_self _)

theorem Reach.tail {s : State} {a m c : Ptr} (hr : Reach s a m)
    (hc : c ∈ (s.heap m).Children) : Reach s a c := by
  induction hr with
  | refl d => exact Reach.step hc (Reach.refl c)
  | step hd _ ih => exact Reach.step hd (ih hc)

theorem TreePath.reach {s : State} {path : List Ptr} {n : Ptr} (h : TreePath s path n) :
    Reach s DefDynaRouter n := by
  induction h with
  | root => exact Reach.refl _
  | child _ hc _ ih => exact ih.tail hc

theorem nestedUrl_snoc (s : State) {path : List Ptr} (hne : path ≠ []) (c : Ptr) :
    nestedUrl s (path ++ [c]) = pathClean (pathJoin [nestedUrl s path, localUrl s c]) := by
  cases path with
  | nil => exact absurd rfl hne
  | cons r rest => simp [nestedUrl, List.foldl_append]

theorem nestedUrl_congr {s s' : State} : ∀ {path : List Ptr},
    (∀ d ∈ path, (s'.heap d).Prefix = (s.heap d).Prefix ∧ (s'.heap d).Param = (s.heap d).Param) →
    nestedUrl s' path = nestedUrl s path := by
  intro path h
  cases path with
  | nil => rfl
  | cons r rest =>
    have hl : ∀ d ∈ r :: rest, localUrl s' d = localUrl s d := by
      intro d hd
      simp only [localUrl, (h d hd).1, (h d hd).2]
    simp only [nestedUrl]
    rw [hl r (List.mem_cons_self _ _)]
    have hrest : ∀ d ∈ rest, localUrl s' d = localUrl s d :=
      fun d hd => hl d (List.mem_cons_of_mem _ hd)
    generalize pathClean (localUrl s r) = acc
    induction rest generalizing acc with
    | nil => rfl
    | cons d rest ih =>
      simp only [List.foldl_cons]
      rw [hrest d (List.mem_cons_self _ _)]
      exact ih (fun d' hd' => h d' (by
        rcases List.mem_cons.mp hd' with e | e
        · exact e ▸ List.mem_cons_self _ _
        · exact List.mem_cons_of_mem _ (List.mem_cons_of_mem _ e)))
        (fun d' hd' => hl d' (by
        rcases List.mem_cons.mp hd' with e | e
        · exact e ▸ List.mem_cons_self _ _
        · exact List.mem_cons_of_mem _ (List.mem_cons_of_mem _ e)))
        (fun d' hd' => hrest d' (List.mem_cons_of_mem _ hd')) _

/-- Along a tree path the parent chain is the path, so `resolve` computes the
nested `Url` of the path. -/
theorem TreePath.resolve_nested {s : State} (hroot : (s.heap DefDynaRouter).Parent = none)
    {path : List Ptr} {n : Ptr} (h : TreePath s path n) :
    resolve path.length s n = some (nestedUrl s path) := by
  induction h with
  | root => exact resolve_succ_none hroot
  | @child path m c hp _ hpar ih =>
    obtain ⟨rest, hrest⟩ := hp.head
    have hne : path ≠ [] := by rw [hrest]; exact List.cons_ne_nil _ _
    rw [List.length_append, List.length_singleton, resolve_succ_some hpar, ih,
      nestedUrl_snoc s hne]
    rfl

/-- A tree path of `s'` whose steps are steps of `s` is a tree path of `s`. -/
theorem TreePath.pull_back {s s' : State} {Q : Ptr → Prop} (hroot : Q DefDynaRouter)
    (hstep : ∀ m c, Q m → c ∈ (s'.heap m).Children → (s'.heap c).Parent = some m →
      c ∈ (s.heap m).Children ∧ (s.heap c).Parent = some m ∧ Q c)
    {path : List Ptr} {n : Ptr} (h : TreePath s' path n) :
    TreePath s path n ∧ ∀ d ∈ path, Q d := by
  induction h with
  | root => exact ⟨TreePath.root, fun d hd => (List.mem_singleton.mp hd) ▸ hroot⟩
  | @child path m c hp hc hpar ih =>
    obtain ⟨ih1, ih2⟩ := ih
    obtain ⟨a, b, q⟩ := hstep m c (ih2 m hp.last_mem) hc hpar
    refine ⟨TreePath.child ih1 a b, fun d hd => ?_⟩
    rcases List.mem_append.mp hd with e | e
    · exact ih2 d e
    · exact (List.mem_singleton.mp e) ▸ q

theorem setParents_next (p : Ptr) (cs : List Ptr) (s : State) :
    (setParents p cs s).next = s.next := (setParents_rest p cs s).1

theorem setParents_map (p : Ptr) (cs : List Ptr) (s : State) :
    (setParents p cs s).dynaRouterMap = s.dynaRouterMap := (setParents_rest p cs s).2.1

/-- More about a call of `SetRouter` that returned: nothing is allocated, and a
node whose `Url` was resolved before keeps it. -/
theorem SetRouter_more {u : Utils} {fuel : Nat} {pid : String} {n p : Ptr} {s s' : State}
    (hreg : s.dynaRouterMap pid = some p) (h : SetRouter u fuel pid n s = .ok s') :
    s'.next = s.next ∧
      ∀ x g, resolve g (linked s n (some p)) x = some (s.heap x).Url →
        (s'.heap x).Url = (s.heap x).Url := by
  obtain ⟨s₁, h₁, rfl⟩ := SetRouter_inv hreg h
  obtain ⟨l, hl, hP⟩ := init_spec u fuel n _ s₁ h₁
  have hS := attached_sameRes s₁ n p
  refine ⟨hP.frame.1, ?_⟩
  intro x g hx
  have hlu : ((linked s n (some p)).heap x).Url = (s.heap x).Url := by
    simp only [linked]
    rw [set_heap]; split
    · next e => rw [e]
    · rfl
  have := hP.urlStable x g (by rw [hlu]; exact hx)
  rw [(hS.2 x).2.2.2.2.1, register_heap, this, hlu]

theorem Match_state (u : Utils) (methods : List String) (name description : String)
    (handler : HandlerFunc) (param : List String) (s : State) :
    ∃ d : DynaRouter, d.Children = [] ∧ d.Parent = none ∧
      (Match u methods name description handler param s).2.heap = Function.update s.heap s.next d ∧
      (Match u methods name description handler param s).2.next = s.next + 1 ∧
      (Match u methods name description handler param s).2.dynaRouterMap = s.dynaRouterMap := by
  by_cases h : methods.length = 0
  · refine ⟨(Match u methods name description handler param s).2.heap s.next, ?_, ?_, ?_, ?_, ?_⟩
      <;> simp [Match, logError, h, route, State.alloc]
  · refine ⟨(Match u methods name description handler param s).2.heap s.next, ?_, ?_, ?_, ?_, ?_⟩
      <;> simp [Match, logError, h, route, State.alloc]

/-- The invariant survives a step that only allocates above `s.next` and, on
old nodes, writes at most a `Parent` pointing to a new node. -/
theorem BuiltInv.extend {s s' : State} (hI : BuiltInv s) (hnext : s.next ≤ s'.next)
    (hmap : s'.dynaRouterMap = s.dynaRouterMap)
    (hrp : (s'.heap DefDynaRouter).Parent = none)
    (hold : ∀ x, x < s.next → (s'.heap x).Children = (s.heap x).Children ∧
      (s'.heap x).Prefix = (s.heap x).Prefix ∧ (s'.heap x).Param = (s.heap x).Param ∧
      (s'.heap x).Url = (s.heap x).Url ∧
      ((s'.heap x).Parent = (s.heap x).Parent ∨ ∃ q, s.next ≤ q ∧ (s'.heap x).Parent = some q))
    (hnew : ∀ x c, s.next ≤ x → c ∈ (s'.heap x).Children → c < s'.next)
    (hpl : ∀ m c, m < s'.next → c ∈ (s'.heap m).Children → (s'.heap c).Parent = some m) :
    BuiltInv s' where
  parentLinked := hpl
  rootPrefix := by rw [(hold DefDynaRouter hI.nextPos).2.1]; exact hI.rootPrefix
  rootParam := by rw [(hold DefDynaRouter hI.nextPos).2.2.1]; exact hI.rootParam
  rootParent := hrp
  nextPos := Nat.lt_of_lt_of_le hI.nextPos hnext
  closed := fun x c hc => by
    by_cases hx : x < s.next
    · rw [(hold x hx).1] at hc
      exact Nat.lt_of_lt_of_le (hI.closed x c hc) hnext
    · exact hnew x c (Nat.le_of_not_lt hx) hc
  resolved := fun hk path n hp => by
    rw [hmap] at hk
    have ht := TreePath.pull_back (s := s) (Q := fun x => x < s.next) hI.nextPos
      (fun m c hm hc hpar => by
        rw [(hold m hm).1] at hc
        have hcn := hI.closed m c hc
        refine ⟨hc, ?_, hcn⟩
        rcases (hold c hcn).2.2.2.2 with e | ⟨q, hq, e⟩
        · rw [← e]; exact hpar
        · rw [e] at hpar
          have : q = m := Option.some.inj hpar
          exact absurd hm (Nat.not_lt.mpr (this ▸ hq))) hp
    rw [(hold n (ht.2 n hp.last_mem)).2.2.2.1, hI.resolved hk path n ht.1]
    exact (nestedUrl_congr (fun d hd => ⟨(hold d (ht.2 d hd)).2.1, (hold d (ht.2 d hd)).2.2.1⟩)).symm

theorem BuiltInv.start : BuiltInv initState where
  rootPrefix := rfl
  rootParam := rfl
  rootParent := rfl
  nextPos := Nat.one_pos
  closed := fun x c hc => by
    have hd : (default : DynaRouter).Children = [] := rfl
    simp only [initState] at hc
    split at hc
    · simp at hc
    · rw [hd] at hc; simp at hc
  parentLinked := fun x c _ hc => by
    have hd : (default : DynaRouter).Children = [] := rfl
    simp only [initState] at hc
    split at hc
    · simp at hc
    · rw [hd] at hc; simp at hc
  resolved := fun ⟨k, hk⟩ => absurd rfl hk

theorem BuiltInv.handler {u : Utils} {s : State} (hI : BuiltInv s) (methods : List String)
    (name description : String) (handler : HandlerFunc) (param : List String) :
    BuiltInv (Match u methods name description handler param s).2 := by
  obtain ⟨d, hd1, hd2, hheap, hnext, hmap⟩ :=
    Match_state u methods name description handler param s
  have hx : ∀ x, x < s.next →
      (Match u methods name description handler param s).2.heap x = s.heap x := by
    intro x hx
    rw [hheap, Function.update_noteq (Nat.ne_of_lt hx)]
  refine hI.extend (by rw [hnext]; exact Nat.le_succ _) hmap
    (by rw [hx DefDynaRouter hI.nextPos]; exact hI.rootParent) ?_ ?_ ?_
  · intro x hxl
    rw [hx x hxl]
    exact ⟨rfl, rfl, rfl, rfl, Or.inl rfl⟩
  · intro x c hxl hc
    by_cases e : x = s.next
    · rw [hheap, e, Function.update_same, hd1] at hc
      simp at hc
    · rw [hheap, Function.update_noteq e] at hc
      rw [hnext]
      exact Nat.lt_succ_of_lt (hI.closed x c hc)
  · intro m c hm hc
    by_cases e : m = s.next
    · rw [hheap, e, Function.update_same, hd1] at hc
      simp at hc
    · have hml : m < s.next := by
        rw [hnext] at hm
        exact Nat.lt_of_le_of_ne (Nat.le_of_lt_succ hm) e
      rw [hx m hml] at hc
      rw [hx c (hI.closed m c hc)]
      exact hI.parentLinked m c hml hc

theorem BuiltInv.sub {s : State} (hI : BuiltInv s) (pfx name description : String)
    (cs : List Ptr) (hcs : ∀ c ∈ cs, c < s.next) (hroot : DefDynaRouter ∉ cs)
    (hfree : ∀ c ∈ cs, ∀ x, x < s.next → c ∉ (s.heap x).Children) :
    BuiltInv (SubRouter pfx name description cs s).2 := by
  have hheap : ∀ x, (SubRouter pfx name description cs s).2.heap x
      = if x ∈ cs then { (s.alloc
            { Prefix := pathClean ("/" ++ pfx), Kind := GROUP, Name := name,
              Description := description, Middlewares := [], Children := cs,
              Enable := true }).2.heap x with Parent := some s.next }
        else (s.alloc
            { Prefix := pathClean ("/" ++ pfx), Kind := GROUP, Name := name,
              Description := description, Middlewares := [], Children := cs,
              Enable := true }).2.heap x := by
    intro x
    simp only [SubRouter, setParents_heap]
    rfl
  have hold : ∀ x, x < s.next → (s.alloc
      { Prefix := pathClean ("/" ++ pfx), Kind := GROUP, Name := name,
        Description := description, Middlewares := [], Children := cs,
        Enable := true }).2.heap x = s.heap x := by
    intro x hx
    simp only [State.alloc]
    rw [Function.update_noteq (Nat.ne_of_lt hx)]
  have hnext : (SubRouter pfx name description cs s).2.next = s.next + 1 := by
    simp only [SubRouter, setParents_next]
    rfl
  have hmap : (SubRouter pfx name description cs s).2.dynaRouterMap = s.dynaRouterMap := by
    simp only [SubRouter, setParents_map]
    rfl
  have hchild : ∀ x, ((SubRouter pfx name description cs s).2.heap x).Children
      = ((s.alloc
            { Prefix := pathClean ("/" ++ pfx), Kind := GROUP, Name := name,
              Description := description, Middlewares := [], Children := cs,
              Enable := true }).2.heap x).Children := by
    intro x
    rw [hheap]
    split <;> rfl
  refine hI.extend (by rw [hnext]; exact Nat.le_succ _) hmap ?_ ?_ ?_ ?_
  rotate_left 3
  · intro m c hm hc
    rw [hchild] at hc
    by_cases e : m = s.next
    · simp only [State.alloc] at hc
      rw [e, Function.update_same] at hc
      rw [hheap, if_pos hc, e]
    · have hml : m < s.next := by
        rw [hnext] at hm
        exact Nat.lt_of_le_of_ne (Nat.le_of_lt_succ hm) e
      rw [hold m hml] at hc
      have hcn := hI.closed m c hc
      have hccs : c ∉ cs := fun h' => hfree c h' m hml hc
      rw [hheap, if_neg hccs, hold c hcn]
      exact hI.parentLinked m c hml hc
  · rw [hheap, if_neg hroot, hold DefDynaRouter hI.nextPos]
    exact hI.rootParent
  · intro x hx
    rw [hheap]
    split
    · rw [hold x hx]
      exact ⟨rfl, rfl, rfl, rfl, Or.inr ⟨s.next, le_refl _, rfl⟩⟩
    · rw [hold x hx]
      exact ⟨rfl, rfl, rfl, rfl, Or.inl rfl⟩
  · intro x c hx hc
    have hxcs : x ∉ cs := fun e => absurd (hcs x e) (Nat.not_lt.mpr hx)
    rw [hheap, if_neg hxcs] at hc
    simp only [State.alloc] at hc
    rw [hnext]
    by_cases e : x = s.next
    · rw [e, Function.update_same] at hc
      exact Nat.lt_succ_of_lt (hcs c hc)
    · rw [Function.update_noteq e] at hc
      exact Nat.lt_succ_of_lt (hI.closed x c hc)

theorem TreePath.congr_on {s s' : State} {path : List Ptr} {n : Ptr} (h : TreePath s path n)
    (heq : ∀ d ∈ path, s'.heap d = s.heap d) : TreePath s' path n := by
  induction h with
  | root => exact TreePath.root
  | @child path m c hp hc hpar ih =>
    have hm := heq m (List.mem_append_left _ hp.last_mem)
    have hc' := heq c (List.mem_append_right _ (List.mem_singleton_self _))
    exact TreePath.child (ih (fun d hd => heq d (List.mem_append_left _ hd)))
      (by rw [hm]; exact hc) (by rw [hc']; exact hpar)

theorem rootLinked_heap (ns : List Ptr) (s : State) (x : Ptr) :
    (rootLinked ns s).heap x
      = if x ∈ ns then
          { (s.set DefDynaRouter ((s.heap DefDynaRouter).withChildren
              ((s.heap DefDynaRouter).Children ++ ns))).heap x with
            Parent := some DefDynaRouter }
        else (s.set DefDynaRouter ((s.heap DefDynaRouter).withChildren
              ((s.heap DefDynaRouter).Children ++ ns))).heap x := by
  simp only [rootLinked, setParents_heap]
  rfl

theorem BuiltInv.root {u : Utils} {s s' : State} (hI : BuiltInv s) (fuel : Nat)
    (ns : List Ptr) (hns : ∀ c ∈ ns, c < s.next) (hroot : DefDynaRouter ∉ ns)
    (hfree : ∀ c ∈ ns, ∀ x, x < s.next → c ∈ (s.heap x).Children → x = DefDynaRouter)
    (h : RootRouter u fuel ns s = some s') : BuiltInv s' := by
  rw [RootRouter_eq] at h
  obtain ⟨l, hl, hP⟩ := init_spec u fuel DefDynaRouter _ s' h
  have h0 : (rootLinked ns s).heap DefDynaRouter
      = (s.heap DefDynaRouter).withChildren ((s.heap DefDynaRouter).Children ++ ns) := by
    rw [rootLinked_heap, if_neg hroot, set_heap_same]
  have hch : ∀ x, x ≠ DefDynaRouter →
      ((rootLinked ns s).heap x).Children = (s.heap x).Children := by
    intro x hx
    rw [rootLinked_heap]
    split
    · rw [set_heap_ne _ _ hx]
    · rw [set_heap_ne _ _ hx]
  have hnext : s'.next = s.next := by
    rw [hP.frame.1]
    simp only [rootLinked, setParents_next]
    rfl
  have hrp : (s'.heap DefDynaRouter).Parent = none := by
    rw [hP.frame.parent, h0]; exact hI.rootParent
  have hpar0 : ∀ c, ((rootLinked ns s).heap c).Parent
      = if c ∈ ns then some DefDynaRouter else (s.heap c).Parent := by
    intro c
    rw [rootLinked_heap]
    split
    · rfl
    · rw [set_heap]
      split
      · next e => rw [e]; rfl
      · rfl
  refine ⟨?_, ?_, hrp, by rw [hnext]; exact hI.nextPos, ?_, ?_, ?_⟩
  · rw [hP.frame.pfx, h0]; exact hI.rootPrefix
  · rw [hP.frame.param, h0]; exact hI.rootParam
  · intro x c hc
    rw [hnext]
    rw [hP.frame.children] at hc
    by_cases hx : x = DefDynaRouter
    · rw [hx, h0] at hc
      rcases List.mem_append.mp hc with e | e
      · exact hI.closed _ c e
      · exact hns c e
    · rw [hch x hx] at hc
      exact hI.closed x c hc
  · intro m c hm hc
    rw [hnext] at hm
    rw [hP.frame.children] at hc
    rw [hP.frame.parent, hpar0]
    by_cases hx : m = DefDynaRouter
    · rw [hx, h0] at hc
      rw [hx]
      split
      · rfl
      · next hcn =>
        rcases List.mem_append.mp hc with e | e
        · exact hI.parentLinked _ c hI.nextPos e
        · exact absurd e hcn
    · rw [hch m hx] at hc
      have hcn : c ∉ ns := fun e => hx (hfree c e m hm hc)
      rw [if_neg hcn]
      exact hI.parentLinked m c hm hc
  · intro _ path n hp
    have hT : Tree fuel s' DefDynaRouter = some l := by rw [hP.frame.tree]; exact hl
    obtain ⟨⟨g, hg⟩, _⟩ := (hP.done n (mem_Tree_of_reach s' hp.reach fuel l hT)).1
    exact resolve_det hg (hp.resolve_nested hrp)

theorem BuiltInv.set {u : Utils} {s s' : State} (hI : BuiltInv s) (fuel : Nat) (pid : String)
    (n p : Ptr) (hn : n < s.next) (hnr : n ≠ DefDynaRouter)
    (hfree : ∀ x, x < s.next → n ∈ (s.heap x).Children → x = p)
    (hreg : s.dynaRouterMap pid = some p) (h : SetRouter u fuel pid n s = .ok s') :
    BuiltInv s' := by
  obtain ⟨l, hl, hd, _, _, hch, hchp, hfields, hpn, hpar⟩ := SetRouter_facts hreg h
  obtain ⟨hnext, hurl⟩ := SetRouter_more hreg h
  have hrp : (s'.heap DefDynaRouter).Parent = none := by
    rw [hpar _ (Ne.symm hnr)]; exact hI.rootParent
  have hmemp : ∀ c, c ∈ (s'.heap p).Children → c = n ∨ c ∈ (s.heap p).Children := by
    intro c hc
    rw [hchp] at hc
    exact attachChild_mem hc
  have hstep : ∀ m c, c ∈ (s'.heap m).Children → c = n ∨ c ∈ (s.heap m).Children := by
    intro m c hc
    by_cases hm : m = p
    · rw [hm] at hc ⊢; exact hmemp c hc
    · rw [hch m hm] at hc; exact Or.inr hc
  refine ⟨?_, ?_, hrp, by rw [hnext]; exact hI.nextPos, ?_, ?_, ?_⟩
  · rw [(hfields _).1]; exact hI.rootPrefix
  · rw [(hfields _).2.1]; exact hI.rootParam
  · intro x c hc
    rw [hnext]
    rcases hstep x c hc with e | e
    · rw [e]; exact hn
    · exact hI.closed x c e
  · intro m c hm hc
    rw [hnext] at hm
    by_cases hcn : c = n
    · rw [hcn] at hc ⊢
      rw [hpn]
      by_cases hmp : m = p
      · rw [hmp]
      · rw [hch m hmp] at hc
        exact absurd (hfree m hm hc) hmp
    · rw [hpar c hcn]
      exact hI.parentLinked m c hm ((hstep m c hc).resolve_left hcn)
  · intro _ path x hp
    have hres := hI.resolved ⟨pid, by rw [hreg]; simp⟩
    by_cases hmem : n ∈ path
    · -- the path runs through the attached node: `x` lies in its traversal
      have hxl : x ∈ l := by
        clear hres
        induction hp with
        | root => exact absurd (List.mem_singleton.mp hmem) hnr
        | @child path m c hp' hc _ ih =>
          rcases List.mem_append.mp hmem with e | e
          · have hml := ih e
            rcases hstep m c hc with e' | e'
            · rw [e']; exact mem_Tree_self hl
            · exact Tree_closed hl hml e'
          · rw [← List.mem_singleton.mp e]; exact mem_Tree_self hl
      obtain ⟨⟨g, hg⟩, _⟩ := (hd x hxl).1
      exact resolve_det hg (hp.resolve_nested hrp)
    · -- the path avoids the attached node: it is a path of the state before
      have hold : TreePath s path x := by
        clear hres
        induction hp with
        | root => exact TreePath.root
        | @child path m c hp' hc hpc ih =>
          have hn1 : n ∉ path := fun e => hmem (List.mem_append_left _ e)
          have hcn : c ≠ n := fun e =>
            hmem (List.mem_append_right _ (e ▸ List.mem_singleton_self _))
          refine TreePath.child (ih hn1) ((hstep m c hc).resolve_left hcn) ?_
          rw [← hpar c hcn]; exact hpc
      have heq : ∀ d ∈ path, (linked s n (some p)).heap d = s.heap d :=
        fun d hd => linked_heap_ne s _ (fun e => hmem (e ▸ hd))
      have hlp : ((linked s n (some p)).heap DefDynaRouter).Parent = none := by
        rw [linked_heap_ne s _ (Ne.symm hnr)]; exact hI.rootParent
      have hr := (hold.congr_on heq).resolve_nested hlp
      rw [nestedUrl_congr (s := s) (fun d hd => by rw [heq d hd]; exact ⟨rfl, rfl⟩),
        ← hres path x hold] at hr
      rw [hurl x _ hr, hres path x hold]
      exact (nestedUrl_congr (fun d _ => ⟨(hfields d).1, (hfields d).2.1⟩)).symm

/-- In a built state every path from the root through `Children` is a tree path. -/
theorem BuiltInv.treePath {s : State} (hI : BuiltInv s) {path : List Ptr} {n : Ptr}
    (h : RootPath s path n) : TreePath s path n ∧ n < s.next := by
  induction h with
  | root => exact ⟨TreePath.root, hI.nextPos⟩
  | child _ hc ih => exact ⟨TreePath.child ih.1 hc (hI.parentLinked _ _ ih.2 hc), hI.closed _ _ hc⟩

theorem Option.eq_some_getD {α : Type} {o : Option α} (d : α) (h : o.isSome = true) :
    o = some (o.getD d) := by
  cases o with
  | none => simp at h
  | some a => rfl

theorem reChild_self (a : State) : reChild a (fun x => (a.heap x).Children) = a := rfl

theorem set_children_eq (a : State) (p : Ptr) (cs : List Ptr) :
    a.set p { a.heap p with Children := cs }
      = reChild a (fun x => if x = p then cs else (a.heap x).Children) := by
  simp only [State.set, reChild, State.mk.injEq, and_true, true_and]
  funext x
  by_cases hx : x = p
  · subst hx; simp
  · simp [Function.update_noteq hx, hx]

/-- The invariant survives a step that leaves the registry and, on the old
nodes, the fields that resolution reads, and after which the new nodes have no
children. -/
theorem BuiltInv.alloc_leaf {s s' : State} (hI : BuiltInv s) (hnext : s.next ≤ s'.next)
    (hmap : s'.dynaRouterMap = s.dynaRouterMap)
    (hold : ∀ x, x < s.next → (s'.heap x).Children = (s.heap x).Children ∧
      (s'.heap x).Prefix = (s.heap x).Prefix ∧ (s'.heap x).Param = (s.heap x).Param ∧
      (s'.heap x).Url = (s.heap x).Url ∧ (s'.heap x).Parent = (s.heap x).Parent)
    (hleaf : ∀ x, s.next ≤ x → (s'.heap x).Children = []) : BuiltInv s' := by
  refine hI.extend hnext hmap ?_ ?_ ?_ ?_
  · rw [(hold _ hI.nextPos).2.2.2.2]; exact hI.rootParent
  · intro x hx
    obtain ⟨h1, h2, h3, h4, h5⟩ := hold x hx
    exact ⟨h1, h2, h3, h4, Or.inl h5⟩
  · intro x c hx hc
    rw [hleaf x hx] at hc
    cases hc
  · intro m c hm hc
    by_cases hml : m < s.next
    · rw [(hold m hml).1] at hc
      rw [(hold c (hI.closed m c hc)).2.2.2.2]
      exact hI.parentLinked m c hml hc
    · rw [hleaf m (Nat.le_of_not_lt hml)] at hc
      cases hc

/-! ## The example scenario -/

/-- Resolution does not write the kind of a node. -/
theorem Frame.kind {s s' : State} (h : Frame s s') (x : Ptr) :
    (s'.heap x).Kind = (s.heap x).Kind := by
  have e := congrArg DynaRouter.Kind (h.2.2.2 x)
  exact e

/-- The scenario is `init` of the root in the linked state. -/
theorem scenario_eq (u : Utils) (fuel : Nat) (name description gname gdescription : String)
    (handler : HandlerFunc) :
    scenario u fuel name description gname gdescription handler
      = init u fuel DefDynaRouter (scenarioLinked u name description gname gdescription handler) := by
  rfl

/-- The three nodes of the scenario before resolution. -/
theorem scenarioLinked_heap (u : Utils) (name description gname gdescription : String)
    (handler : HandlerFunc)
    (hpfx : u.SnakeString ⟨trimSuffix (lastDotPart (handleWareUri handler).data) "Handle".data⟩
      = "user") :
    (scenarioLinked u name description gname gdescription handler).heap 0
      = { Prefix := "/", Kind := ROOT, Middlewares := [], Children := [2], Enable := true } ∧
    (scenarioLinked u name description gname gdescription handler).heap 2
      = { Prefix := "/api", Kind := GROUP, Name := gname, Description := gdescription,
          Middlewares := [], Children := [1], Enable := true, Parent := some 0 } ∧
    (scenarioLinked u name description gname gdescription handler).heap 1
      = { Prefix := "/user", Kind := HANDLER, Name := name, Description := description,
          Methods := [GET], Param := "/:id", Handler := handleWareUri handler,
          Middlewares := [], Enable := true, Parent := some 2 } := by
  refine ⟨?_, ?_, ?_⟩
  · simp [scenarioLinked, rootLinked, SubRouter, Get, route, State.alloc, setParents, State.set,
      Function.update, initState, DefDynaRouter, sortStrings, insertStr]
  · simp [scenarioLinked, rootLinked, SubRouter, Get, route, State.alloc, setParents, State.set,
      Function.update, initState, DefDynaRouter, sortStrings, insertStr]
    decide
  · simp [scenarioLinked, rootLinked, SubRouter, Get, route, State.alloc, setParents, State.set,
      Function.update, initState, DefDynaRouter, sortStrings, insertStr, hpfx]


/-! ## `SetRouter` with an unknown parent -/

/-- With an unknown parent `SetRouter` halts at the access to the children of
the nil parent, in the state in which `init` ended and the node is registered. -/
theorem SetRouter_of_init_none {u : Utils} {fuel : Nat} {pid : String} {n : Ptr} {s s₁ : State}
    (hreg : s.dynaRouterMap pid = none)
    (hinit : init u fuel n (linked s n none) = some s₁) :
    SetRouter u fuel pid n s = .panic (s₁.register (s₁.heap n).Id n) := by
  obtain ⟨l, _, hP⟩ := init_spec u fuel n _ s₁ hinit
  have hpar : (s₁.heap n).Parent = none := by
    rw [hP.frame.parent, linked_parent]
  have hlink : s.set n { s.heap n with Parent := s.dynaRouterMap pid } = linked s n none := by
    rw [hreg]; rfl
  simp only [SetRouter, hlink, hinit, register_heap, hpar]

/-- With an unknown parent `SetRouter` does not come back when `init` does not. -/
theorem SetRouter_of_init_diverge {u : Utils} {fuel : Nat} {pid : String} {n : Ptr} {s : State}
    (hreg : s.dynaRouterMap pid = none)
    (hinit : init u fuel n (linked s n none) = none) :
    SetRouter u fuel pid n s = .diverge := by
  have hlink : s.set n { s.heap n with Parent := s.dynaRouterMap pid } = linked s n none := by
    rw [hreg]; rfl
  simp only [SetRouter, hlink, hinit]


/-- A run of `init` changes the registry only at ids of the nodes it touches. -/
theorem InitPost.registry {u : Utils} {t dn : List Ptr} {s s' : State}
    (h : InitPost u t dn s s') (k : String) :
    s'.dynaRouterMap k = s.dynaRouterMap k ∨
      ∃ r ∈ t, (s'.heap r).Id = k ∧ s'.dynaRouterMap k = some r := by
  cases hk : s'.dynaRouterMap k with
  | none =>
    left
    by_contra hne
    exact h.mapmono k (fun e => hne e.symm) hk
  | some r =>
    rcases h.mapframe k r hk with e | ⟨hr, hid, _⟩
    · exact Or.inl e.symm
    · exact Or.inr ⟨r, hr, hid, rfl⟩

/-- What `SetRouter` has done when it halts at the nil parent. -/
theorem SetRouter_unknown_post {u : Utils} {f g fuel : Nat} {pid : String} {n : Ptr} {s : State}
    {l : List Ptr} (hfuel : f + g ≤ fuel) (hreg : s.dynaRouterMap pid = none)
    (hl : Tree f s n = some l)
    (hres : ∀ m ∈ l, (resolve g (linked s n none) m).isSome) :
    ∃ s₁, init u fuel n (linked s n none) = some s₁ ∧
      SetRouter u fuel pid n s = .panic (s₁.register (s₁.heap n).Id n) ∧
      InitPost u (l ++ [n]) (l ++ [n]) (linked s n none) (s₁.register (s₁.heap n).Id n) := by
  have hl' : Tree f (linked s n none) n = some l := by
    rw [Tree_congr (linked_children s n none)]; exact hl
  obtain ⟨s₁, h₁⟩ := init_total u g f fuel n _ l hfuel hl' hres
  obtain ⟨l₁, hl₁, hP⟩ := init_spec u fuel n _ s₁ h₁
  have e : l₁ = l := Tree_unique hl₁ hl'
  subst e
  have hn : Settled u s₁ n := (hP.done n (mem_Tree_self hl₁)).1
  exact ⟨s₁, h₁, SetRouter_of_init_none hreg h₁, hP.comp (initPost_register u hn)⟩


/-! ## Resolution of a resolved tree -/

/-- Overwriting `ParentUrl` and `Url` twice keeps the last values. -/
theorem resolved_resolved (n : DynaRouter) (a b c d : String) :
    (n.resolved a b).resolved c d = n.resolved c d := rfl

/-- Overwriting `ParentUrl` and `Url` with themselves changes nothing. -/
theorem resolved_self (n : DynaRouter) : n.resolved n.ParentUrl n.Url = n := rfl

/-- Overwriting `Id` with itself changes nothing. -/
theorem identified_self (n : DynaRouter) : n.identified n.Id = n := rfl

/-- Storing the node that is already there changes nothing. -/
theorem set_self (s : State) (d : Ptr) : s.set d (s.heap d) = s := by
  cases s
  simp [State.set]

/-- The canonical node does not depend on the stored `ParentUrl` and `Url`. -/
theorem canonNode_congr {s s' : State} (h : ∀ x, ∃ a b, s'.heap x = (s.heap x).resolved a b)
    (g : Nat) (x : Ptr) : canonNode g s' x = canonNode g s x := by
  have hf : ∀ y, (s'.heap y).Prefix = (s.heap y).Prefix ∧ (s'.heap y).Param = (s.heap y).Param ∧
      (s'.heap y).Parent = (s.heap y).Parent := by
    intro y
    obtain ⟨a, b, e⟩ := h y
    rw [e]
    exact ⟨rfl, rfl, rfl⟩
  obtain ⟨a, b, e⟩ := h x
  have hl : localUrl s' x = localUrl s x := by
    simp only [localUrl, (hf x).1, (hf x).2.1]
  simp only [canonNode, (hf x).2.2, hl, resolve_congr hf, e, resolved_resolved]
  rfl

/-- More fuel does not change a canonical node. -/
theorem canonNode_mono {s : State} {g g' : Nat} (hle : g ≤ g') {x : Ptr} {n : DynaRouter}
    (h : canonNode g s x = some n) : canonNode g' s x = some n := by
  unfold canonNode at h ⊢
  cases hp : (s.heap x).Parent with
  | none => simpa [hp] using h
  | some p =>
    simp only [hp] at h ⊢
    cases hr : resolve g s p with
    | none => simp [hr] at h
    | some pu =>
      rw [resolve_mono_le hle hr]
      simpa [hr] using h

/-- What `setUrl` does to the heap: a node is left as it was or holds its
canonical `ParentUrl` and `Url`; the nodes touched lie in every set that
contains `d` and is closed under `Parent`. -/
theorem setUrl_touch : ∀ (fuel : Nat) (d : Ptr) (s s' : State), setUrl fuel d s = some s' →
    ∀ (L : List Ptr), d ∈ L → (∀ x ∈ L, ∀ p, (s.heap x).Parent = some p → p ∈ L) →
    ∀ x, s'.heap x = s.heap x ∨ (x ∈ L ∧ ∃ g, canonNode g s x = some (s'.heap x)) := by
  intro fuel
  induction fuel with
  | zero => intro d s s' h; simp [setUrl] at h
  | succ f ih =>
    intro d s s' h L hd hL x
    cases hp : (s.heap d).Parent with
    | none =>
      rw [setUrl_succ_none hp] at h
      cases h
      rw [set_heap]
      split
      · next hx =>
        subst hx
        exact Or.inr ⟨hd, 0, by simp [canonNode, hp, localUrl]⟩
      · exact Or.inl rfl
    | some p =>
      rw [setUrl_succ_some hp] at h
      cases hrec : setUrl f p (s.set d ((s.heap d).resolved "" (s.heap d).Url)) with
      | none => simp [hrec] at h
      | some s₂ =>
        simp only [hrec, Option.map_some', Option.some.injEq] at h
        subst h
        have hs₁ : ∀ y, ∃ a b, (s.set d ((s.heap d).resolved "" (s.heap d).Url)).heap y
            = (s.heap y).resolved a b := by
          intro y
          rw [set_heap]
          split
          · next hy => subst hy; exact ⟨_, _, rfl⟩
          · exact ⟨_, _, (resolved_self _).symm⟩
        have hF1 : Frame s (s.set d ((s.heap d).resolved "" (s.heap d).Url)) :=
          Frame.set' d _ (by simp)
        have hL₁ : ∀ y ∈ L, ∀ q,
            ((s.set d ((s.heap d).resolved "" (s.heap d).Url)).heap y).Parent = some q → q ∈ L := by
          intro y hy q hq
          rw [hF1.parent] at hq
          exact hL y hy q hq
        have hrp := (setUrl_spec f p _ s₂ hrec).2.2.2.1
        rw [hF1.resolve_eq] at hrp
        have hrec' := ih p _ s₂ hrec L (hL d hd p hp) hL₁
        rw [set_heap]
        split
        · next hx =>
          subst hx
          refine Or.inr ⟨hd, f, ?_⟩
          have hbase : ∃ a b, s₂.heap x = (s.heap x).resolved a b := by
            rcases hrec' x with e | ⟨_, g, e⟩
            · rw [e, set_heap_same]; exact ⟨_, _, rfl⟩
            · rw [canonNode_congr hs₁] at e
              unfold canonNode at e
              rw [hp] at e
              cases hr : resolve g s p with
              | none => simp [hr] at e
              | some pu =>
                simp only [hr, Option.map_some', Option.some.injEq] at e
                exact ⟨_, _, e.symm⟩
          obtain ⟨a, b, e⟩ := hbase
          simp only [canonNode, hp, hrp, Option.map_some', e, resolved_resolved, localUrl]
        · next hx =>
          rcases hrec' x with e | ⟨hxL, g, e⟩
          · rw [e, set_heap_ne _ _ hx]; exact Or.inl rfl
          · rw [canonNode_congr hs₁] at e
            exact Or.inr ⟨hxL, g, e⟩

/-- In a resolved set closed under `Parent` every node is its canonical node. -/
theorem ResolvedAt.canon {u : Utils} {g : Nat} {s : State} {L : List Ptr}
    (hL : ∀ x ∈ L, ∀ p, (s.heap x).Parent = some p → p ∈ L)
    (hres : ∀ x ∈ L, ResolvedAt u g s x) {x : Ptr} (hx : x ∈ L) {k : Nat} {n : DynaRouter}
    (h : canonNode k s x = some n) : n = s.heap x := by
  obtain ⟨hu, hpu, _⟩ := hres x hx
  unfold canonNode at h
  cases hp : (s.heap x).Parent with
  | none =>
    simp only [hp] at hpu
    simp only [hp, Option.some.injEq] at h
    have h1 : resolve 1 s x = some (pathClean (localUrl s x)) := resolve_succ_none hp
    have := resolve_det hu h1
    rw [← h, ← this, ← hpu]
    rfl
  | some p =>
    simp only [hp] at hpu
    simp only [hp] at h
    cases hr : resolve k s p with
    | none => simp [hr] at h
    | some pu =>
      simp only [hr, Option.map_some', Option.some.injEq] at h
      have hpe : pu = (s.heap p).Url := resolve_det hr (hres p (hL x hx p hp)).1
      have h1 : resolve (k + 1) s x = some (pathClean (pathJoin [pu, localUrl s x])) := by
        rw [resolve_succ_some hp, hr]; rfl
      have := resolve_det hu h1
      rw [← h, ← this, hpe, ← hpu]
      rfl

/-- Two states with the same fields are equal. -/
theorem State.eq_of_fields {s s' : State} (h1 : s'.heap = s.heap) (h2 : s'.next = s.next)
    (h3 : s'.dynaRouterMap = s.dynaRouterMap) (h4 : s'.handlerFuncMap = s.handlerFuncMap)
    (h5 : s'.errorLog = s.errorLog) : s' = s := by
  cases s; cases s'
  simp only at h1 h2 h3 h4 h5
  subst h1 h2 h3 h4 h5
  rfl

/-- A call of `setUrl` on a node of a resolved set that returns changes nothing. -/
theorem setUrl_fixed_of_some {u : Utils} {g : Nat} {s s' : State} {L : List Ptr}
    (hL : ∀ x ∈ L, ∀ p, (s.heap x).Parent = some p → p ∈ L)
    (hres : ∀ x ∈ L, ResolvedAt u g s x) {d : Ptr} (hd : d ∈ L) {fuel : Nat}
    (h : setUrl fuel d s = some s') : s' = s := by
  obtain ⟨hF, hmap, _, _, _⟩ := setUrl_spec fuel d s s' h
  refine State.eq_of_fields ?_ hF.1 hmap hF.2.1 hF.2.2.1
  funext x
  rcases setUrl_touch fuel d s s' h L hd hL x with e | ⟨hx, k, e⟩
  · exact e
  · exact ResolvedAt.canon hL hres hx e

/-- Running `setUrl` on a node of a resolved set returns and changes nothing. -/
theorem setUrl_fixed {u : Utils} {g : Nat} {s : State} {L : List Ptr}
    (hL : ∀ x ∈ L, ∀ p, (s.heap x).Parent = some p → p ∈ L)
    (hres : ∀ x ∈ L, ResolvedAt u g s x) {d : Ptr} (hd : d ∈ L) {fuel : Nat} (hfuel : g ≤ fuel) :
    setUrl fuel d s = some s := by
  obtain ⟨s', h⟩ := setUrl_total fuel d s _ (resolve_mono_le hfuel (hres d hd).1)
  rw [h, setUrl_fixed_of_some hL hres hd h]

/-- Being resolved depends on the heap only. -/
theorem ResolvedAt.heap_congr {u : Utils} {g : Nat} {s t : State} (h : t.heap = s.heap) {x : Ptr}
    (hx : ResolvedAt u g s x) : ResolvedAt u g t x := by
  have hr : resolve g t x = resolve g s x :=
    resolve_congr (fun y => by rw [h]; exact ⟨rfl, rfl, rfl⟩) g x
  unfold ResolvedAt at hx ⊢
  rw [hr, h]
  exact hx

/-- Running `setId` on a resolved node changes nothing. -/
theorem setId_fixed {u : Utils} {g : Nat} {s : State} {d : Ptr} (h : ResolvedAt u g s d) :
    setId u d s = s := by
  rw [setId_eq, ← h.2.2, identified_self, set_self]

/-- A run of `init` over a resolved subtree leaves every node as it was. -/
theorem init_fixed {u : Utils} {g : Nat} {s : State} {L : List Ptr}
    (hL : ∀ x ∈ L, ∀ p, (s.heap x).Parent = some p → p ∈ L)
    (hres : ∀ x ∈ L, ResolvedAt u g s x) :
    ∀ (fuel : Nat) (d : Ptr) (t t' : State), t.heap = s.heap → (∀ x, Reach s d x → x ∈ L) →
      init u fuel d t = some t' → t'.heap = s.heap := by
  intro fuel
  induction fuel with
  | zero => intro d t t' _ _ h; simp [init] at h
  | succ f ih =>
    intro d t t' ht hreach h
    have hLt : ∀ x ∈ L, ∀ p, (t.heap x).Parent = some p → p ∈ L := by
      rw [ht]; exact hL
    have hrest : ∀ x ∈ L, ResolvedAt u g t x := fun x hx => (hres x hx).heap_congr ht
    have hd : d ∈ L := hreach d (Reach.refl d)
    rw [init_succ] at h
    cases h1 : setUrl f d t with
    | none => simp [h1] at h
    | some t₁ =>
      have e1 : t₁ = t := setUrl_fixed_of_some hLt hrest hd h1
      subst e1
      simp only [h1, Option.some_bind, setId_fixed (hrest d hd)] at h
      have loop : ∀ (cs : List Ptr) (a a' : State), a.heap = s.heap →
          (∀ c ∈ cs, c ∈ (s.heap d).Children) →
          cs.foldlM (fun s node => init u f node s) a = some a' → a'.heap = s.heap := by
        intro cs
        induction cs with
        | nil =>
          intro a a' ha _ hf
          simp only [List.foldlM_nil, Option.pure_def, Option.some.injEq] at hf
          subst hf
          exact ha
        | cons c cs ihc =>
          intro a a' ha hsub hf
          simp only [List.foldlM_cons, Option.bind_eq_bind] at hf
          cases hc : init u f c a with
          | none => simp [hc] at hf
          | some a₁ =>
            simp only [hc, Option.some_bind] at hf
            have hcd : c ∈ (s.heap d).Children := hsub c (List.mem_cons_self _ _)
            have ha₁ := ih c a a₁ ha (fun x hx => hreach x (Reach.step hcd hx)) hc
            exact ihc a₁ a' ha₁ (fun c' hc' => hsub c' (List.mem_cons_of_mem _ hc')) hf
      cases h3 : List.foldlM (fun s node => init u f node s) t₁ (t₁.heap d).Children with
      | none => simp [h3] at h
      | some t₃ =>
        simp only [h3, Option.map_some', Option.some.injEq] at h
        subst h
        rw [register_heap]
        exact loop _ _ _ ht (fun c hc => by rw [ht] at hc; exact hc) h3


/-! ## Normal form of resolved paths -/

/-- One step of cleaning a rooted path keeps the output free of empty, `.` and
`..` elements. -/
theorem cleanStep_good {st : List (List Char)} {e : List Char} (hst : GoodElems st)
    (he : '/' ∉ e) : GoodElems (cleanStep true st e) := by
  unfold cleanStep
  by_cases h1 : e = []
  · simp [h1]; exact hst
  · by_cases h2 : e = ['.']
    · simp [h2]; exact hst
    · by_cases h3 : e = ['.', '.']
      · subst h3
        cases st with
        | nil => simpa using hst
        | cons t rest =>
          have hrest : GoodElems rest := fun x hx => hst x (List.mem_cons_of_mem _ hx)
          by_cases ht : t = ['.', '.']
          · simp [ht]; subst ht; exact hst
          · simp [ht]; exact hrest
      · simp only [h1, h2, h3, if_false]
        intro x hx
        rcases List.mem_cons.mp hx with e' | e'
        · subst e'
          exact ⟨by simp [keepElem, h1, h2], h3, he⟩
        · exact hst x e'

/-- Cleaning a rooted path keeps the output free of empty, `.` and `..` elements. -/
theorem foldl_cleanStep_good : ∀ (l st : List (List Char)), (∀ e ∈ l, '/' ∉ e) →
    GoodElems st → GoodElems (l.foldl (cleanStep true) st) := by
  intro l
  induction l with
  | nil => intro st _ h; exact h
  | cons e l ih =>
    intro st hl hst
    rw [List.foldl_cons]
    exact ih _ (fun x hx => hl x (List.mem_cons_of_mem _ hx))
      (cleanStep_good hst (hl e (List.mem_cons_self _ _)))

/-- The elements of a cleaned rooted path are neither empty nor `.` nor `..`. -/
theorem cleanElems_good (p : List Char) : GoodElems (cleanElems true p) := by
  intro e he
  simp only [cleanElems, List.mem_reverse] at he
  exact foldl_cleanStep_good _ [] (splitChar_not_mem '/' p) (fun _ h => by simp at h) e he

/-- Cleaning a path that begins with a slash gives a normal path. -/
theorem normal_pathClean {x : String} (h : rooted x = true) : Normal (pathClean x) := by
  unfold rooted at h
  cases hx : x.data with
  | nil => simp [hx] at h
  | cons c cs =>
    simp only [hx, beq_iff_eq] at h
    subst h
    exact ⟨cleanElems true cs, cleanElems_good cs, by simp [pathClean, hx, cleanForm]⟩

/-- A normal path begins with a slash. -/
theorem Normal.is_rooted {v : String} (h : Normal v) : rooted v = true := by
  obtain ⟨es, hes, rfl⟩ := h
  exact (cleanForm_spec hes).2.2.1

/-- A normal path is a fixed point of `path.Clean`. -/
theorem Normal.clean_fixed {v : String} (h : Normal v) : pathClean v = v := by
  obtain ⟨es, hes, rfl⟩ := h
  obtain ⟨h1, h2, h3, _⟩ := @cleanForm_spec true es hes
  rw [pathClean_eq h1, h2, h3]

/-- Joining onto a path that begins with a slash gives a normal path. -/
theorem rooted_pathJoin {a b : String} (h : rooted a = true) :
    Normal (pathJoin [a, b]) := by
  have ha : a.data ≠ [] := by
    intro e
    simp [rooted, e] at h
  simp only [pathJoin, ha, if_false]
  apply normal_pathClean
  unfold rooted at h ⊢
  cases hx : a.data with
  | nil => exact absurd hx ha
  | cons c cs =>
    rw [hx] at h
    simpa [joinSlash, hx] using h

/-- The value resolved along a parent chain that ends at a node whose `Prefix`
begins with a slash is a normal path. -/
theorem resolve_normal {s : State} {r : Ptr} (hr : rooted (s.heap r).Prefix = true) :
    ∀ (g : Nat) (d : Ptr), chainEnd g s d = some r →
      ∃ v, resolve g s d = some v ∧ Normal v := by
  intro g
  induction g with
  | zero => intro d h; simp [chainEnd] at h
  | succ g ih =>
    intro d h
    cases hp : (s.heap d).Parent with
    | none =>
      simp only [chainEnd, hp, Option.some.injEq] at h
      subst h
      exact ⟨_, resolve_succ_none hp, by
        rw [(rooted_pathJoin hr).clean_fixed]; exact rooted_pathJoin hr⟩
    | some p =>
      simp only [chainEnd, hp] at h
      obtain ⟨pv, hpv, hn⟩ := ih p h
      refine ⟨_, by rw [resolve_succ_some hp, hpv]; rfl, ?_⟩
      show Normal (pathClean (pathJoin [pv, _]))
      rw [(rooted_pathJoin hn.is_rooted).clean_fixed]
      exact rooted_pathJoin hn.is_rooted

/-- Joining non-empty elements gives a non-empty string. -/
theorem slashJoin_ne_nil : ∀ {es : List (List Char)}, es ≠ [] → (∀ e ∈ es, e ≠ []) →
    slashJoin es ≠ [] := by
  intro es hne h
  cases es with
  | nil => exact absurd rfl hne
  | cons e rest =>
    cases rest with
    | nil => simpa [slashJoin] using h e (List.mem_cons_self _ _)
    | cons e' rest' => simp [slashJoin]

/-- Joined elements without slashes do not end with a slash. -/
theorem slashJoin_getLast : ∀ {es : List (List Char)}, es ≠ [] →
    (∀ e ∈ es, e ≠ [] ∧ '/' ∉ e) → (slashJoin es).getLast? ≠ some '/' := by
  intro es
  induction es with
  | nil => intro h; exact absurd rfl h
  | cons e rest ih =>
    intro _ h
    cases rest with
    | nil =>
      simp only [slashJoin]
      intro hl
      exact (h e (List.mem_cons_self _ _)).2 (List.mem_of_getLast?_eq_some hl)
    | cons e' rest' =>
      have hrest : ∀ x ∈ e' :: rest', x ≠ [] ∧ '/' ∉ x :=
        fun x hx => h x (List.mem_cons_of_mem _ hx)
      have hne := slashJoin_ne_nil (List.cons_ne_nil e' rest') (fun x hx => (hrest x hx).1)
      have := ih (List.cons_ne_nil _ _) hrest
      simp only [slashJoin]
      rw [List.getLast?_append_of_ne_nil _ (List.cons_ne_nil _ _)]
      cases hsj : slashJoin (e' :: rest') with
      | nil => exact absurd hsj hne
      | cons c cs =>
        rw [hsj] at this
        rw [List.getLast?_cons_cons]
        exact this

/-- The elements of a normal path, and that only `/` itself ends with a slash. -/
theorem Normal.elems {v : String} (h : Normal v) :
    ∃ es : List (List Char), (∀ e ∈ es, e ≠ [] ∧ e ≠ ['.'] ∧ e ≠ ['.', '.'] ∧ '/' ∉ e) ∧
      v.data = '/' :: slashJoin es ∧ (es ≠ [] → splitSlash v.data = [] :: es) ∧
      (v.data.getLast? = some '/' → v = "/") := by
  obtain ⟨es, hes, rfl⟩ := h
  have hgood : ∀ e ∈ es, e ≠ [] ∧ e ≠ ['.'] ∧ e ≠ ['.', '.'] ∧ '/' ∉ e := by
    intro e he
    obtain ⟨h1, h2, h3⟩ := hes e he
    simp only [keepElem, Bool.and_eq_true, Bool.not_eq_true', beq_eq_false_iff_ne] at h1
    exact ⟨h1.1, h1.2, h2, h3⟩
  refine ⟨es, hgood, rfl, ?_, ?_⟩
  · intro hne
    show splitSlash ('/' :: slashJoin es) = _
    rw [splitSlash_cons_slash, splitSlash_slashJoin hne (fun e he => (hgood e he).2.2.2)]
  · intro hl
    by_cases hne : es = []
    · subst hne; rfl
    · exfalso
      have h1 := slashJoin_getLast hne (fun e he => ⟨(hgood e he).1, (hgood e he).2.2.2⟩)
      have h2 := slashJoin_ne_nil hne (fun e he => (hgood e he).1)
      change ('/' :: slashJoin es).getLast? = some '/' at hl
      cases hsj : slashJoin es with
      | nil => exact h2 hsj
      | cons c cs =>
        rw [hsj] at hl h1
        rw [List.getLast?_cons_cons] at hl
        exact h1 hl


/-! ## Descendants of a removed node -/

/-- The node at which a traversal starts is a child of no node of the traversal. -/
theorem Tree_root_unlisted {s : State} {fuel : Nat} {d : Ptr} {l : List Ptr}
    (hl : Tree fuel s d = some l) {x : Ptr} (hx : x ∈ l) : d ∉ (s.heap x).Children := by
  intro hd
  obtain ⟨lx, hlx, hlen, _⟩ := Tree_sub s fuel d l hl x hx
  cases fuel with
  | zero => simp [Tree] at hl
  | succ k =>
    obtain ⟨lf, hlf, rfl⟩ := Tree_succ_eq_some.mp hlx
    obtain ⟨ld, hld⟩ := forest_defined hlf d hd
    have h1 := (forest_part hlf d hd ld hld).1
    have h2 := Tree_mono _ _ _ _ hld
    rw [hl] at h2
    cases h2
    simp only [List.length_cons] at hlen
    omega

/-- In a tree in which no two nodes list the same child, a node that has left
the traversal takes its descendants with it. -/
theorem Tree_cut {s s' : State} {fuel : Nat} {r : Ptr} {l l' : List Ptr}
    (hl : Tree fuel s r = some l) (hl' : Tree fuel s' r = some l') (hsl : ∀ x ∈ l', x ∈ l)
    (hch : ∀ x c, c ∈ (s'.heap x).Children → c ∈ (s.heap x).Children)
    (huniq : ∀ m₁ ∈ l, ∀ m₂ ∈ l, ∀ c, c ∈ (s.heap m₁).Children →
      c ∈ (s.heap m₂).Children → m₁ = m₂)
    {a x : Ptr} (hr : Reach s a x) : a ∈ l → a ∉ l' → x ∉ l' := by
  induction hr with
  | refl d => exact fun _ h => h
  | @step d c x hc _ ih =>
    intro hd hd'
    have hcl : c ∈ l := Tree_closed hl hd hc
    apply ih hcl
    intro hc'
    rcases Tree_lister s' hl' hc' with e | ⟨y, hy, hcy⟩
    · subst e
      exact Tree_root_unlisted hl hd hc
    · have := huniq y (hsl y hy) d hd c (hch y c hcy) hc
      subst this
      exact hd' hy

/-- The traversal from the root after the first child with the `Id` has left
the children of `p`: it is a sublist of the old one that holds no node with
the `Id`, when `d` was the only node with it and was listed once, by `p`. -/
theorem detached_tree (s : State) (id : String) (d p : Ptr) (f : Nat) (l : List Ptr)
    (hl : DynaRouterTree f s = some l) (hroot : d ≠ DefDynaRouter)
    (huniq : ∀ x ∈ l, (s.heap x).Id = id → x = d)
    (hlist : ∀ m ∈ l, d ∈ (s.heap m).Children → m = p)
    (hcnt : (s.heap p).Children.count d ≤ 1) :
    ∃ l', DynaRouterTree f (detached s id p) = some l' ∧ l'.Sublist l ∧
      ∀ x ∈ l', (s.heap x).Id ≠ id := by
  have hheap : ∀ x, (detached s id p).heap x
      = if x = p then (s.heap p).withChildren (removeChild s id (s.heap p).Children)
        else s.heap x := fun x => set_heap s p _ x
  have hchp : ((detached s id p).heap p).Children = removeChild s id (s.heap p).Children := by
    rw [hheap, if_pos rfl]; rfl
  have hsub : ∀ x, ((detached s id p).heap x).Children.Sublist (s.heap x).Children := by
    intro x
    by_cases e : x = p
    · rw [e, hchp]; exact removeChild_sublist s id _
    · rw [hheap, if_neg e]
  obtain ⟨l', hl', hsl⟩ := Tree_sublist hsub f DefDynaRouter l hl
  refine ⟨l', hl', hsl, ?_⟩
  intro x hx hxid
  have hxd : x = d := huniq x (hsl.subset hx) hxid
  subst hxd
  rcases Tree_lister _ hl' hx with e | ⟨m, hm, hxm⟩
  · exact hroot e
  · have hml : m ∈ l := hsl.subset hm
    by_cases hmp : m = p
    · subst hmp
      rw [hchp] at hxm
      have hc := removeChild_count_eq hxid (s.heap m).Children
        (fun c hc hcid => huniq c (Tree_closed hl hml hc) hcid)
      have : 0 < (removeChild s id (s.heap m).Children).count x :=
        List.count_pos_iff.mpr hxm
      omega
    · rw [hheap, if_neg hmp] at hxm
      exact hmp (hlist m hml hxm)

/-! ## Registry and tree in grown states -/

/-- Reachability carries over to a state that keeps the children of the nodes
of an invariant set. -/
theorem Reach.carry {s s' : State} {Q : Ptr → Prop}
    (h : ∀ m c, Q m → c ∈ (s.heap m).Children → c ∈ (s'.heap m).Children ∧ Q c)
    {a x : Ptr} (hr : Reach s a x) : Q a → Reach s' a x ∧ Q x := by
  induction hr with
  | refl d => exact fun hq => ⟨Reach.refl d, hq⟩
  | step hc _ ih =>
    intro hq
    obtain ⟨hc', hqc⟩ := h _ _ hq hc
    exact ⟨Reach.step hc' (ih hqc).1, (ih hqc).2⟩

/-- Reachability carries over to a state that lists at least the same children. -/
theorem Reach.grow {s s' : State}
    (h : ∀ m c, c ∈ (s.heap m).Children → c ∈ (s'.heap m).Children)
    {a x : Ptr} (hr : Reach s a x) : Reach s' a x :=
  (Reach.carry (Q := fun _ => True) (fun m c _ hc => ⟨h m c hc, trivial⟩) hr trivial).1

/-- Reachability is transitive. -/
theorem Reach.chain {s : State} {a b c : Ptr} (h₁ : Reach s a b) (h₂ : Reach s b c) :
    Reach s a c := by
  induction h₁ with
  | refl d => exact h₂
  | step hc _ ih => exact Reach.step hc (ih h₂)

/-- A node reachable from the end of a root path is the end of a root path. -/
theorem RootPath.of_reach {s : State} {a x : Ptr} (hr : Reach s a x) :
    ∀ path, RootPath s path a → ∃ path', RootPath s path' x := by
  induction hr with
  | refl d => exact fun path hp => ⟨path, hp⟩
  | step hc _ ih => exact fun path hp => ih _ (RootPath.child hp hc)

/-- A root path stays one in a state that lists at least the same children. -/
theorem RootPath.grow_path {s s' : State}
    (h : ∀ m c, c ∈ (s.heap m).Children → c ∈ (s'.heap m).Children)
    {path : List Ptr} {x : Ptr} (hp : RootPath s path x) : RootPath s' path x := by
  induction hp with
  | root => exact RootPath.root
  | child _ hc ih => exact RootPath.child ih (h _ _ hc)

/-- Between two built states with registered nodes, of which the second lists
at least the children of the first and keeps `Prefix` and `Param`, a node
reachable in the first keeps its `Url`. -/
theorem url_stable {s s' : State} (hI : BuiltInv s) (hI' : BuiltInv s')
    (hk : ∃ k, s.dynaRouterMap k ≠ none) (hk' : ∃ k, s'.dynaRouterMap k ≠ none)
    (hch : ∀ m c, c ∈ (s.heap m).Children → c ∈ (s'.heap m).Children)
    (hf : ∀ x, (s'.heap x).Prefix = (s.heap x).Prefix ∧ (s'.heap x).Param = (s.heap x).Param)
    {x : Ptr} (hr : Reach s DefDynaRouter x) : (s'.heap x).Url = (s.heap x).Url := by
  obtain ⟨path, hp⟩ := RootPath.of_reach hr _ RootPath.root
  rw [hI.resolved hk path x (hI.treePath hp).1,
    hI'.resolved hk' path x (hI'.treePath (hp.grow_path hch)).1]
  exact nestedUrl_congr (fun d _ => hf d)

/-- The start-up state has no keys. -/
theorem Synced.at_start (u : Utils) : Synced u initState where
  settled := fun ⟨k, hk⟩ => absurd rfl hk
  keyed := fun k r h => by simp [initState] at h

/-- The invariant survives a step that leaves the registry and the old nodes'
`Children`, `Id`, `Url` and `Methods` as they were. -/
theorem Synced.preserved {u : Utils} {s s' : State} (hI : BuiltInv s) (hS : Synced u s)
    (hmap : s'.dynaRouterMap = s.dynaRouterMap)
    (hold : ∀ x, x < s.next → (s'.heap x).Children = (s.heap x).Children ∧
      (s'.heap x).Id = (s.heap x).Id ∧ (s'.heap x).Url = (s.heap x).Url ∧
      (s'.heap x).Methods = (s.heap x).Methods) : Synced u s' := by
  have hback : ∀ x, Reach s' DefDynaRouter x → Reach s DefDynaRouter x ∧ x < s.next :=
    fun x hr => Reach.carry (Q := fun y => y < s.next)
      (fun m c hm hc => by
        rw [(hold m hm).1] at hc
        exact ⟨hc, hI.closed m c hc⟩) hr hI.nextPos
  have hforth : ∀ x, Reach s DefDynaRouter x → Reach s' DefDynaRouter x ∧ x < s.next :=
    fun x hr => Reach.carry (Q := fun y => y < s.next)
      (fun m c hm hc => ⟨by rw [(hold m hm).1]; exact hc, hI.closed m c hc⟩) hr hI.nextPos
  refine ⟨?_, ?_⟩
  · intro hk x hx
    obtain ⟨hr, hlt⟩ := hback x hx
    obtain ⟨_, h2, h3, h4⟩ := hold x hlt
    rw [hmap] at hk ⊢
    rw [h2, h3, h4]
    exact hS.settled hk x hr
  · intro k r hkr
    rw [hmap] at hkr
    obtain ⟨hid, hr⟩ := hS.keyed k r hkr
    obtain ⟨hr', hlt⟩ := hforth r hr
    exact ⟨by rw [(hold r hlt).2.1]; exact hid, hr'⟩

/-- A handler builder keeps registry and tree in step. -/
theorem Synced.after_handler {u : Utils} {s : State} (hI : BuiltInv s) (hS : Synced u s)
    (methods : List String) (name description : String) (handler : HandlerFunc)
    (param : List String) : Synced u (Match u methods name description handler param s).2 := by
  obtain ⟨d, _, _, hheap, _, hmap⟩ := Match_state u methods name description handler param s
  refine hS.preserved hI hmap (fun x hx => ?_)
  rw [hheap, Function.update_noteq (Nat.ne_of_lt hx)]
  exact ⟨rfl, rfl, rfl, rfl⟩

/-- Grouping keeps registry and tree in step. -/
theorem Synced.after_sub {u : Utils} {s : State} (hI : BuiltInv s) (hS : Synced u s)
    (pfx name description : String) (cs : List Ptr) :
    Synced u (SubRouter pfx name description cs s).2 := by
  have hmap : (SubRouter pfx name description cs s).2.dynaRouterMap = s.dynaRouterMap := by
    simp only [SubRouter, setParents_map]
    rfl
  refine hS.preserved hI hmap (fun x hx => ?_)
  have hne : x ≠ s.next := Nat.ne_of_lt hx
  simp only [SubRouter, setParents_heap, State.alloc]
  split <;> simp [Function.update_noteq hne]

/-- A call of `RootRouter` keeps registry and tree in step. -/
theorem Synced.after_root {u : Utils} {s s' : State} (hI : BuiltInv s) (hI' : BuiltInv s')
    (hS : Synced u s) (fuel : Nat) (ns : List Ptr) (hroot : DefDynaRouter ∉ ns)
    (h : RootRouter u fuel ns s = some s') : Synced u s' := by
  rw [RootRouter_eq] at h
  obtain ⟨l, hl, hP⟩ := init_spec u fuel DefDynaRouter _ s' h
  have hT : Tree fuel s' DefDynaRouter = some l := by rw [hP.frame.tree]; exact hl
  have hfld : ∀ x, ((rootLinked ns s).heap x).Prefix = (s.heap x).Prefix ∧
      ((rootLinked ns s).heap x).Param = (s.heap x).Param ∧
      ((rootLinked ns s).heap x).Methods = (s.heap x).Methods ∧
      ∀ c, c ∈ (s.heap x).Children → c ∈ ((rootLinked ns s).heap x).Children := by
    intro x
    rw [rootLinked_heap]
    by_cases hx : x = DefDynaRouter
    · subst hx
      rw [if_neg hroot, set_heap_same]
      exact ⟨rfl, rfl, rfl, fun c hc => List.mem_append_left _ hc⟩
    · split <;> rw [set_heap_ne _ _ hx] <;> exact ⟨rfl, rfl, rfl, fun c hc => hc⟩
  have hch : ∀ m c, c ∈ (s.heap m).Children → c ∈ (s'.heap m).Children := by
    intro m c hc
    rw [hP.frame.children]
    exact (hfld m).2.2.2 c hc
  have hmap₀ : (rootLinked ns s).dynaRouterMap = s.dynaRouterMap := by
    simp only [rootLinked, setParents_map]
    rfl
  refine ⟨?_, ?_⟩
  · intro _ x hx
    obtain ⟨hst, r, hr, _⟩ := hP.done x (mem_Tree_of_reach s' hx fuel l hT)
    exact ⟨hst.2, by rw [hr]; simp⟩
  · intro k r hkr
    rcases hP.registry k with e | ⟨r', hr', hid, e⟩
    · rw [hkr, hmap₀] at e
      obtain ⟨hid, hreach⟩ := hS.keyed k r e.symm
      have hk : ∃ k, s.dynaRouterMap k ≠ none := ⟨k, by rw [← e]; simp⟩
      have hreach' : Reach s' DefDynaRouter r := hreach.grow hch
      refine ⟨?_, hreach'⟩
      have hst := (hP.done r (mem_Tree_of_reach s' hreach' fuel l hT)).1.2
      have hu := url_stable hI hI' hk ⟨k, by rw [hkr]; simp⟩ hch
        (fun x => ⟨by rw [hP.frame.pfx, (hfld x).1], by rw [hP.frame.param, (hfld x).2.1]⟩)
        hreach
      rw [hst, hu, hP.frame.methods, (hfld r).2.2.1, ← (hS.settled hk r hreach).1]
      exact hid
    · rw [hkr] at e
      cases e
      exact ⟨hid, reach_of_mem_Tree s' fuel _ l hT r hr'⟩

/-- A call of `SetRouter` that returned has changed the registry only at ids
of the nodes of the traversal of the attached node. -/
theorem SetRouter_registry {u : Utils} {fuel : Nat} {pid : String} {n p : Ptr} {s s' : State}
    (hreg : s.dynaRouterMap pid = some p) (h : SetRouter u fuel pid n s = .ok s')
    {l : List Ptr} (hl : Tree fuel s n = some l) (k : String) :
    s'.dynaRouterMap k = s.dynaRouterMap k ∨
      ∃ r ∈ l, (s'.heap r).Id = k ∧ s'.dynaRouterMap k = some r := by
  obtain ⟨s₁, h₁, rfl⟩ := SetRouter_inv hreg h
  obtain ⟨l₁, hl₁, hP⟩ := init_spec u fuel n _ s₁ h₁
  have e : l₁ = l := by
    rw [Tree_congr (linked_children s n _)] at hl₁
    exact Tree_unique hl₁ hl
  subst e
  have hn : Settled u s₁ n := (hP.done n (mem_Tree_self hl₁)).1
  have P := hP.comp (initPost_register u hn)
  have hS := attached_sameRes s₁ n p
  rw [hS.1]
  rcases P.registry k with e | ⟨r, hr, hid, e⟩
  · exact Or.inl e
  · refine Or.inr ⟨r, ?_, ?_, e⟩
    · rcases List.mem_append.mp hr with h' | h'
      · exact h'
      · rw [List.mem_singleton.mp h']; exact mem_Tree_self hl₁
    · rw [(hS.2 r).2.2.2.2.2]; exact hid

/-- Grafting a node with a finite traversal onto a finite tree leaves the
traversal of the tree finite. -/
theorem Tree_graft {s s' : State} {g : Nat} {n : Ptr} {l : List Ptr}
    (hn : Tree g s' n = some l)
    (hch : ∀ y c, c ∈ (s'.heap y).Children → c ∈ (s.heap y).Children ∨ c = n) :
    ∀ (f : Nat) (x : Ptr) (lx : List Ptr), Tree f s x = some lx →
      ∃ lx', Tree (f + g) s' x = some lx' := by
  intro f
  induction f with
  | zero => intro x lx h; simp [Tree] at h
  | succ f ih =>
    intro x lx h
    obtain ⟨lf, hlf, _⟩ := Tree_succ_eq_some.mp h
    have hall : ∀ c ∈ (s'.heap x).Children, ∃ lc, Tree (f + g) s' c = some lc := by
      intro c hc
      rcases hch x c hc with hc | hc
      · obtain ⟨lc, hlc⟩ := forest_defined hlf c hc
        exact ih c lc hlc
      · rw [hc]
        exact ⟨l, Tree_mono_le (Nat.le_add_left g f) hn⟩
    obtain ⟨lf', hlf'⟩ := forest_total hall
    have e : f + 1 + g = (f + g) + 1 := by omega
    rw [e]
    exact ⟨x :: lf', Tree_succ_eq_some.mpr ⟨lf', hlf', rfl⟩⟩

/-- Below a node whose descendants have their listers as parents, a resolved
descendant means a resolved node, with no more fuel. -/
theorem resolve_up {s t : State} {Q : Ptr → Prop}
    (hQ : ∀ m c, Q m → c ∈ (s.heap m).Children → (t.heap c).Parent = some m ∧ Q c)
    {a x : Ptr} (hr : Reach s a x) : Q a → ∀ g v, resolve g t x = some v →
      ∃ g' v', g' ≤ g ∧ resolve g' t a = some v' := by
  induction hr with
  | refl d => exact fun _ g v h => ⟨g, v, le_refl _, h⟩
  | @step a c x hc _ ih =>
    intro hq g v h
    obtain ⟨hpar, hqc⟩ := hQ a c hq hc
    obtain ⟨g', v', hle, h'⟩ := ih hqc g v h
    cases g' with
    | zero => simp [resolve] at h'
    | succ k =>
      rw [resolve_succ_some hpar] at h'
      cases hra : resolve k t a with
      | none => simp [hra] at h'
      | some w => exact ⟨k, w, by omega, hra⟩

/-- A node whose parent is one of its own descendants never resolves. -/
theorem resolve_cycle {s t : State} {Q : Ptr → Prop}
    (hQ : ∀ m c, Q m → c ∈ (s.heap m).Children → (t.heap c).Parent = some m ∧ Q c)
    {n p : Ptr} (hr : Reach s n p) (hq : Q n) (hpar : (t.heap n).Parent = some p) :
    ∀ g, resolve g t n = none := by
  intro g
  induction g using Nat.strong_induction_on with
  | _ g ih =>
    cases g with
    | zero => rfl
    | succ k =>
      rw [resolve_succ_some hpar]
      cases hrp : resolve k t p with
      | none => rfl
      | some w =>
        obtain ⟨g', v', hle, h'⟩ := resolve_up hQ hr hq k w hrp
        rw [ih g' (by omega)] at h'
        cases h'

theorem BuiltInv.reach_lt {s : State} (hI : BuiltInv s) {a x : Ptr} (hr : Reach s a x)
    (ha : a < s.next) : x < s.next :=
  (Reach.carry (Q := fun y => y < s.next) (fun m c _ hc => ⟨hc, hI.closed m c hc⟩) hr ha).2

/-- A child that `SetRouter` drops from the children had the `Id` looked for. -/
theorem attachChild_dropped {s : State} {id : String} {n : Ptr} :
    ∀ {cs : List Ptr} {x : Ptr}, x ∈ cs → x ∉ attachChild s id n cs → (s.heap x).Id = id := by
  intro cs
  induction cs with
  | nil => intro x hx; cases hx
  | cons c cs ih =>
    intro x hx hnot
    by_cases hc : (s.heap c).Id = id
    · simp only [attachChild, replaceChild, hc, if_true, List.mem_cons, not_or] at hnot
      rcases List.mem_cons.mp hx with e | e
      · rw [e]; exact hc
      · exact absurd e hnot.2
    · cases hr : replaceChild s id n cs with
      | none =>
        simp only [attachChild, replaceChild, hc, if_false, hr, Option.map_none',
          List.cons_append, List.mem_cons, List.mem_append, not_or] at hnot
        rcases List.mem_cons.mp hx with e | e
        · exact absurd e hnot.1
        · exact absurd e hnot.2.1
      | some cs' =>
        simp only [attachChild, replaceChild, hc, if_false, hr, Option.map_some',
          List.mem_cons, not_or] at hnot
        rcases List.mem_cons.mp hx with e | e
        · exact absurd e hnot.1
        · exact ih e (by simpa [attachChild, hr] using hnot.2)

theorem attachChild_has {s : State} {id : String} {n : Ptr} :
    ∀ cs : List Ptr, n ∈ attachChild s id n cs := by
  intro cs
  induction cs with
  | nil => simp [attachChild, replaceChild]
  | cons c cs ih =>
    by_cases hc : (s.heap c).Id = id
    · simp [attachChild, replaceChild, hc]
    · cases hr : replaceChild s id n cs with
      | none => simp [attachChild, replaceChild, hc, hr]
      | some cs' =>
        have : n ∈ cs' := by simpa [attachChild, hr] using ih
        simp [attachChild, replaceChild, hc, hr, this]

/-- After `SetRouter` has returned the `Id` of the node is a key that maps to
the node. -/
theorem SetRouter_maps_node {u : Utils} {fuel : Nat} {pid : String} {n p : Ptr} {s s' : State}
    (hreg : s.dynaRouterMap pid = some p) (h : SetRouter u fuel pid n s = .ok s') :
    s'.dynaRouterMap (s'.heap n).Id = some n := by
  obtain ⟨s₁, _, rfl⟩ := SetRouter_inv hreg h
  have hS := attached_sameRes s₁ n p
  rw [hS.1, (hS.2 n).2.2.2.2.2]
  simp [State.register]

theorem RootPath.to_reach {s : State} {path : List Ptr} {x : Ptr} (h : RootPath s path x) :
    Reach s DefDynaRouter x := by
  induction h with
  | root => exact Reach.refl _
  | child _ hc ih => exact ih.tail hc

/-- What a call of `SetRouter` that returned in a built state has done to the
tree, when the node is listed by no node but the parent. -/
theorem SetRouter_shape {u : Utils} {s s' : State} (hI : BuiltInv s) (hS : Synced u s)
    {fuel : Nat} {pid : String} {n p : Ptr} (hn : n < s.next)
    (hfree : ∀ x, x < s.next → n ∈ (s.heap x).Children → x = p)
    (hreg : s.dynaRouterMap pid = some p) (h : SetRouter u fuel pid n s = .ok s') :
    ∃ l, Tree fuel s n = some l ∧ p ∉ l ∧ Tree fuel s' n = some l ∧ p < s.next ∧
      n ∈ (s'.heap p).Children ∧
      (∀ m c, c ∈ (s'.heap m).Children → c ∈ (s.heap m).Children ∨ c = n) ∧
      (∀ c, c ∈ (s.heap p).Children → c ∉ (s'.heap p).Children →
        (s'.heap c).Id = (s'.heap n).Id ∧ c ≠ n ∧ c ∉ l) := by
  obtain ⟨l, hl, hdone, _, hidf, hch, hchp, _, _, _⟩ := SetRouter_facts hreg h
  obtain ⟨s₁, h₁, _⟩ := SetRouter_inv hreg h
  obtain ⟨l₁, hl₁, hP⟩ := init_spec u fuel n _ s₁ h₁
  have hp : p < s.next := hI.reach_lt (hS.keyed pid p hreg).2 hI.nextPos
  have hQ : ∀ m c, m < s.next → c ∈ (s.heap m).Children →
      ((linked s n (some p)).heap c).Parent = some m ∧ c < s.next := by
    intro m c hm hc
    refine ⟨?_, hI.closed m c hc⟩
    by_cases hcn : c = n
    · subst hcn
      rw [linked_parent, hfree m hm hc]
    · rw [linked_heap_ne s _ hcn]
      exact hI.parentLinked m c hm hc
  have hpl : p ∉ l := by
    intro hp'
    obtain ⟨g, hg'⟩ := (hP.done n (mem_Tree_self hl₁)).1.1
    rw [hP.frame.resolve_eq,
      resolve_cycle hQ (reach_of_mem_Tree s fuel n l hl p hp') hn (linked_parent s n _)] at hg'
    cases hg'
  have hn' : Tree fuel s' n = some l :=
    Tree_congr_on fuel n l hl (fun x hx => hch x (fun e => hpl (e ▸ hx)))
  have hin : n ∈ (s'.heap p).Children := by rw [hchp]; exact attachChild_has _
  refine ⟨l, hl, hpl, hn', hp, hin, ?_, ?_⟩
  · intro m c hc
    by_cases hm : m = p
    · rw [hm, hchp] at hc
      rcases attachChild_mem hc with e | e
      · exact Or.inr e
      · exact Or.inl (hm ▸ e)
    · rw [hch m hm] at hc
      exact Or.inl hc
  · intro c hc hnot
    have hcn : c ≠ n := fun e => hnot (e ▸ hin)
    refine ⟨?_, hcn, ?_⟩
    · rw [hchp] at hnot
      exact attachChild_dropped hc hnot
    · intro hcl
      rcases Tree_lister s hl hcl with e | ⟨m, hm, hcm⟩
      · exact hcn e
      · have hml : m < s.next := hI.reach_lt (reach_of_mem_Tree s fuel n l hl m hm) hn
        have h1 := hI.parentLinked m c hml hcm
        have h2 := hI.parentLinked p c hp hc
        rw [h1] at h2
        exact hpl ((Option.some.inj h2) ▸ hm)

/-- A call of `SetRouter` that appends its node, replaces the node itself or
replaces a child without children keeps registry and tree in step. -/
theorem Synced.after_attach {u : Utils} {s s' : State} (hI : BuiltInv s) (hI' : BuiltInv s')
    (hS : Synced u s) (fuel : Nat) (pid : String) (n p : Ptr) (hn : n < s.next)
    (hfree : ∀ x, x < s.next → n ∈ (s.heap x).Children → x = p)
    (hreg : s.dynaRouterMap pid = some p) (h : SetRouter u fuel pid n s = .ok s')
    (hout : ∀ c, c ∈ (s.heap p).Children → c ∉ (s'.heap p).Children →
      (s.heap c).Children = []) : Synced u s' := by
  obtain ⟨l, hl, hpl, hl', hp, hin, hstep, hdrop⟩ := SetRouter_shape hI hS hn hfree hreg h
  obtain ⟨l₀, hl₀, hdone, _, hidf, hch, _, hfields, _, _⟩ := SetRouter_facts hreg h
  have e₀ : l = l₀ := Tree_unique hl hl₀
  subst e₀
  have hk : ∃ k, s.dynaRouterMap k ≠ none := ⟨pid, by rw [hreg]; simp⟩
  have hreg' : ∀ k, s.dynaRouterMap k ≠ none → s'.dynaRouterMap k ≠ none := by
    intro k hne
    rcases SetRouter_registry hreg h hl k with e | ⟨r, _, _, e⟩
    · rw [e]; exact hne
    · rw [e]; simp
  have hk' : ∃ k, s'.dynaRouterMap k ≠ none := ⟨pid, hreg' pid (by rw [hreg]; simp)⟩
  -- a root path of the new state is one of the old state or ends in the traversal
  have hback : ∀ path y, RootPath s' path y → RootPath s path y ∨ y ∈ l := by
    intro path y hp'
    induction hp' with
    | root => exact Or.inl RootPath.root
    | @child path m c _ hc ih =>
      rcases ih with hm | hm
      · rcases hstep m c hc with e | e
        · exact Or.inl (RootPath.child hm e)
        · exact Or.inr (e ▸ mem_Tree_self hl)
      · exact Or.inr (Tree_closed hl' hm hc)
  -- a root path of the old state is one of the new state or ends in a dropped child
  have hfwd : ∀ path y, RootPath s path y →
      RootPath s' path y ∨ (y ∈ (s.heap p).Children ∧ y ∉ (s'.heap p).Children) := by
    intro path y hp'
    induction hp' with
    | root => exact Or.inl RootPath.root
    | @child path m c _ hc ih =>
      rcases ih with hm | ⟨hm1, hm2⟩
      · by_cases hmp : m = p
        · subst hmp
          by_cases hc' : c ∈ (s'.heap m).Children
          · exact Or.inl (RootPath.child hm hc')
          · exact Or.inr ⟨hc, hc'⟩
        · exact Or.inl (RootPath.child hm (by rw [hch m hmp]; exact hc))
      · rw [hout m hm1 hm2] at hc
        cases hc
  have hurl : ∀ path y, RootPath s path y → RootPath s' path y →
      (s'.heap y).Url = (s.heap y).Url := by
    intro path y h1 h2
    rw [hI'.resolved hk' path y (hI'.treePath h2).1, hI.resolved hk path y (hI.treePath h1).1]
    exact nestedUrl_congr (fun d _ => ⟨(hfields d).1, (hfields d).2.1⟩)
  have hpr : Reach s' DefDynaRouter p := by
    obtain ⟨path, hpath⟩ := RootPath.of_reach (hS.keyed pid p hreg).2 _ RootPath.root
    rcases hfwd path p hpath with h' | ⟨h1, h2⟩
    · exact h'.to_reach
    · have hnil := hout p h1 h2
      rw [hnil] at h1
      cases h1
  refine ⟨?_, ?_⟩
  · intro _ x hx
    by_cases hxl : x ∈ l
    · obtain ⟨hst, r, hr, _⟩ := hdone x hxl
      exact ⟨hst.2, by rw [hr]; simp⟩
    · obtain ⟨path, hpath⟩ := RootPath.of_reach hx _ RootPath.root
      have hold : RootPath s path x := (hback path x hpath).resolve_right hxl
      obtain ⟨h1, h2⟩ := hS.settled hk x hold.to_reach
      rw [hidf x hxl, hurl path x hold hpath, (hfields x).2.2]
      exact ⟨h1, hreg' _ h2⟩
  · intro k r hkr
    rcases SetRouter_registry hreg h hl k with e | ⟨r', hr', hid', e⟩
    · rw [hkr] at e
      obtain ⟨h1, h2⟩ := hS.keyed k r e.symm
      obtain ⟨path, hpath⟩ := RootPath.of_reach h2 _ RootPath.root
      rcases hfwd path r hpath with hnew | ⟨hd1, hd2⟩
      · refine ⟨?_, hnew.to_reach⟩
        by_cases hrl : r ∈ l
        · rw [(hdone r hrl).1.2, hurl path r hpath hnew, (hfields r).2.2,
            ← (hS.settled hk r h2).1]
          exact h1
        · rw [hidf r hrl]; exact h1
      · obtain ⟨hid, hrn, hrl⟩ := hdrop r hd1 hd2
        have hmap := SetRouter_maps_node hreg h
        rw [← hid, hidf r hrl, h1, hkr] at hmap
        exact absurd (Option.some.inj hmap) hrn
    · rw [hkr] at e
      cases e
      refine ⟨hid', ?_⟩
      have hnr : Reach s' DefDynaRouter n := hpr.tail hin
      exact hnr.chain (reach_of_mem_Tree s' fuel n l hl' r hr')

/-- A call of `SetRouter` that returned in a built state with a finite tree
leaves the tree finite. -/
theorem SetRouter_finite {u : Utils} {s s' : State} (hI : BuiltInv s) (hS : Synced u s)
    {fuel : Nat} {pid : String} {n p : Ptr} (hn : n < s.next)
    (hfree : ∀ x, x < s.next → n ∈ (s.heap x).Children → x = p)
    (hreg : s.dynaRouterMap pid = some p) (h : SetRouter u fuel pid n s = .ok s')
    {f : Nat} {l₀ : List Ptr} (hl₀ : Tree f s DefDynaRouter = some l₀) :
    ∃ f' l', Tree f' s' DefDynaRouter = some l' := by
  obtain ⟨l, _, _, hl', _, _, hstep, _⟩ := SetRouter_shape hI hS hn hfree hreg h
  obtain ⟨l', hl''⟩ := Tree_graft hl' (fun y c hc => hstep y c hc) f DefDynaRouter l₀ hl₀
  exact ⟨f + fuel, l', hl''⟩

/-- The traversal from the root reads only allocated nodes of a built state. -/
theorem Tree_keep {s s' : State} (hI : BuiltInv s)
    (hold : ∀ x, x < s.next → (s'.heap x).Children = (s.heap x).Children)
    {f : Nat} {l : List Ptr} (hl : Tree f s DefDynaRouter = some l) :
    Tree f s' DefDynaRouter = some l :=
  Tree_congr_on f _ l hl (fun x hx =>
    hold x (hI.reach_lt (reach_of_mem_Tree s f _ l hl x hx) hI.nextPos))
/-! ## Slices, backing arrays and the view on lists -/

namespace Mem

theorem Slice.getElem?_elems {α : Type} (sl : Slice) (m : Arrays α) (j : Nat) :
    (sl.elems m)[j]? = if j < sl.len then (m.cells sl.arr)[sl.off + j]? else none := by
  simp only [Slice.elems, List.getElem?_take, List.getElem?_drop]

theorem getElem?_splice {α : Type} (a vs : List α) (i j : Nat) (hi : i ≤ a.length) :
    (a.take i ++ vs ++ a.drop (i + vs.length))[j]?
      = if j < i then a[j]? else if j < i + vs.length then vs[j - i]? else a[j]? := by
  have hl : (a.take i).length = i := by simp [hi]
  by_cases h1 : j < i
  · rw [if_pos h1, List.append_assoc, List.getElem?_append_left (by rw [hl]; exact h1),
      List.getElem?_take, if_pos h1]
  · rw [if_neg h1]
    by_cases h2 : j < i + vs.length
    · rw [if_pos h2, List.getElem?_append_left (by simp [hl]; omega),
        List.getElem?_append_right (by rw [hl]; omega), hl]
    · rw [if_neg h2, List.getElem?_append_right (by simp [hl]; omega)]
      simp only [List.length_append, hl, List.getElem?_drop]
      congr 1
      omega

theorem Arrays.cells_write_ne {α : Type} (m : Arrays α) {arr b : Nat} (i : Nat) (vs : List α) (h : b ≠ arr) :
    (m.write arr i vs).cells b = m.cells b := by
  simp [Arrays.write, Function.update_noteq h]

theorem Arrays.cells_write_self {α : Type} (m : Arrays α) (arr i : Nat) (vs : List α) :
    (m.write arr i vs).cells arr
      = (m.cells arr).take i ++ vs ++ (m.cells arr).drop (i + vs.length) := by
  simp [Arrays.write]

theorem Arrays.next_write {α : Type} (m : Arrays α) (arr i : Nat) (vs : List α) :
    (m.write arr i vs).next = m.next := rfl

theorem Arrays.length_write {α : Type} (m : Arrays α) (arr i : Nat) (vs : List α) (b : Nat)
    (h : i + vs.length ≤ (m.cells arr).length) :
    ((m.write arr i vs).cells b).length = (m.cells b).length := by
  by_cases hb : b = arr
  · subst hb
    rw [Arrays.cells_write_self]
    simp only [List.length_append, List.length_take, List.length_drop]
    omega
  · rw [Arrays.cells_write_ne m i vs hb]

theorem Slice.elems_len_zero {α : Type} {sl : Slice} (h : sl.len = 0) (m : Arrays α) : sl.elems m = [] := by
  simp [Slice.elems, h]

theorem Slice.length_elems {α : Type} {sl : Slice} {m : Arrays α} (h : sl.Within m) :
    (sl.elems m).length = sl.len := by
  simp only [Slice.elems, List.length_take, List.length_drop]
  have := h.1
  have := h.2
  omega

theorem Slice.length_elems_le {α : Type} (sl : Slice) (m : Arrays α) : (sl.elems m).length ≤ sl.len := by
  simp only [Slice.elems, List.length_take]
  omega

theorem Slice.elems_write_other {α : Type} {sl : Slice} {arr : Nat} (m : Arrays α) (i : Nat) (vs : List α)
    (h : sl.arr ≠ arr) : sl.elems (m.write arr i vs) = sl.elems m := by
  simp only [Slice.elems, Arrays.cells_write_ne m i vs h]

/-- A write leaves the elements of a slice that shows none of the written
cells. -/
theorem Slice.elems_write_apart {α : Type} {sl : Slice} (m : Arrays α) (i : Nat) (vs : List α)
    (hi : i ≤ (m.cells sl.arr).length)
    (h : sl.len = 0 ∨ sl.off + sl.len ≤ i ∨ i + vs.length ≤ sl.off) :
    sl.elems (m.write sl.arr i vs) = sl.elems m := by
  apply List.ext_getElem?
  intro j
  rw [Slice.getElem?_elems, Slice.getElem?_elems, Arrays.cells_write_self,
    getElem?_splice _ _ _ _ hi]
  by_cases hj : j < sl.len
  · rw [if_pos hj, if_pos hj]
    rcases h with h | h | h
    · omega
    · rw [if_pos (by omega)]
    · rw [if_neg (by omega), if_neg (by omega)]
  · rw [if_neg hj, if_neg hj]

/-- The assignment `sl[i] = v`. -/
theorem Slice.elems_write_self {α : Type} (sl : Slice) (m : Arrays α) (i : Nat) (v : α)
    (hi : i < (sl.elems m).length) :
    sl.elems (m.write sl.arr (sl.off + i) [v]) = (sl.elems m).set i v := by
  have hlen : i < sl.len ∧ sl.off + i < (m.cells sl.arr).length := by
    have := hi
    simp only [Slice.elems, List.length_take, List.length_drop] at this
    omega
  apply List.ext_getElem?
  intro j
  rw [Slice.getElem?_elems, Arrays.cells_write_self, getElem?_splice _ _ _ _ (by omega),
    List.getElem?_set, Slice.getElem?_elems]
  by_cases hj : j < sl.len
  · rw [if_pos hj, if_pos hj]
    rcases Nat.lt_trichotomy j i with hji | hji | hji
    · have c1 : sl.off + j < sl.off + i := by omega
      have c2 : ¬ i = j := by omega
      rw [if_pos c1, if_neg c2]
    · subst hji
      have c1 : ¬ sl.off + j < sl.off + j := by omega
      have c2 : sl.off + j < sl.off + j + [v].length := by simp
      rw [if_neg c1, if_pos c2, if_pos rfl, if_pos hi]
      simp
    · have c1 : ¬ sl.off + j < sl.off + i := by omega
      have c2 : ¬ sl.off + j < sl.off + i + [v].length := by simp; omega
      have c3 : ¬ i = j := by omega
      rw [if_neg c1, if_neg c2, if_neg c3]
  · have c3 : ¬ i = j := by omega
    rw [if_neg hj, if_neg c3, if_neg hj]

theorem Arrays.cells_alloc_ne {α : Type} (m : Arrays α) (content : List α) {b : Nat} (h : b ≠ m.next) :
    (m.alloc content).2.cells b = m.cells b := by
  simp [Arrays.alloc, Function.update_noteq h]

theorem Arrays.cells_alloc_self {α : Type} (m : Arrays α) (content : List α) :
    (m.alloc content).2.cells m.next = content := by
  simp [Arrays.alloc]

theorem Slice.elems_alloc_other {α : Type} {sl : Slice} (m : Arrays α) (content : List α)
    (h : sl.arr ≠ m.next) : sl.elems (m.alloc content).2 = sl.elems m := by
  simp only [Slice.elems, Arrays.cells_alloc_ne m content h]

theorem Arrays.append_fits {α : Type} (rt : Runtime) (z : α) (m : Arrays α) {sl : Slice} {vs : List α}
    (hc : sl.len + vs.length ≤ sl.cap) :
    m.append rt z sl vs
      = ({ sl with len := sl.len + vs.length }, m.write sl.arr (sl.off + sl.len) vs) := by
  simp [Arrays.append, hc]

theorem Arrays.append_grows {α : Type} (rt : Runtime) (z : α) (m : Arrays α) {sl : Slice} {vs : List α}
    (hc : ¬ sl.len + vs.length ≤ sl.cap) :
    m.append rt z sl vs
      = ({ arr := m.next, off := 0, len := sl.len + vs.length,
           cap := max (sl.len + vs.length) (rt.growCap sl.cap (sl.len + vs.length)) },
         (m.alloc (sl.elems m ++ vs ++ List.replicate
           (max (sl.len + vs.length) (rt.growCap sl.cap (sl.len + vs.length))
             - (sl.len + vs.length)) z)).2) := by
  simp [Arrays.append, hc, Arrays.alloc]

/-- What `append` returns shows the old elements followed by the new ones. -/
theorem Arrays.elems_append {α : Type} (rt : Runtime) (z : α) (m : Arrays α) (sl : Slice) (vs : List α)
    (h : sl.Within m) :
    (m.append rt z sl vs).1.elems (m.append rt z sl vs).2 = sl.elems m ++ vs := by
  have hlen := Slice.length_elems h
  obtain ⟨h1, h2⟩ := h
  by_cases hc : sl.len + vs.length ≤ sl.cap
  · rw [Arrays.append_fits rt z m hc]
    apply List.ext_getElem?
    intro j
    rw [Slice.getElem?_elems]
    show (if j < sl.len + vs.length then
      ((m.write sl.arr (sl.off + sl.len) vs).cells sl.arr)[sl.off + j]? else none) = _
    rw [Arrays.cells_write_self, getElem?_splice _ _ _ _ (by omega)]
    by_cases hj : j < sl.len
    · have c1 : j < sl.len + vs.length := by omega
      have c2 : sl.off + j < sl.off + sl.len := by omega
      rw [if_pos c1, if_pos c2, List.getElem?_append_left (by rw [hlen]; exact hj),
        Slice.getElem?_elems, if_pos hj]
    · have c2 : ¬ sl.off + j < sl.off + sl.len := by omega
      rw [List.getElem?_append_right (by rw [hlen]; omega), hlen, if_neg c2]
      by_cases hj2 : j < sl.len + vs.length
      · have c3 : sl.off + j < sl.off + sl.len + vs.length := by omega
        rw [if_pos hj2, if_pos c3]
        congr 1
        omega
      · rw [if_neg hj2]
        symm
        rw [List.getElem?_eq_none_iff]
        omega
  · rw [Arrays.append_grows rt z m hc]
    simp only [Slice.elems, Arrays.cells_alloc_self, List.drop_zero]
    have hl : (sl.elems m ++ vs).length = sl.len + vs.length := by
      rw [List.length_append, hlen]
    rw [List.take_append_eq_append_take]
    simp only [Slice.elems] at hl ⊢
    rw [hl, Nat.sub_self, List.take_zero, List.append_nil, List.take_of_length_le (by omega)]

theorem withFields_view (n : DynaRouter) (c : State) : n.withFields (n.view c) = n := rfl

theorem lift_view (c : State) : c.lift c.view = c := rfl

theorem mirrors_view (c : State) : Mirrors c c.view := fun _ => ⟨rfl, rfl, rfl⟩

theorem view_lift {c : State} {a : Lessgo.State} (h : Mirrors c a) : (c.lift a).view = a := by
  cases a with
  | mk heap next dm hm el =>
    simp only [State.view, State.lift, Lessgo.State.mk.injEq, and_true]
    funext x
    obtain ⟨h1, h2, h3⟩ := h x
    simp only [DynaRouter.view, DynaRouter.withFields]
    simp only [State.children, State.methods] at h1 h2 h3
    rcases hx : heap x with ⟨⟩
    simp only [hx] at h1 h2 h3
    simp [h1, h2, h3]

theorem Mirrors.of_frame {c : State} {a a' : Lessgo.State} (h : Mirrors c a)
    (hf : ∀ x, (a'.heap x).shape = (a.heap x).shape) : Mirrors c a' := by
  intro x
  have e := hf x
  have e1 : (a'.heap x).Children = (a.heap x).Children := by
    have := congrArg Lessgo.DynaRouter.Children e; exact this
  have e2 : (a'.heap x).Methods = (a.heap x).Methods := by
    have := congrArg Lessgo.DynaRouter.Methods e; exact this
  have e3 : (a'.heap x).Middlewares = (a.heap x).Middlewares := by
    have := congrArg Lessgo.DynaRouter.Middlewares e; exact this
  rw [e1, e2, e3]
  exact h x

theorem lift_set (c : State) (a : Lessgo.State) (d : Ptr) (m : Lessgo.DynaRouter) :
    (c.lift a).set d ((c.heap d).withFields m) = c.lift (a.set d m) := by
  simp only [State.lift, State.set, Lessgo.State.set]
  congr 1
  funext x
  by_cases hx : x = d
  · subst hx; simp
  · simp [Function.update_noteq hx]

theorem lift_set_eq {c : State} {a : Lessgo.State} {d : Ptr} {n : DynaRouter}
    {m : Lessgo.DynaRouter} (h : n = (c.heap d).withFields m) :
    (c.lift a).set d n = c.lift (a.set d m) := h ▸ lift_set c a d m

theorem setUrl_lift (c : State) : ∀ (fuel : Nat) (d : Ptr) (a : Lessgo.State),
    setUrl fuel d (c.lift a) = (Lessgo.setUrl fuel d a).map c.lift := by
  intro fuel
  induction fuel with
  | zero => intro d a; rfl
  | succ f ih =>
    intro d a
    simp only [setUrl, Lessgo.setUrl]
    have e1 : (c.lift a).set d { (c.lift a).heap d with ParentUrl := "" }
        = c.lift (a.set d { a.heap d with ParentUrl := "" }) :=
      lift_set c a d { a.heap d with ParentUrl := "" }
    rw [e1]
    generalize a.set d { a.heap d with ParentUrl := "" } = a₁
    have hp : ((c.lift a₁).heap d).Parent = (a₁.heap d).Parent := rfl
    rw [hp]
    cases hpar : (a₁.heap d).Parent with
    | none =>
      simp only [Option.map_some']
      exact congrArg some (lift_set_eq (by simp [DynaRouter.withFields, State.lift, hpar]))
    | some p =>
      simp only []
      rw [ih p a₁]
      cases Lessgo.setUrl f p a₁ with
      | none => rfl
      | some a₂ =>
        simp only [Option.map_some']
        have e2 : (c.lift a₂).set d { (c.lift a₂).heap d with ParentUrl := ((c.lift a₂).heap p).Url }
            = c.lift (a₂.set d { a₂.heap d with ParentUrl := (a₂.heap p).Url }) :=
          lift_set c a₂ d { a₂.heap d with ParentUrl := (a₂.heap p).Url }
        rw [e2]
        generalize a₂.set d { a₂.heap d with ParentUrl := (a₂.heap p).Url } = a₃
        exact congrArg some (lift_set c a₃ d { a₃.heap d with Url := _ })

theorem Mirrors.frame {c : State} {a a' : Lessgo.State} (h : Mirrors c a) (hf : Frame a a') :
    Mirrors c a' := h.of_frame hf.2.2.2

theorem setId_lift {c : State} {a : Lessgo.State} (h : Mirrors c a) (u : Utils) (d : Ptr) :
    setId u d (c.lift a) = c.lift (Lessgo.setId u d a) := by
  have hm : (c.lift a).methods d = (a.heap d).Methods := (h d).2.1.symm
  simp only [setId, Lessgo.setId, hm]
  exact lift_set_eq rfl

theorem setId_frame (u : Utils) (d : Ptr) (a : Lessgo.State) : Frame a (Lessgo.setId u d a) :=
  Frame.set' d _ rfl

theorem foldInit_lift (c : State) (u : Utils) (f : Nat)
    (ih : ∀ (d : Ptr) (a : Lessgo.State), Mirrors c a →
      init u f d (c.lift a) = (Lessgo.init u f d a).map c.lift) :
    ∀ (cs : List Ptr) (a : Lessgo.State), Mirrors c a →
      cs.foldlM (fun c' node => init u f node c') (c.lift a)
        = (cs.foldlM (fun a' node => Lessgo.init u f node a') a).map c.lift := by
  intro cs
  induction cs with
  | nil => intro a _; rfl
  | cons x xs ihx =>
    intro a hm
    simp only [List.foldlM_cons, Option.bind_eq_bind]
    rw [ih x a hm]
    cases hx : Lessgo.init u f x a with
    | none => rfl
    | some a₁ =>
      obtain ⟨l, _, hP⟩ := init_spec u f x a a₁ hx
      simp only [Option.map_some', Option.some_bind]
      exact ihx a₁ (hm.frame hP.frame)

theorem init_lift (c : State) (u : Utils) : ∀ (fuel : Nat) (d : Ptr) (a : Lessgo.State),
    Mirrors c a → init u fuel d (c.lift a) = (Lessgo.init u fuel d a).map c.lift := by
  intro fuel
  induction fuel with
  | zero => intro d a _; rfl
  | succ f ih =>
    intro d a hm
    simp only [init, Lessgo.init]
    rw [setUrl_lift]
    cases hs : Lessgo.setUrl f d a with
    | none => rfl
    | some a₁ =>
      have hm₁ : Mirrors c a₁ := hm.frame (setUrl_spec f d a a₁ hs).1
      have hm₂ : Mirrors c (Lessgo.setId u d a₁) := hm₁.frame (setId_frame u d a₁)
      simp only [Option.map_some']
      rw [setId_lift hm₁]
      have hc : (c.lift (Lessgo.setId u d a₁)).children d
          = ((Lessgo.setId u d a₁).heap d).Children := (hm₂ d).1.symm
      rw [hc, foldInit_lift c u f ih _ _ hm₂]
      cases (((Lessgo.setId u d a₁).heap d).Children.foldlM
          (fun a' node => Lessgo.init u f node a') (Lessgo.setId u d a₁)) with
      | none => rfl
      | some a₃ => rfl

/-- The call of `init` on a state with memory is the call on the lists it
shows; memory and slice headers stay as they are. -/
theorem init_view (u : Utils) (fuel : Nat) (d : Ptr) (c : State) :
    init u fuel d c = (Lessgo.init u fuel d c.view).map c.lift := by
  have := init_lift c u fuel d c.view (mirrors_view c)
  rwa [lift_view] at this

theorem Tree_view : ∀ (fuel : Nat) (c : State) (d : Ptr),
    Tree fuel c d = Lessgo.Tree fuel c.view d := by
  intro fuel
  induction fuel with
  | zero => intro c d; rfl
  | succ f ih =>
    intro c d
    simp only [Tree, Lessgo.Tree]
    have e : (fun rs node => (Tree f c node).map (rs ++ ·))
        = (fun rs node => (Lessgo.Tree f c.view node).map (rs ++ ·)) := by
      funext rs node
      rw [ih]
    rw [e]
    rfl

theorem view_set (c : State) (d : Ptr) (n : DynaRouter) :
    (c.set d n).view = c.view.set d (n.view c) := by
  simp only [State.view, State.set, Lessgo.State.set, Lessgo.State.mk.injEq, and_true]
  funext x
  by_cases hx : x = d
  · subst hx; simp; rfl
  · simp [Function.update_noteq hx]; rfl

theorem view_linked (c : State) (n : Ptr) (q : Option Ptr) :
    (linked c n q).view = Lessgo.linked c.view n q := view_set c n _

theorem SameBut.sameRes {c c' : State} (h : SameBut c c') : SameRes c.view c'.view := by
  obtain ⟨_, hstr, hmap, _, _, hx⟩ := h
  refine ⟨hmap, fun x => ?_⟩
  obtain ⟨sl, e⟩ := hx x
  simp only [State.view, DynaRouter.view, e, hstr]
  simp

theorem attach_sameBut (rt : Runtime) (c : State) (n p : Ptr) : SameBut c (attach rt c n p) := by
  unfold attach
  split
  · exact ⟨rfl, rfl, rfl, rfl, rfl, fun x => ⟨(c.heap x).Children, rfl⟩⟩
  · refine ⟨rfl, rfl, rfl, rfl, rfl, fun x => ?_⟩
    by_cases hx : x = p
    · subst hx
      exact ⟨(c.ptrs.append rt nilPtr (c.heap x).Children [n]).1, by simp [State.set]⟩
    · exact ⟨(c.heap x).Children, by simp [State.set, Function.update_noteq hx]⟩

theorem lift_register (c : State) (a : Lessgo.State) (k : String) (d : Ptr) :
    (c.lift a).register k d = c.lift (a.register k d) := rfl

theorem SetRouter_eq_attach {rt : Runtime} {u : Utils} {fuel : Nat} {pid : String} {n p : Ptr}
    {c : State} {a₁ : Lessgo.State} (hreg : c.dynaRouterMap pid = some p)
    (hinit : Lessgo.init u fuel n (Lessgo.linked c.view n (some p)) = some a₁) :
    SetRouter rt u fuel pid n c
      = .ok (attach rt ((linked c n (some p)).lift (a₁.register (a₁.heap n).Id n)) n p) := by
  obtain ⟨l, _, hP⟩ := init_spec u fuel n _ a₁ hinit
  have hpar : (a₁.heap n).Parent = some p := by
    rw [hP.frame.parent, Lessgo.linked_parent]
  have hlink : c.set n { c.heap n with Parent := c.dynaRouterMap pid } = linked c n (some p) := by
    rw [hreg]; rfl
  have hi : init u fuel n (linked c n (some p)) = some ((linked c n (some p)).lift a₁) := by
    rw [init_view, view_linked, hinit]; rfl
  simp only [SetRouter, hlink, hi]
  have hp2 : ((((linked c n (some p)).lift a₁).register
      (((linked c n (some p)).lift a₁).heap n).Id n).heap n).Parent = some p := hpar
  simp only [hp2]
  rfl

theorem setParents_lift (c : State) (p : Ptr) : ∀ (cs : List Ptr) (a : Lessgo.State),
    setParents p cs (c.lift a) = c.lift (Lessgo.setParents p cs a) := by
  intro cs
  induction cs with
  | nil => intro a; rfl
  | cons r rs ih =>
    intro a
    simp only [setParents, Lessgo.setParents]
    have e : (c.lift a).set r { (c.lift a).heap r with Parent := some p }
        = c.lift (a.set r { a.heap r with Parent := some p }) := lift_set_eq rfl
    rw [e, ih]

theorem setParents_view (p : Ptr) (cs : List Ptr) (c : State) :
    setParents p cs c = c.lift (Lessgo.setParents p cs c.view) := by
  have := setParents_lift c p cs c.view
  rwa [lift_view] at this

theorem children_lift (c : State) (a : Lessgo.State) (x : Ptr) :
    (c.lift a).children x = c.children x := rfl

/-- After the statements of `RootRouter` before `init` the root shows its old
children followed by the nodes handed over. -/
theorem rootLinked_shows {rt : Runtime} {node : Slice} {c : State}
    (hw : (c.heap DefDynaRouter).Children.Within c.ptrs) :
    (rootLinked rt node c).children DefDynaRouter
      = c.children DefDynaRouter ++ node.elems c.ptrs := by
  simp only [rootLinked]
  rw [setParents_view, children_lift]
  simp only [State.children, State.set, Function.update_same]
  exact Arrays.elems_append rt nilPtr c.ptrs _ _ hw

theorem findChild_none {c : State} {id : String} :
    ∀ {cs : List Ptr}, findChild c id cs = none → ∀ x ∈ cs, (c.heap x).Id ≠ id := by
  intro cs
  induction cs with
  | nil => intro _ x hx; simp at hx
  | cons y ys ih =>
    intro h x hx
    simp only [findChild] at h
    split at h
    · cases h
    · next hy =>
      rcases List.mem_cons.mp hx with e | e
      · rw [e]; exact hy
      · cases hr : findChild c id ys with
        | none => exact ih hr x e
        | some j => rw [hr] at h; cases h

theorem findChild_some {c : State} {id : String} :
    ∀ {cs : List Ptr} {i : Nat}, findChild c id cs = some i →
      ∃ a x b, cs = a ++ x :: b ∧ a.length = i ∧ (c.heap x).Id = id ∧
        ∀ y ∈ a, (c.heap y).Id ≠ id := by
  intro cs
  induction cs with
  | nil => intro i h; cases h
  | cons y ys ih =>
    intro i h
    simp only [findChild] at h
    split at h
    · next hy =>
      cases h
      exact ⟨[], y, ys, rfl, rfl, hy, fun _ hz => absurd hz (List.not_mem_nil _)⟩
    · next hy =>
      cases hr : findChild c id ys with
      | none => rw [hr] at h; cases h
      | some j =>
        rw [hr] at h
        cases h
        obtain ⟨a, x, b, e, hlen, hx, ha⟩ := ih hr
        refine ⟨y :: a, x, b, by rw [e]; rfl, by simp [hlen], hx, ?_⟩
        intro z hz
        rcases List.mem_cons.mp hz with e' | e'
        · rw [e']; exact hy
        · exact ha z e'

theorem Slice.elems_prefix {α : Type} (sl : Slice) (m : Arrays α) (i : Nat) :
    ({ sl with len := i } : Slice).elems m = (sl.elems m ++ []).take i ∨ sl.len < i := by
  by_cases h : sl.len < i
  · exact Or.inr h
  · left
    simp only [Slice.elems, List.append_nil, List.take_take]
    congr 1
    omega

/-- The children of the parent after the loop of `DelRouter`. -/
theorem detach_children (rt : Runtime) (c : State) (id : String) (p : Ptr)
    (hw : (c.heap p).Children.Within c.ptrs) :
    (detach rt c id p).children p = removeChild c.view id (c.children p) := by
  unfold detach
  cases hf : findChild c id (c.children p) with
  | none =>
    simp only []
    exact (removeChild_none (s := c.view) (fun x hx => findChild_none hf x hx)).symm
  | some i =>
    obtain ⟨a, x, b, e, hlen, hx, ha⟩ := findChild_some hf
    simp only [State.children, State.set, Function.update_same]
    have hl := Slice.length_elems hw
    have hcs : (c.heap p).Children.elems c.ptrs = a ++ x :: b := e
    have hi : i < (c.heap p).Children.len := by
      rw [← hl, hcs, ← hlen]; simp
    have hw' : ({ (c.heap p).Children with len := i } : Slice).Within c.ptrs :=
      ⟨Nat.le_trans (Nat.le_of_lt hi) hw.1, hw.2⟩
    rw [Arrays.elems_append rt nilPtr c.ptrs _ _ hw']
    rcases Slice.elems_prefix (c.heap p).Children c.ptrs i with h | h
    · rw [h, List.append_nil, hcs, ← hlen]
      rw [removeChild_first (s := c.view) ha hx]
      simp
    · omega

theorem detach_heap_ne (rt : Runtime) (c : State) (id : String) {p x : Ptr} (h : x ≠ p) :
    (detach rt c id p).heap x = c.heap x := by
  unfold detach
  split
  · simp [State.set, Function.update_noteq h]
  · rfl

theorem detach_sameBut (rt : Runtime) (c : State) (id : String) (p : Ptr) :
    SameBut c (detach rt c id p) := by
  unfold detach
  split
  · rename_i i _
    refine ⟨rfl, rfl, rfl, rfl, rfl, fun x => ?_⟩
    by_cases hx : x = p
    · subst hx
      exact ⟨(c.ptrs.append rt nilPtr { (c.heap x).Children with len := i }
        ((c.children x).drop (i + 1))).1, by simp [State.set]⟩
    · exact ⟨(c.heap x).Children, by simp [State.set, Function.update_noteq hx]⟩
  · exact ⟨rfl, rfl, rfl, rfl, rfl, fun x => ⟨(c.heap x).Children, rfl⟩⟩

/-- A node whose children lie apart from those of the parent shows the same
children after the loop of `DelRouter`. -/
theorem detach_children_apart (rt : Runtime) (c : State) (id : String) {p x : Ptr}
    (hw : (c.heap p).Children.Within c.ptrs) (hx : x ≠ p)
    (hap : (c.heap x).Children.Apart (c.heap p).Children) :
    (detach rt c id p).children x = c.children x := by
  have hh := detach_heap_ne rt c id (p := p) hx
  simp only [State.children, hh]
  unfold detach
  cases hf : findChild c id (c.children p) with
  | none => rfl
  | some i =>
    obtain ⟨a, y, b, e, hlen, _, _⟩ := findChild_some hf
    have hl := Slice.length_elems hw
    have hcs : (c.heap p).Children.elems c.ptrs = a ++ y :: b := e
    have hi : i < (c.heap p).Children.len := by
      rw [← hl, hcs, ← hlen]; simp
    have hd : ((c.children p).drop (i + 1)).length = (c.heap p).Children.len - (i + 1) := by
      rw [List.length_drop]
      show ((c.heap p).Children.elems c.ptrs).length - (i + 1) = _
      rw [hl]
    have hfit : ({ (c.heap p).Children with len := i } : Slice).len
        + ((c.children p).drop (i + 1)).length
        ≤ ({ (c.heap p).Children with len := i } : Slice).cap := by
      show i + ((c.children p).drop (i + 1)).length ≤ (c.heap p).Children.cap
      rw [hd]
      have := hw.1
      omega
    simp only [Arrays.append_fits rt nilPtr c.ptrs hfit, State.set]
    by_cases harr : (c.heap x).Children.arr = (c.heap p).Children.arr
    · have hwr := @Slice.elems_write_apart Ptr (c.heap x).Children c.ptrs
        ((c.heap p).Children.off + i) ((c.children p).drop (i + 1))
        (by rw [harr]; have := hw.1; have := hw.2; omega)
        (by
          rw [hd]
          rcases hap with h | h | h | h | h
          · exact absurd harr h
          · exact Or.inl h
          · omega
          · right; left; omega
          · right; right; omega)
      rw [harr] at hwr
      exact hwr
    · exact Slice.elems_write_other c.ptrs _ _ harr

end Mem
/-! ## Nodes that own their backing arrays -/

namespace Mem

theorem Slice.elems_eq_nil_of_cap {α : Type} {sl : Slice} (m : Arrays α) (hw : sl.len ≤ sl.cap)
    (h : sl.cap = 0) : sl.elems m = [] :=
  Slice.elems_len_zero (by omega) m

theorem Arrays.write_nil {α : Type} (m : Arrays α) (arr i : Nat) : m.write arr i [] = m := by
  cases m with
  | mk cells next =>
    simp only [Arrays.write, List.append_nil, List.length_nil, Nat.add_zero, List.take_append_drop,
      Function.update_eq_self]

/-- A slice that has no backing array in common with the slice appended to
shows the same elements after the `append`. -/
theorem Arrays.elems_append_disjoint {α : Type} (rt : Runtime) (z : α) (m : Arrays α)
    {sl t : Slice} (vs : List α) (ht : t.len ≤ t.cap) (hb : t.arr < m.next)
    (hd : sl.Disjoint t) : t.elems (m.append rt z sl vs).2 = t.elems m := by
  by_cases hc : sl.len + vs.length ≤ sl.cap
  · rw [Arrays.append_fits rt z m hc]
    rcases hd with h | h | h
    · exact Slice.elems_write_other m _ _ (fun e => h e.symm)
    · have hv : vs = [] := List.eq_nil_of_length_eq_zero (by omega)
      rw [hv, Arrays.write_nil]
    · rw [Slice.elems_eq_nil_of_cap _ ht h, Slice.elems_eq_nil_of_cap _ ht h]
  · rw [Arrays.append_grows rt z m hc]
    exact Slice.elems_alloc_other m _ (Nat.ne_of_lt hb)

theorem Arrays.within_append {α : Type} (rt : Runtime) (z : α) (m : Arrays α)
    {sl : Slice} (vs : List α) (hw : sl.Within m) :
    (m.append rt z sl vs).1.Within (m.append rt z sl vs).2 := by
  have hlen := Slice.length_elems hw
  by_cases hc : sl.len + vs.length ≤ sl.cap
  · rw [Arrays.append_fits rt z m hc]
    refine ⟨hc, ?_⟩
    show sl.off + sl.cap ≤ ((m.write sl.arr (sl.off + sl.len) vs).cells sl.arr).length
    rw [Arrays.length_write _ _ _ _ _ (by have := hw.2; omega)]
    exact hw.2
  · rw [Arrays.append_grows rt z m hc]
    refine ⟨Nat.le_max_left _ _, ?_⟩
    simp only [Arrays.cells_alloc_self, List.length_append, List.length_replicate, hlen]
    have := Nat.le_max_left (sl.len + vs.length) (rt.growCap sl.cap (sl.len + vs.length))
    omega

theorem Arrays.within_append_other {α : Type} (rt : Runtime) (z : α) (m : Arrays α)
    {sl t : Slice} (vs : List α) (hw : sl.Within m) (ht : t.Within m) (hb : t.arr < m.next) :
    t.Within (m.append rt z sl vs).2 := by
  by_cases hc : sl.len + vs.length ≤ sl.cap
  · rw [Arrays.append_fits rt z m hc]
    refine ⟨ht.1, ?_⟩
    rw [Arrays.length_write _ _ _ _ _ (by have := hw.1; have := hw.2; omega)]
    exact ht.2
  · rw [Arrays.append_grows rt z m hc]
    refine ⟨ht.1, ?_⟩
    rw [Arrays.cells_alloc_ne m _ (Nat.ne_of_lt hb)]
    exact ht.2

theorem Arrays.next_append {α : Type} (rt : Runtime) (z : α) (m : Arrays α) (sl : Slice)
    (vs : List α) : m.next ≤ (m.append rt z sl vs).2.next := by
  by_cases hc : sl.len + vs.length ≤ sl.cap
  · rw [Arrays.append_fits rt z m hc]; exact Nat.le_refl _
  · rw [Arrays.append_grows rt z m hc]; exact Nat.le_succ _

theorem Arrays.arr_append {α : Type} (rt : Runtime) (z : α) (m : Arrays α) (sl : Slice)
    (vs : List α) (hb : sl.arr < m.next) :
    (m.append rt z sl vs).1.arr < (m.append rt z sl vs).2.next ∧
      ((m.append rt z sl vs).1.arr = sl.arr ∧ (m.append rt z sl vs).1.cap = sl.cap ∨
        (m.append rt z sl vs).1.arr = m.next) := by
  by_cases hc : sl.len + vs.length ≤ sl.cap
  · rw [Arrays.append_fits rt z m hc]; exact ⟨hb, Or.inl ⟨rfl, rfl⟩⟩
  · rw [Arrays.append_grows rt z m hc]; exact ⟨Nat.lt_succ_self _, Or.inr rfl⟩

theorem appended_heap_ne (rt : Runtime) (c : State) {p x : Ptr} (vs : List Ptr) (h : x ≠ p) :
    (appended rt c p vs).heap x = c.heap x := by
  simp [appended, State.set, Function.update_noteq h]

theorem appended_heap_self (rt : Runtime) (c : State) (p : Ptr) (vs : List Ptr) :
    (appended rt c p vs).heap p
      = { c.heap p with Children := (c.ptrs.append rt nilPtr (c.heap p).Children vs).1 } := by
  simp [appended, State.set]

theorem appended_children_self (rt : Runtime) {c : State} (p : Ptr) (vs : List Ptr)
    (hw : (c.heap p).Children.Within c.ptrs) :
    (appended rt c p vs).children p = c.children p ++ vs := by
  simp only [State.children, appended_heap_self]
  exact Arrays.elems_append rt nilPtr c.ptrs _ vs hw

theorem appended_children_ne (rt : Runtime) {c : State} (hO : Owned c) {p x : Ptr}
    (vs : List Ptr) (h : x ≠ p) : (appended rt c p vs).children x = c.children x := by
  simp only [State.children, appended_heap_ne rt c vs h]
  exact Arrays.elems_append_disjoint rt nilPtr c.ptrs vs (hO.within x).1
    (hO.bound x) (hO.own p x (fun e => h e.symm))

theorem appended_owned (rt : Runtime) {c : State} (hO : Owned c) (p : Ptr) (vs : List Ptr)
    (hp : p < c.next) : Owned (appended rt c p vs) := by
  have hA := Arrays.arr_append rt nilPtr c.ptrs (c.heap p).Children vs (hO.bound p)
  refine ⟨fun x => ?_, fun x => ?_, fun x y hxy => ?_, fun x hx => ?_⟩
  · by_cases h : x = p
    · subst h
      rw [appended_heap_self]
      exact Arrays.within_append rt nilPtr c.ptrs vs (hO.within x)
    · rw [appended_heap_ne rt c vs h]
      exact Arrays.within_append_other rt nilPtr c.ptrs vs (hO.within p) (hO.within x)
        (hO.bound x)
  · by_cases h : x = p
    · subst h
      rw [appended_heap_self]
      exact hA.1
    · rw [appended_heap_ne rt c vs h]
      exact Nat.lt_of_lt_of_le (hO.bound x) (Arrays.next_append rt nilPtr c.ptrs _ vs)
  · have key : ∀ y, y ≠ p →
        ((appended rt c p vs).heap p).Children.Disjoint ((appended rt c p vs).heap y).Children := by
      intro y hy
      rw [appended_heap_self, appended_heap_ne rt c vs hy]
      rcases hA.2 with ⟨ha, hc⟩ | ha
      · rcases hO.own p y (fun e => hy e.symm) with h | h | h
        · exact Or.inl (by rw [ha]; exact h)
        · exact Or.inr (Or.inl (by rw [hc]; exact h))
        · exact Or.inr (Or.inr h)
      · exact Or.inl (by rw [ha]; exact fun e => absurd (hO.bound y) (by rw [← e]; omega))
    by_cases hx : x = p
    · subst hx
      exact key y (fun e => hxy e.symm)
    · by_cases hy : y = p
      · subst hy
        rcases key x hx with h | h | h
        · exact Or.inl (fun e => h e.symm)
        · exact Or.inr (Or.inr h)
        · exact Or.inr (Or.inl h)
      · rw [appended_heap_ne rt c vs hx, appended_heap_ne rt c vs hy]
        exact hO.own x y hxy
  · have hx' : c.next ≤ x := hx
    have hne : x ≠ p := fun e => absurd (Nat.lt_of_lt_of_le hp (e ▸ hx')) (Nat.lt_irrefl _)
    rw [appended_heap_ne rt c vs hne]
    exact hO.unalloc x hx

theorem SameBut.view_eq {c c' : State} (h : SameBut c c') :
    c'.view = reChild c.view c'.children := by
  obtain ⟨hn, hstr, hmap, hh, he, hx⟩ := h
  simp only [State.view, reChild, hn, hmap, hh, he, Lessgo.State.mk.injEq, and_true]
  funext x
  obtain ⟨sl, e⟩ := hx x
  simp only [DynaRouter.view, State.children, e, hstr]

theorem Owned.of_same {c c' : State} (h : Owned c) (hp : c'.ptrs = c.ptrs)
    (hn : c'.next = c.next) (hc : ∀ x, (c'.heap x).Children = (c.heap x).Children) :
    Owned c' := by
  refine ⟨fun x => ?_, fun x => ?_, fun x y hxy => ?_, fun x hx => ?_⟩
  · rw [hc, hp]; exact h.within x
  · rw [hc, hp]; exact h.bound x
  · rw [hc, hc]; exact h.own x y hxy
  · rw [hc]; exact h.unalloc x (by rw [← hn]; exact hx)

theorem Owned.lift {c : State} (h : Owned c) {a : Lessgo.State} (hn : a.next = c.next) :
    Owned (c.lift a) :=
  h.of_same rfl hn (fun _ => rfl)

theorem Owned.linked {c : State} (h : Owned c) (n : Ptr) (q : Option Ptr) :
    Owned (linked c n q) := by
  refine h.of_same rfl rfl (fun x => ?_)
  by_cases hx : x = n
  · subst hx; simp [Mem.linked, State.set]
  · simp [Mem.linked, State.set, Function.update_noteq hx]

theorem replaceChild_of_find {c : State} {id : String} (n : Ptr) :
    ∀ {cs : List Ptr} {i : Nat}, findChild c id cs = some i →
      replaceChild c.view id n cs = some (cs.set i n) ∧ i < cs.length := by
  intro cs
  induction cs with
  | nil => intro i h; cases h
  | cons y ys ih =>
    intro i h
    simp only [findChild] at h
    by_cases hy : (c.heap y).Id = id
    · rw [if_pos hy] at h
      cases h
      have hy' : (c.view.heap y).Id = id := hy
      simp [replaceChild, hy']
    · rw [if_neg hy] at h
      have hy' : ¬ (c.view.heap y).Id = id := hy
      cases hr : findChild c id ys with
      | none => rw [hr] at h; cases h
      | some j =>
        rw [hr] at h
        cases h
        obtain ⟨h1, h2⟩ := ih hr
        simp [replaceChild, hy', h1, h2]

theorem replaceChild_of_find_none {c : State} {id : String} (n : Ptr) {cs : List Ptr}
    (h : findChild c id cs = none) : replaceChild c.view id n cs = none :=
  replaceChild_none (s := c.view) (fun x hx => findChild_none h x hx)

theorem appended_sameBut (rt : Runtime) (c : State) (p : Ptr) (vs : List Ptr) :
    SameBut c (appended rt c p vs) := by
  refine ⟨rfl, rfl, rfl, rfl, rfl, fun x => ?_⟩
  by_cases hx : x = p
  · subst hx
    exact ⟨(c.ptrs.append rt nilPtr (c.heap x).Children vs).1, appended_heap_self rt c x vs⟩
  · exact ⟨(c.heap x).Children, by rw [appended_heap_ne rt c vs hx]⟩

theorem attach_of_find {rt : Runtime} {c : State} {n p : Ptr} {i : Nat}
    (h : findChild c (c.heap n).Id (c.children p) = some i) :
    attach rt c n p
      = { c with ptrs := c.ptrs.write (c.heap p).Children.arr ((c.heap p).Children.off + i) [n] } := by
  simp only [attach, h]

theorem attach_of_find_none {rt : Runtime} {c : State} {n p : Ptr}
    (h : findChild c (c.heap n).Id (c.children p) = none) :
    attach rt c n p = appended rt c p [n] := by
  simp only [attach, h, appended]

/-- The children that every node shows after the loop and the `append` of
`SetRouter`, when no two nodes share a backing array. -/
theorem attach_children (rt : Runtime) {c : State} (hO : Owned c) (n p x : Ptr) :
    (attach rt c n p).children x
      = if x = p then attachChild c.view (c.heap n).Id n (c.children p) else c.children x := by
  cases hf : findChild c (c.heap n).Id (c.children p) with
  | none =>
    rw [attach_of_find_none hf]
    by_cases hx : x = p
    · subst hx
      rw [if_pos rfl, appended_children_self rt x [n] (hO.within x)]
      simp only [attachChild, replaceChild_of_find_none n hf]
    · rw [if_neg hx, appended_children_ne rt hO [n] hx]
  | some i =>
    rw [attach_of_find hf]
    obtain ⟨hr, hi⟩ := replaceChild_of_find n hf
    by_cases hx : x = p
    · subst hx
      rw [if_pos rfl]
      have ha : attachChild c.view (c.heap n).Id n (c.children x) = (c.children x).set i n := by
        simp only [attachChild, hr]
      rw [ha]
      exact Slice.elems_write_self _ c.ptrs i n hi
    · rw [if_neg hx]
      simp only [State.children]
      by_cases harr : (c.heap x).Children.arr = (c.heap p).Children.arr
      · have hlp : 0 < (c.heap p).Children.len :=
          Nat.lt_of_lt_of_le (Nat.zero_lt_of_lt hi) (Slice.length_elems_le _ _)
        have hcp := (hO.within p).1
        rcases hO.own x p hx with h | h | h
        · exact absurd harr h
        · rw [Slice.elems_eq_nil_of_cap _ (hO.within x).1 h,
            Slice.elems_eq_nil_of_cap _ (hO.within x).1 h]
        · omega
      · exact Slice.elems_write_other c.ptrs _ _ harr

theorem attach_owned (rt : Runtime) {c : State} (hO : Owned c) (n p : Ptr) (hp : p < c.next) :
    Owned (attach rt c n p) := by
  cases hf : findChild c (c.heap n).Id (c.children p) with
  | none =>
    rw [attach_of_find_none hf]
    exact appended_owned rt hO p [n] hp
  | some i =>
    rw [attach_of_find hf]
    obtain ⟨_, hi⟩ := replaceChild_of_find n hf
    have hi' : (c.heap p).Children.off + i + 1 ≤ (c.ptrs.cells (c.heap p).Children.arr).length := by
      have := hi
      simp only [State.children, Slice.elems, List.length_take, List.length_drop] at this
      omega
    refine ⟨fun x => ⟨(hO.within x).1, ?_⟩, hO.bound, hO.own, hO.unalloc⟩
    show _ ≤ ((c.ptrs.write _ _ [n]).cells _).length
    rw [Arrays.length_write _ _ _ _ _ hi']
    exact (hO.within x).2

/-- The state on lists after the loop and the `append` of `SetRouter`, when no
two nodes share a backing array. -/
theorem attach_view (rt : Runtime) {c : State} (hO : Owned c) (n p : Ptr) :
    (attach rt c n p).view
      = c.view.set p { c.view.heap p with
          Children := attachChild c.view (c.heap n).Id n (c.children p) } := by
  rw [(attach_sameBut rt c n p).view_eq, set_children_eq]
  congr 1
  funext x
  rw [attach_children rt hO]
  rfl

/-- A call of `SetRouter` that returns in a state in which no two nodes share a
backing array is the call on the lists that the state shows. -/
theorem SetRouter_view {rt : Runtime} {u : Utils} {fuel : Nat} {pid : String} {n p : Ptr}
    {c c' : State} (hO : Owned c) (hp : p < c.next) (hreg : c.dynaRouterMap pid = some p)
    (h : SetRouter rt u fuel pid n c = .ok c') :
    Lessgo.SetRouter u fuel pid n c.view = .ok c'.view ∧ Owned c' := by
  cases hi : Lessgo.init u fuel n (Lessgo.linked c.view n (some p)) with
  | none =>
    have hlink : c.set n { c.heap n with Parent := c.dynaRouterMap pid } = linked c n (some p) := by
      rw [hreg]; rfl
    simp only [SetRouter, hlink, init_view, view_linked, hi, Option.map_none'] at h
    cases h
  | some a₁ =>
    rw [SetRouter_eq_attach hreg hi] at h
    have hc' := Outcome.ok.inj h
    obtain ⟨l, _, hP⟩ := init_spec u fuel n _ a₁ hi
    have P := hP.comp (initPost_register u (hP.done n (mem_Tree_self (by assumption))).1)
    have hm : Mirrors (linked c n (some p)) (a₁.register (a₁.heap n).Id n) := by
      have := @Mirrors.frame (linked c n (some p)) _ (a₁.register (a₁.heap n).Id n)
        (mirrors_view (linked c n (some p)))
      rw [view_linked] at this
      exact this P.frame
    have hv := view_lift hm
    have hO₂ : Owned ((linked c n (some p)).lift (a₁.register (a₁.heap n).Id n)) :=
      (hO.linked n (some p)).lift P.frame.1
    have hp₂ : p < ((linked c n (some p)).lift (a₁.register (a₁.heap n).Id n)).next := by
      show p < (a₁.register (a₁.heap n).Id n).next
      rw [P.frame.1]
      exact hp
    refine ⟨?_, hc' ▸ attach_owned rt hO₂ n p hp₂⟩
    have e1 : ((linked c n (some p)).lift (a₁.register (a₁.heap n).Id n)).children p
        = (a₁.heap p).Children := (hm p).1.symm
    have e2 : ∀ id cs, attachChild (a₁.register (a₁.heap n).Id n) id n cs
        = attachChild a₁ id n cs :=
      fun id cs => @attachChild_congr a₁ (a₁.register (a₁.heap n).Id n) (fun _ => rfl) id n cs
    rw [Lessgo.SetRouter_of_init (show c.view.dynaRouterMap pid = some p from hreg) hi, ← hc',
      attach_view rt hO₂, hv, e1, e2]
    rfl

theorem Mirrors.of_fields {c : State} {a a' : Lessgo.State} (h : Mirrors c a)
    (hf : ∀ x, (a'.heap x).Children = (a.heap x).Children ∧
      (a'.heap x).Methods = (a.heap x).Methods ∧
      (a'.heap x).Middlewares = (a.heap x).Middlewares) : Mirrors c a' := by
  intro x
  obtain ⟨e1, e2, e3⟩ := hf x
  rw [e1, e2, e3]
  exact h x

theorem Mirrors.through_setParents {c : State} {a : Lessgo.State} (h : Mirrors c a) (p : Ptr)
    (cs : List Ptr) : Mirrors c (Lessgo.setParents p cs a) := by
  refine h.of_fields (fun x => ?_)
  rw [setParents_heap]
  split <;> exact ⟨rfl, rfl, rfl⟩

/-- The loop that sets the parents, on the lists that the state shows. -/
theorem view_setParents (p : Ptr) (cs : List Ptr) (c : State) :
    (setParents p cs c).view = Lessgo.setParents p cs c.view := by
  rw [setParents_view]
  exact view_lift ((mirrors_view c).through_setParents p cs)

theorem Owned.after_setParents {c : State} (h : Owned c) (p : Ptr) (cs : List Ptr) :
    Owned (setParents p cs c) := by
  rw [setParents_view]
  exact h.lift (setParents_next p cs c.view)

theorem appended_view (rt : Runtime) {c : State} (hO : Owned c) (p : Ptr) (vs : List Ptr) :
    (appended rt c p vs).view
      = c.view.set p { c.view.heap p with Children := (c.view.heap p).Children ++ vs } := by
  rw [(appended_sameBut rt c p vs).view_eq, set_children_eq]
  congr 1
  funext x
  by_cases hx : x = p
  · subst hx
    rw [if_pos rfl, appended_children_self rt x vs (hO.within x)]
    rfl
  · rw [if_neg hx, appended_children_ne rt hO vs hx]
    rfl

theorem rootLinked_eq (rt : Runtime) (node : Slice) (c : State) :
    rootLinked rt node c
      = setParents DefDynaRouter
          (node.elems (appended rt c DefDynaRouter (node.elems c.ptrs)).ptrs)
          (appended rt c DefDynaRouter (node.elems c.ptrs)) := rfl

/-- The statements of `RootRouter` before `init`, on the lists that the state
shows, when no two nodes share a backing array and the slice handed over has
none in common with the children of the root. -/
theorem rootLinked_view (rt : Runtime) {c : State} (hO : Owned c) {node : Slice}
    (hw : node.Within c.ptrs) (hb : node.arr < c.ptrs.next)
    (hd : (c.heap DefDynaRouter).Children.Disjoint node) :
    (rootLinked rt node c).view = Lessgo.rootLinked (node.elems c.ptrs) c.view := by
  have he : node.elems (appended rt c DefDynaRouter (node.elems c.ptrs)).ptrs
      = node.elems c.ptrs :=
    Arrays.elems_append_disjoint rt nilPtr c.ptrs _ hw.1 hb hd
  rw [rootLinked_eq, he, view_setParents, appended_view rt hO]
  rfl

theorem rootLinked_owned (rt : Runtime) {c : State} (hO : Owned c) (node : Slice)
    (hp : DefDynaRouter < c.next) : Owned (rootLinked rt node c) := by
  rw [rootLinked_eq]
  exact (appended_owned rt hO _ _ hp).after_setParents _ _

/-- A call of `RootRouter` that returns, on the lists that the state shows. -/
theorem RootRouter_view {rt : Runtime} {u : Utils} {fuel : Nat} {c c' : State} (hO : Owned c)
    {node : Slice} (hw : node.Within c.ptrs) (hb : node.arr < c.ptrs.next)
    (hd : (c.heap DefDynaRouter).Children.Disjoint node) (hp : DefDynaRouter < c.next)
    (h : RootRouter rt u fuel node c = some c') :
    Lessgo.RootRouter u fuel (node.elems c.ptrs) c.view = some c'.view ∧ Owned c' := by
  simp only [RootRouter, init_view, rootLinked_view rt hO hw hb hd] at h
  cases hi : Lessgo.init u fuel DefDynaRouter (Lessgo.rootLinked (node.elems c.ptrs) c.view) with
  | none => rw [hi] at h; cases h
  | some a' =>
    rw [hi] at h
    have hc' : (rootLinked rt node c).lift a' = c' := Option.some.inj h
    obtain ⟨l, _, hP⟩ := init_spec u fuel _ _ a' hi
    have hm : Mirrors (rootLinked rt node c) a' := by
      have := @Mirrors.frame (rootLinked rt node c) _ a' (mirrors_view _)
      rw [rootLinked_view rt hO hw hb hd] at this
      exact this hP.frame
    have hn : a'.next = (rootLinked rt node c).next := by
      have h1 := hP.frame.1
      have h2 : (rootLinked rt node c).view.next = (rootLinked rt node c).next := rfl
      rw [← h2, rootLinked_view rt hO hw hb hd]
      exact h1
    refine ⟨?_, hc' ▸ (rootLinked_owned rt hO node hp).lift hn⟩
    rw [RootRouter_eq, hi, ← hc', view_lift hm]

theorem view_alloc (c : State) (d : DynaRouter) :
    (c.alloc d).2.view = (c.view.alloc (d.view c)).2 := by
  simp only [State.alloc, State.view, Lessgo.State.alloc, Lessgo.State.mk.injEq, and_true]
  funext x
  by_cases hx : x = c.next
  · subst hx; simp; rfl
  · simp [Function.update_noteq hx]; rfl

/-- Go `SubRouter` on the lists that the state shows. -/
theorem SubRouter_view (pfx name description : String) (node : Slice) (c : State) :
    (SubRouter pfx name description node c).2.view
      = (Lessgo.SubRouter pfx name description (node.elems c.ptrs) c.view).2 := by
  simp only [SubRouter, Lessgo.SubRouter]
  rw [view_setParents, view_alloc]
  rfl

theorem SubRouter_owned {c : State} (hO : Owned c) (pfx name description : String)
    {node : Slice} (hw : node.Within c.ptrs) (hb : node.arr < c.ptrs.next)
    (hd : ∀ x, x < c.next → (c.heap x).Children.Disjoint node) :
    Owned (SubRouter pfx name description node c).2 := by
  simp only [SubRouter]
  apply Owned.after_setParents
  have hheap : ∀ x, (c.alloc
      { Prefix := pathClean ("/" ++ pfx), Kind := GROUP, Name := name,
        Description := description, Middlewares := {}, Children := node,
        Enable := true }).2.heap x
      = if x = c.next then
          { Prefix := pathClean ("/" ++ pfx), Kind := GROUP, Name := name,
            Description := description, Middlewares := {}, Children := node,
            Enable := true }
        else c.heap x := by
    intro x
    simp only [State.alloc, Function.update_apply]
  have hdis : ∀ y, y ≠ c.next → node.Disjoint (c.heap y).Children := by
    intro y hy
    by_cases hlt : y < c.next
    · rcases hd y hlt with h | h | h
      · exact Or.inl (fun e => h e.symm)
      · exact Or.inr (Or.inr h)
      · exact Or.inr (Or.inl h)
    · rw [hO.unalloc y (Nat.le_of_not_lt hlt)]
      exact Or.inr (Or.inr rfl)
  refine ⟨fun x => ?_, fun x => ?_, fun x y hxy => ?_, fun x hx => ?_⟩
  · rw [hheap]; split
    · exact hw
    · exact hO.within x
  · rw [hheap]; split
    · exact hb
    · exact hO.bound x
  · rw [hheap, hheap]
    by_cases hx : x = c.next
    · have hy : y ≠ c.next := fun e => hxy (hx.trans e.symm)
      rw [if_pos hx, if_neg hy]
      exact hdis y hy
    · rw [if_neg hx]
      by_cases hy : y = c.next
      · rw [if_pos hy]
        rcases hdis x hx with h | h | h
        · exact Or.inl (fun e => h e.symm)
        · exact Or.inr (Or.inr h)
        · exact Or.inr (Or.inl h)
      · rw [if_neg hy]
        exact hO.own x y hxy
  · have hx' : c.next + 1 ≤ x := hx
    rw [hheap, if_neg (Nat.ne_of_gt (Nat.lt_of_succ_le hx'))]
    exact hO.unalloc x (Nat.le_of_succ_le hx')

theorem route_state (rt : Runtime) (u : Utils) (methods : Slice) (name description : String)
    (handler : HandlerFunc) (param : Slice) (c : State) :
    ∃ d : DynaRouter, d.Children = {} ∧ d.Parent = none ∧
      (route rt u methods name description handler param c).2.heap
        = Function.update c.heap c.next d ∧
      (route rt u methods name description handler param c).2.next = c.next + 1 ∧
      (route rt u methods name description handler param c).2.dynaRouterMap = c.dynaRouterMap ∧
      (route rt u methods name description handler param c).2.ptrs = c.ptrs := by
  refine ⟨(route rt u methods name description handler param c).2.heap c.next, ?_, ?_, ?_, ?_,
    ?_, ?_⟩ <;> simp [route, State.alloc]

theorem Match_leaf (rt : Runtime) (u : Utils) (methods : Slice) (name description : String)
    (handler : HandlerFunc) (param : Slice) (c : State) :
    ∃ d : DynaRouter, d.Children = {} ∧ d.Parent = none ∧
      (Match rt u methods name description handler param c).2.heap
        = Function.update c.heap c.next d ∧
      (Match rt u methods name description handler param c).2.next = c.next + 1 ∧
      (Match rt u methods name description handler param c).2.dynaRouterMap = c.dynaRouterMap ∧
      (Match rt u methods name description handler param c).2.ptrs = c.ptrs := by
  by_cases h : methods.len = 0
  · simp only [Match, if_pos h]
    exact route_state rt u methods name description handler param _
  · simp only [Match, if_neg h]
    exact route_state rt u methods name description handler param c

theorem Slice.elems_default {α : Type} (m : Arrays α) : ({} : Slice).elems m = [] :=
  Slice.elems_len_zero rfl m

theorem view_initState : initState.view = Lessgo.initState := by
  simp only [State.view, initState, Lessgo.initState, Lessgo.State.mk.injEq, and_true]
  funext x
  by_cases hx : x = DefDynaRouter
  · simp [hx, DynaRouter.view, Slice.elems]
  · simp only [if_neg hx]
    rfl

theorem owned_initState : Owned initState := by
  have hc : ∀ x, (initState.heap x).Children = {} := by
    intro x
    simp only [initState]
    split <;> rfl
  refine ⟨fun x => ?_, fun x => ?_, fun x y _ => ?_, fun x _ => hc x⟩
  · rw [hc]; exact ⟨Nat.le_refl _, Nat.zero_le _⟩
  · rw [hc]; exact Nat.one_pos
  · rw [hc]; exact Or.inr (Or.inl rfl)

/-- A step that allocates one node without children and leaves the backing
arrays of the node slices as they are keeps the built states built. -/
theorem BuiltMem.leaf {c c' : State} (h : BuiltMem c) {d : DynaRouter}
    (hd : d.Children = {}) (hheap : c'.heap = Function.update c.heap c.next d)
    (hnext : c'.next = c.next + 1) (hmap : c'.dynaRouterMap = c.dynaRouterMap)
    (hptrs : c'.ptrs = c.ptrs) : BuiltMem c' := by
  have hold : ∀ x, x < c.next → c'.heap x = c.heap x := by
    intro x hx
    rw [hheap, Function.update_noteq (Nat.ne_of_lt hx)]
  have hch : ∀ x, (c'.heap x).Children = (c.heap x).Children := by
    intro x
    by_cases hx : x = c.next
    · rw [hheap, hx, Function.update_same, hd, h.owned.unalloc c.next (Nat.le_refl _)]
    · rw [hheap, Function.update_noteq hx]
  refine ⟨?_, ?_, ?_⟩
  · refine ⟨fun x => ?_, fun x => ?_, fun x y hxy => ?_, fun x hx => ?_⟩
    · rw [hch, hptrs]; exact h.owned.within x
    · rw [hch, hptrs]; exact h.owned.bound x
    · rw [hch, hch]; exact h.owned.own x y hxy
    · rw [hch]
      rw [hnext] at hx
      exact h.owned.unalloc x (Nat.le_of_succ_le hx)
  · refine @BuiltInv.alloc_leaf c.view c'.view h.inv (by show c.next ≤ c'.next; rw [hnext]; exact Nat.le_succ _)
      hmap (fun x hx => ?_) (fun x hx => ?_)
    · have hx' : x < c.next := hx
      have e := hold x hx'
      refine ⟨?_, ?_, ?_, ?_, ?_⟩
      · show (c'.heap x).Children.elems c'.ptrs = (c.heap x).Children.elems c.ptrs
        rw [e, hptrs]
      all_goals (show _ = _; simp only [State.view, DynaRouter.view, e])
    · have hx' : c.next ≤ x := hx
      show (c'.heap x).Children.elems c'.ptrs = []
      rw [hch, h.owned.unalloc x hx']
      exact Slice.elems_default _
  · intro k r hk
    rw [hmap] at hk
    rw [hnext]
    exact Nat.lt_succ_of_lt (h.regAlloc k r hk)

theorem Built.mem {rt : Runtime} {u : Utils} {c : State} (h : Built rt u c) : BuiltMem c := by
  induction h with
  | start => exact ⟨owned_initState, by rw [view_initState]; exact BuiltInv.start, fun k r hk => by
      simp [initState] at hk⟩
  | @ptrArray c content _ ih =>
    have hch : ∀ x, ({ c with ptrs := (c.ptrs.alloc content).2 } : State).children x
        = c.children x := fun x =>
      Slice.elems_alloc_other c.ptrs content (Nat.ne_of_lt (ih.owned.bound x))
    have hB : SameBut c { c with ptrs := (c.ptrs.alloc content).2 } :=
      ⟨rfl, rfl, rfl, rfl, rfl, fun x => ⟨(c.heap x).Children, rfl⟩⟩
    have hv : ({ c with ptrs := (c.ptrs.alloc content).2 } : State).view = c.view := by
      rw [hB.view_eq]
      have : ({ c with ptrs := (c.ptrs.alloc content).2 } : State).children
          = fun x => (c.view.heap x).Children := funext hch
      rw [this]
      rfl
    refine ⟨⟨fun x => ?_, fun x => ?_, ih.owned.own, ih.owned.unalloc⟩, by rw [hv]; exact ih.inv,
      ih.regAlloc⟩
    · refine ⟨(ih.owned.within x).1, ?_⟩
      show _ ≤ ((c.ptrs.alloc content).2.cells _).length
      rw [Arrays.cells_alloc_ne c.ptrs content (Nat.ne_of_lt (ih.owned.bound x))]
      exact (ih.owned.within x).2
    · exact Nat.lt_succ_of_lt (ih.owned.bound x)
  | @strArray c content _ ih =>
    refine ⟨ih.owned.of_same rfl rfl (fun _ => rfl), ?_, ih.regAlloc⟩
    refine @BuiltInv.alloc_leaf c.view ({ c with strs := (c.strs.alloc content).2 } : State).view
      ih.inv
      (Nat.le_refl _) rfl (fun x _ => ⟨rfl, rfl, rfl, rfl, rfl⟩) (fun x hx => ?_)
    have hx' : c.next ≤ x := hx
    show (c.heap x).Children.elems c.ptrs = []
    rw [ih.owned.unalloc x hx']
    exact Slice.elems_default _
  | @handler c methods name description handler param _ ih =>
    obtain ⟨d, hd, _, hheap, hnext, hmap, hptrs⟩ :=
      Match_leaf rt u methods name description handler param c
    exact ih.leaf hd hheap hnext hmap hptrs
  | @sub c pfx name description node _ hw hb hd hcs hroot hfree ih =>
    refine ⟨SubRouter_owned ih.owned pfx name description hw hb hd, ?_, ?_⟩
    · rw [SubRouter_view]
      exact ih.inv.sub pfx name description _ hcs hroot hfree
    · intro k r hk
      have hm : (SubRouter pfx name description node c).2.view.dynaRouterMap
          = c.dynaRouterMap := by
        rw [SubRouter_view]
        simp only [Lessgo.SubRouter, setParents_map]
        rfl
      have hn : (SubRouter pfx name description node c).2.view.next = c.next + 1 := by
        rw [SubRouter_view]
        simp only [Lessgo.SubRouter, setParents_next]
        rfl
      have hk' : c.dynaRouterMap k = some r := by rw [← hm]; exact hk
      show r < (SubRouter pfx name description node c).2.view.next
      rw [hn]
      exact Nat.lt_succ_of_lt (ih.regAlloc k r hk')
  | @root c c' fuel node _ hw hb hd hcs hroot hfree h ih =>
    obtain ⟨hv, hO⟩ := RootRouter_view ih.owned hw hb hd ih.inv.nextPos h
    have hI' : BuiltInv c'.view := ih.inv.root fuel _ hcs hroot hfree hv
    refine ⟨hO, hI', ?_⟩
    intro k r hk
    rw [RootRouter_eq] at hv
    obtain ⟨l, hl, hP⟩ := init_spec u fuel _ _ _ hv
    have hn : c'.next = c.next := by
      have := hP.frame.1
      simp only [Lessgo.rootLinked, setParents_next] at this
      exact this
    rcases hP.registry k with e | ⟨r', hr', _, e⟩
    · have hm : (Lessgo.rootLinked (node.elems c.ptrs) c.view).dynaRouterMap
          = c.dynaRouterMap := by
        simp only [Lessgo.rootLinked, setParents_map]
        rfl
      have hk' : c.dynaRouterMap k = some r := by
        rw [← hm, ← e]; exact hk
      rw [hn]
      exact ih.regAlloc k r hk'
    · have e' : c'.dynaRouterMap k = some r' := e
      rw [hk] at e'
      cases e'
      have hT : Lessgo.Tree fuel c'.view DefDynaRouter = some l := by
        rw [hP.frame.tree]; exact hl
      exact hI'.reach_lt (reach_of_mem_Tree _ fuel _ l hT r hr') hI'.nextPos
  | @set c c' fuel pid n p _ hn hnr hfree hreg h ih =>
    obtain ⟨hv, hO⟩ := SetRouter_view ih.owned (ih.regAlloc pid p hreg) hreg h
    have hreg' : c.view.dynaRouterMap pid = some p := hreg
    refine ⟨hO, ih.inv.set fuel pid n p hn hnr hfree hreg' hv, ?_⟩
    intro k r hk
    obtain ⟨l, hl, _⟩ := SetRouter_facts hreg' hv
    have hnext : c'.next = c.next := (SetRouter_more hreg' hv).1
    rw [hnext]
    rcases SetRouter_registry hreg' hv hl k with e | ⟨r', hr', _, e⟩
    · have hk' : c.dynaRouterMap k = some r := by
        have e' : c'.dynaRouterMap k = c.dynaRouterMap k := e
        rw [← e']; exact hk
      exact ih.regAlloc k r hk'
    · have e' : c'.dynaRouterMap k = some r' := e
      rw [hk] at e'
      cases e'
      exact ih.inv.reach_lt (reach_of_mem_Tree _ fuel n l hl r hr') hn

end Mem
/-! ## Registry and tree in grown states with memory -/

namespace Mem

/-- An outcome that is fine is `ok` of the state it ends in. -/
theorem Outcome.ok_of_isOk {o : Outcome} (h : o.isOk = true) : o = .ok o.state := by
  cases o with
  | ok c => rfl
  | panic c => simp [Outcome.isOk] at h
  | diverge => simp [Outcome.isOk] at h

theorem Grown.built {rt : Runtime} {u : Utils} {c : State} (h : Grown rt u c) :
    Built rt u c := by
  induction h with
  | start => exact Built.start
  | ptrArray content _ ih => exact Built.ptrArray content ih
  | strArray content _ ih => exact Built.strArray content ih
  | handler methods name description handler param _ _ _ _ ih =>
    exact Built.handler methods name description handler param ih
  | sub pfx name description node _ hw hb hd hcs hroot hfree ih =>
    exact Built.sub pfx name description node ih hw hb hd hcs hroot hfree
  | root fuel node _ hw hb hd hcs hroot hfree h ih =>
    exact Built.root fuel node ih hw hb hd hcs hroot hfree h
  | set fuel pid n p _ hn hnr hfree hreg h _ ih =>
    exact Built.set fuel pid n p ih hn hnr hfree hreg h

theorem SameStrs.same_refl (c : State) : SameStrs c c := ⟨rfl, fun _ => rfl⟩

theorem SameStrs.then_same {c₁ c₂ c₃ : State} (h₁ : SameStrs c₁ c₂) (h₂ : SameStrs c₂ c₃) :
    SameStrs c₁ c₃ :=
  ⟨h₂.1.trans h₁.1, fun x => (h₂.2 x).trans (h₁.2 x)⟩

theorem SameBut.sameStrs {c c' : State} (h : SameBut c c') : SameStrs c c' := by
  refine ⟨h.2.1, fun x => ?_⟩
  obtain ⟨sl, e⟩ := h.2.2.2.2.2 x
  rw [e]

theorem sameStrs_lift (c : State) (a : Lessgo.State) : SameStrs c (c.lift a) :=
  ⟨rfl, fun _ => rfl⟩

theorem sameStrs_linked (c : State) (n : Ptr) (q : Option Ptr) : SameStrs c (linked c n q) := by
  refine ⟨rfl, fun x => ?_⟩
  by_cases hx : x = n
  · subst hx; simp [linked, State.set]
  · simp [linked, State.set, Function.update_noteq hx]

theorem SameStrs.same_methods {c c' : State} (h : SameStrs c c') (x : Ptr) :
    c'.methods x = c.methods x := by
  simp only [State.methods, h.1, h.2 x]

theorem StrOwned.of_sameStrs {c c' : State} (h : StrOwned c) (hs : SameStrs c c') : StrOwned c' :=
  ⟨fun x => by rw [hs.2 x]; exact h.fits x, fun x => by rw [hs.2 x, hs.1]; exact h.bound x⟩

theorem RootRouter_sameStrs {rt : Runtime} {u : Utils} {fuel : Nat} {node : Slice}
    {c c' : State} (h : RootRouter rt u fuel node c = some c') : SameStrs c c' := by
  simp only [RootRouter, init_view] at h
  cases hi : Lessgo.init u fuel DefDynaRouter (rootLinked rt node c).view with
  | none => rw [hi] at h; cases h
  | some a' =>
    rw [hi] at h
    have hc' : (rootLinked rt node c).lift a' = c' := Option.some.inj h
    rw [← hc']
    refine SameStrs.then_same ?_ (sameStrs_lift _ a')
    rw [rootLinked_eq, setParents_view]
    exact (appended_sameBut rt c _ _).sameStrs.then_same (sameStrs_lift _ _)

theorem SetRouter_sameStrs {rt : Runtime} {u : Utils} {fuel : Nat} {pid : String} {n p : Ptr}
    {c c' : State} (hreg : c.dynaRouterMap pid = some p)
    (h : SetRouter rt u fuel pid n c = .ok c') : SameStrs c c' := by
  cases hi : Lessgo.init u fuel n (Lessgo.linked c.view n (some p)) with
  | none =>
    have hlink : c.set n { c.heap n with Parent := c.dynaRouterMap pid } = linked c n (some p) := by
      rw [hreg]; rfl
    simp only [SetRouter, hlink, init_view, view_linked, hi, Option.map_none'] at h
    cases h
  | some a₁ =>
    rw [SetRouter_eq_attach hreg hi] at h
    rw [← Outcome.ok.inj h]
    exact ((sameStrs_linked c n _).then_same (sameStrs_lift _ _)).then_same
      (attach_sameBut rt _ n p).sameStrs

theorem setParents_sameStrs (p : Ptr) (cs : List Ptr) (c : State) :
    SameStrs c (setParents p cs c) := by
  rw [setParents_view]
  exact sameStrs_lift _ _

/-- The state of `route`: one new node with the slice of methods, and the
arrays of strings after the sort and the `append` to the parameters. -/
theorem route_strs (rt : Runtime) (u : Utils) (methods : Slice) (name description : String)
    (handler : HandlerFunc) (param : Slice) (c : State) :
    ((route rt u methods name description handler param c).2.heap c.next).Methods = methods ∧
    (∀ x, x ≠ c.next →
      (route rt u methods name description handler param c).2.heap x = c.heap x) ∧
    (route rt u methods name description handler param c).2.strs
      = if param.len = 0 then
          ((c.strs.write methods.arr methods.off (sortStrings (methods.elems c.strs))).append
            rt "" param [""]).2
        else c.strs.write methods.arr methods.off (sortStrings (methods.elems c.strs)) := by
  refine ⟨?_, fun x hx => ?_, ?_⟩
  · simp [route, State.alloc]
  · simp [route, State.alloc, Function.update_noteq hx]
  · by_cases hp : param.len = 0
    · simp [route, State.alloc, hp]
    · simp [route, State.alloc, hp]

theorem Match_strs (rt : Runtime) (u : Utils) (methods : Slice) (name description : String)
    (handler : HandlerFunc) (param : Slice) (c : State) :
    ((Match rt u methods name description handler param c).2.heap c.next).Methods = methods ∧
    (∀ x, x ≠ c.next →
      (Match rt u methods name description handler param c).2.heap x = c.heap x) ∧
    (Match rt u methods name description handler param c).2.strs
      = if param.len = 0 then
          ((c.strs.write methods.arr methods.off (sortStrings (methods.elems c.strs))).append
            rt "" param [""]).2
        else c.strs.write methods.arr methods.off (sortStrings (methods.elems c.strs)) := by
  by_cases h : methods.len = 0
  · simp only [Match, if_pos h]
    exact route_strs rt u methods name description handler param _
  · simp only [Match, if_neg h]
    exact route_strs rt u methods name description handler param c

theorem sortStrings_nil : sortStrings [] = [] := rfl

/-- A node whose `Methods` have no backing array in common with the slices
handed to `Match` shows the same methods afterwards. -/
theorem Match_methods {rt : Runtime} {u : Utils} {c : State} (hS : StrOwned c)
    {methods param : Slice} (name description : String) (handler : HandlerFunc)
    (hw : methods.Within c.strs) {x : Ptr} (hx : x ≠ c.next)
    (hd : (c.heap x).Methods.Disjoint methods ∧ (c.heap x).Methods.Disjoint param) :
    (Match rt u methods name description handler param c).2.methods x = c.methods x := by
  obtain ⟨_, hheap, hstrs⟩ := Match_strs rt u methods name description handler param c
  simp only [State.methods, hheap x hx, hstrs]
  have h1 : (c.heap x).Methods.elems
      (c.strs.write methods.arr methods.off (sortStrings (methods.elems c.strs)))
      = (c.heap x).Methods.elems c.strs := by
    rcases hd.1 with h | h | h
    · exact Slice.elems_write_other c.strs _ _ h
    · rw [Slice.elems_eq_nil_of_cap _ (hS.fits x) h, Slice.elems_eq_nil_of_cap _ (hS.fits x) h]
    · have : methods.elems c.strs = [] := Slice.elems_eq_nil_of_cap _ hw.1 h
      rw [this, sortStrings_nil, Arrays.write_nil]
  have hd2 : param.Disjoint (c.heap x).Methods := by
    rcases hd.2 with h | h | h
    · exact Or.inl (fun e => h e.symm)
    · exact Or.inr (Or.inr h)
    · exact Or.inr (Or.inl h)
  split
  · rw [Arrays.elems_append_disjoint rt ""
      (c.strs.write methods.arr methods.off (sortStrings (methods.elems c.strs))) [""]
      (hS.fits x) (hS.bound x) hd2, h1]
  · exact h1

theorem Grown.str {rt : Runtime} {u : Utils} {c : State} (h : Grown rt u c) : StrOwned c := by
  induction h with
  | start =>
    have hm : ∀ x, (initState.heap x).Methods = {} := by
      intro x
      by_cases hx : x = DefDynaRouter
      · simp [initState, hx]
      · simp only [initState, if_neg hx]
        rfl
    exact ⟨fun x => by rw [hm], fun x => by rw [hm]; exact Nat.one_pos⟩
  | ptrArray content _ ih => exact ih.of_sameStrs ⟨rfl, fun _ => rfl⟩
  | strArray content _ ih =>
    exact ⟨ih.fits, fun x => Nat.lt_succ_of_lt (ih.bound x)⟩
  | @handler c methods name description handler param _ hw hb _ ih =>
    obtain ⟨hnew, hheap, hstrs⟩ := Match_strs rt u methods name description handler param c
    have hnext : c.strs.next
        ≤ (Match rt u methods name description handler param c).2.strs.next := by
      rw [hstrs]
      split
      · exact Arrays.next_append rt ""
          (c.strs.write methods.arr methods.off (sortStrings (methods.elems c.strs))) param [""]
      · exact Nat.le_refl _
    refine ⟨fun x => ?_, fun x => ?_⟩
    · by_cases hx : x = c.next
      · rw [hx, hnew]; exact hw.1
      · rw [hheap x hx]; exact ih.fits x
    · by_cases hx : x = c.next
      · rw [hx, hnew]; exact Nat.lt_of_lt_of_le hb hnext
      · rw [hheap x hx]; exact Nat.lt_of_lt_of_le (ih.bound x) hnext
  | @sub c pfx name description node _ _ _ _ _ _ _ ih =>
    have hpos : 0 < c.strs.next := Nat.lt_of_le_of_lt (Nat.zero_le _) (ih.bound 0)
    have h₁ : StrOwned (c.alloc
        { Prefix := pathClean ("/" ++ pfx), Kind := GROUP, Name := name,
          Description := description, Middlewares := {}, Children := node,
          Enable := true }).2 := by
      refine ⟨fun x => ?_, fun x => ?_⟩
      · by_cases hx : x = c.next
        · simp [State.alloc, hx]
        · simp only [State.alloc, Function.update_noteq hx]; exact ih.fits x
      · by_cases hx : x = c.next
        · simp only [State.alloc, hx, Function.update_same]; exact hpos
        · simp only [State.alloc, Function.update_noteq hx]; exact ih.bound x
    exact h₁.of_sameStrs (setParents_sameStrs _ _ _)
  | root fuel node _ _ _ _ _ _ _ h ih => exact ih.of_sameStrs (RootRouter_sameStrs h)
  | set fuel pid n p _ _ _ _ hreg h _ ih => exact ih.of_sameStrs (SetRouter_sameStrs hreg h)

/-- Allocating a backing array for pointers changes nothing that the state shows. -/
theorem view_ptrArray {c : State} (hO : Owned c) (content : List Ptr) :
    ({ c with ptrs := (c.ptrs.alloc content).2 } : State).view = c.view := by
  have hch : ∀ x, ({ c with ptrs := (c.ptrs.alloc content).2 } : State).children x
      = c.children x := fun x =>
    Slice.elems_alloc_other c.ptrs content (Nat.ne_of_lt (hO.bound x))
  have hB : SameBut c { c with ptrs := (c.ptrs.alloc content).2 } :=
    ⟨rfl, rfl, rfl, rfl, rfl, fun x => ⟨(c.heap x).Children, rfl⟩⟩
  rw [hB.view_eq]
  have : ({ c with ptrs := (c.ptrs.alloc content).2 } : State).children
      = fun x => (c.view.heap x).Children := funext hch
  rw [this]
  rfl

/-- What every grown state satisfies: registry and tree are in step and the
tree is finite. -/
theorem Grown.synced {rt : Runtime} {u : Utils} {c : State} (h : Grown rt u c) :
    Synced u c.view ∧ ∃ f l, Lessgo.Tree f c.view DefDynaRouter = some l := by
  induction h with
  | start =>
    rw [view_initState]
    exact ⟨Synced.at_start u, 1, [DefDynaRouter], by decide⟩
  | @ptrArray c content hg ih =>
    rw [view_ptrArray hg.built.mem.owned]
    exact ih
  | @strArray c content hg ih =>
    have hI := hg.built.mem.inv
    have hS := hg.str
    have hm : ∀ x, ({ c with strs := (c.strs.alloc content).2 } : State).methods x
        = c.methods x := fun x =>
      Slice.elems_alloc_other c.strs content (Nat.ne_of_lt (hS.bound x))
    obtain ⟨f, l, hl⟩ := ih.2
    exact ⟨@Synced.preserved u c.view ({ c with strs := (c.strs.alloc content).2 } : State).view
        hI ih.1 rfl (fun x _ => ⟨rfl, rfl, rfl, hm x⟩),
      f, l, @Tree_keep c.view ({ c with strs := (c.strs.alloc content).2 } : State).view hI
        (fun x _ => rfl) f l hl⟩
  | @handler c methods name description handler param hg hw hb hd ih =>
    have hI := hg.built.mem.inv
    obtain ⟨d, _, _, hheap, _, hmap, hptrs⟩ :=
      Match_leaf rt u methods name description handler param c
    have hold : ∀ x, x < c.next →
        (Match rt u methods name description handler param c).2.heap x = c.heap x := by
      intro x hx
      rw [hheap, Function.update_noteq (Nat.ne_of_lt hx)]
    have hch : ∀ x, x < c.next →
        ((Match rt u methods name description handler param c).2.view.heap x).Children
          = (c.view.heap x).Children := by
      intro x hx
      show ((Match rt u methods name description handler param c).2.heap x).Children.elems
        (Match rt u methods name description handler param c).2.ptrs = _
      rw [hold x hx, hptrs]
      rfl
    obtain ⟨f, l, hl⟩ := ih.2
    refine ⟨ih.1.preserved hI hmap (fun x hx => ⟨hch x hx, ?_, ?_, ?_⟩), f, l,
      Tree_keep hI hch hl⟩
    · show ((Match rt u methods name description handler param c).2.heap x).Id = _
      rw [hold x hx]; rfl
    · show ((Match rt u methods name description handler param c).2.heap x).Url = _
      rw [hold x hx]; rfl
    · exact Match_methods hg.str name description handler hw (Nat.ne_of_lt hx) (hd x hx)
  | @sub c pfx name description node hg _ _ _ _ _ _ ih =>
    have hI := hg.built.mem.inv
    obtain ⟨f, l, hl⟩ := ih.2
    rw [SubRouter_view]
    refine ⟨ih.1.after_sub hI pfx name description _, f, l, Tree_keep hI (fun x hx => ?_) hl⟩
    have hne : x ≠ c.view.next := Nat.ne_of_lt hx
    simp only [Lessgo.SubRouter, setParents_heap, Lessgo.State.alloc]
    split <;> simp [Function.update_noteq hne]
  | @root c c' fuel node hg hw hb hd hcs hroot hfree h ih =>
    have hM := hg.built.mem
    obtain ⟨hv, _⟩ := RootRouter_view hM.owned hw hb hd hM.inv.nextPos h
    have hI' : BuiltInv c'.view := (Built.root fuel node hg.built hw hb hd hcs hroot hfree h).mem.inv
    refine ⟨ih.1.after_root hM.inv hI' fuel _ hroot hv, ?_⟩
    rw [RootRouter_eq] at hv
    obtain ⟨l, hl, hP⟩ := init_spec u fuel _ _ _ hv
    exact ⟨fuel, l, by rw [hP.frame.tree]; exact hl⟩
  | @set c c' fuel pid n p hg hn hnr hfree hreg h hout ih =>
    have hM := hg.built.mem
    obtain ⟨hv, _⟩ := SetRouter_view hM.owned (hM.regAlloc pid p hreg) hreg h
    have hI' : BuiltInv c'.view := (Built.set fuel pid n p hg.built hn hnr hfree hreg h).mem.inv
    have hreg' : c.view.dynaRouterMap pid = some p := hreg
    obtain ⟨f, l, hl⟩ := ih.2
    exact ⟨ih.1.after_attach hM.inv hI' fuel pid n p hn hfree hreg' hv hout,
      SetRouter_finite hM.inv ih.1 hn hfree hreg' hv hl⟩

/-- The traversal of the attached node is the same after `SetRouter` when no
two nodes share a backing array and the parent is not in the traversal. -/
theorem SetRouter_keeps_tree {rt : Runtime} {u : Utils} {f g fuel : Nat} {pid : String}
    {n p : Ptr} {c c' : State} {l : List Ptr} (hfuel : f + g ≤ fuel) (hO : Owned c)
    (hp : p < c.next) (hreg : c.dynaRouterMap pid = some p) (hl : Tree f c n = some l)
    (hres : ∀ m ∈ l, (resolve g (linked c n (some p)).view m).isSome)
    (h : SetRouter rt u fuel pid n c = .ok c') (hpl : p ∉ l) : Tree f c' n = some l := by
  rw [Tree_view] at hl ⊢
  rw [view_linked] at hres
  have hreg' : c.view.dynaRouterMap pid = some p := hreg
  obtain ⟨s₁, _, hok, hP, _⟩ := SetRouter_post (u := u) hfuel hreg' hl hres
  have hv := (SetRouter_view hO hp hreg h).1
  have e : c'.view = attached s₁ n p := Lessgo.Outcome.ok.inj (hv.symm.trans hok)
  rw [e]
  refine Tree_congr_on f n l hl (fun x hx => ?_)
  have hxp : x ≠ p := fun e => hpl (e ▸ hx)
  rw [attached_heap_ne _ _ hxp]
  have := hP.frame.children x
  rw [register_heap] at this
  rw [this, linked_children]

end Mem
/-! ## Claims -/

/-- Counterexample to C1 as stated, in four parts.  In the tree
`RootRouter(SubRouter("/api", .., Get(.., UserHandle, "../..")))` the handler
is joined with its parameter and cleaned on its own first, which gives `/`, so
its `Url` is `/api`, while the path-cleaned join of all `Prefix` and `Param`
from the root down is `/`.  In `exShared` one handler is listed by two groups
and has the second as its parent, so down the path over the first group its
`Url` is not the join.  In `exAliased` two groups have their children in one
backing array; `SetRouter` under the first appends in place, after which the
second group shows the new node, whose `Url` is resolved under the first.  In
`exRootGrouped` the root has been handed to `SubRouter("/a", ..)`, which made
the group its parent, and `RootRouter()` has resolved it to `/a`. -/
theorem built_tree_url_counterexample :
    (Mem.Built Mem.exRuntime exUtils Mem.exDots ∧ Mem.exDots.dynaRouterMap "/api" = some 2 ∧
      RootPath Mem.exDots.view [0, 2, 1] 1 ∧
      pathSegs Mem.exDots.view [0, 2, 1] = ["/", "", "/api", "", "/User", "../.."] ∧
      (Mem.exDots.heap 1).Url = "/api" ∧ flatUrl Mem.exDots.view [0, 2, 1] = "/") ∧
    (Mem.exShared.dynaRouterMap "/a" = some 2 ∧ RootPath Mem.exShared.view [0, 2, 1] 1 ∧
      pathSegs Mem.exShared.view [0, 2, 1] = ["/", "", "/a", "", "/User", ""] ∧
      (Mem.exShared.heap 1).Url = "/b/User" ∧ flatUrl Mem.exShared.view [0, 2, 1] = "/a/User") ∧
    (Mem.exAliased.dynaRouterMap "/a" = some 3 ∧ Mem.exAliased.children 3 = [1] ∧
      Mem.exAliased.children 4 = [2] ∧
      (Mem.exAliased.heap 3).Children = ⟨1, 0, 1, 2⟩ ∧
      (Mem.exAliased.heap 4).Children = ⟨1, 1, 1, 1⟩ ∧
      (∀ x, x < Mem.exAliased.next → 5 ∉ Mem.exAliased.children x) ∧
      (Mem.SetRouter Mem.exRuntime exUtils 4 "/a" 5 Mem.exAliased).isOk = true ∧
      Mem.exAliased₁.children 3 = [1, 5] ∧ Mem.exAliased₁.children 4 = [5] ∧
      RootPath Mem.exAliased₁.view [0, 4, 5] 5 ∧
      pathSegs Mem.exAliased₁.view [0, 4, 5] = ["/", "", "/b", "", "/Plain", ""] ∧
      (Mem.exAliased₁.heap 5).Url = "/a/Plain" ∧
      flatUrl Mem.exAliased₁.view [0, 4, 5] = "/b/Plain") ∧
    (Mem.exRootGrouped.dynaRouterMap "/a" = some 0 ∧
      (Mem.exRootGrouped.heap 0).Parent = some 1 ∧ (Mem.exRootGrouped.heap 1).Prefix = "/a" ∧
      RootPath Mem.exRootGrouped.view [0] 0 ∧
      pathSegs Mem.exRootGrouped.view [0] = ["/", ""] ∧
      (Mem.exRootGrouped.heap 0).Url = "/a" ∧ flatUrl Mem.exRootGrouped.view [0] = "/") :=
  ⟨⟨Mem.Built.root 6 ⟨2, 0, 1, 1⟩
      (Mem.Built.ptrArray [2]
        (Mem.Built.sub "/api" "api" "" ⟨1, 0, 1, 1⟩
          (Mem.Built.ptrArray [1]
            (Mem.Built.handler ⟨2, 0, 1, 1⟩ "user" "" ⟨"app.UserHandle"⟩ ⟨1, 0, 1, 1⟩
              (Mem.Built.strArray [GET]
                (Mem.Built.strArray ["../.."] Mem.Built.start))))
          (by decide) (by decide) (by decide) (by decide) (by decide) (by decide)))
      (by decide) (by decide) (by decide) (by decide) (by decide) (by decide)
      (Option.eq_some_getD Mem.initState (by decide)),
    by decide,
    @RootPath.child Mem.exDots.view [0, 2] 2 1
      (@RootPath.child Mem.exDots.view [0] 0 2 RootPath.root (by decide)) (by decide),
    by decide, by decide, by decide⟩,
   ⟨by decide,
    @RootPath.child Mem.exShared.view [0, 2] 2 1
      (@RootPath.child Mem.exShared.view [0] 0 2 RootPath.root (by decide)) (by decide),
    by decide, by decide, by decide⟩,
   ⟨by decide, by decide, by decide, by decide, by decide, by decide, by decide, by decide,
    by decide,
    @RootPath.child Mem.exAliased₁.view [0, 4] 4 5
      (@RootPath.child Mem.exAliased₁.view [0] 0 4 RootPath.root (by decide)) (by decide),
    by decide, by decide, by decide⟩,
   by decide, by decide, by decide, RootPath.root, by decide, by decide, by decide⟩

/-- C1 (amended). In every tree built from the start-up state by the handler
builders, `SubRouter`, `RootRouter` and `SetRouter` with a registered parent,
where each node handed over is an existing node other than the root that no
node lists but the one it is attached to, and no two nodes have their
`Children` in one backing array (`Mem.Built`),
once an attach has registered something the root has `Url` `/`, and every
node `n` reached from the root by a path through `Children` has `n.Url` equal
to the `Url` resolved down the path: each node's `Prefix` and `Param` are
joined and cleaned on their own and then joined to the `Url` of the parent.
When no `Prefix` or `Param` on the path has an element `..`, this is the
path-cleaned join of the `Prefix` and `Param` of every node on the path. -/
theorem built_tree_url (rt : Mem.Runtime) (u : Utils) (c : Mem.State) (hb : Mem.Built rt u c)
    (hk : ∃ k, c.dynaRouterMap k ≠ none) :
    (c.heap DefDynaRouter).Url = "/" ∧
    ∀ path n, RootPath c.view path n →
      (c.heap n).Url = nestedUrl c.view path ∧
      ((∀ d ∈ path, NoDotDot (c.heap d).Prefix ∧ NoDotDot (c.heap d).Param) →
        (c.heap n).Url = flatUrl c.view path) := by
  have hI := hb.mem.inv
  have hk' : ∃ k, c.view.dynaRouterMap k ≠ none := hk
  constructor
  · show (c.view.heap DefDynaRouter).Url = "/"
    rw [hI.resolved hk' _ _ TreePath.root]
    simp only [nestedUrl, List.foldl_nil, localUrl, hI.rootPrefix, hI.rootParam]
    decide
  · intro path n hrp
    have hp := (hI.treePath hrp).1
    refine ⟨hI.resolved hk' path n hp, fun hdd => ?_⟩
    obtain ⟨rest, rfl⟩ := hp.head
    show (c.view.heap n).Url = _
    rw [hI.resolved hk' _ n hp]
    refine nestedUrl_eq_flatUrl ?_ hdd
    rw [hI.rootPrefix]
    decide

/-- Witness of C1: the attached example tree and the path from the root over
the group to the handler. -/
theorem built_tree_url_witness :
    Mem.Built Mem.exRuntime exUtils Mem.exRooted ∧
    (∃ k, Mem.exRooted.dynaRouterMap k ≠ none) ∧
    RootPath Mem.exRooted.view [0, 2, 1] 1 ∧
    (∀ d ∈ [0, 2, 1],
      NoDotDot (Mem.exRooted.heap d).Prefix ∧ NoDotDot (Mem.exRooted.heap d).Param) ∧
    (Mem.exRooted.heap 1).Url = flatUrl Mem.exRooted.view [0, 2, 1] ∧
    flatUrl Mem.exRooted.view [0, 2, 1] = "/api/User/:id" :=
  have hb : Mem.Built Mem.exRuntime exUtils Mem.exRooted :=
    Mem.Built.root 6 ⟨2, 0, 1, 1⟩
      (Mem.Built.ptrArray [2]
        (Mem.Built.sub "/api" "api" "" ⟨1, 0, 1, 1⟩
          (Mem.Built.ptrArray [1]
            (Mem.Built.handler ⟨2, 0, 1, 1⟩ "user" "" ⟨"app.UserHandle"⟩ ⟨1, 0, 1, 1⟩
              (Mem.Built.strArray [GET]
                (Mem.Built.strArray ["/:id"] Mem.Built.start))))
          (by decide) (by decide) (by decide) (by decide) (by decide) (by decide)))
      (by decide) (by decide) (by decide) (by decide) (by decide) (by decide)
      (Option.eq_some_getD Mem.initState (by decide))
  have hp : RootPath Mem.exRooted.view [0, 2, 1] 1 :=
    @RootPath.child Mem.exRooted.view [0, 2] 2 1
      (@RootPath.child Mem.exRooted.view [0] 0 2 RootPath.root (by decide)) (by decide)
  ⟨hb, ⟨"/", by decide⟩, hp, by decide,
    ((built_tree_url Mem.exRuntime exUtils Mem.exRooted hb ⟨"/", by decide⟩).2 [0, 2, 1] 1
      hp).2 (by decide),
    by decide⟩
/-- Counterexample to C2 as stated: two nodes with the same `Url` and the
same two methods stored in different orders get different ids from `setId`
under every injective digest. -/
theorem setId_order_counterexample :
    (exOrder.heap 1).Url = (exOrder.heap 2).Url ∧
    (exOrder.heap 1).Methods.Perm (exOrder.heap 2).Methods ∧
    ∀ u : Utils, Function.Injective u.MakeMd5 →
      ((setId u 1 exOrder).heap 1).Id ≠ ((setId u 2 exOrder).heap 2).Id := by
  refine ⟨by decide, List.Perm.swap _ _ _, ?_⟩
  intro u hinj h
  have h' : ("/x" ++ concatStrings ["GET", "POST"] : String)
      = "/x" ++ concatStrings ["POST", "GET"] := hinj h
  exact absurd h' (by decide)

/-- C2 (amended). `setId` stores the digest of `Url` followed by the methods
concatenated in the order they are stored; for two nodes with equal `Url`
whose `Methods` are the sorted lists that `route` stores for two method
lists with the same methods in any order, the ids are equal. -/
theorem setId_digest (u : Utils) (s t : State) (a b : Ptr) (ma mb : List String)
    (hurl : (s.heap a).Url = (t.heap b).Url)
    (ha : (s.heap a).Methods = sortStrings ma) (hb : (t.heap b).Methods = sortStrings mb)
    (hperm : ma.Perm mb) :
    ((setId u a s).heap a).Id
      = u.MakeMd5 ((s.heap a).Url ++ concatStrings (s.heap a).Methods) ∧
    ((setId u a s).heap a).Id = ((setId u b t).heap b).Id := by
  refine ⟨by simp [setId, State.set], ?_⟩
  simp [setId, State.set, hurl, ha, hb, sortStrings_eq_of_perm hperm]

/-- Witness of C2: the two handlers of the example, built by `Match` with the
methods GET, POST and POST, GET, have the same `Url` and get the same `Id`. -/
theorem setId_digest_witness :
    (exSorted.heap 1).Url = "/User" ∧ (exSorted.heap 2).Url = "/User" ∧
    (exSorted.heap 1).Methods = sortStrings ["GET", "POST"] ∧
    (exSorted.heap 2).Methods = sortStrings ["POST", "GET"] ∧
    ((setId exUtils 1 exSorted).heap 1).Id = ((setId exUtils 2 exSorted).heap 2).Id :=
  ⟨by decide, by decide, by decide, by decide,
    (setId_digest exUtils exSorted exSorted 1 2 ["GET", "POST"] ["POST", "GET"] (by decide)
      (by decide) (by decide) (List.Perm.swap _ _ _)).2⟩

/-- Counterexample to C3 as stated: the group of `exPair` already has two
children with the same id; after attaching two more nodes that resolve to the
same `Url` with the same method, two children have that id, not one. -/
theorem SetRouter_children_counterexample :
    exPair.dynaRouterMap "/api" = some 3 ∧
    (SetRouter exUtils 4 "/api" 4 exPair).isOk = true ∧
    (SetRouter exUtils 4 "/api" 5 exPair₁).isOk = true ∧
    (exPair₂.heap 4).Url = (exPair₂.heap 5).Url ∧
    (exPair₂.heap 4).Methods = (exPair₂.heap 5).Methods ∧
    (exPair₂.heap 3).Children = [5, 2] ∧
    (exPair₂.heap 3).Children.countP
      (fun c => decide ((exPair₂.heap c).Id = (exPair₂.heap 5).Id)) = 2 := by
  decide

/-- C3 (amended). The children of a registered parent `p` after
`SetRouter(p.Id, n)`.  The call returns when the traversal of `n` and the
parent chains of its members are finite and the fuel bounds the depth of the
one plus the length of the others; nodes outside the traversal keep
their `Id`; if `c` is the first child whose `Id` is the one `n` resolves to,
`n` takes the place of `c` and all other children stay in place, and if no
child has that `Id` the children are the old list followed by `n`.
Consequently, when at most one child of `p` has that id beforehand, attaching
two childless nodes that resolve to the same `Url` with the same methods
leaves exactly one child with that id, and the second attach does not change
the number of children. -/
theorem SetRouter_children (u : Utils) (f g fuel : Nat) (s : State) (pid : String) (p : Ptr)
    (hfuel : f + g ≤ fuel) (hreg : s.dynaRouterMap pid = some p) :
    (∀ (n : Ptr) (l : List Ptr), Tree f s n = some l →
      (∀ m ∈ l, (resolve g (linked s n (some p)) m).isSome) →
      ∃ s', SetRouter u fuel pid n s = .ok s' ∧
        (∀ x, x ∉ l → (s'.heap x).Id = (s.heap x).Id) ∧
        (∀ a c b, (s.heap p).Children = a ++ c :: b → (s'.heap c).Id = (s'.heap n).Id →
          (∀ x ∈ a, (s'.heap x).Id ≠ (s'.heap n).Id) → (s'.heap p).Children = a ++ n :: b) ∧
        ((∀ c ∈ (s.heap p).Children, (s'.heap c).Id ≠ (s'.heap n).Id) →
          (s'.heap p).Children = (s.heap p).Children ++ [n])) ∧
    (∀ (n₁ n₂ : Ptr) (k₁ k₂ : Nat) (s₁ s₂ : State),
      SetRouter u k₁ pid n₁ s = .ok s₁ → s₁.dynaRouterMap pid = some p →
      SetRouter u k₂ pid n₂ s₁ = .ok s₂ →
      (s.heap n₁).Children = [] → (s.heap n₂).Children = [] →
      n₁ ≠ n₂ → n₁ ≠ p → n₂ ≠ p →
      n₁ ∉ (s.heap p).Children → n₂ ∉ (s.heap p).Children →
      (s₂.heap n₂).Url = (s₁.heap n₁).Url → (s₂.heap n₂).Methods = (s₁.heap n₁).Methods →
      (s.heap p).Children.countP (fun c => decide ((s.heap c).Id = (s₁.heap n₁).Id)) ≤ 1 →
      (s₂.heap n₂).Id = (s₁.heap n₁).Id ∧
      (s₂.heap p).Children.countP (fun c => decide ((s₂.heap c).Id = (s₂.heap n₂).Id)) = 1 ∧
      (s₂.heap p).Children.length = (s₁.heap p).Children.length) := by
  constructor
  · intro n l hl hres
    obtain ⟨s₁, _, hok, _, _⟩ := SetRouter_post (u := u) hfuel hreg hl hres
    obtain ⟨l', hl', _, _, hid, _, hch, _⟩ := SetRouter_facts hreg hok
    have hll : l' = l := Tree_unique hl' hl
    subst hll
    refine ⟨_, hok, hid, ?_, ?_⟩
    · intro a c b hcs hc ha
      rw [hch, hcs, attachChild, replaceChild_first ha hc]
    · intro hnone
      rw [hch, attachChild, replaceChild_none hnone]
  · intro n₁ n₂ k₁ k₂ s₁ s₂ h₁ hreg₁ h₂ hleaf₁ hleaf₂ hne hn₁p hn₂p hn₁ hn₂ hurl hmeth hcount
    obtain ⟨l₁, hl₁, hd₁, _, hid₁, hc₁, hch₁, _⟩ := SetRouter_facts hreg h₁
    obtain ⟨l₂, hl₂, hd₂, _, hid₂, _, hch₂, _⟩ := SetRouter_facts hreg₁ h₂
    have e₁ : l₁ = [n₁] := Tree_leaf hl₁ hleaf₁
    have e₂ : l₂ = [n₂] := Tree_leaf hl₂ (by rw [hc₁ n₂ hn₂p]; exact hleaf₂)
    subst e₁ e₂
    have hS₁ := (hd₁ n₁ (List.mem_singleton_self _)).1.2
    have hS₂ := (hd₂ n₂ (List.mem_singleton_self _)).1.2
    have hId : (s₂.heap n₂).Id = (s₁.heap n₁).Id := by
      rw [hS₁, hS₂, hurl, hmeth]
    have hcnt₁ : (s₁.heap p).Children.countP
        (fun c => decide ((s₁.heap c).Id = (s₁.heap n₁).Id)) = 1 := by
      rw [hch₁, (attachChild_count rfl _).1]
      have : (s.heap p).Children.countP (fun c => decide ((s₁.heap c).Id = (s₁.heap n₁).Id))
          = (s.heap p).Children.countP (fun c => decide ((s.heap c).Id = (s₁.heap n₁).Id)) := by
        refine countP_congr_mem (fun c hc => ?_)
        have hcn : c ∉ [n₁] := fun h => hn₁ ((List.mem_singleton.mp h) ▸ hc)
        rw [hid₁ c hcn]
      rw [this]
      omega
    have hmem₂ : ∀ c ∈ (s₁.heap p).Children, c ∉ [n₂] := by
      intro c hc h
      rw [List.mem_singleton.mp h, hch₁] at hc
      rcases attachChild_mem hc with e | e
      · exact hne e.symm
      · exact hn₂ e
    have hcnt₂ : (s₁.heap p).Children.countP
        (fun c => decide ((s₂.heap c).Id = (s₂.heap n₂).Id)) = 1 := by
      rw [← hcnt₁]
      refine countP_congr_mem (fun c hc => ?_)
      rw [hid₂ c (hmem₂ c hc), hId]
    refine ⟨hId, ?_, ?_⟩
    · rw [hch₂, (attachChild_count rfl _).1, hcnt₂]; rfl
    · rw [hch₂, (attachChild_count rfl _).2, hcnt₂]; rfl

/-- Witness of C3: the second and the third handler attached one after the
other under the group of the example, which has one other child. -/
theorem SetRouter_children_witness :
    exThird.dynaRouterMap "/api" = some 2 ∧
    (∃ s', SetRouter exUtils 4 "/api" 3 exThird = .ok s' ∧
      (s'.heap 2).Children = [1] ++ [3]) ∧
    (exAttached₂.heap 2).Children.countP
        (fun c => decide ((exAttached₂.heap c).Id = (exAttached₂.heap 4).Id)) = 1 ∧
    (exAttached₂.heap 2).Children.length = (exAttached₁.heap 2).Children.length :=
  ⟨by decide,
    let ⟨s', h1, _, _, h2⟩ := (SetRouter_children exUtils 1 3 4 exThird "/api" 2 (by decide)
      (by decide)).1 3 [3] (by decide) (by decide)
    ⟨s', h1, h2 (by
      have e : s' = exAttached₁ := Outcome.ok.inj (h1.symm.trans
        (Outcome.eq_ok_of_isOk (o := SetRouter exUtils 4 "/api" 3 exThird) (by decide)))
      rw [e]; decide)⟩,
    ((SetRouter_children exUtils 1 3 4 exThird "/api" 2 (by decide) (by decide)).2 3 4 4 4
      exAttached₁
      exAttached₂ (Outcome.eq_ok_of_isOk (by decide)) (by decide)
      (Outcome.eq_ok_of_isOk (by decide)) (by decide) (by decide) (by decide) (by decide)
      (by decide) (by decide) (by decide) (by decide) (by decide) (by decide)).2⟩

/-- Counterexample to C4 as stated, in two parts.  In the attached group of two
handlers with the same id, `DelRouter` of that id removes the first of them;
the parent still has a child with that id, and so has `DynaRouterTree()`.  In
the tree of `exOverlap` the children of the group `z` are the second cell of
the backing array of the children of `p`; the handler 1 is the only node with
its id and is listed once, by `p`; `DelRouter` of that id moves the cells of
`p` down, after which `z` shows itself as its child and `DynaRouterTree()` has
no result with any fuel. -/
theorem DelRouter_counterexample :
    (Mem.exPairRooted.dynaRouterMap "/api/UserGET" = some 2 ∧
      (Mem.exPairRooted.heap 2).Parent = some 3 ∧
      Mem.exPairRooted.children 3 = [1, 2] ∧
      (Mem.DelRouter Mem.exRuntime "/api/UserGET" Mem.exPairRooted).isOk = true ∧
      (Mem.DelRouter Mem.exRuntime "/api/UserGET" Mem.exPairRooted).state.children 3 = [2] ∧
      ((Mem.DelRouter Mem.exRuntime "/api/UserGET" Mem.exPairRooted).state.heap 2).Id
        = "/api/UserGET" ∧
      Mem.DynaRouterTree 3 (Mem.DelRouter Mem.exRuntime "/api/UserGET" Mem.exPairRooted).state
        = some [0, 3, 2]) ∧
    (Mem.exOverlap.dynaRouterMap "/p/UserGET" = some 1 ∧
      (Mem.exOverlap.heap 1).Parent = some 4 ∧
      Mem.DynaRouterTree 4 Mem.exOverlap = some [0, 4, 1, 2, 3, 2] ∧
      (∀ x ∈ [0, 4, 1, 2, 3, 2], (Mem.exOverlap.heap x).Id = "/p/UserGET" → x = 1) ∧
      (∀ m ∈ [0, 4, 1, 2, 3, 2], 1 ∈ Mem.exOverlap.children m → m = 4) ∧
      (Mem.exOverlap.children 4).count 1 = 1 ∧
      (Mem.exOverlap.heap 4).Children = ⟨1, 0, 3, 3⟩ ∧
      (Mem.exOverlap.heap 3).Children = ⟨1, 1, 1, 2⟩ ∧
      (Mem.DelRouter Mem.exRuntime "/p/UserGET" Mem.exOverlap).isOk = true ∧
      (Mem.DelRouter Mem.exRuntime "/p/UserGET" Mem.exOverlap).state.children 4 = [2, 3] ∧
      (Mem.DelRouter Mem.exRuntime "/p/UserGET" Mem.exOverlap).state.children 3 = [3] ∧
      ∀ fuel, Mem.DynaRouterTree fuel
        (Mem.DelRouter Mem.exRuntime "/p/UserGET" Mem.exOverlap).state = none) := by
  refine ⟨by decide, by decide, by decide, by decide, by decide, by decide, by decide,
    by decide, by decide, by decide, by decide, by decide, ?_⟩
  intro fuel
  rw [Mem.DynaRouterTree, Mem.Tree_view]
  refine Tree_reach_loop (x := 3) ?_ ?_ fuel
  · exact Reach.step (c := 4) (by decide) (Reach.step (c := 3) (by decide) (Reach.refl 3))
  · decide

/-- C4 (amended). `DelRouter(id)` for a registered node `d` with parent `p`,
whose `Children` lie within their backing array, returns; afterwards
`GetDynaRouter(id)` reports not found and no other key of the map has changed;
no field of a node but `p.Children` is assigned (the cells of the backing array
of `p.Children` are moved down, which a node over the same cells sees) and
every node keeps its `Id`; `p` shows its old children without the first one
whose `Id` is `id`, the others in their order, so no child of `p` has that
`Id` when at most one had it before; and when `d` is not the root, is the only
node of `DynaRouterTree()` with that `Id`, is listed as a child once and by
`p` only, and no other node of the tree shows a cell of the children of `p`,
then `DynaRouterTree()` returns afterwards and contains no node with that
`Id`. -/
theorem DelRouter_detaches (rt : Mem.Runtime) (c : Mem.State) (id : String) (d p : Ptr)
    (hreg : c.dynaRouterMap id = some d) (hpar : (c.heap d).Parent = some p)
    (hw : (c.heap p).Children.Within c.ptrs) :
    ∃ c', Mem.DelRouter rt id c = .ok c' ∧ Mem.GetDynaRouter id c' = (none, false) ∧
      (∀ k, k ≠ id → c'.dynaRouterMap k = c.dynaRouterMap k) ∧
      (∀ x, x ≠ p → c'.heap x = c.heap x) ∧ (∀ x, (c'.heap x).Id = (c.heap x).Id) ∧
      (c'.children p).Sublist (c.children p) ∧
      (∀ a x b, c.children p = a ++ x :: b → (c.heap x).Id = id →
        (∀ y ∈ a, (c.heap y).Id ≠ id) → c'.children p = a ++ b) ∧
      ((c.children p).countP (fun x => decide ((c.heap x).Id = id)) ≤ 1 →
        ∀ x ∈ c'.children p, (c'.heap x).Id ≠ id) ∧
      (∀ (f : Nat) (l : List Ptr), Mem.DynaRouterTree f c = some l → d ≠ DefDynaRouter →
        (∀ x ∈ l, (c.heap x).Id = id → x = d) →
        (∀ m ∈ l, d ∈ c.children m → m = p) → (c.children p).count d ≤ 1 →
        (∀ m ∈ l, m ≠ p → (c.heap m).Children.Apart (c.heap p).Children) →
        ∃ l', Mem.DynaRouterTree f c' = some l' ∧ l'.Sublist l ∧
          ∀ x ∈ l', (c'.heap x).Id ≠ id) := by
  have hB := Mem.detach_sameBut rt c id p
  have hchp := Mem.detach_children rt c id p hw
  have hids : ∀ x, ((Mem.detach rt c id p).heap x).Id = (c.heap x).Id := by
    intro x
    obtain ⟨sl, e⟩ := hB.2.2.2.2.2 x
    rw [e]
  have hok : Mem.DelRouter rt id c = .ok { Mem.detach rt c id p with
      dynaRouterMap := Function.update (Mem.detach rt c id p).dynaRouterMap id none } := by
    simp only [Mem.DelRouter, hreg, hpar]
  refine ⟨_, hok, ?_, ?_, ?_, hids, ?_, ?_, ?_, ?_⟩
  · simp [Mem.GetDynaRouter]
  · intro k hk
    simp [hB.2.2.1, Function.update_noteq hk]
  · intro x hx
    exact Mem.detach_heap_ne rt c id hx
  · show ((Mem.detach rt c id p).children p).Sublist _
    rw [hchp]
    exact removeChild_sublist _ id _
  · intro a x b hcs hx ha
    show (Mem.detach rt c id p).children p = _
    rw [hchp, hcs]
    exact removeChild_first (s := c.view) ha hx
  · intro hcount x hx hxid
    have hx' : x ∈ removeChild c.view id (c.children p) := by rw [← hchp]; exact hx
    have hxid' : (c.heap x).Id = id := by rw [← hids]; exact hxid
    have h0 : (removeChild c.view id (c.children p)).countP
        (fun x => decide ((c.view.heap x).Id = id)) = 0 := by
      rw [removeChild_count]
      exact Nat.sub_eq_zero_of_le hcount
    have := List.countP_eq_zero.mp h0 x hx'
    exact this (by simpa using hxid')
  · intro f l hl hroot huniq hlist hcnt hap
    rw [Mem.DynaRouterTree, Mem.Tree_view] at hl
    obtain ⟨l', hl', hsl, hno⟩ := detached_tree c.view id d p f l hl hroot huniq hlist hcnt
    refine ⟨l', ?_, hsl, fun x hx => by rw [hids]; exact hno x hx⟩
    rw [Mem.DynaRouterTree, Mem.Tree_view]
    refine Tree_congr_on f DefDynaRouter l' hl' (fun x hx => ?_)
    show (Mem.detach rt c id p).children x = ((detached c.view id p).heap x).Children
    by_cases hxp : x = p
    · subst hxp
      rw [hchp]
      simp [detached, State.set, DynaRouter.withChildren]
      rfl
    · rw [Mem.detach_children_apart rt c id hw hxp (hap x (hsl.subset hx) hxp)]
      simp [detached, State.set, Function.update_noteq hxp]
      rfl

/-- Witness of C4: the handler of the attached example tree is removed. -/
theorem DelRouter_detaches_witness :
    Mem.exRooted.dynaRouterMap "/api/User/:idGET" = some 1 ∧
    (Mem.exRooted.heap 1).Parent = some 2 ∧
    (Mem.exRooted.heap 2).Children.Within Mem.exRooted.ptrs ∧
    Mem.DynaRouterTree 3 Mem.exRooted = some [0, 2, 1] ∧
    ∃ c', Mem.DelRouter Mem.exRuntime "/api/User/:idGET" Mem.exRooted = .ok c' ∧
      Mem.GetDynaRouter "/api/User/:idGET" c' = (none, false) ∧
      ∃ l', Mem.DynaRouterTree 3 c' = some l' ∧
        ∀ x ∈ l', (c'.heap x).Id ≠ "/api/User/:idGET" :=
  ⟨by decide, by decide, by decide, by decide,
    let ⟨c', h1, h2, _, _, _, _, _, _, h3⟩ :=
      DelRouter_detaches Mem.exRuntime Mem.exRooted "/api/User/:idGET" 1 2 (by decide)
        (by decide) (by decide)
    let ⟨l', h4, _, h5⟩ := h3 3 [0, 2, 1] (by decide) (by decide) (by decide) (by decide)
      (by decide) (by decide)
    ⟨c', h1, h2, l', h4, h5⟩⟩

/-- C5. Cascading enable: when the traversal `d.Tree()` returns the list `l`,
`d.SetEnable(v)` returns `d`, leaves the traversal unchanged and every node
of `l`, that is `d` and all its descendants, has `Enable = v` afterwards,
whatever it held before; hence `SetEnable(false)` followed by
`SetEnable(true)` leaves every node of the subtree enabled. -/
theorem SetEnable_cascades (fuel : Nat) (s : State) (d : Ptr) (l : List Ptr) (v : Bool)
    (hl : Tree fuel s d = some l) :
    (∃ s', SetEnable fuel d v s = some (d, s') ∧ Tree fuel s' d = some l ∧
      ∀ n ∈ l, (s'.heap n).Enable = v) ∧
    (∃ s₁ s₂, SetEnable fuel d false s = some (d, s₁) ∧
      SetEnable fuel d true s₁ = some (d, s₂) ∧ Tree fuel s₂ d = some l ∧
      (∀ n ∈ l, (s₁.heap n).Enable = false) ∧ ∀ n ∈ l, (s₂.heap n).Enable = true) := by
  have key : ∀ (w : Bool) (t : State), Tree fuel t d = some l →
      SetEnable fuel d w t = some (d, enableAll l w t) ∧
        Tree fuel (enableAll l w t) d = some l ∧
        ∀ n ∈ l, ((enableAll l w t).heap n).Enable = w := by
    intro w t ht
    refine ⟨SetEnable_eq w fuel t d l ht, ?_, ?_⟩
    · rw [Tree_congr (sameChildren_enableAll l w t)]; exact ht
    · intro n hn
      simp [enableAll, hn]
  obtain ⟨h1, h2, h3⟩ := key v s hl
  obtain ⟨f1, f2, f3⟩ := key false s hl
  obtain ⟨t1, t2, t3⟩ := key true _ f2
  exact ⟨⟨_, h1, h2, h3⟩, _, _, f1, t1, t2, f3, t3⟩

/-- Witness of C5: the group of the example and its handler. -/
theorem SetEnable_cascades_witness :
    Tree 2 exGroup 2 = some [2, 1] ∧
    ∃ s₁ s₂, SetEnable 2 2 false exGroup = some (2, s₁) ∧
      SetEnable 2 2 true s₁ = some (2, s₂) ∧
      (∀ n ∈ [2, 1], (s₁.heap n).Enable = false) ∧ ∀ n ∈ [2, 1], (s₂.heap n).Enable = true :=
  ⟨by decide,
    let ⟨_, s₁, s₂, h1, h2, _, h3, h4⟩ := SetEnable_cascades 2 exGroup 2 [2, 1] false (by decide)
    ⟨s₁, s₂, h1, h2, h3, h4⟩⟩

/-- Counterexample to C6 as stated, in two parts.  After
`SubRouter("/api", "api", "", h, h)` the traversal of the group lists the
handler twice, so its length 3 exceeds the two nodes of the subtree.  In
`exLooped` the group at address 3 lists itself, and its traversal has no
result with any fuel: the call `Tree()` does not return. -/
theorem Tree_preorder_counterexample :
    (Tree 2 exTwice 2 = some [2, 1, 1] ∧ ([2, 1, 1] : List Ptr).count 1 = 2 ∧
      ¬ ([2, 1, 1] : List Ptr).Nodup) ∧
    (Mem.exLooped.children 3 = [3] ∧ ∀ fuel, Mem.Tree fuel Mem.exLooped 3 = none) := by
  refine ⟨by decide, by decide, fun fuel => ?_⟩
  rw [Mem.Tree_view]
  exact Tree_self_loop (by decide) fuel

/-- C6 (amended). Pre-order traversal.  When the nodes below `d` are finite in
depth, that is some rank decreases from every node of a set `L` that holds `d`
and is closed under `Children` to each of its children, `d.Tree()` returns
with any fuel above the rank of `d`: the result is `d` followed by the
traversals of its children in `Children` order, and its members are exactly
the nodes reachable from `d`.  When the subtree is a tree, that is no node of
the traversal lists a child twice and no two nodes of it list the same child,
each node occurs once and the length is the number of reachable nodes. -/
theorem Tree_preorder (s : State) (d : Ptr) (L : List Ptr) (rank : Ptr → Nat) (hd : d ∈ L)
    (hdown : ∀ x ∈ L, ∀ c ∈ (s.heap x).Children, c ∈ L ∧ rank c < rank x) :
    ∃ l, (∀ fuel, rank d < fuel → Tree fuel s d = some l) ∧
      (∀ fuel, rank d ≤ fuel →
        ∃ lf, forest (Tree fuel s) (s.heap d).Children = some lf ∧ l = d :: lf) ∧
      (∀ x, x ∈ l ↔ Reach s d x) ∧
      ((∀ m ∈ l, (s.heap m).Children.Nodup) →
        (∀ m₁ ∈ l, ∀ m₂ ∈ l, ∀ c, c ∈ (s.heap m₁).Children →
          c ∈ (s.heap m₂).Children → m₁ = m₂) →
        (∀ x ∈ l, l.count x = 1) ∧ l.length = Set.ncard {x | Reach s d x}) := by
  obtain ⟨l, hl⟩ := Tree_ranked s L rank hdown (rank d) d hd (le_refl _)
  have hfuel : ∀ fuel, rank d < fuel → Tree fuel s d = some l :=
    fun fuel h => Tree_mono_le h hl
  have hmem : ∀ x, x ∈ l ↔ Reach s d x :=
    fun x => ⟨reach_of_mem_Tree s _ d l hl x, fun hr => mem_Tree_of_reach s hr _ l hl⟩
  refine ⟨l, hfuel, fun fuel h => Tree_succ_eq_some.mp (hfuel (fuel + 1) (by omega)), hmem,
    fun hnd huniq => ?_⟩
  have hnodup : l.Nodup := Tree_nodup s l hnd huniq _ d l hl (fun _ h => h)
  refine ⟨fun x hx => List.count_eq_one_of_mem hnodup hx, ?_⟩
  have hset : {x | Reach s d x} = (↑l.toFinset : Set Ptr) := by
    ext x
    simp [hmem]
  rw [hset, Set.ncard_coe_Finset, List.toFinset_card_of_nodup hnodup]

/-- Witness of C6: the group of the example and its handler, with rank 1 for
the group and 0 for the handler. -/
theorem Tree_preorder_witness :
    Tree 2 exGroup 2 = some [2, 1] ∧ Tree 7 exGroup 2 = some [2, 1] ∧
    (∀ x, x ∈ [2, 1] ↔ Reach exGroup 2 x) ∧ (∀ x ∈ [2, 1], ([2, 1] : List Ptr).count x = 1) ∧
    ([2, 1] : List Ptr).length = Set.ncard {x | Reach exGroup 2 x} := by
  obtain ⟨l, h1, _, h3, h4⟩ :=
    Tree_preorder exGroup 2 [2, 1] (fun x => if x = 2 then 1 else 0) (by decide) (by decide)
  have h2 : Tree 2 exGroup 2 = some [2, 1] := by decide
  have e : l = [2, 1] := Option.some.inj ((h1 2 (by decide)).symm.trans h2)
  subst e
  exact ⟨h2, h1 7 (by decide), h3, (h4 (by decide) (by decide)).1,
    (h4 (by decide) (by decide)).2⟩

/-- C7. Attaching resolves and registers the whole subtree.  When `parentId`
is registered, the traversal `l` of `n` at the call, which is what `init`
walks, is finite and the parent chain of each of its members is finite once
`n.Parent` is set, `SetRouter(parentId, n)` returns, and afterwards every
node `m` of `l` has `Url` equal to the value
resolved along its parent chain, `Id` equal to the digest of that `Url`
followed by its methods, and `GetDynaRouter(m.Id)` finds a node whose `Id` is
`m.Id`; when no two nodes have their `Children` in one backing array and the
parent is an existing node outside `l`, `l` is the traversal of `n` after the
call too.  Likewise `RootRouter(node...)` returns when the traversal of the root
and the parent chains are finite after its `append` and its loop, and leaves
every node of `DynaRouterTree()` in that condition; the tree contains the
traversals of the nodes handed over.  The fuel is any bound on the depth of
the traversal plus the length of the parent chains. -/
theorem attach_resolves_and_registers (rt : Mem.Runtime) (u : Utils) (f g fuel : Nat)
    (c : Mem.State) (hfuel : f + g ≤ fuel) :
    (∀ (pid : String) (n p : Ptr) (l : List Ptr), c.dynaRouterMap pid = some p →
      Mem.Tree f c n = some l →
      (∀ m ∈ l, (resolve g (Mem.linked c n (some p)).view m).isSome) →
      ∃ c', Mem.SetRouter rt u fuel pid n c = .ok c' ∧
        (Mem.Owned c → p < c.next → p ∉ l → Mem.Tree f c' n = some l) ∧
        ∀ m ∈ l, (∃ k, resolve k c'.view m = some (c'.heap m).Url) ∧
          (c'.heap m).Id = u.MakeMd5 ((c'.heap m).Url ++ concatStrings (c'.methods m)) ∧
          ∃ r, Mem.GetDynaRouter (c'.heap m).Id c' = (some r, true) ∧
            (c'.heap r).Id = (c'.heap m).Id) ∧
    (∀ (node : Mem.Slice) (l : List Ptr),
      Mem.Tree f (Mem.rootLinked rt node c) DefDynaRouter = some l →
      (∀ m ∈ l, (resolve g (Mem.rootLinked rt node c).view m).isSome) →
      ∃ c', Mem.RootRouter rt u fuel node c = some c' ∧ Mem.DynaRouterTree f c' = some l ∧
        ((c.heap DefDynaRouter).Children.Within c.ptrs →
          ∀ n ∈ node.elems c.ptrs, ∃ ln, Mem.Tree f c' n = some ln ∧ ln ⊆ l) ∧
        ∀ m ∈ l, (∃ k, resolve k c'.view m = some (c'.heap m).Url) ∧
          (c'.heap m).Id = u.MakeMd5 ((c'.heap m).Url ++ concatStrings (c'.methods m)) ∧
          ∃ r, Mem.GetDynaRouter (c'.heap m).Id c' = (some r, true) ∧
            (c'.heap r).Id = (c'.heap m).Id) := by
  constructor
  · intro pid n p l hreg hl hres
    have hkeep := fun c' (hO : Mem.Owned c) (hp : p < c.next)
        (h : Mem.SetRouter rt u fuel pid n c = .ok c') =>
      @Mem.SetRouter_keeps_tree rt u f g fuel pid n p c c' l hfuel hO hp hreg hl hres h
    rw [Mem.Tree_view] at hl
    rw [Mem.view_linked] at hres
    have hreg' : c.view.dynaRouterMap pid = some p := hreg
    obtain ⟨a₁, h₁, _, hP, _⟩ := SetRouter_post (u := u) hfuel hreg' hl hres
    have hm : Mem.Mirrors (Mem.linked c n (some p)) (a₁.register (a₁.heap n).Id n) := by
      have := @Mem.Mirrors.frame (Mem.linked c n (some p)) _ (a₁.register (a₁.heap n).Id n)
        (Mem.mirrors_view (Mem.linked c n (some p)))
      rw [Mem.view_linked] at this
      exact this hP.frame
    have hS := (Mem.attach_sameBut rt
      ((Mem.linked c n (some p)).lift (a₁.register (a₁.heap n).Id n)) n p).sameRes
    rw [Mem.view_lift hm] at hS
    refine ⟨_, Mem.SetRouter_eq_attach hreg h₁,
      fun hO hp => hkeep _ hO hp (Mem.SetRouter_eq_attach hreg h₁), fun m hm' => ?_⟩
    obtain ⟨hset, hlist⟩ := hP.done m (List.mem_append_left _ hm')
    obtain ⟨hu, hi⟩ := hS.settled_same hset
    exact ⟨hu, hi, listed_lookup (hS.listed hlist)⟩
  · intro node l hl hres
    rw [Mem.Tree_view] at hl
    obtain ⟨a', ha'⟩ := init_total u g f fuel DefDynaRouter _ l hfuel hl hres
    obtain ⟨l', hl', hP⟩ := init_spec u fuel DefDynaRouter _ a' ha'
    have hll : l' = l := Tree_unique hl' hl
    subst hll
    have hm : Mem.Mirrors (Mem.rootLinked rt node c) a' :=
      (Mem.mirrors_view _).frame hP.frame
    have hv : ((Mem.rootLinked rt node c).lift a').view = a' := Mem.view_lift hm
    have hc' : Mem.RootRouter rt u fuel node c = some ((Mem.rootLinked rt node c).lift a') := by
      simp only [Mem.RootRouter, Mem.init_view, ha', Option.map_some']
    have hT : Tree f a' DefDynaRouter = some l' := by rw [hP.frame.tree]; exact hl
    refine ⟨_, hc', ?_, ?_, ?_⟩
    · rw [Mem.DynaRouterTree, Mem.Tree_view, hv]; exact hT
    · intro hw n hn
      have hmem : n ∈ l' := by
        apply mem_Tree_of_reach _ (Reach.step _ (Reach.refl n)) f l' hT
        rw [hP.frame.children]
        show n ∈ (Mem.rootLinked rt node c).children DefDynaRouter
        rw [Mem.rootLinked_shows hw]
        exact List.mem_append_right _ hn
      obtain ⟨ln, hln, _, hsub⟩ := Tree_sub a' f DefDynaRouter l' hT n hmem
      exact ⟨ln, by rw [Mem.Tree_view, hv]; exact hln, hsub⟩
    · intro m hm'
      obtain ⟨hset, hlist⟩ := hP.done m hm'
      have hS : Settled u ((Mem.rootLinked rt node c).lift a').view m := by rw [hv]; exact hset
      have hL : Listed u ((Mem.rootLinked rt node c).lift a').view m := by rw [hv]; exact hlist
      have hlk : ∃ r, GetDynaRouter ((((Mem.rootLinked rt node c).lift a').view).heap m).Id
          ((Mem.rootLinked rt node c).lift a').view = (some r, true) ∧
          ((((Mem.rootLinked rt node c).lift a').view).heap r).Id
            = ((((Mem.rootLinked rt node c).lift a').view).heap m).Id := listed_lookup hL
      exact ⟨hS.1, hS.2, hlk⟩

/-- Witness of C7: the second handler attached under the group of the example,
and the example group attached to the root. -/
theorem attach_resolves_and_registers_witness :
    (Mem.exSecond.dynaRouterMap "/api" = some 2 ∧ Mem.Tree 1 Mem.exSecond 3 = some [3] ∧
      ∀ m ∈ [3], (resolve 3 (Mem.linked Mem.exSecond 3 (some 2)).view m).isSome) ∧
    (∃ c', Mem.SetRouter Mem.exRuntime exUtils 4 "/api" 3 Mem.exSecond = .ok c' ∧
      ∃ r, Mem.GetDynaRouter (c'.heap 3).Id c' = (some r, true) ∧
        (c'.heap r).Id = (c'.heap 3).Id) ∧
    (Mem.Tree 3 (Mem.rootLinked Mem.exRuntime Mem.exGroupArg.1 Mem.exGroupArg.2) DefDynaRouter
        = some [0, 2, 1] ∧
      ∀ m ∈ [0, 2, 1],
        (resolve 3 (Mem.rootLinked Mem.exRuntime Mem.exGroupArg.1 Mem.exGroupArg.2).view
          m).isSome) ∧
    ∃ c', Mem.RootRouter Mem.exRuntime exUtils 6 Mem.exGroupArg.1 Mem.exGroupArg.2 = some c' ∧
      Mem.DynaRouterTree 3 c' = some [0, 2, 1] :=
  ⟨by decide,
    let ⟨c', h1, h2⟩ := (attach_resolves_and_registers Mem.exRuntime exUtils 1 3 4 Mem.exSecond
      (by decide)).1 "/api" 3 2 [3] (by decide) (by decide) (by decide)
    ⟨c', h1, (h2.2 3 (List.mem_singleton_self _)).2.2⟩,
    by decide,
    let ⟨c', h1, h2, _⟩ := (attach_resolves_and_registers Mem.exRuntime exUtils 3 3 6
      Mem.exGroupArg.2 (by decide)).2 Mem.exGroupArg.1 [0, 2, 1] (by decide) (by decide)
    ⟨c', h1, h2⟩⟩

/-- C8. `SubRouter` allocates a fresh node of kind `GROUP` with the cleaned
prefix, the given name and description, enabled, without parent, whose
children are the given nodes in the given order; each given node gets the
group as `Parent` and is otherwise unchanged, and no other node changes. -/
theorem SubRouter_group (pfx name description : String) (cs : List Ptr) (s : State)
    (hcs : ∀ c ∈ cs, c < s.next) :
    (SubRouter pfx name description cs s).1 = s.next ∧
    ((SubRouter pfx name description cs s).2.heap (SubRouter pfx name description cs s).1)
      = { Prefix := pathClean ("/" ++ pfx), Kind := GROUP, Name := name,
          Description := description, Middlewares := [], Children := cs, Enable := true,
          Parent := none } ∧
    (∀ c ∈ cs, (SubRouter pfx name description cs s).2.heap c
      = { s.heap c with Parent := some (SubRouter pfx name description cs s).1 }) ∧
    (∀ x, x ∉ cs → x ≠ s.next → (SubRouter pfx name description cs s).2.heap x = s.heap x) := by
  have hfresh : s.next ∉ cs := fun h => Nat.lt_irrefl _ (hcs _ h)
  refine ⟨rfl, ?_, ?_, ?_⟩
  · simp [SubRouter, State.alloc, setParents_heap, hfresh]
  · intro c hc
    have hne : c ≠ s.next := fun e => hfresh (e ▸ hc)
    simp [SubRouter, State.alloc, setParents_heap, hc, hne]
  · intro x hx hne
    simp [SubRouter, State.alloc, setParents_heap, hx, hne]

/-- Witness of C8: grouping the handler of the example. -/
theorem SubRouter_group_witness :
    (∀ c ∈ [1], c < exHandler.next) ∧
    ((SubRouter "/api" "api" "" [1] exHandler).2.heap 2).Children = [1] ∧
    ((SubRouter "/api" "api" "" [1] exHandler).2.heap 1).Parent = some 2 :=
  ⟨by decide,
    congrArg DynaRouter.Children (SubRouter_group "/api" "api" "" [1] exHandler (by decide)).2.1,
    congrArg DynaRouter.Parent
      ((SubRouter_group "/api" "api" "" [1] exHandler (by decide)).2.2.1 1 (by decide))⟩

/-- Counterexample to C10 as stated.  Attaching the node 3 under the
registered parent 1 and then under the different registered parent 2, which
has the same `Url`, yields the same `Id`; and changing the methods of a node
from GET, POST to the single method GETPOST and attaching it again yields the
same `Id` (the digest of the example is injective). -/
theorem attach_id_counterexample :
    (Mem.exParents.dynaRouterMap "/UserGET" = some 1 ∧
      Mem.exParents₁.dynaRouterMap "/UserPOST" = some 2 ∧
      (Mem.SetRouter Mem.exRuntime exUtils 4 "/UserGET" 3 Mem.exParents).isOk = true ∧
      (Mem.SetRouter Mem.exRuntime exUtils 4 "/UserPOST" 3 Mem.exParents₁).isOk = true ∧
      (Mem.exParents₁.heap 3).Parent = some 1 ∧ (Mem.exParents₂.heap 3).Parent = some 2 ∧
      (Mem.exParents₂.heap 3).Id = (Mem.exParents₁.heap 3).Id) ∧
    (Mem.exMethods.dynaRouterMap "/" = some 0 ∧
      (Mem.SetRouter Mem.exRuntime exUtils 4 "/" 1 Mem.exMethods).isOk = true ∧
      (Mem.SetRouter Mem.exRuntime exUtils 4 "/" 1
        (Mem.setMethods 1 ["GETPOST"] Mem.exMethods₁)).isOk = true ∧
      Mem.exMethods₁.methods 1 = ["GET", "POST"] ∧ Mem.exMethods₂.methods 1 = ["GETPOST"] ∧
      (Mem.exMethods₂.heap 1).Id = (Mem.exMethods₁.heap 1).Id) := by
  decide

/-- C10 (amended). When `parentId` is registered and the traversal of `n` and
the parent chains of its members are finite, `SetRouter(parentId, n)` returns;
the `Url` of `n` is then the cleaned join of the resolved `Url` of the parent
with the join of its own `Prefix` and `Param`, and its `Id` the digest of that
`Url` followed by its concatenated methods.  Attaching the unchanged node
again under the same parent returns, when traversal and parent chains are
finite in the state reached, with the same `Url` and `Id`.  With an injective
digest, two attaches that return give the same `Id` exactly when `Url`
followed by the concatenated methods is the same string: with the same
concatenated methods the `Id` differs exactly when the `Url` differs, and with
the same `Url` exactly when the concatenation of the methods differs. -/
theorem attach_id (rt : Mem.Runtime) (u : Utils) (f g fuel : Nat) (hfuel : f + g ≤ fuel)
    (c : Mem.State) (pid : String) (n p : Ptr) (l : List Ptr)
    (hreg : c.dynaRouterMap pid = some p) (hl : Mem.Tree f c n = some l)
    (hres : ∀ m ∈ l, (resolve g (Mem.linked c n (some p)).view m).isSome) :
    ∃ c₁, Mem.SetRouter rt u fuel pid n c = .ok c₁ ∧
      (c₁.heap n).Id = u.MakeMd5 ((c₁.heap n).Url ++ concatStrings (c₁.methods n)) ∧
      (c₁.heap n).Parent = some p ∧
      (∃ k pu, resolve k c₁.view p = some pu ∧
        (c₁.heap n).Url
          = pathClean (pathJoin [pu, pathJoin [(c₁.heap n).Prefix, (c₁.heap n).Param]])) ∧
      (∀ l₁, c₁.dynaRouterMap pid = some p → Mem.Tree f c₁ n = some l₁ →
        (∀ m ∈ l₁, (resolve g c₁.view m).isSome) →
        ∃ c₂, Mem.SetRouter rt u fuel pid n c₁ = .ok c₂ ∧
          (c₂.heap n).Url = (c₁.heap n).Url ∧ (c₂.heap n).Id = (c₁.heap n).Id) ∧
      (Function.Injective u.MakeMd5 →
        ∀ (t : Mem.State) (pid' : String) (n' p' : Ptr) (l' : List Ptr),
        t.dynaRouterMap pid' = some p' → Mem.Tree f t n' = some l' →
        (∀ m ∈ l', (resolve g (Mem.linked t n' (some p')).view m).isSome) →
        ∃ t₁, Mem.SetRouter rt u fuel pid' n' t = .ok t₁ ∧
          ((t₁.heap n').Id = (c₁.heap n).Id ↔
            (t₁.heap n').Url ++ concatStrings (t₁.methods n')
              = (c₁.heap n).Url ++ concatStrings (c₁.methods n)) ∧
          (concatStrings (t₁.methods n') = concatStrings (c₁.methods n) →
            ((t₁.heap n').Id ≠ (c₁.heap n).Id ↔ (t₁.heap n').Url ≠ (c₁.heap n).Url)) ∧
          ((t₁.heap n').Url = (c₁.heap n).Url →
            ((t₁.heap n').Id ≠ (c₁.heap n).Id ↔
              concatStrings (t₁.methods n') ≠ concatStrings (c₁.methods n)))) := by
  -- one attach: it returns, and the node is settled with the parent set
  have key : ∀ (c : Mem.State) (pid : String) (n p : Ptr) (l : List Ptr),
      c.dynaRouterMap pid = some p → Tree f c.view n = some l →
      (∀ m ∈ l, (resolve g (linked c.view n (some p)) m).isSome) →
      ∃ c₁ a₂, Mem.SetRouter rt u fuel pid n c = .ok c₁ ∧ SameRes a₂ c₁.view ∧
        InitPost u (l ++ [n]) (l ++ [n]) (linked c.view n (some p)) a₂ := by
    intro c pid n p l hreg hl hres
    have hreg' : c.view.dynaRouterMap pid = some p := hreg
    obtain ⟨a₁, h₁, _, hP, _⟩ := SetRouter_post (u := u) hfuel hreg' hl hres
    have hm : Mem.Mirrors (Mem.linked c n (some p)) (a₁.register (a₁.heap n).Id n) := by
      have := @Mem.Mirrors.frame (Mem.linked c n (some p)) _ (a₁.register (a₁.heap n).Id n)
        (Mem.mirrors_view (Mem.linked c n (some p)))
      rw [Mem.view_linked] at this
      exact this hP.frame
    have hS := (Mem.attach_sameBut rt
      ((Mem.linked c n (some p)).lift (a₁.register (a₁.heap n).Id n)) n p).sameRes
    rw [Mem.view_lift hm] at hS
    exact ⟨_, _, Mem.SetRouter_eq_attach hreg h₁, hS, hP⟩
  rw [Mem.Tree_view] at hl
  rw [Mem.view_linked] at hres
  obtain ⟨c₁, a₂, hok, hS, hP⟩ := key c pid n p l hreg hl hres
  have hset : Settled u c₁.view n :=
    hS.settled_same (hP.done n (List.mem_append_left _ (mem_Tree_self hl))).1
  have hpar : (c₁.heap n).Parent = some p := by
    have h1 := (hS.2 n).2.2.1
    have h2 := hP.frame.parent n
    rw [linked_parent] at h2
    exact h1.trans h2
  refine ⟨c₁, hok, hset.2, hpar, ?_, ?_, ?_⟩
  · obtain ⟨k, hk⟩ := hset.1
    cases k with
    | zero => cases hk
    | succ k =>
      have hpar' : (c₁.view.heap n).Parent = some p := hpar
      rw [resolve_succ_some hpar'] at hk
      cases hr : resolve k c₁.view p with
      | none => rw [hr] at hk; cases hk
      | some pu =>
        rw [hr] at hk
        exact ⟨k, pu, hr, (Option.some.inj hk).symm⟩
  · intro l₁ hreg₁ hl₁ hres₁
    rw [Mem.Tree_view] at hl₁
    have hpar' : (c₁.view.heap n).Parent = some p := hpar
    have hLS := linked_sameRes hpar'
    have hres₁' : ∀ m ∈ l₁, (resolve g (linked c₁.view n (some p)) m).isSome := by
      intro m hm
      rw [hLS.resolve_same]
      exact hres₁ m hm
    obtain ⟨c₂, b₂, hok₂, hS₂, hP₂⟩ := key c₁ pid n p l₁ hreg₁ hl₁ hres₁'
    have hst := hP₂.stable n (hLS.settled_same hset)
    have hu : (c₂.heap n).Url = (b₂.heap n).Url := (hS₂.2 n).2.2.2.2.1
    have hi : (c₂.heap n).Id = (b₂.heap n).Id := (hS₂.2 n).2.2.2.2.2
    have hln : ∀ x, ((linked c₁.view n (some p)).heap x).Url = (c₁.heap x).Url ∧
        ((linked c₁.view n (some p)).heap x).Id = (c₁.heap x).Id :=
      fun x => ⟨(hLS.2 x).2.2.2.2.1, (hLS.2 x).2.2.2.2.2⟩
    exact ⟨c₂, hok₂, by rw [hu, hst.1, (hln n).1], by rw [hi, hst.2, (hln n).2]⟩
  · intro hinj t pid' n' p' l' hreg' hl' hres'
    rw [Mem.Tree_view] at hl'
    rw [Mem.view_linked] at hres'
    obtain ⟨t₁, b₂, hok', hS', hP'⟩ := key t pid' n' p' l' hreg' hl' hres'
    have hset' : Settled u t₁.view n' :=
      hS'.settled_same (hP'.done n' (List.mem_append_left _ (mem_Tree_self hl'))).1
    have e₁ : (c₁.heap n).Id = u.MakeMd5 ((c₁.heap n).Url ++ concatStrings (c₁.methods n)) :=
      hset.2
    have e₂ : (t₁.heap n').Id
        = u.MakeMd5 ((t₁.heap n').Url ++ concatStrings (t₁.methods n')) := hset'.2
    have hkey : (t₁.heap n').Id = (c₁.heap n).Id ↔
        (t₁.heap n').Url ++ concatStrings (t₁.methods n')
          = (c₁.heap n).Url ++ concatStrings (c₁.methods n) := by
      rw [e₁, e₂]
      exact ⟨fun h => hinj h, fun h => by rw [h]⟩
    refine ⟨t₁, hok', hkey, ?_, ?_⟩
    · intro hm
      rw [not_iff_not, hkey, hm]
      exact ⟨String.append_right_cancel', fun h => by rw [h]⟩
    · intro hu
      rw [not_iff_not, hkey, hu]
      exact ⟨String.append_left_cancel', fun h => by rw [h]⟩

/-- Witness of C10: the second handler of the example attached under the group
and attached again. -/
theorem attach_id_witness :
    Mem.exSecond.dynaRouterMap "/api" = some 2 ∧ Mem.Tree 1 Mem.exSecond 3 = some [3] ∧
    Mem.exAttached.dynaRouterMap "/api" = some 2 ∧ Mem.Tree 1 Mem.exAttached 3 = some [3] ∧
    (Mem.exAttached.heap 3).Id = "/api/ItemPOST" ∧
    ∃ c₂, Mem.SetRouter Mem.exRuntime exUtils 4 "/api" 3 Mem.exAttached = .ok c₂ ∧
      (c₂.heap 3).Id = "/api/ItemPOST" := by
  obtain ⟨c₁, hok, _, _, _, hre, _⟩ :=
    attach_id Mem.exRuntime exUtils 1 3 4 (by decide) Mem.exSecond "/api" 3 2 [3] (by decide)
      (by decide) (by decide)
  have e : c₁ = Mem.exAttached := (congrArg Mem.Outcome.state hok).symm
  subst e
  obtain ⟨c₂, hok₂, _, hid⟩ := hre [3] (by decide) (by decide) (by decide)
  exact ⟨by decide, by decide, by decide, by decide, by decide, c₂, hok₂,
    hid.trans (by decide)⟩

/-- C11. The example scenario: from the start-up state,
`RootRouter(SubRouter("/api", ..., h))` with `h = Get(..., handler, "/:id")`
for a handler whose derived prefix is `/user` returns for every fuel from 6
on; then `h` is a `HANDLER` with `Methods = [GET]`, `Prefix = "/user"`,
`Param = "/:id"`, `Url = "/api/user/:id"` and `Id` the digest of
`"/api/user/:id" ++ "GET"`, the group has `Url = "/api"`, the root has
`Url = "/"`, and `DynaRouterTree()` is the root, the group, `h` in that order. -/
theorem scenario_resolves (u : Utils) (fuel : Nat) (name description gname gdescription : String)
    (handler : HandlerFunc) (hfuel : 6 ≤ fuel)
    (hpfx : u.SnakeString ⟨trimSuffix (lastDotPart (handleWareUri handler).data) "Handle".data⟩
      = "user") :
    ∃ s', scenario u fuel name description gname gdescription handler = some s' ∧
      (s'.heap 1).Kind = HANDLER ∧ (s'.heap 1).Methods = [GET] ∧
      (s'.heap 1).Prefix = "/user" ∧ (s'.heap 1).Param = "/:id" ∧
      (s'.heap 1).Url = "/api/user/:id" ∧
      (s'.heap 1).Id = u.MakeMd5 ("/api/user/:id" ++ "GET") ∧
      (s'.heap 2).Kind = GROUP ∧ (s'.heap 2).Url = "/api" ∧
      (s'.heap DefDynaRouter).Kind = ROOT ∧ (s'.heap DefDynaRouter).Url = "/" ∧
      DynaRouterTree fuel s' = some [DefDynaRouter, 2, 1] := by
  obtain ⟨h0, h2, h1⟩ := scenarioLinked_heap u name description gname gdescription handler hpfx
  generalize hs : scenarioLinked u name description gname gdescription handler = s at h0 h2 h1
  have hT : Tree 3 s DefDynaRouter = some [DefDynaRouter, 2, 1] := by
    simp [Tree, DefDynaRouter, h0, h1, h2]
  have hr0 : resolve 3 s 0 = some "/" := by
    simp [resolve, h0]; decide
  have hr2 : resolve 3 s 2 = some "/api" := by
    simp [resolve, h0, h2]; decide
  have hr1 : resolve 3 s 1 = some "/api/user/:id" := by
    simp [resolve, h0, h1, h2]; decide
  obtain ⟨s', hinit⟩ := init_total u 3 3 fuel DefDynaRouter s _ (by omega) hT (by
    intro m hm
    simp at hm
    rcases hm with e | e | e <;> subst e
    · simp [DefDynaRouter, hr0]
    · simp [hr2]
    · simp [hr1])
  obtain ⟨l, hl, hpost⟩ := init_spec u fuel DefDynaRouter s s' hinit
  have hle : l = [DefDynaRouter, 2, 1] := Tree_unique hl hT
  subst hle
  have hurl : ∀ m v, m ∈ [DefDynaRouter, 2, 1] → resolve 3 s m = some v → (s'.heap m).Url = v := by
    intro m v hm hv
    obtain ⟨g, hg⟩ := (hpost.done m hm).1.1
    rw [hpost.frame.resolve_eq] at hg
    exact resolve_det hg hv
  have hu1 := hurl 1 _ (by simp) hr1
  refine ⟨s', by rw [scenario_eq, hs]; exact hinit, ?_, ?_, ?_, ?_, hu1, ?_, ?_,
    hurl 2 _ (by simp) hr2, ?_, hurl DefDynaRouter _ (by simp) hr0, ?_⟩
  · rw [hpost.frame.kind, h1]
  · rw [hpost.frame.methods, h1]
  · rw [hpost.frame.pfx, h1]
  · rw [hpost.frame.param, h1]
  · have := (hpost.done 1 (by simp)).1.2
    rw [this, hu1, hpost.frame.methods, h1]
    rfl
  · rw [hpost.frame.kind, h2]
  · rw [hpost.frame.kind]
    show (s.heap 0).Kind = ROOT
    rw [h0]
  · show Tree fuel s' DefDynaRouter = _
    rw [hpost.frame.tree]
    exact hl

/-- Witness of C11: the handler `app.userHandle` with the identity stand-ins
for the digest and the snake casing. -/
theorem scenario_resolves_witness :
    ∃ s', scenario exUtils 6 "user" "" "api" "" ⟨"app.userHandle"⟩ = some s' ∧
      (s'.heap 1).Url = "/api/user/:id" ∧ (s'.heap 1).Id = "/api/user/:idGET" ∧
      DynaRouterTree 6 s' = some [DefDynaRouter, 2, 1] :=
  let ⟨s', h, _, _, _, _, hu, hi, _, _, _, _, ht⟩ :=
    scenario_resolves exUtils 6 "user" "" "api" "" ⟨"app.userHandle"⟩ (by decide) (by decide)
  ⟨s', h, hu, hi, ht⟩

/-- C12 (what the code does). When `parentId` is not a key of the registry,
`SetRouter(parentId, node)` never returns: if its call of `init` comes back,
the call halts with a nil dereference at `node.Parent.Children`, the node
having a nil `Parent`; otherwise it does not come back at all. -/
theorem SetRouter_unknown_parent (u : Utils) (fuel : Nat) (pid : String) (n : Ptr) (s : State)
    (hreg : s.dynaRouterMap pid = none) :
    (SetRouter u fuel pid n s).isOk = false ∧
    (∀ s', SetRouter u fuel pid n s ≠ .ok s') ∧
    ∀ s₁, init u fuel n (linked s n none) = some s₁ →
      ∃ s', SetRouter u fuel pid n s = .panic s' ∧ (s'.heap n).Parent = none := by
  have key : ∀ s₁, init u fuel n (linked s n none) = some s₁ →
      ∃ s', SetRouter u fuel pid n s = .panic s' ∧ (s'.heap n).Parent = none := by
    intro s₁ h₁
    refine ⟨_, SetRouter_of_init_none hreg h₁, ?_⟩
    obtain ⟨l, _, hP⟩ := init_spec u fuel n _ s₁ h₁
    rw [register_heap, hP.frame.parent, linked_parent]
  have hok : (SetRouter u fuel pid n s).isOk = false := by
    cases hi : init u fuel n (linked s n none) with
    | none => rw [SetRouter_of_init_diverge hreg hi]; rfl
    | some s₁ => rw [SetRouter_of_init_none hreg hi]; rfl
  refine ⟨hok, ?_, key⟩
  intro s' h
  rw [h] at hok
  exact Bool.noConfusion hok

/-- Witness of C12: the unattached second handler of the example and a parent
id that is not registered. -/
theorem SetRouter_unknown_parent_witness :
    exSecond.dynaRouterMap "/missing" = none ∧
    (SetRouter exUtils 4 "/missing" 3 exSecond).isOk = false ∧
    ∃ s', SetRouter exUtils 4 "/missing" 3 exSecond = .panic s' ∧ (s'.heap 3).Parent = none :=
  ⟨by decide, (SetRouter_unknown_parent exUtils 4 "/missing" 3 exSecond (by decide)).1,
    (SetRouter_unknown_parent exUtils 4 "/missing" 3 exSecond (by decide)).2.2
      ((init exUtils 4 3 (linked exSecond 3 none)).getD initState)
      (Option.eq_some_getD _ (by decide))⟩

/-- C13 (what the code does). For an id that is not a key of the registry,
`GetDynaRouter(id)` returns `(nil, false)`, and `DelRouter(id)` halts with a
nil dereference at `dynaRouterMap[id].Parent`, before it has changed anything;
it does not return. -/
theorem unknown_id_not_found (s : State) (id : String) (h : s.dynaRouterMap id = none) :
    GetDynaRouter id s = (none, false) ∧ DelRouter id s = .panic s ∧
    (DelRouter id s).isOk = false := by
  refine ⟨?_, ?_, ?_⟩ <;> simp [GetDynaRouter, DelRouter, h, Outcome.isOk]

/-- Witness of C13: an unregistered id in the attached example tree. -/
theorem unknown_id_not_found_witness :
    exRooted.dynaRouterMap "/missing" = none ∧
    GetDynaRouter "/missing" exRooted = (none, false) ∧
    (DelRouter "/missing" exRooted).isOk = false :=
  ⟨by decide, (unknown_id_not_found exRooted "/missing" (by decide)).1,
    (unknown_id_not_found exRooted "/missing" (by decide)).2.2⟩

/-- Counterexample to C15 as stated, in five parts.  In `exReplaced` an empty
group with the prefix `/api` has been attached under the root, the registered
parent, and has taken the place of the first group, whose handler is still
registered: its key is the `Id` of no node of `DynaRouterTree()` and maps to a
node that is not in it.  In `exMoved` a handler attached under the group has
been attached again under the root: the key of its former `Id` is still there
and is the `Id` of no node of `DynaRouterTree()`.  In `exAliased₁` two groups
have their children in one backing array and `SetRouter` under the first has
overwritten the child of the second, which is still registered and is not in
`DynaRouterTree()`.  In `exSorted₂` two handlers have their methods in one
backing array; building the second has rewritten the methods of the first,
which is attached, and attaching the first again leaves the key of its former
`Id` behind.  In `exRootGrouped₁` the root has been handed to one group and
then to another, with an empty `RootRouter()` after each: the key of its
former `Id` is still there. -/
theorem registry_matches_tree_counterexample :
    (Mem.Built Mem.exRuntime exUtils Mem.exReplaced ∧
      Mem.exEmptyGroup.children 0 = [2] ∧ Mem.exEmptyGroup.children 2 = [1] ∧
      Mem.exReplaced.children 0 = [3] ∧
      Mem.DynaRouterTree 3 Mem.exReplaced = some [0, 3] ∧
      Mem.exReplaced.dynaRouterMap "/api/User/:idGET" = some 1 ∧ 1 ∉ [0, 3] ∧
      ∀ x ∈ [0, 3], (Mem.exReplaced.heap x).Id ≠ "/api/User/:idGET") ∧
    (Mem.exAttached.dynaRouterMap "/" = some 0 ∧ Mem.exAttached.children 2 = [1, 3] ∧
      (Mem.SetRouter Mem.exRuntime exUtils 4 "/" 3 Mem.exAttached).isOk = true ∧
      Mem.DynaRouterTree 3 Mem.exMoved = some [0, 2, 1, 3, 3] ∧
      Mem.exMoved.dynaRouterMap "/api/ItemPOST" = some 3 ∧
      ∀ x ∈ [0, 2, 1, 3, 3], (Mem.exMoved.heap x).Id ≠ "/api/ItemPOST") ∧
    (Mem.exAliased.dynaRouterMap "/a" = some 3 ∧
      (Mem.exAliased.heap 3).Children = ⟨1, 0, 1, 2⟩ ∧
      (Mem.exAliased.heap 4).Children = ⟨1, 1, 1, 1⟩ ∧
      Mem.DynaRouterTree 3 Mem.exAliased = some [0, 3, 1, 4, 2] ∧
      (∀ x, x < Mem.exAliased.next → 5 ∉ Mem.exAliased.children x) ∧
      (Mem.SetRouter Mem.exRuntime exUtils 4 "/a" 5 Mem.exAliased).isOk = true ∧
      Mem.DynaRouterTree 3 Mem.exAliased₁ = some [0, 3, 1, 5, 4, 5] ∧
      Mem.exAliased₁.dynaRouterMap "/b/ItemPOST" = some 2 ∧ 2 ∉ [0, 3, 1, 5, 4, 5] ∧
      ∀ x ∈ [0, 3, 1, 5, 4, 5], (Mem.exAliased₁.heap x).Id ≠ "/b/ItemPOST") ∧
    ((Mem.exSorted₀.heap 1).Methods = ⟨1, 0, 2, 3⟩ ∧
      Mem.exSorted₀.methods 1 = ["POST", "PUT"] ∧
      Mem.exSorted₁.methods 1 = ["POST", "GET"] ∧ Mem.exSorted₁.methods 2 = ["GET", "PUT"] ∧
      Mem.exSorted₁.dynaRouterMap "/" = some 0 ∧ Mem.exSorted₁.children 0 = [1] ∧
      (Mem.SetRouter Mem.exRuntime exUtils 4 "/" 1 Mem.exSorted₁).isOk = true ∧
      Mem.DynaRouterTree 2 Mem.exSorted₂ = some [0, 1] ∧
      Mem.exSorted₂.dynaRouterMap "/UserPOSTPUT" = some 1 ∧
      ∀ x ∈ [0, 1], (Mem.exSorted₂.heap x).Id ≠ "/UserPOSTPUT") ∧
    (Mem.DynaRouterTree 1 Mem.exRootGrouped = some [0] ∧
      (Mem.exRootGrouped.heap 0).Parent = some 1 ∧ (Mem.exRootGrouped.heap 0).Id = "/a" ∧
      Mem.DynaRouterTree 1 Mem.exRootGrouped₁ = some [0] ∧
      (Mem.exRootGrouped₁.heap 0).Parent = some 2 ∧ (Mem.exRootGrouped₁.heap 0).Id = "/b" ∧
      Mem.exRootGrouped₁.dynaRouterMap "/a" = some 0) :=
  ⟨⟨Mem.Built.set 4 "/" 3 0
      (Mem.Built.sub "/api" "v2" "" {}
        (Mem.Built.root 6 ⟨2, 0, 1, 1⟩
          (Mem.Built.ptrArray [2]
            (Mem.Built.sub "/api" "api" "" ⟨1, 0, 1, 1⟩
              (Mem.Built.ptrArray [1]
                (Mem.Built.handler ⟨2, 0, 1, 1⟩ "user" "" ⟨"app.UserHandle"⟩ ⟨1, 0, 1, 1⟩
                  (Mem.Built.strArray [GET]
                    (Mem.Built.strArray ["/:id"] Mem.Built.start))))
              (by decide) (by decide) (by decide) (by decide) (by decide) (by decide)))
          (by decide) (by decide) (by decide) (by decide) (by decide) (by decide)
          (Option.eq_some_getD Mem.initState (by decide)))
        (by decide) (by decide) (by decide) (by decide) (by decide) (by decide))
      (by decide) (by decide) (by decide) (by decide)
      (Mem.Outcome.ok_of_isOk (by decide)),
    by decide, by decide, by decide, by decide, by decide, by decide, by decide⟩,
   ⟨by decide, by decide, by decide, by decide, by decide, by decide⟩,
   ⟨by decide, by decide, by decide, by decide, by decide, by decide, by decide, by decide,
    by decide, by decide⟩,
   ⟨by decide, by decide, by decide, by decide, by decide, by decide, by decide, by decide,
    by decide, by decide⟩,
   by decide, by decide, by decide, by decide, by decide, by decide, by decide⟩

/-- C15 (amended). Registry and tree agree in every state grown from the
start-up state by the handler builders, `SubRouter`, `RootRouter` and
`SetRouter` with a registered parent (`Mem.Grown`): each node handed over is
an existing node other than the root that no node lists but the one it is
attached to, the slices handed over share no backing array with the
`Children` or the `Methods` of a node, and every child that a `SetRouter`
takes out of the children of the parent has no children itself.  Once
something is registered, that is from the first `RootRouter` on,
`DynaRouterTree()` returns, its nodes are the nodes reachable from the root,
the keys of the registry are exactly the `Id`s of its nodes, and every key
maps to a node of it that has that `Id`. -/
theorem registry_matches_tree (rt : Mem.Runtime) (u : Utils) (c : Mem.State)
    (h : Mem.Grown rt u c) (hk : ∃ k, c.dynaRouterMap k ≠ none) :
    ∃ fuel l, Mem.DynaRouterTree fuel c = some l ∧
      (∀ x, x ∈ l ↔ Reach c.view DefDynaRouter x) ∧
      (∀ k, c.dynaRouterMap k ≠ none ↔ ∃ x ∈ l, (c.heap x).Id = k) ∧
      ∀ k r, c.dynaRouterMap k = some r →
        r ∈ l ∧ (c.heap r).Id = k ∧ Reach c.view DefDynaRouter r := by
  obtain ⟨hS, f, l, hl⟩ := h.synced
  have hmem : ∀ x, x ∈ l ↔ Reach c.view DefDynaRouter x :=
    fun x => ⟨reach_of_mem_Tree _ f _ l hl x, fun hr => mem_Tree_of_reach _ hr f l hl⟩
  refine ⟨f, l, by rw [Mem.DynaRouterTree, Mem.Tree_view]; exact hl, hmem, ?_, ?_⟩
  · intro k
    constructor
    · intro hne
      cases hkr : c.dynaRouterMap k with
      | none => exact absurd hkr hne
      | some r =>
        obtain ⟨hid, hr⟩ := hS.keyed k r hkr
        exact ⟨r, (hmem r).mpr hr, hid⟩
    · rintro ⟨x, hx, rfl⟩
      exact (hS.settled hk x ((hmem x).mp hx)).2
  · intro k r hkr
    obtain ⟨hid, hr⟩ := hS.keyed k r hkr
    exact ⟨(hmem r).mpr hr, hid, hr⟩

/-- Witness of C15: the example tree after the three kinds of `SetRouter` that
the theorem covers.  A second handler is appended under the group, attached
again under the group, where it is put in its own place, and then replaced by
a third handler with the same `Id`. -/
theorem registry_matches_tree_witness :
    Mem.Grown Mem.exRuntime exUtils Mem.exSwapped ∧
    Mem.exAttached.children 2 = [1, 3] ∧ Mem.exReattached.children 2 = [1, 3] ∧
    Mem.exSwapped.children 2 = [1, 4] ∧
    (∃ k, Mem.exSwapped.dynaRouterMap k ≠ none) ∧
    ∃ fuel l, Mem.DynaRouterTree fuel Mem.exSwapped = some l ∧
      ∀ k, Mem.exSwapped.dynaRouterMap k ≠ none ↔ ∃ x ∈ l, (Mem.exSwapped.heap x).Id = k :=
  have hg : Mem.Grown Mem.exRuntime exUtils Mem.exSwapped :=
    Mem.Grown.set 4 "/api" 4 2
      (Mem.Grown.handler ⟨5, 0, 1, 1⟩ "newer" "" ⟨"app.ItemHandle"⟩ {}
        (Mem.Grown.strArray [POST]
          (Mem.Grown.set 4 "/api" 3 2
            (Mem.Grown.set 4 "/api" 3 2
              (Mem.Grown.handler ⟨3, 0, 1, 1⟩ "new" "" ⟨"app.ItemHandle"⟩ {}
                (Mem.Grown.strArray [POST]
                  (Mem.Grown.root 6 ⟨2, 0, 1, 1⟩
                    (Mem.Grown.ptrArray [2]
                      (Mem.Grown.sub "/api" "api" "" ⟨1, 0, 1, 1⟩
                        (Mem.Grown.ptrArray [1]
                          (Mem.Grown.handler ⟨2, 0, 1, 1⟩ "user" "" ⟨"app.UserHandle"⟩
                            ⟨1, 0, 1, 1⟩
                            (Mem.Grown.strArray [GET]
                              (Mem.Grown.strArray ["/:id"] Mem.Grown.start))
                            (by decide) (by decide) (by decide)))
                        (by decide) (by decide) (by decide) (by decide) (by decide)
                        (by decide)))
                    (by decide) (by decide) (by decide) (by decide) (by decide) (by decide)
                    (Option.eq_some_getD Mem.initState (by decide))))
                (by decide) (by decide) (by decide))
              (by decide) (by decide) (by decide) (by decide)
              (Mem.Outcome.ok_of_isOk (by decide)) (by decide))
            (by decide) (by decide) (by decide) (by decide)
            (Mem.Outcome.ok_of_isOk (by decide)) (by decide)))
        (by decide) (by decide) (by decide))
      (by decide) (by decide) (by decide) (by decide)
      (Mem.Outcome.ok_of_isOk (by decide)) (by decide)
  have hk : ∃ k, Mem.exSwapped.dynaRouterMap k ≠ none := ⟨"/", by decide⟩
  let ⟨fuel, l, h1, _, h2, _⟩ :=
    registry_matches_tree Mem.exRuntime exUtils Mem.exSwapped hg hk
  ⟨hg, by decide, by decide, by decide, hk, fuel, l, h1, h2⟩

/-- Counterexample to C16 as stated.  In `exTwin` the two groups have the same
`Id`, which is registered to the second; `DelRouter` of that `Id` removes the
first group, and the handler below the second, a proper descendant with a
different `Id`, is still in `DynaRouterTree()`.  In `exPairDeleted` the
remaining handler of the group has an `Id` that is not a key, so after
`DelRouter` of the group `GetDynaRouter` does not find it. -/
theorem DelRouter_orphans_counterexample :
    (exTwin.dynaRouterMap (exTwin.heap 4).Id = some 4 ∧ (exTwin.heap 4).Parent = some 0 ∧
      (exTwin.heap 4).Children = [3] ∧ (exTwin.heap 3).Id ≠ (exTwin.heap 4).Id ∧
      (DelRouter (exTwin.heap 4).Id exTwin).isOk = true ∧
      DynaRouterTree 3 (DelRouter (exTwin.heap 4).Id exTwin).state = some [0, 4, 3]) ∧
    (exPairDeleted.dynaRouterMap (exPairDeleted.heap 3).Id = some 3 ∧
      (exPairDeleted.heap 3).Parent = some 0 ∧ (exPairDeleted.heap 3).Children = [2] ∧
      (exPairDeleted.heap 2).Id ≠ (exPairDeleted.heap 3).Id ∧
      (DelRouter (exPairDeleted.heap 3).Id exPairDeleted).isOk = true ∧
      GetDynaRouter (exPairDeleted.heap 2).Id
        (DelRouter (exPairDeleted.heap 3).Id exPairDeleted).state = (none, false)) := by
  decide!

/-- C16 (amended). `DelRouter` is not recursive on the registry.  For a node
`n` registered under its `Id`, with parent `p`, `DelRouter(n.Id)` returns and
removes only the key `n.Id`: for every node `m` whose `Id` differs from
`n.Id`, `GetDynaRouter(m.Id)` reports what it reported before, so a
descendant that was found is still found.  When `DynaRouterTree()` is a tree
in which no two nodes list the same child, and `p` is in it and lists `n`
once and no other child with that `Id`, then afterwards neither `n` nor any
descendant of `n` is in `DynaRouterTree()`. -/
theorem DelRouter_orphans (s : State) (n p : Ptr)
    (hreg : s.dynaRouterMap (s.heap n).Id = some n) (hpar : (s.heap n).Parent = some p) :
    ∃ s', DelRouter (s.heap n).Id s = .ok s' ∧
      GetDynaRouter (s.heap n).Id s' = (none, false) ∧
      (∀ m, (s.heap m).Id ≠ (s.heap n).Id →
        (s'.heap m).Id = (s.heap m).Id ∧
        GetDynaRouter (s'.heap m).Id s' = GetDynaRouter (s.heap m).Id s) ∧
      (∀ (f : Nat) (l : List Ptr), DynaRouterTree f s = some l → p ∈ l →
        n ∈ (s.heap p).Children → (s.heap p).Children.count n ≤ 1 →
        (∀ c ∈ (s.heap p).Children, (s.heap c).Id = (s.heap n).Id → c = n) →
        (∀ m₁ ∈ l, ∀ m₂ ∈ l, ∀ c, c ∈ (s.heap m₁).Children →
          c ∈ (s.heap m₂).Children → m₁ = m₂) →
        ∃ l', DynaRouterTree f s' = some l' ∧ l'.Sublist l ∧
          ∀ m, Reach s n m → m ∉ l') := by
  have hheap : ∀ x, (detached s (s.heap n).Id p).heap x
      = if x = p then (s.heap p).withChildren (removeChild s (s.heap n).Id (s.heap p).Children)
        else s.heap x := fun x => set_heap s p _ x
  have hids : ∀ x, ((detached s (s.heap n).Id p).heap x).Id = (s.heap x).Id := by
    intro x
    rw [hheap]
    split
    · next e => rw [e]; rfl
    · rfl
  have hchp : ((detached s (s.heap n).Id p).heap p).Children
      = removeChild s (s.heap n).Id (s.heap p).Children := by
    rw [hheap, if_pos rfl]; rfl
  have hsub : ∀ x, ((detached s (s.heap n).Id p).heap x).Children.Sublist
      (s.heap x).Children := by
    intro x
    by_cases e : x = p
    · rw [e, hchp]; exact removeChild_sublist s _ _
    · rw [hheap, if_neg e]
  refine ⟨detached s (s.heap n).Id p, DelRouter_eq hreg hpar, ?_, ?_, ?_⟩
  · simp [GetDynaRouter, detached]
  · intro m hm
    refine ⟨hids m, ?_⟩
    rw [hids m]
    simp [GetDynaRouter, detached, Function.update, hm]
  · intro f l hl hp hn hcnt honly huniq
    obtain ⟨l', hl', hsl⟩ := Tree_sublist hsub f DefDynaRouter l hl
    refine ⟨l', hl', hsl, ?_⟩
    intro m hm
    have hnl : n ∈ l := Tree_closed hl hp hn
    refine Tree_cut hl hl' (fun x hx => hsl.subset hx) (fun x c hc => (hsub x).subset hc)
      huniq hm hnl ?_
    intro hn'
    rcases Tree_lister _ hl' hn' with e | ⟨y, hy, hny⟩
    · rw [e] at hn
      exact Tree_root_unlisted hl hp hn
    · have hyp : y = p := huniq y (hsl.subset hy) p hp n ((hsub y).subset hny) hn
      subst hyp
      rw [hchp] at hny
      have hc := removeChild_count_eq rfl (s.heap y).Children honly
      have : 0 < (removeChild s (s.heap n).Id (s.heap y).Children).count n :=
        List.count_pos_iff.mpr hny
      omega

/-- Witness of C16: the group of the attached example tree is removed; its
handler is still found and no longer in the traversal. -/
theorem DelRouter_orphans_witness :
    exRooted.dynaRouterMap (exRooted.heap 2).Id = some 2 ∧ (exRooted.heap 2).Parent = some 0 ∧
    (exRooted.heap 2).Children = [1] ∧ (exRooted.heap 1).Id ≠ (exRooted.heap 2).Id ∧
    DynaRouterTree 3 exRooted = some [0, 2, 1] ∧
    ∃ s', DelRouter (exRooted.heap 2).Id exRooted = .ok s' ∧
      GetDynaRouter (s'.heap 1).Id s' = (some 1, true) ∧
      ∃ l', DynaRouterTree 3 s' = some l' ∧ 1 ∉ l' :=
  ⟨by decide, by decide, by decide, by decide, by decide,
    let ⟨s', h1, _, h2, h3⟩ := DelRouter_orphans exRooted 2 0 (by decide) (by decide)
    let ⟨l', h4, _, h5⟩ := h3 3 [0, 2, 1] (by decide) (by decide) (by decide) (by decide)
      (by decide) (by decide)
    ⟨s', h1, (h2 1 (by decide)).2.trans (by decide), l', h4,
      h5 1 (Reach.step (by decide) (Reach.refl 1))⟩⟩

/-- C17. Resolution is idempotent.  Let `L` be a set of resolved nodes closed
under `Parent` that contains the traversal `l` of `d`: every node of `L` has
the `Url` resolved along its parent chain, the `ParentUrl` of its parent and
the `Id` of its `Url` and methods.  Then `setUrl` on any node of `L` returns
and leaves the whole state as it was, and `init` over the subtree of `d`
returns and leaves every node as it was, in particular the `Url`, `ParentUrl`
and `Id` of every node; the nodes stay resolved. -/
theorem resolution_idempotent (u : Utils) (f g fuel : Nat) (s : State) (d : Ptr)
    (l L : List Ptr) (hfuel : f + g ≤ fuel) (hl : Tree f s d = some l) (hsub : ∀ x ∈ l, x ∈ L)
    (hL : ∀ x ∈ L, ∀ p, (s.heap x).Parent = some p → p ∈ L)
    (hres : ∀ x ∈ L, ResolvedAt u g s x) :
    (∀ x ∈ L, ∀ k, g ≤ k → setUrl k x s = some s) ∧
    ∃ s', init u fuel d s = some s' ∧ s'.heap = s.heap ∧
      (∀ x, (s'.heap x).Url = (s.heap x).Url ∧ (s'.heap x).ParentUrl = (s.heap x).ParentUrl ∧
        (s'.heap x).Id = (s.heap x).Id) ∧
      Tree f s' d = some l ∧ ∀ x ∈ L, ResolvedAt u g s' x := by
  refine ⟨fun x hx k hk => setUrl_fixed hL hres hx hk, ?_⟩
  obtain ⟨s', h⟩ := init_total u g f fuel d s l hfuel hl
    (fun m hm => by rw [(hres m (hsub m hm)).1]; rfl)
  have hheap : s'.heap = s.heap :=
    init_fixed hL hres fuel d s s' rfl
      (fun x hx => hsub x (mem_Tree_of_reach s hx f l hl)) h
  refine ⟨s', h, hheap, fun x => by rw [hheap]; exact ⟨rfl, rfl, rfl⟩, ?_,
    fun x hx => (hres x hx).heap_congr hheap⟩
  have hsc : SameChildren s s' := fun x => by rw [hheap]
  rw [Tree_congr hsc]
  exact hl

/-- Witness of C17: the attached example tree, as `RootRouter` left it. -/
theorem resolution_idempotent_witness :
    Tree 3 exRooted 0 = some [0, 2, 1] ∧ (∀ x ∈ [0, 2, 1], ResolvedAt exUtils 3 exRooted x) ∧
    setUrl 3 1 exRooted = some exRooted ∧
    ∃ s', init exUtils 6 0 exRooted = some s' ∧ s'.heap = exRooted.heap :=
  have hL : ∀ x ∈ [0, 2, 1], ∀ p, (exRooted.heap x).Parent = some p → p ∈ [0, 2, 1] := by
    intro x hx p hp
    have h0 : (exRooted.heap 0).Parent = none := by decide
    have h2 : (exRooted.heap 2).Parent = some 0 := by decide
    have h1 : (exRooted.heap 1).Parent = some 2 := by decide
    simp only [List.mem_cons, List.mem_singleton, List.not_mem_nil, or_false] at hx
    rcases hx with e | e | e <;> subst e
    · rw [h0] at hp; cases hp
    · rw [h2] at hp; cases hp; simp
    · rw [h1] at hp; cases hp; simp
  have hres : ∀ x ∈ [0, 2, 1], ResolvedAt exUtils 3 exRooted x := by decide!
  ⟨by decide, hres,
    (resolution_idempotent exUtils 3 3 6 exRooted 0 [0, 2, 1] [0, 2, 1] (by decide) (by decide)
      (fun _ h => h) hL hres).1 1 (by decide) 3 (by decide),
    let ⟨s', h, hh, _⟩ :=
      (resolution_idempotent exUtils 3 3 6 exRooted 0 [0, 2, 1] [0, 2, 1] (by decide) (by decide)
        (fun _ h => h) hL hres).2
    ⟨s', h, hh⟩⟩

/-- C18. `SetEnable` changes nothing but `Enable` fields: when the traversal
`d.Tree()` returns `l`, `d.SetEnable(v)` returns `d`; afterwards the traversal
is the same list, every node has every field other than `Enable` unchanged
(`Id`, `Url`, `Prefix`, `Param`, `Methods`, `Middlewares`, `Parent` and
`Children` among them), the nodes outside `l` are unchanged altogether, and
the registry and the rest of the package state are unchanged. -/
theorem SetEnable_frame (fuel : Nat) (s : State) (d : Ptr) (l : List Ptr) (v : Bool)
    (hl : Tree fuel s d = some l) :
    ∃ s', SetEnable fuel d v s = some (d, s') ∧ Tree fuel s' d = some l ∧
      (∀ x, (s'.heap x).Id = (s.heap x).Id ∧ (s'.heap x).Url = (s.heap x).Url ∧
        (s'.heap x).Prefix = (s.heap x).Prefix ∧ (s'.heap x).Param = (s.heap x).Param ∧
        (s'.heap x).Methods = (s.heap x).Methods ∧
        (s'.heap x).Middlewares = (s.heap x).Middlewares ∧
        (s'.heap x).Parent = (s.heap x).Parent ∧
        (s'.heap x).Children = (s.heap x).Children) ∧
      (∀ x, s'.heap x = { s.heap x with Enable := (s'.heap x).Enable }) ∧
      (∀ x, x ∉ l → s'.heap x = s.heap x) ∧
      s'.dynaRouterMap = s.dynaRouterMap ∧ s'.handlerFuncMap = s.handlerFuncMap ∧
      s'.next = s.next ∧ s'.errorLog = s.errorLog := by
  refine ⟨enableAll l v s, SetEnable_eq v fuel s d l hl, ?_, ?_, ?_, ?_, rfl, rfl, rfl, rfl⟩
  · rw [Tree_congr (sameChildren_enableAll l v s)]; exact hl
  · intro x
    by_cases hx : x ∈ l <;> simp [enableAll, hx]
  · intro x
    by_cases hx : x ∈ l <;> simp [enableAll, hx]
  · intro x hx
    simp [enableAll, hx]

/-- Witness of C18: disabling the group of the example. -/
theorem SetEnable_frame_witness :
    Tree 2 exGroup 2 = some [2, 1] ∧
    ∃ s', SetEnable 2 2 false exGroup = some (2, s') ∧ Tree 2 s' 2 = some [2, 1] ∧
      s'.dynaRouterMap = exGroup.dynaRouterMap ∧
      ∀ x, (s'.heap x).Id = (exGroup.heap x).Id ∧ (s'.heap x).Url = (exGroup.heap x).Url :=
  ⟨by decide,
    let ⟨s', h1, h2, h3, _, _, h4, _⟩ := SetEnable_frame 2 exGroup 2 [2, 1] false (by decide)
    ⟨s', h1, h2, h4, fun x => ⟨(h3 x).1, (h3 x).2.1⟩⟩⟩

/-- C19. Every node whose parent chain ends at the root, the root having its
`Prefix` `/`, resolves to an absolute and normalized `Url`, whatever the
`Prefix` and `Param` of the nodes on the chain: `setUrl` returns, and the
`Url` it stores starts with a slash, is a fixed point of `path.Clean`, is the
slash followed by elements joined with single slashes, none of them empty,
`.` or `..`, and ends with a slash only when it is `/` itself. -/
theorem resolved_url_normal (g : Nat) (s : State) (d : Ptr)
    (hroot : (s.heap DefDynaRouter).Prefix = "/")
    (hchain : chainEnd g s d = some DefDynaRouter) :
    ∃ v, resolve g s d = some v ∧
      (∃ s', setUrl g d s = some s' ∧ (s'.heap d).Url = v) ∧
      rooted v = true ∧ pathClean v = v ∧
      ∃ es : List (List Char), (∀ e ∈ es, e ≠ [] ∧ e ≠ ['.'] ∧ e ≠ ['.', '.'] ∧ '/' ∉ e) ∧
        v.data = '/' :: slashJoin es ∧ (es ≠ [] → splitSlash v.data = [] :: es) ∧
        (v.data.getLast? = some '/' → v = "/") := by
  have hr : rooted (s.heap DefDynaRouter).Prefix = true := by rw [hroot]; rfl
  obtain ⟨v, hv, hn⟩ := resolve_normal hr g d hchain
  obtain ⟨s', hs'⟩ := setUrl_total g d s v hv
  have hu := (setUrl_spec g d s s' hs').2.2.2.1
  rw [hv] at hu
  exact ⟨v, hv, ⟨s', hs', (Option.some.inj hu).symm⟩, hn.is_rooted, hn.clean_fixed, hn.elems⟩

/-- Witness of C19: the handler whose parameter is `../..`, below the group
`/api`. -/
theorem resolved_url_normal_witness :
    (exDots.heap DefDynaRouter).Prefix = "/" ∧ chainEnd 3 exDots 1 = some DefDynaRouter ∧
    (exDots.heap 1).Param = "../.." ∧
    ∃ v, resolve 3 exDots 1 = some v ∧ rooted v = true ∧ pathClean v = v :=
  ⟨by decide, by decide, by decide,
    let ⟨v, h1, _, h2, h3, _⟩ := resolved_url_normal 3 exDots 1 (by decide) (by decide)
    ⟨v, h1, h2, h3⟩⟩

/-- Counterexample to C20 as stated: the handler of `exFlat` is attached to the
root and registered; `SetRouter` with an unknown parent resolves it without
parent to the same `Url` and `Id` and registers it again under the same key,
so the registry is the same as before the call. -/
theorem SetRouter_unknown_registers_counterexample :
    exFlat.dynaRouterMap "/missing" = none ∧
    (SetRouter exUtils 2 "/missing" 1 exFlat).isOk = false ∧
    ((SetRouter exUtils 2 "/missing" 1 exFlat).state.heap 1).Parent = none ∧
    (SetRouter exUtils 2 "/missing" 1 exFlat).state.dynaRouterMap = exFlat.dynaRouterMap := by
  refine ⟨by decide, by decide, by decide, ?_⟩
  obtain ⟨s₁, _, h₂, hP⟩ := @SetRouter_unknown_post exUtils 1 1 2 "/missing" 1 exFlat [1]
    (by decide) (by decide) (by decide) (by decide)
  have hid : ((SetRouter exUtils 2 "/missing" 1 exFlat).state.heap 1).Id = "/UserGET" := by
    decide
  have hold : exFlat.dynaRouterMap "/UserGET" = some 1 := by decide
  rw [h₂] at hid ⊢
  funext k
  rcases hP.registry k with e | ⟨r, hr, hrid, hk⟩
  · exact e
  · have hr1 : r = 1 := by simpa using hr
    subst hr1
    change ((s₁.register (s₁.heap 1).Id 1).heap 1).Id = "/UserGET" at hid
    show (s₁.register (s₁.heap 1).Id 1).dynaRouterMap k = exFlat.dynaRouterMap k
    rw [hk, ← hrid, hid]
    exact hold.symm

/-- C20 (amended). `SetRouter` is not atomic on an unknown parent.  When
`parentId` is not a key of the registry, the traversal `l` of the node is
finite and so are the parent chains of its members, the call reaches the
access to the children of the nil parent and halts there; by then the node
has a nil `Parent` and the `Url` of a parentless node, every node of `l` has
its `Url` resolved and its `Id` set and is found in the registry under that
`Id`, and no `Children` list has changed.  The registry has changed at most
at those ids, and it differs from its state before the call whenever one of
them was not a key before. -/
theorem SetRouter_unknown_registers (u : Utils) (f g fuel : Nat) (pid : String) (n : Ptr)
    (s : State) (l : List Ptr) (hfuel : f + g ≤ fuel) (hreg : s.dynaRouterMap pid = none)
    (hl : Tree f s n = some l)
    (hres : ∀ m ∈ l, (resolve g (linked s n none) m).isSome) :
    ∃ s', SetRouter u fuel pid n s = .panic s' ∧
      (s'.heap n).Parent = none ∧
      (s'.heap n).Url = pathClean (pathJoin [(s.heap n).Prefix, (s.heap n).Param]) ∧
      (∀ m ∈ l, Settled u s' m ∧
        ∃ r, GetDynaRouter (s'.heap m).Id s' = (some r, true) ∧
          (s'.heap r).Id = (s'.heap m).Id) ∧
      (∀ x, (s'.heap x).Children = (s.heap x).Children) ∧
      (∀ k, s'.dynaRouterMap k = s.dynaRouterMap k ∨
        ∃ m ∈ l, (s'.heap m).Id = k ∧ s'.dynaRouterMap k = some m) ∧
      ((∃ m ∈ l, s.dynaRouterMap (s'.heap m).Id = none) →
        s'.dynaRouterMap ≠ s.dynaRouterMap) := by
  obtain ⟨s₁, h₁, h₂, hP⟩ := @SetRouter_unknown_post u f g fuel pid n s l hfuel hreg hl hres
  have hnl : n ∈ l := mem_Tree_self hl
  have hdone : ∀ m ∈ l, Settled u (s₁.register (s₁.heap n).Id n) m ∧
      Listed u (s₁.register (s₁.heap n).Id n) m :=
    fun m hm => hP.done m (List.mem_append_left _ hm)
  have hpar : ((s₁.register (s₁.heap n).Id n).heap n).Parent = none := by
    rw [hP.frame.parent, linked_parent]
  refine ⟨_, h₂, hpar, ?_, ?_, ?_, ?_, ?_⟩
  · obtain ⟨k, hk⟩ := (hdone n hnl).1.1
    have := resolve_det hk (@resolve_succ_none 0 _ _ hpar)
    rw [this, hP.frame.pfx, hP.frame.param]
    simp [linked, set_heap]
  · intro m hm
    exact ⟨(hdone m hm).1, listed_lookup (hdone m hm).2⟩
  · intro x
    rw [hP.frame.children, linked_children]
  · intro k
    rcases hP.registry k with e | ⟨r, hr, hrid, hk⟩
    · exact Or.inl e
    · refine Or.inr ⟨r, ?_, hrid, hk⟩
      rcases List.mem_append.mp hr with h | h
      · exact h
      · rw [List.mem_singleton.mp h]; exact hnl
  · rintro ⟨m, hm, hnone⟩ heq
    obtain ⟨r, hr, _⟩ := (hdone m hm).2
    rw [heq, hnone] at hr
    cases hr

/-- Witness of C20: the unattached second handler of the example, whose id is
not yet a key. -/
theorem SetRouter_unknown_registers_witness :
    exSecond.dynaRouterMap "/missing" = none ∧ Tree 1 exSecond 3 = some [3] ∧
    exSecond.dynaRouterMap "/ItemPOST" = none ∧
    ∃ s', SetRouter exUtils 2 "/missing" 3 exSecond = .panic s' ∧
      (s'.heap 3).Url = "/Item" ∧
      (∃ r, GetDynaRouter (s'.heap 3).Id s' = (some r, true)) :=
  ⟨by decide, by decide, by decide,
    let ⟨s', h, _, hu, hd, _⟩ := SetRouter_unknown_registers exUtils 1 1 2 "/missing" 3 exSecond
      [3] (by decide) (by decide) (by decide) (by decide)
    let ⟨r, hr, _⟩ := (hd 3 (by decide)).2
    ⟨s', h, hu.trans (by decide), r, hr⟩⟩


end Lessgo
